import Mathlib

/-!
# A shallow embedding of `blockchain_withGo`

The Go sources under `src/blockchain/source_code` are translated function by
function.  Conventions of the embedding:

* a byte is a natural number, a byte slice is a `List Nat`;
* `crypto/sha256`, `encoding/gob` and `crypto/ecdsa` are library code: the
  digest `H`, the transaction encoder `ser` and the signature check `ecv` are
  parameters of every definition that calls them, so every theorem holds for
  whatever these functions compute;
* a Go pointer to a Merkle node is an address in an explicit heap;
* a function that can stop with a run-time panic, or whose loop has no static
  bound, returns a `Res`: `ok` for a normal return, `panic` for a run-time
  panic, `timeout` when the iteration budget of the model is used up;
* values of Go type `error` are values of `GoError`, returned next to the
  state they leave behind.
-/

namespace GoBlockchain

/-! ## Basic types -/

/-- A byte slice. -/
abbrev Bytes := List Nat

/-- Outcome of running a Go function in the model. -/
inductive Res (α : Type) where
  | ok : α → Res α
  | panic : Res α
  | timeout : Res α
deriving DecidableEq, Repr

/-- Sequencing of outcomes: the first panic or timeout is propagated. -/
def Res.bind {α β : Type} : Res α → (α → Res β) → Res β
  | .ok a, f => f a
  | .panic, _ => .panic
  | .timeout, _ => .timeout

/-- Apply a function to a normal result. -/
def Res.map {α β : Type} (f : α → β) : Res α → Res β
  | .ok a => .ok (f a)
  | .panic => .panic
  | .timeout => .timeout

/-- The error values declared by the sources (`blockchain.go`, `transaction.go`)
and the two errors built in place (`merkle_tree.go`, `jun_account.go`). -/
inductive GoError where
  | ErrTxNotFound
  | ErrNoValidTx
  | ErrBlockNotFound
  | ErrInvalidBlock
  | ErrNoFunds
  | ErrTxInputNotFound
  | ErrSignatureNotValid
  | ErrNodeNotFound
deriving DecidableEq, Repr

/-- Value of `new(big.Int).SetBytes(b)`: the bytes read as a big-endian
unsigned integer. -/
def numeric (b : Bytes) : Nat := b.foldl (fun acc x => acc * 256 + x) 0

/-! ## Merkle tree (`merkle_tree.go`) -/

/-- Go `type Node struct`: the three links are addresses in the heap, `none` is
the nil pointer. -/
structure Node where
  Parent : Option Nat
  Left : Option Nat
  Right : Option Nat
  Hash : Bytes

/-- The nodes allocated so far: `node a` is the node stored at address `a`,
addresses below `size` are allocated. -/
structure Heap where
  size : Nat
  node : Nat → Node

/-- The heap before any allocation. -/
def Heap.empty : Heap := ⟨0, fun _ => ⟨none, none, none, []⟩⟩

/-- Go `&Node{...}`: store a new node at the next free address. -/
def Heap.alloc (hp : Heap) (n : Node) : Heap × Nat :=
  (⟨hp.size + 1, fun a => if a = hp.size then n else hp.node a⟩, hp.size)

/-- Go `p.Parent = par`. -/
def Heap.setParent (hp : Heap) (p : Nat) (par : Option Nat) : Heap :=
  ⟨hp.size, fun a => if a = p then { hp.node p with Parent := par } else hp.node a⟩

/-- Go `type MerkleTree struct`, together with the heap its pointers live in. -/
structure MerkleTree where
  heap : Heap
  RootNode : Nat
  Leafs : List Nat

/-- The constants `leftNode`, `rightNode` (`iota`). -/
def leftNode : Int := 0

/-- See `leftNode`. -/
def rightNode : Int := 1

/-- Go `type MerkleProof struct`. -/
structure MerkleProof where
  proof : List Bytes
  index : List Int

/-- First loop of `NewMerkleTree`: one leaf node per datum, appended to
`leafs`. -/
def initLeafs (H : Bytes → Bytes) : List Bytes → Heap → List Nat → Heap × List Nat
  | [], hp, leafs => (hp, leafs)
  | value :: rest, hp, leafs =>
    let (hp1, leafNode) := hp.alloc ⟨none, none, none, H value⟩
    initLeafs H rest hp1 (leafs ++ [leafNode])

/-- Inner loop of `NewMerkleTree` (`for i := 0; i < len(intermediate); ... i=i+2`):
the nodes are paired from left to right; reading `intermediate[i+1]` past the
end of the slice is an index panic. -/
def pairLevel (H : Bytes → Bytes) : List Nat → Heap → List Nat → Res (Heap × List Nat)
  | [], hp, parents => .ok (hp, parents)
  | [_], _, _ => .panic
  | l :: r :: rest, hp, parents =>
    let hashValue := H ((hp.node l).Hash ++ (hp.node r).Hash)
    let (hp1, parentNode) := hp.alloc ⟨none, some l, some r, hashValue⟩
    let hp2 := (hp1.setParent l (some parentNode)).setParent r (some parentNode)
    pairLevel H rest hp2 (parents ++ [parentNode])

/-- Outer `for` loop of `NewMerkleTree`; `fuel` bounds the number of levels. -/
def buildLevels (H : Bytes → Bytes) : Nat → Heap → List Nat → Res (Heap × Nat)
  | 0, _, _ => .timeout
  | fuel + 1, hp, intermediate =>
    if intermediate.length > 1 then
      let intermediate1 :=
        if intermediate.length % 2 ≠ 0 then
          intermediate ++ (intermediate.getLast?).toList
        else intermediate
      (pairLevel H intermediate1 hp []).bind fun (hp1, parents) =>
        buildLevels H fuel hp1 parents
    else
      match intermediate with
      | [] => .panic
      | rootNode :: _ => .ok (hp.setParent rootNode none, rootNode)

/-- Go `NewMerkleTree(data)`; `none` is the nil slice. -/
def NewMerkleTree (H : Bytes → Bytes) (data : Option (List Bytes)) : Res MerkleTree :=
  match data with
  | none => .panic
  | some data =>
    let (hp, leafs0) := initLeafs H data Heap.empty []
    let leafs :=
      if leafs0.length % 2 ≠ 0 ∧ leafs0.length ≠ 1 then
        leafs0 ++ (leafs0.getLast?).toList
      else leafs0
    (buildLevels H (leafs.length + 1) hp leafs).map fun (hp1, rootNode) =>
      ⟨hp1, rootNode, leafs⟩

/-- Go `mt.MerkleRootHash()`. -/
def MerkleTree.MerkleRootHash (mt : MerkleTree) : Bytes :=
  (mt.heap.node mt.RootNode).Hash

/-- State of the second loop of `MakeMerkleProof`. -/
structure ClimbState where
  proof : List Bytes
  indexes : List Int
  targetNode : Nat
  hash : Bytes

/-- Second loop of `MakeMerkleProof` (`for targetNode.Parent != nil`).
Dereferencing a nil `Left`, or a nil `Right` in the branch that reads it, is a
panic. -/
def climb (hp : Heap) : Nat → ClimbState → Res ClimbState
  | 0, _ => .timeout
  | fuel + 1, st =>
    match (hp.node st.targetNode).Parent with
    | none => .ok st
    | some parent =>
      match (hp.node parent).Left with
      | none => .panic
      | some left =>
        if (hp.node left).Hash = st.hash then
          match (hp.node parent).Right with
          | none => .panic
          | some right =>
            climb hp fuel
              ⟨st.proof ++ [(hp.node right).Hash], st.indexes ++ [rightNode], parent,
                (hp.node parent).Hash⟩
        else
          climb hp fuel
            ⟨st.proof ++ [(hp.node left).Hash], st.indexes ++ [leftNode], parent,
              (hp.node parent).Hash⟩

/-- Go `mt.MakeMerkleProof(hash)`: the proof, the indexes and the error. -/
def MerkleTree.MakeMerkleProof (mt : MerkleTree) (hash : Bytes) :
    Res (List Bytes × List Int × Option GoError) :=
  match mt.Leafs.find? (fun leaf => decide (hash = (mt.heap.node leaf).Hash)) with
  | none => .ok ([], [], some .ErrNodeNotFound)
  | some targetNode =>
    (climb mt.heap (mt.heap.size + 1) ⟨[], [], targetNode, hash⟩).map fun st =>
      (st.proof, st.indexes, none)

/-- Loop of `VerifyProof`: `i` runs over `mProof.index`; reading
`mProof.proof[i]` past the end is an index panic. -/
def verifyLoop (H : Bytes → Bytes) : List Bytes → List Int → Bytes → Res Bytes
  | _, [], intermediateHash => .ok intermediateHash
  | [], _ :: _, _ => .panic
  | p :: proof, i :: index, intermediateHash =>
    if i = leftNode then verifyLoop H proof index (H (p ++ intermediateHash))
    else verifyLoop H proof index (H (intermediateHash ++ p))

/-- Go `VerifyProof(rootHash, hash, mProof)`. -/
def VerifyProof (H : Bytes → Bytes) (rootHash hash : Bytes) (mProof : MerkleProof) :
    Res Bool :=
  (verifyLoop H mProof.proof mProof.index hash).map fun intermediateHash =>
    decide (intermediateHash = rootHash)

/-! ### Invariants of the construction -/

/-- Heap after one step of the pairing loop. -/
def pairStep (H : Bytes → Bytes) (hp : Heap) (l r : Nat) : Heap :=
  (((hp.alloc ⟨none, some l, some r, H ((hp.node l).Hash ++ (hp.node r).Hash)⟩).1.setParent l
    (some hp.size)).setParent r (some hp.size))

/-- Every parent link leads to a later node whose two children are earlier
nodes, whose digest combines the digests of the children, and one of whose
children carries the digest of the node the link starts from. -/
def LinksOk (H : Bytes → Bytes) (hp : Heap) : Prop :=
  ∀ p q, p < hp.size → (hp.node p).Parent = some q →
    q < hp.size ∧ p < q ∧ ∃ l r, (hp.node q).Left = some l ∧ (hp.node q).Right = some r ∧
      l < q ∧ r < q ∧
      (hp.node q).Hash = H ((hp.node l).Hash ++ (hp.node r).Hash) ∧
      ((hp.node l).Hash = (hp.node p).Hash ∨ (hp.node r).Hash = (hp.node p).Hash)

/-- Every allocated node without a parent is listed in `tops`. -/
def TopsIn (hp : Heap) (tops : List Nat) : Prop :=
  ∀ p, p < hp.size → (hp.node p).Parent = none → p ∈ tops

/-! ## Transactions (`transaction.go`, `transaction_output.go`) -/

/-- Modelled from the spec: the declaration of `TXInput` is not among the
sources.  The fields and their order are those of §3 of the specification and
of the positional literal `TXInput{vin.Txid, vin.OutIdx, nil, vin.PubKey}` in
`test_utils.go`. -/
structure TXInput where
  Txid : Bytes
  OutIdx : Int
  Signature : Bytes
  PubKey : Bytes
deriving DecidableEq, Repr

/-- Go `type TXOutput struct`.  `PubKeyHash` keeps the difference between the nil
slice (`none`) and a slice with contents, which `reflect.DeepEqual` observes in
`UTXOSet.Update` and in `Blockchain.VerifyTransaction`. -/
structure TXOutput where
  Value : Int
  PubKeyHash : Option Bytes
deriving DecidableEq, Repr

/-- Go `type Transaction struct`. -/
structure Transaction where
  ID : Bytes
  Vin : List TXInput
  Vout : List TXOutput
deriving DecidableEq, Repr

/-- Go `tx.IsCoinbase()`: reads `tx.Vin[0]`, an index panic when there is no
input. -/
def Transaction.IsCoinbase (tx : Transaction) : Res Bool :=
  match tx.Vin with
  | [] => .panic
  | vin0 :: _ => if vin0.OutIdx = -1 then .ok true else .ok false

/-- Go `tx.TrimmedCopy()`. -/
def Transaction.TrimmedCopy (tx : Transaction) : Transaction :=
  { tx with Vin := tx.Vin.map fun input => { input with Signature := [], PubKey := [] } }

/-- One hexadecimal digit, lower case. -/
def hexDigit (n : Nat) : Char :=
  if n < 10 then Char.ofNat (48 + n) else Char.ofNat (87 + n)

/-- Go `fmt.Sprintf("%x", b)` on a byte slice. -/
def hex (b : Bytes) : String :=
  String.mk (b.flatMap fun x => [hexDigit (x / 16), hexDigit (x % 16)])

/-! ## Go maps -/

/-- Go `m[k]` with the comma-ok form: the value stored under `k`, if any.  A Go
map is an association list in which a key occurs at most once. -/
def mapGet {K V : Type} [DecidableEq K] (m : List (K × V)) (k : K) : Option V :=
  match m with
  | [] => none
  | (k1, v) :: rest => if k1 = k then some v else mapGet rest k

/-- Go `delete(m, k)`. -/
def mapDelete {K V : Type} [DecidableEq K] (m : List (K × V)) (k : K) : List (K × V) :=
  m.filter fun e => decide (e.1 ≠ k)

/-- Go `m[k] = v`. -/
def mapSet {K V : Type} [DecidableEq K] (m : List (K × V)) (k : K) (v : V) : List (K × V) :=
  match m with
  | [] => [(k, v)]
  | (k1, v1) :: rest => if k1 = k then (k, v) :: rest else (k1, v1) :: mapSet rest k v

/-! ## UTXO set (`utxo_set.go`) -/

/-- Go `type UTXOSet map[string]map[int]TXOutput`, each outer key listed with the
contents of its inner map.  The listing stands for the sets in which no two
outer keys hold the same inner map, such as the ones that `FindUTXOSet`
builds; `UTXORefs` below keeps the inner maps as references and covers the
sets that share one (`sim_Update` relates the two). -/
abbrev UTXOSet := List (String × List (Int × TXOutput))

/-- Go `TXOutput{}`, the zero value. -/
def zeroTXOutput : TXOutput := ⟨0, none⟩

/-- The expression `u[txid][outIdx]`: a missing outer key reads as the nil
map, a missing inner key as the zero output. -/
def utxoAt (u : UTXOSet) (txid : String) (outIdx : Int) : TXOutput :=
  (mapGet ((mapGet u txid).getD []) outIdx).getD zeroTXOutput

/-- Body of the input loop of `Update` for one input of a transaction that is
not a coinbase. -/
def spendInput (u : UTXOSet) (txInput : TXInput) : UTXOSet :=
  let txInputTxidString := hex txInput.Txid
  if utxoAt u txInputTxidString txInput.OutIdx ≠ zeroTXOutput then
    let u1 :=
      match mapGet u txInputTxidString with
      | none => u
      | some inner => mapSet u txInputTxidString (mapDelete inner txInput.OutIdx)
    if ((mapGet u1 txInputTxidString).getD []).length = 0 then
      mapDelete u1 txInputTxidString
    else u1
  else u

/-- Body of the output loop of `Update`. -/
def addOutput (txIDString : String) (u : UTXOSet) (index : Nat) (txOutput : TXOutput) :
    UTXOSet :=
  let u1 := if mapGet u txIDString = none then mapSet u txIDString [] else u
  mapSet u1 txIDString (mapSet ((mapGet u1 txIDString).getD []) (index : Int) txOutput)

/-- The output loop of `Update` (`for index, txOutput := range tx.Vout`). -/
def addOutputs (txIDString : String) : List TXOutput → Nat → UTXOSet → UTXOSet
  | [], _, u => u
  | txOutput :: rest, index, u =>
    addOutputs txIDString rest (index + 1) (addOutput txIDString u index txOutput)

/-- Body of the transaction loop of `Update`.  `tx.IsCoinbase()` is evaluated
inside the input loop only, where `tx.Vin` is not empty. -/
def updateTx (u : UTXOSet) (tx : Transaction) : UTXOSet :=
  let u1 := tx.Vin.foldl
    (fun u txInput => if tx.IsCoinbase = .ok true then u else spendInput u txInput) u
  addOutputs (hex tx.ID) tx.Vout 0 u1

/-- Go `u.Update(transactions)`; the map is updated in place, the model returns
the updated map. -/
def Update (u : UTXOSet) (transactions : List Transaction) : UTXOSet :=
  transactions.foldl updateTx u

/-! ## Blocks (`block.go`) -/

/-- Go `type Block struct`. -/
structure Block where
  Timestamp : Int
  Transactions : List Transaction
  PrevBlockHash : Bytes
  Hash : Bytes
  Nonce : Int
deriving DecidableEq, Repr

/-- Go `NewBlock(timestamp, transactions, prevBlockHash)`. -/
def NewBlock (timestamp : Int) (transactions : List Transaction) (prevBlockHash : Bytes) :
    Block :=
  ⟨timestamp, transactions, prevBlockHash, [], 0⟩

/-- Inner loop of `HashTransactions` (`for i := 0; i < len(childHash); ... i=i+2`);
reading `childHash[i+1]` past the end is an index panic. -/
def pairHashes (H : Bytes → Bytes) : List Bytes → List Bytes → Res (List Bytes)
  | [], parentHash => .ok parentHash
  | [_], _ => .panic
  | l :: r :: rest, parentHash => pairHashes H rest (parentHash ++ [H (l ++ r)])

/-- The step `childHash=append(childHash,childHash[len(b.Transactions)-1])` of
`HashTransactions`, taken when the level has odd length; `nTx` is
`len(b.Transactions)`.  The index is a panic when the level is shorter. -/
def extendOdd (nTx : Nat) (childHash : List Bytes) : Res (List Bytes) :=
  if childHash.length % 2 ≠ 0 then
    match childHash[nTx - 1]? with
    | none => .panic
    | some x => .ok (childHash ++ [x])
  else .ok childHash

/-- Outer loop of `HashTransactions`; `fuel` bounds the number of levels. -/
def hashLevels (H : Bytes → Bytes) (nTx : Nat) : Nat → List Bytes → Res Bytes
  | 0, _ => .timeout
  | fuel + 1, childHash =>
    if childHash.length > 1 then
      (extendOdd nTx childHash).bind fun childHash1 =>
        (pairHashes H childHash1 []).bind fun parentHash =>
          hashLevels H nTx fuel parentHash
    else
      match childHash with
      | [] => .panic
      | merkleRoot :: _ => .ok merkleRoot

/-- Go `b.HashTransactions()`. -/
def Block.HashTransactions (H : Bytes → Bytes) (ser : Transaction → Bytes) (b : Block) :
    Res Bytes :=
  hashLevels H b.Transactions.length (b.Transactions.length + 1)
    (b.Transactions.map fun tx => H (ser tx))

/-- The digest of the root computed on digests alone with the rule that
`NewMerkleTree` applies to its nodes: a level of odd length is extended by its
own last digest, then adjacent digests are combined.  It is the yardstick that
relates `Block.HashTransactions` to the tree of `NewMerkleTree`. -/
def rootOfLevels (H : Bytes → Bytes) : Nat → List Bytes → Res Bytes
  | 0, _ => .timeout
  | fuel + 1, level =>
    if level.length > 1 then
      (pairHashes H
        (if level.length % 2 ≠ 0 then level ++ (level.getLast?).toList else level) []).bind
        fun parents => rootOfLevels H fuel parents
    else
      match level with
      | [] => .panic
      | root :: _ => .ok root

/-! ## Proof of work (`proof_of_work.go`) -/

/-- Go `const TARGETBITS = 8`. -/
def TARGETBITS : Nat := 8

/-- Modelled from the spec: `IntToHex` is not among the sources.  §4.6: the
8-byte big-endian two's-complement encoding of a 64-bit signed integer. -/
def IntToHex (n : Int) : Bytes :=
  (List.range 8).map fun i => ((n % 2 ^ 64).toNat / 256 ^ (7 - i)) % 256

/-- Value of a Go `int` (64 bits) after an arithmetic operation whose exact
result is `x`. -/
def wrapInt64 (x : Int) : Int := (x + 2 ^ 63) % 2 ^ 64 - 2 ^ 63

/-- Go `type ProofOfWork struct`; `block` is a pointer, `none` is nil. -/
structure ProofOfWork where
  block : Option Block
  target : Nat

/-- Go `NewProofOfWork(block)`. -/
def NewProofOfWork (block : Option Block) : ProofOfWork :=
  ⟨block, 2 ^ (256 - TARGETBITS)⟩

/-- Go `pow.setupHeader()`. -/
def ProofOfWork.setupHeader (H : Bytes → Bytes) (ser : Transaction → Bytes)
    (pow : ProofOfWork) : Res Bytes :=
  match pow.block with
  | none => .panic
  | some block =>
    (block.HashTransactions H ser).map fun root =>
      block.PrevBlockHash ++ root ++ IntToHex block.Timestamp ++ IntToHex TARGETBITS

/-- Go `addNonce(nonce, header)`. -/
def addNonce (nonce : Int) (header : Bytes) : Bytes :=
  header ++ IntToHex nonce

/-- The loop of `Run`: `fuel` bounds the number of nonces tried. -/
def runLoop (H : Bytes → Bytes) (target : Nat) (header : Bytes) :
    Nat → Int → Res (Int × Bytes)
  | 0, _ => .timeout
  | fuel + 1, nonce =>
    if numeric (H (addNonce nonce header)) < target then
      .ok (nonce, H (addNonce nonce header))
    else runLoop H target header fuel (wrapInt64 (nonce + 1))

/-- Go `pow.Run()`. -/
def ProofOfWork.Run (H : Bytes → Bytes) (ser : Transaction → Bytes) (fuel : Nat)
    (pow : ProofOfWork) : Res (Int × Bytes) :=
  (pow.setupHeader H ser).bind fun header => runLoop H pow.target header fuel 0

/-- Go `pow.Validate()`. -/
def ProofOfWork.Validate (H : Bytes → Bytes) (ser : Transaction → Bytes)
    (pow : ProofOfWork) : Res Bool :=
  (pow.setupHeader H ser).bind fun header =>
    match pow.block with
    | none => .panic
    | some block =>
      if numeric (H (addNonce block.Nonce header)) < pow.target
          ∧ H (addNonce block.Nonce header) = block.Hash then .ok true
      else .ok false

/-- Go `b.Mine()`; the block is updated in place, the model returns the updated
block. -/
def Block.Mine (H : Bytes → Bytes) (ser : Transaction → Bytes) (fuel : Nat) (b : Block) :
    Res Block :=
  ((NewProofOfWork (some b)).Run H ser fuel).map fun (nonce, hash) =>
    { b with Nonce := nonce, Hash := hash }

/-! ## Blockchain replica (`blockchain.go`) -/

/-- Go `type Blockchain struct`. -/
structure Blockchain where
  blocks : List Block
deriving DecidableEq, Repr

/-- Go `bc.CurrentBlock()`: `bc.blocks[len(bc.blocks)-1]`, an index panic on an empty
chain. -/
def Blockchain.CurrentBlock (bc : Blockchain) : Res Block :=
  match bc.blocks.getLast? with
  | none => .panic
  | some b => .ok b

/-- Go `bc.ValidateBlock(block)`; the three conjuncts are evaluated from left to
right and the evaluation stops at the first one that is false. -/
def Blockchain.ValidateBlock (H : Bytes → Bytes) (ser : Transaction → Bytes)
    (_bc : Blockchain) (block : Option Block) : Res Bool :=
  let pow := NewProofOfWork block
  match block with
  | none => .ok false
  | some b =>
    if b.Transactions.length ≠ 0 then
      (pow.Validate H ser).bind fun v => if v then .ok true else .ok false
    else .ok false

/-- Go `bc.FindUTXOSet()`. -/
def Blockchain.FindUTXOSet (bc : Blockchain) : UTXOSet :=
  bc.blocks.foldl (fun uTXOSet block => Update uTXOSet block.Transactions) []

/-- The signature check of one input in `VerifyTransaction`: the two halves of
`Signature` are `r` and `s`, the two halves of `PubKey` are `x` and `y`, and
`ecv x y payload r s` is `ecdsa.Verify` on the curve P-256. -/
def inputVerifies (ecv : Nat → Nat → Bytes → Nat → Nat → Bool) (payload : Bytes)
    (input : TXInput) : Bool :=
  ecv (numeric (input.PubKey.take (input.PubKey.length / 2)))
    (numeric (input.PubKey.drop (input.PubKey.length / 2))) payload
    (numeric (input.Signature.take (input.Signature.length / 2)))
    (numeric (input.Signature.drop (input.Signature.length / 2)))

/-- Go `bc.VerifyTransaction(tx)`. -/
def Blockchain.VerifyTransaction (ser : Transaction → Bytes)
    (ecv : Nat → Nat → Bytes → Nat → Nat → Bool) (bc : Blockchain) (tx : Transaction) :
    Res Bool :=
  let u := bc.FindUTXOSet
  tx.IsCoinbase.bind fun coinbase =>
    if coinbase then .ok true
    else if tx.Vin.any fun txInput =>
        decide (utxoAt u (hex txInput.Txid) txInput.OutIdx = zeroTXOutput) then .ok false
    else if tx.Vin.all fun input => inputVerifies ecv (ser tx.TrimmedCopy) input then .ok true
    else .ok false

/-- First loop of `MineBlock`: the transactions that verify, in order. -/
def collectValid (ser : Transaction → Bytes) (ecv : Nat → Nat → Bytes → Nat → Nat → Bool)
    (bc : Blockchain) : List Transaction → List Transaction → Res (List Transaction)
  | [], validTx => .ok validTx
  | tx :: rest, validTx =>
    (bc.VerifyTransaction ser ecv tx).bind fun v =>
      collectValid ser ecv bc rest (if v then validTx ++ [tx] else validTx)

/-- Go `bc.MineBlock(transactions)`: the chain afterwards, the block and the error
returned.  `now` is `time.Now().Unix()`, `fuel` bounds the nonce search. -/
def Blockchain.MineBlock (H : Bytes → Bytes) (ser : Transaction → Bytes)
    (ecv : Nat → Nat → Bytes → Nat → Nat → Bool) (now : Int) (fuel : Nat)
    (bc : Blockchain) (transactions : List Transaction) :
    Res (Blockchain × Option Block × Option GoError) :=
  (collectValid ser ecv bc transactions []).bind fun validTx =>
    if validTx.length = 0 then .ok (bc, none, some .ErrNoValidTx)
    else
      bc.CurrentBlock.bind fun currentBlock =>
        ((NewBlock now validTx currentBlock.Hash).Mine H ser fuel).bind fun block =>
          .ok (⟨bc.blocks ++ [block]⟩, some block, none)

/-! ## Peers (`jun_account.go`) -/

/-- Go `type Account struct`.  `PrivateKey` is the scalar of the key, `Blockchain` is
the replica the pointer field refers to, and a channel, which is a reference,
is the number under which the table of the channels lists it. -/
structure Account where
  Name : String
  PrivateKey : Nat
  PubKeyBytes : Bytes
  Address : String
  Balance : Int
  Blockchain : Blockchain
  AddressMap : List (String × String)
  BlockIn : Nat
  ChannelMap : List (String × Nat)
deriving DecidableEq, Repr

/-- The transaction loop of `HandleMinedBlockIn`: `false` at the first
transaction that does not verify. -/
def verifyEach (ser : Transaction → Bytes) (ecv : Nat → Nat → Bytes → Nat → Nat → Bool)
    (bc : Blockchain) : List Transaction → Res Bool
  | [] => .ok true
  | tx :: rest =>
    (bc.VerifyTransaction ser ecv tx).bind fun v =>
      if v = false then .ok false else verifyEach ser ecv bc rest

/-- Go `acc.HandleMinedBlockIn(minedBlock)`: the account afterwards (its replica
is updated through the pointer) and the error returned. -/
def Account.HandleMinedBlockIn (H : Bytes → Bytes) (ser : Transaction → Bytes)
    (ecv : Nat → Nat → Bytes → Nat → Nat → Bool) (acc : Account)
    (minedBlock : Option Block) : Res (Account × Option GoError) :=
  (acc.Blockchain.ValidateBlock H ser minedBlock).bind fun valid =>
    if valid = false then .ok (acc, some .ErrInvalidBlock)
    else
      match minedBlock with
      | none => .panic
      | some b =>
        (verifyEach ser ecv acc.Blockchain b.Transactions).bind fun verified =>
          if verified = false then .ok (acc, some .ErrSignatureNotValid)
          else .ok ({ acc with Blockchain := ⟨acc.Blockchain.blocks ++ [b]⟩ }, none)

/-! ## Stand-ins for the library functions, to run the model -/

/-! ## Spendable outputs (`utxo_set.go`, `transaction_output.go`) -/

/-- Go `out.IsLockedWithKey(pubKeyHash)`: `bytes.Equal`, for which the nil slice
and the empty slice are equal. -/
def TXOutput.IsLockedWithKey (out : TXOutput) (pubKeyHash : Bytes) : Bool :=
  decide (out.PubKeyHash.getD [] = pubKeyHash)

/-- Inner loop of `FindSpendableOutputs` over the outputs stored under `txID`.
The state is the pair `(accumulatedBalance, spendableOutputs)`; the sum is a
Go `int`, so it wraps at 64 bits. -/
def spendableInner (pubKeyHash : Bytes) (txID : String) :
    List (Int × TXOutput) → Int × List (String × List Int) → Int × List (String × List Int)
  | [], st => st
  | (outIdx, txOutput) :: rest, (accumulatedBalance, spendableOutputs) =>
    if txOutput.IsLockedWithKey pubKeyHash then
      spendableInner pubKeyHash txID rest
        (wrapInt64 (accumulatedBalance + txOutput.Value),
          mapSet spendableOutputs txID ((mapGet spendableOutputs txID).getD [] ++ [outIdx]))
    else spendableInner pubKeyHash txID rest (accumulatedBalance, spendableOutputs)

/-- Go `u.FindSpendableOutputs(pubKeyHash, amount)`.  The two `range` loops visit
the maps in an order chosen by the run time: here it is the order in which
the association lists are written, and a theorem about every `u` is a theorem
about every order. -/
def FindSpendableOutputs (u : UTXOSet) (pubKeyHash : Bytes) (_amount : Int) :
    Int × List (String × List Int) :=
  u.foldl (fun st e => spendableInner pubKeyHash e.1 e.2 st) (0, [])

/-! ## Building, signing and verifying transactions (`transaction.go`, `wallet.go`) -/

/-- Go `HashPubKey(pubKey)`: RIPEMD-160 of SHA-256; `R` is the RIPEMD-160 of
`golang.org/x/crypto/ripemd160`. -/
def HashPubKey (H R : Bytes → Bytes) (pubKey : Bytes) : Bytes :=
  R (H pubKey)

/-- Go `GetPubKeyHashFromAddress(address)`: the slice expression
`addressDecoded[1:length-addressChecksumLen]` panics when fewer than five bytes
were decoded.  `b58` is `Base58Decode`, which is not among the sources. -/
def GetPubKeyHashFromAddress (b58 : String → Bytes) (address : String) : Res Bytes :=
  if (b58 address).length < 5 then .panic
  else .ok (((b58 address).take ((b58 address).length - 4)).drop 1)

/-- Go `tx.Hash()`: the digest of the encoding of the transaction with `ID` set
to nil. -/
def Transaction.Hash (H : Bytes → Bytes) (ser : Transaction → Bytes) (tx : Transaction) :
    Bytes :=
  H (ser { tx with ID := [] })

/-- Go `NewUTXOTransaction(pubKey, to, amount, utxos)`: the transaction and the
error returned.  `h2b` is `Hex2Bytes`, which is not among the sources; `order`
is the order in which the run time visits the map `spendableOutputs`. -/
def NewUTXOTransaction (H R : Bytes → Bytes) (ser : Transaction → Bytes)
    (b58 : String → Bytes) (h2b : String → Bytes)
    (order : List (String × List Int) → List (String × List Int))
    (pubKey : Bytes) (toAddress : String) (amount : Int) (utxos : UTXOSet) :
    Res (Option Transaction × Option GoError) :=
  let pubKeyHashSender := HashPubKey H R pubKey
  let found := FindSpendableOutputs utxos pubKeyHashSender amount
  if found.1 < amount then .ok (none, some .ErrNoFunds)
  else
    let vin := (order found.2).flatMap fun e =>
      e.2.map fun outIdx => (⟨h2b e.1, outIdx, [], pubKey⟩ : TXInput)
    (GetPubKeyHashFromAddress b58 toAddress).bind fun pubKeyHashRecepient =>
      let tXOutputTo : TXOutput := ⟨amount, some pubKeyHashRecepient⟩
      let tXOutputFrom : TXOutput := ⟨wrapInt64 (found.1 - amount), some pubKeyHashSender⟩
      let tx : Transaction := ⟨[], vin, [tXOutputTo, tXOutputFrom]⟩
      .ok (some { tx with ID := tx.Hash H ser }, none)

/-- Loop of `big.Int.Bytes`: the base-256 digits of `n`, most significant
first. -/
def bigBytesAux : Nat → Nat → Bytes → Bytes
  | 0, _, acc => acc
  | fuel + 1, n, acc =>
    if n = 0 then acc else bigBytesAux fuel (n / 256) ((n % 256) :: acc)

/-- Go `x.Bytes()` of `math/big` on a non-negative integer: the big-endian
bytes without leading zeros, none at all for zero. -/
def bigBytes (n : Nat) : Bytes := bigBytesAux n n []

/-- Go `pubKeyToByte(pubkey)` for the point `(x, y)`. -/
def pubKeyToByte (x y : Nat) : Bytes := bigBytes x ++ bigBytes y

/-- Modelled from the spec: `Bytes2Hex` is not among the sources.  §4.2 looks the
prior transaction up under `hex(prev_tx_id)`, the key that `fmt.Sprintf("%x", …)`
writes in `UTXOSet.Update`. -/
def Bytes2Hex (b : Bytes) : String := hex b

/-- The check that `Sign` and `Verify` make on one input: the prior transaction
is in `prevTXs` and one of its outputs is locked with the hash of the key of
the input. -/
def inputKnown (H R : Bytes → Bytes) (prevTXs : List (String × Transaction))
    (input : TXInput) : Bool :=
  match mapGet prevTXs (Bytes2Hex input.Txid) with
  | none => false
  | some prev =>
    prev.Vout.any fun output =>
      decide (HashPubKey H R input.PubKey = output.PubKeyHash.getD [])

/-- Go `tx.Sign(privKey, prevTXs)`: the transaction afterwards and the error
returned.  `sgn payload` is the pair `(r, s)` that `ecdsa.Sign` returns for the
private key and the random source at hand, `none` when it returns an error
(`Sign` then panics). -/
def Transaction.Sign (H R : Bytes → Bytes) (ser : Transaction → Bytes)
    (sgn : Bytes → Option (Nat × Nat)) (tx : Transaction)
    (prevTXs : List (String × Transaction)) : Res (Transaction × Option GoError) :=
  tx.IsCoinbase.bind fun coinbase =>
    if coinbase then .ok (tx, none)
    else if tx.Vin.all (fun input => inputKnown H R prevTXs input) then
      match sgn (ser tx.TrimmedCopy) with
      | none => .panic
      | some (r, s) =>
        .ok ({ tx with Vin := tx.Vin.map fun input =>
                { input with Signature := bigBytes r ++ bigBytes s } }, none)
    else .ok (tx, some .ErrTxInputNotFound)

/-- Go `tx.Verify(prevTXs)`. -/
def Transaction.Verify (H R : Bytes → Bytes) (ser : Transaction → Bytes)
    (ecv : Nat → Nat → Bytes → Nat → Nat → Bool) (tx : Transaction)
    (prevTXs : List (String × Transaction)) : Res Bool :=
  tx.IsCoinbase.bind fun coinbase =>
    if coinbase then .ok true
    else if tx.Vin.all (fun input => inputKnown H R prevTXs input) then
      if tx.Vin.all fun input => inputVerifies ecv (ser tx.TrimmedCopy) input then .ok true
      else .ok false
    else .ok false

/-- Go `tx.TrimmedCopy()` with the caller's side made explicit: the method has a
value receiver and its loop variable `input` is a copy of the element of
`tx.Vin`, so the two assignments to `input` reach neither the caller's
transaction nor the array behind its `Vin`.  The first component is the
caller's transaction after the call, the second the value returned. -/
def Transaction.TrimmedCopyCall (tx : Transaction) : Transaction × Transaction :=
  (tx, tx.TrimmedCopy)
/-! ## The UTXO set as a map, and a ledger for one key -/

/-- Go `u[k][i]` with the comma-ok form: the output stored under the key, if
there is one. -/
def utxoGet (u : UTXOSet) (k : String) (i : Int) : Option TXOutput :=
  mapGet ((mapGet u k).getD []) i

/-- Equality of two UTXO sets as Go maps: the same outer keys and, under each
of them, the same inner keys with the same outputs. -/
def sameMap (u v : UTXOSet) : Prop :=
  ∀ k, (mapGet u k).isSome = (mapGet v k).isSome ∧ ∀ i, utxoGet u k i = utxoGet v k i

/-- Effect on one key of an input that names it: the entry goes unless the
key reads as the zero output. -/
def spendStep (x : Option TXOutput) : Option TXOutput :=
  if x.getD zeroTXOutput = zeroTXOutput then x else none

/-- The inputs of one transaction, seen from the key `(k, i)`. -/
def ledgerInputs (k : String) (i : Int) (tx : Transaction) (x : Option TXOutput) :
    Option TXOutput :=
  tx.Vin.foldl
    (fun x txInput =>
      if tx.IsCoinbase = .ok true then x
      else if hex txInput.Txid = k ∧ txInput.OutIdx = i then spendStep x else x) x

/-- The outputs of one transaction, seen from the key `(k, i)`. -/
def ledgerOutputs (k : String) (i : Int) (txIDString : String) :
    List TXOutput → Nat → Option TXOutput → Option TXOutput
  | [], _, x => x
  | txOutput :: rest, index, x =>
    ledgerOutputs k i txIDString rest (index + 1)
      (if txIDString = k ∧ (index : Int) = i then some txOutput else x)

/-- One transaction, seen from the key `(k, i)`: its inputs, then its
outputs. -/
def ledgerTx (k : String) (i : Int) (tx : Transaction) (x : Option TXOutput) :
    Option TXOutput :=
  ledgerOutputs k i (hex tx.ID) tx.Vout 0 (ledgerInputs k i tx x)

/-- A spend and credit ledger kept for the single key `(k, i)`, independent of
the map operations of `Update`: the transactions are replayed in order on the
entry `x` of the key. -/
def ledger (k : String) (i : Int) (txs : List Transaction) (x : Option TXOutput) :
    Option TXOutput :=
  txs.foldl (fun x tx => ledgerTx k i tx x) x

/-- The transactions of a chain, block after block. -/
def Blockchain.allTransactions (bc : Blockchain) : List Transaction :=
  bc.blocks.flatMap fun block => block.Transactions

/-- The transaction `tx` has the output index `i` under the key `k`. -/
def creates (tx : Transaction) (k : String) (i : Int) : Prop :=
  hex tx.ID = k ∧ 0 ≤ i ∧ i < tx.Vout.length

/-- The transaction `tx` is not a coinbase for `IsCoinbase` and one of its
inputs names the key `(k, i)`. -/
def spends (tx : Transaction) (k : String) (i : Int) : Prop :=
  tx.IsCoinbase ≠ .ok true ∧ ∃ txInput ∈ tx.Vin, hex txInput.Txid = k ∧ txInput.OutIdx = i

/-- An outer entry that, when present, holds at least one inner key: what
`Update` leaves behind under every key it has written or deleted from. -/
def normalEntry (e : Option (List (Int × TXOutput))) : Prop :=
  e.isSome → ∃ i, (mapGet (e.getD []) i).isSome

/-- The three forms the replay of a list of transactions can take on one key:
it leaves the entry alone, it spends it, or it ends with a fixed entry. -/
def ledgerShape (f : Option TXOutput → Option TXOutput) : Prop :=
  (∀ x, f x = x) ∨ (∀ x, f x = spendStep x) ∨ (∃ c, ∀ x, f x = c)

/-- Every input of a transaction that is not a coinbase names a transaction
placed earlier in the list, or one of the identifiers in `seen`. -/
def spendsEarlier : List String → List Transaction → Bool
  | _, [] => true
  | seen, tx :: rest =>
    (decide (tx.IsCoinbase = .ok true)
        || tx.Vin.all fun txInput => decide (hex txInput.Txid ∈ seen))
      && spendsEarlier (hex tx.ID :: seen) rest

/-- The values of all the outputs of `u` that are locked with `pubKeyHash`, in
the order in which the maps are listed. -/
def lockedValues (u : UTXOSet) (pubKeyHash : Bytes) : List Int :=
  u.flatMap fun e =>
    (e.2.filter fun p => p.2.IsLockedWithKey pubKeyHash).map fun p => p.2.Value

/-- The inner keys, among those stored in `u` under the outer key `k`, whose
output is locked with `pubKeyHash`, in the order in which the maps are
listed. -/
def lockedIndexes (u : UTXOSet) (pubKeyHash : Bytes) (k : String) : List Int :=
  u.flatMap fun e =>
    if e.1 = k then (e.2.filter fun p => p.2.IsLockedWithKey pubKeyHash).map fun p => p.1
    else []

/-- A 32-byte stand-in digest used to run the definitions on concrete inputs:
the first byte depends on the input, so that some inputs fall below the
proof-of-work target and others do not. -/
def toyHash (b : Bytes) : Bytes :=
  ((b.sum + b.length) % 4) :: (b.sum % 256) :: List.replicate 30 (b.length % 256)

/-- A stand-in for the `gob` encoder: the fields of the transaction, one after
the other. -/
def toySer (tx : Transaction) : Bytes :=
  tx.ID ++ tx.Vin.flatMap (fun i => i.Txid ++ [i.OutIdx.toNat % 256] ++ i.Signature ++ i.PubKey)
    ++ tx.Vout.flatMap (fun o => [o.Value.toNat % 256] ++ o.PubKeyHash.getD [])

/-- A stand-in for `ecdsa.Verify`: accepts when the signature halves repeat the
key halves.  It accepts the empty signature with the empty key, which
`ecdsa.Verify` does not; `strictVerify` below rejects it. -/
def toyVerify (x y : Nat) (_payload : Bytes) (r s : Nat) : Bool :=
  decide (r = x ∧ s = y)

/-! ## Data to run the model on -/

/-- A coinbase transaction with identifier and data `n`. -/
def sampleCoinbase (n : Nat) : Transaction :=
  ⟨[n], [⟨[], -1, [], [n]⟩], [⟨10, some [7]⟩]⟩

/-- A block of three coinbase transactions, not mined. -/
def sampleBlock : Block :=
  NewBlock 5 [sampleCoinbase 0, sampleCoinbase 1, sampleCoinbase 2] [1, 2]

/-- The block `sampleBlock` as `Mine` leaves it under `toyHash`. -/
def sampleMined : Block :=
  { sampleBlock with Nonce := 2, Hash := 0 :: 66 :: List.replicate 30 58 }

/-- A mined genesis block under `toyHash`. -/
def sampleGenesis : Block :=
  { NewBlock 5 [sampleCoinbase 0] [] with Nonce := 2, Hash := 0 :: 184 :: List.replicate 30 56 }

/-- A peer whose replica holds `sampleGenesis`. -/
def samplePeer : Account :=
  ⟨"a", 1, [4, 4], "addr", 0, ⟨[sampleGenesis]⟩, [], 0, []⟩

/-- A mined block whose `PrevBlockHash` is not the hash of `sampleGenesis`. -/
def sampleInbound : Block :=
  { NewBlock 6 [sampleCoinbase 1] [9, 9, 9] with
    Nonce := 3, Hash := 0 :: 213 :: List.replicate 30 59 }

/-- The header of `sampleBlock` under `toyHash` and `toySer`. -/
def sampleHeader : Bytes :=
  [1, 2] ++ (0 :: 176 :: List.replicate 30 64) ++ IntToHex 5 ++ IntToHex 8

/-- A mined block that extends `sampleGenesis` and whose second transaction
spends an output that no replica holds. -/
def sampleRejected : Block :=
  { NewBlock 6 [sampleCoinbase 1, ⟨[1], [⟨[0xaa], 0, [], []⟩], []⟩] sampleGenesis.Hash with
    Nonce := 2, Hash := 0 :: 136 :: List.replicate 30 88 }

/-- Five coinbase transactions. -/
def fiveCoinbases : List Transaction :=
  [sampleCoinbase 1, sampleCoinbase 2, sampleCoinbase 3, sampleCoinbase 4, sampleCoinbase 5]

/-- A transaction, not a coinbase, whose only input names output `0` of the
transaction with identifier `aa`. -/
def sampleSpender : Transaction :=
  ⟨[1], [⟨[0xaa], 0, [], []⟩], []⟩

/-! ## The fixtures of `test_utils.go` -/

/-- Modelled from the spec: the constant `BlockReward` is not among the
sources.  Scenario S5 and the comments of `test_utils.go` give the coinbase
output of `tx0` the value 10. -/
def BlockReward : Int := 10

/-- Go `Hex2Bytes("2b02...8b38")`, the key hash of the first fixture address. -/
def pkhRodrigo : Bytes := [43, 2, 234, 76, 21, 120, 68, 236, 11, 3, 79, 221, 227, 55, 151, 38, 234, 34, 139, 56]

/-- Go `Hex2Bytes("b8f3...8f04")`, the key hash of the second fixture address. -/
def pkhLeander : Bytes := [184, 243, 230, 91, 60, 171, 201, 63, 185, 69, 155, 126, 129, 130, 250, 94, 196, 229, 143, 4]

/-- Go `Hex2Bytes("15e5...7971")`, the key hash of the miner of the fixtures. -/
def pkhMiner : Bytes := [21, 229, 171, 27, 159, 30, 121, 181, 140, 149, 161, 160, 179, 202, 166, 60, 97, 97, 121, 113]

/-- Public key bytes of the first fixture address. -/
def pubKeyRodrigo : Bytes :=
  [248, 106, 160, 202, 240, 131, 89, 238, 66, 39, 210, 144, 26, 180, 144, 23, 44, 105, 168, 1, 145, 15, 65, 64, 205, 222, 47, 93, 200, 248, 187, 61, 193, 157, 162, 201, 251, 14, 208, 65, 219, 16, 106, 143, 234, 3, 130, 222, 37, 237, 188, 131, 223, 104, 147, 87, 78, 64, 252, 46, 30, 73, 55, 72]

/-- Public key bytes of the second fixture address. -/
def pubKeyLeander : Bytes :=
  [195, 109, 104, 188, 100, 16, 41, 229, 58, 56, 37, 43, 67, 108, 89, 110, 243, 208, 58, 74, 117, 71, 67, 218, 80, 251, 154, 50, 16, 32, 232, 130, 221, 64, 23, 50, 56, 23, 131, 199, 68, 65, 18, 171, 199, 41, 179, 190, 224, 70, 67, 1, 93, 128, 254, 103, 224, 194, 138, 91, 40, 162, 9, 16]

/-- Identifier of `testTransactions["tx0"]`. -/
def idTx0 : Bytes :=
  [148, 2, 197, 111, 73, 222, 2, 210, 185, 196, 99, 56, 55, 216, 46, 56, 129, 34, 122, 62, 169, 12, 64, 115, 192, 40, 21, 253, 207, 90, 250, 162]

/-- Identifier of `testTransactions["tx1"]`. -/
def idTx1 : Bytes :=
  [57, 123, 153, 0, 7, 132, 80, 153, 180, 254, 80, 186, 35, 73, 15, 39, 123, 59, 246, 245, 49, 107, 64, 130, 195, 67, 177, 76, 85, 4, 171, 19]

/-- Identifier of `testTransactions["tx2"]`. -/
def idTx2 : Bytes :=
  [220, 215, 109, 37, 79, 122, 65, 136, 142, 107, 218, 153, 88, 196, 206, 173, 245, 16, 225, 189, 95, 210, 81, 246, 23, 201, 27, 112, 79, 191, 148, 146]

/-- Identifier of `testTransactions["tx3"]`. -/
def idTx3 : Bytes :=
  [233, 229, 252, 21, 159, 36, 178, 179, 51, 16, 247, 122, 239, 78, 66, 94, 119, 237, 113, 190, 135, 219, 249, 160, 199, 118, 75, 84, 23, 189, 62, 75]

/-- Identifier of `testTransactions["tx4"]`. -/
def idTx4 : Bytes :=
  [145, 214, 254, 143, 227, 81, 229, 15, 166, 225, 107, 179, 145, 255, 116, 245, 220, 101, 6, 70, 206, 106, 208, 36, 66, 230, 71, 116, 37, 102, 179, 27]

/-- Identifier of `testTransactions["tx5"]`. -/
def idTx5 : Bytes :=
  [182, 61, 149, 107, 35, 77, 39, 195, 73, 77, 153, 53, 172, 151, 100, 99, 77, 176, 35, 47, 50, 239, 127, 87, 105, 121, 216, 186, 94, 201, 63, 188]

/-- Identifier of `minerCoinbaseTx["tx1"]`. -/
def idMinerTx1 : Bytes :=
  [12, 161, 54, 239, 252, 36, 36, 164, 45, 43, 207, 107, 73, 142, 124, 12, 34, 106, 218, 110, 255, 84, 153, 167, 250, 96, 12, 10, 230, 186, 217, 192]

/-- Identifier of `minerCoinbaseTx["tx2"]`. -/
def idMinerTx2 : Bytes :=
  [100, 233, 120, 52, 17, 13, 85, 37, 246, 143, 191, 113, 151, 67, 205, 34, 254, 255, 180, 233, 31, 251, 80, 99, 159, 94, 35, 34, 40, 227, 241, 229]

/-- Identifier of `minerCoinbaseTx["tx3"]`. -/
def idMinerTx3 : Bytes :=
  [104, 240, 176, 90, 189, 250, 9, 187, 251, 115, 46, 55, 36, 140, 203, 42, 115, 125, 177, 137, 208, 61, 34, 34, 76, 58, 161, 58, 254, 89, 57, 148]

/-- Identifier of `minerCoinbaseTx["tx4"]`. -/
def idMinerTx4 : Bytes :=
  [200, 177, 82, 160, 4, 14, 31, 152, 178, 97, 180, 20, 68, 214, 238, 202, 9, 195, 191, 204, 125, 30, 198, 154, 121, 39, 72, 247, 14, 250, 30, 251]

/-- Go `testTransactions["tx0"]`; `genesisData` stands for the constant
`GenesisCoinbaseData`, which is not among the sources. -/
def testTx0 (genesisData : Bytes) : Transaction :=
  ⟨idTx0, [⟨[], -1, [], genesisData⟩], [⟨BlockReward, some pkhRodrigo⟩]⟩

/-- Go `testTransactions["tx1"]`. -/
def testTx1 : Transaction :=
  ⟨idTx1, [⟨idTx0, 0, [], pubKeyRodrigo⟩], [⟨5, some pkhLeander⟩, ⟨5, some pkhRodrigo⟩]⟩

/-- Go `testTransactions["tx2"]`. -/
def testTx2 : Transaction :=
  ⟨idTx2, [⟨idTx1, 0, [], pubKeyLeander⟩], [⟨3, some pkhRodrigo⟩, ⟨2, some pkhLeander⟩]⟩

/-- Go `testTransactions["tx3"]`. -/
def testTx3 : Transaction :=
  ⟨idTx3, [⟨idTx1, 1, [], pubKeyRodrigo⟩], [⟨1, some pkhLeander⟩, ⟨4, some pkhRodrigo⟩]⟩

/-- Go `testTransactions["tx4"]`. -/
def testTx4 : Transaction :=
  ⟨idTx4, [⟨idTx2, 0, [], pubKeyRodrigo⟩], [⟨2, some pkhLeander⟩, ⟨1, some pkhRodrigo⟩]⟩

/-- Go `testTransactions["tx5"]`. -/
def testTx5 : Transaction :=
  ⟨idTx5, [⟨idTx3, 0, [], pubKeyLeander⟩, ⟨idTx4, 0, [], pubKeyLeander⟩],
    [⟨3, some pkhRodrigo⟩]⟩

/-- Go `newMockCoinbaseTX(to, data, txID)` with the three arguments decoded. -/
def newMockCoinbaseTX (toHash data txID : Bytes) : Transaction :=
  ⟨txID, [⟨[], -1, [], data⟩], [⟨BlockReward, some toHash⟩]⟩

/-- Go `minerCoinbaseTx["tx1"]`; the data is the string `"1"`. -/
def minerTx1 : Transaction := newMockCoinbaseTX pkhMiner [49] idMinerTx1

/-- Go `minerCoinbaseTx["tx2"]`. -/
def minerTx2 : Transaction := newMockCoinbaseTX pkhMiner [50] idMinerTx2

/-- Go `minerCoinbaseTx["tx3"]`. -/
def minerTx3 : Transaction := newMockCoinbaseTX pkhMiner [51] idMinerTx3

/-- Go `minerCoinbaseTx["tx4"]`. -/
def minerTx4 : Transaction := newMockCoinbaseTX pkhMiner [52] idMinerTx4

/-- The transactions of `testBlockchainData["block0"]` … `["block4"]`. -/
def testBlockTxs (genesisData : Bytes) : Nat → List Transaction
  | 0 => [testTx0 genesisData]
  | 1 => [minerTx1, testTx1]
  | 2 => [minerTx2, testTx3, testTx2]
  | 3 => [minerTx3, testTx4]
  | 4 => [minerTx4, testTx5]
  | _ => []

/-- The field `utxos` of `testUTXOs["block0"]` … `["block4"]`. -/
def testUTXOsBefore : Nat → UTXOSet
  | 1 => [("9402c56f49de02d2b9c4633837d82e3881227a3ea90c4073c02815fdcf5afaa2", [(0, ⟨BlockReward, some pkhRodrigo⟩)])]
  | 2 => [("397b990007845099b4fe50ba23490f277b3bf6f5316b4082c343b14c5504ab13",
      [(0, ⟨5, some pkhLeander⟩), (1, ⟨5, some pkhRodrigo⟩)])]
  | 3 => [("dcd76d254f7a41888e6bda9958c4ceadf510e1bd5fd251f617c91b704fbf9492",
      [(0, ⟨3, some pkhRodrigo⟩), (1, ⟨2, some pkhLeander⟩)])]
  | 4 => [("e9e5fc159f24b2b33310f77aef4e425e77ed71be87dbf9a0c7764b5417bd3e4b",
      [(0, ⟨1, some pkhLeander⟩), (1, ⟨4, some pkhRodrigo⟩)]),
    ("91d6fe8fe351e50fa6e16bb391ff74f5dc650646ce6ad02442e647742566b31b",
      [(0, ⟨2, some pkhLeander⟩), (1, ⟨1, some pkhRodrigo⟩)])]
  | _ => []

/-- The field `expectedUTXOs` of `testUTXOs["block0"]` … `["block4"]`. -/
def testUTXOsExpected : Nat → UTXOSet
  | 0 => [("9402c56f49de02d2b9c4633837d82e3881227a3ea90c4073c02815fdcf5afaa2", [(0, ⟨BlockReward, some pkhRodrigo⟩)])]
  | 1 => [("397b990007845099b4fe50ba23490f277b3bf6f5316b4082c343b14c5504ab13",
      [(0, ⟨5, some pkhLeander⟩), (1, ⟨5, some pkhRodrigo⟩)]),
    ("0ca136effc2424a42d2bcf6b498e7c0c226ada6eff5499a7fa600c0ae6bad9c0",
      [(0, ⟨BlockReward, some pkhMiner⟩)])]
  | 2 => [("dcd76d254f7a41888e6bda9958c4ceadf510e1bd5fd251f617c91b704fbf9492",
      [(0, ⟨3, some pkhRodrigo⟩), (1, ⟨2, some pkhLeander⟩)]),
    ("e9e5fc159f24b2b33310f77aef4e425e77ed71be87dbf9a0c7764b5417bd3e4b",
      [(0, ⟨1, some pkhLeander⟩), (1, ⟨4, some pkhRodrigo⟩)]),
    ("64e97834110d5525f68fbf719743cd22feffb4e91ffb50639f5e232228e3f1e5",
      [(0, ⟨BlockReward, some pkhMiner⟩)])]
  | 3 => [("dcd76d254f7a41888e6bda9958c4ceadf510e1bd5fd251f617c91b704fbf9492", [(1, ⟨2, some pkhLeander⟩)]),
    ("91d6fe8fe351e50fa6e16bb391ff74f5dc650646ce6ad02442e647742566b31b",
      [(0, ⟨2, some pkhLeander⟩), (1, ⟨1, some pkhRodrigo⟩)]),
    ("68f0b05abdfa09bbfb732e37248ccb2a737db189d03d22224c3aa13afe593994",
      [(0, ⟨BlockReward, some pkhMiner⟩)])]
  | 4 => [("e9e5fc159f24b2b33310f77aef4e425e77ed71be87dbf9a0c7764b5417bd3e4b", [(1, ⟨4, some pkhRodrigo⟩)]),
    ("91d6fe8fe351e50fa6e16bb391ff74f5dc650646ce6ad02442e647742566b31b", [(1, ⟨1, some pkhRodrigo⟩)]),
    ("b63d956b234d27c3494d9935ac9764634db0232f32ef7f576979d8ba5ec93fbc", [(0, ⟨3, some pkhRodrigo⟩)]),
    ("c8b152a0040e1f98b261b41444d6eeca09c3bfcc7d1ec69a792748f70efa1efb",
      [(0, ⟨BlockReward, some pkhMiner⟩)])]
  | _ => []

/-- Comparison of two inner maps as maps: the same keys with the same
values, in whatever order they are listed. -/
def sameInner (a b : List (Int × TXOutput)) : Bool :=
  (a.all fun e => decide (mapGet b e.1 = some e.2)) &&
    (b.all fun e => decide (mapGet a e.1 = some e.2))

/-- Comparison of two UTXO sets as maps of maps, as `cmp.Diff` compares them. -/
def sameUTXOSet (u v : UTXOSet) : Bool :=
  (u.all fun e => match mapGet v e.1 with
    | some inner => sameInner e.2 inner
    | none => false) &&
  (v.all fun e => match mapGet u e.1 with
    | some inner => sameInner inner e.2
    | none => false)

/-! ## Further sample data -/

/-- A mined genesis block under `toyHash` that holds the coinbase with
identifier `aa`. -/
def replayGenesis : Block :=
  { NewBlock 1 [sampleCoinbase 170] [] with Nonce := 2, Hash := 0 :: 8 :: List.replicate 30 56 }

/-- The block that `MineBlock` builds on `replayGenesis` from `sampleSpender`. -/
def replaySpend : Block :=
  { NewBlock 2 [sampleSpender] replayGenesis.Hash with
    Nonce := 3, Hash := 0 :: 172 :: List.replicate 30 88 }

/-- The block that `MineBlock` builds on `replaySpend` from the coinbase `aa`. -/
def replayAgain : Block :=
  { NewBlock 3 [sampleCoinbase 170] replaySpend.Hash with
    Nonce := 0, Hash := 0 :: 4 :: List.replicate 30 88 }

/-- A chain of three blocks: a coinbase with identifier `aa`, a transaction that
spends its output, and the same coinbase once more. -/
def replayChain : Blockchain :=
  ⟨[replayGenesis, replaySpend, replayAgain]⟩

/-- A chain of three blocks with distinct identifiers: two coinbases and a
transaction that spends the output of the first. -/
def spentChain : Blockchain :=
  ⟨[NewBlock 1 [sampleCoinbase 170] [], NewBlock 2 [sampleCoinbase 171] [1],
    NewBlock 3 [sampleSpender] [2]]⟩

/-- A stand-in for `Base58Decode` used to run the definitions on concrete
inputs: the character codes of the address. -/
def toyDecode (address : String) : Bytes :=
  address.toList.map fun c => c.toNat

/-- A transaction, not a coinbase, with one input that names output `0` of the
transaction `aa` and carries the key bytes of the point `(2, 3)`. -/
def signSample : Transaction :=
  ⟨[1], [⟨[0xaa], 0, [], pubKeyToByte 2 3⟩], [⟨5, some [7]⟩]⟩

/-- The prior transactions for `signSample`: the coinbase `aa`, whose output is
locked with the hash of the key of `signSample`. -/
def signSamplePrev (H R : Bytes → Bytes) : List (String × Transaction) :=
  [("aa", ⟨[0xaa], [⟨[], -1, [], []⟩], [⟨10, some (HashPubKey H R (pubKeyToByte 2 3))⟩]⟩)]

/-- A transaction whose first input has `OutIdx` equal to `-1` and which has a
second input. -/
def twoInputSample : Transaction :=
  ⟨[2], [⟨[], -1, [], []⟩, ⟨[0xaa], 0, [], []⟩], [⟨10, some [7]⟩]⟩

/-! ## Addresses and coinbase transactions (`wallet.go`, `transaction.go`) -/

/-- The constant `version` of `wallet.go`. -/
def version : Nat := 0

/-- The constant `addressChecksumLen`. -/
def addressChecksumLen : Nat := 4

/-- Go `checksum(payload)`: the first four bytes of the double digest.  The slice
expression `hashHashVP[0:4]` needs four bytes, which every SHA-256 digest
has. -/
def checksum (H : Bytes → Bytes) (payload : Bytes) : Res Bytes :=
  if (H (H payload)).length < 4 then .panic else .ok ((H (H payload)).take 4)

/-- Go `GetAddress(pubKeyBytes)`.  `b58e` is `Base58Encode`, which is not among
the sources. -/
def GetAddress (H R : Bytes → Bytes) (b58e : Bytes → Bytes) (pubKeyBytes : Bytes) :
    Res Bytes :=
  let hashRipemd160 := HashPubKey H R pubKeyBytes
  let versionedPayload := [version] ++ hashRipemd160
  (checksum H versionedPayload).bind fun cs => .ok (b58e (versionedPayload ++ cs))

/-- Go `GetStringAddress(pubKeyBytes)`, the conversion `string(pubKeyBytes)`: a Go
string is its bytes, here one character for each byte. -/
def GetStringAddress (pubKeyBytes : Bytes) : String :=
  String.mk (pubKeyBytes.map Char.ofNat)

/-- Go `ValidateAddress(address)`.  As in `GetPubKeyHashFromAddress`, `b58 address`
is `Base58Decode([]byte(address))` and the slice expression
`addressDecoded[1:length-addressChecksumLen]` panics when fewer than five
bytes were decoded. -/
def ValidateAddress (H : Bytes → Bytes) (b58 : String → Bytes) (address : String) :
    Res Bool :=
  let addressDecoded := b58 address
  let length := addressDecoded.length
  if length < 5 then .panic
  else
    let pubKeyHash := (addressDecoded.take (length - addressChecksumLen)).drop 1
    let checksumExtracted := addressDecoded.drop (length - addressChecksumLen)
    (checksum H ([version] ++ pubKeyHash)).bind fun cs =>
      .ok (decide (checksumExtracted = cs))

/-- Go `NewCoinbaseTX(to, data)`: the transaction and the error returned.  The
string `data` is given by its bytes; `randomString n` is the result of
`RandomString(n)`, which is not among the sources. -/
def NewCoinbaseTX (H : Bytes → Bytes) (ser : Transaction → Bytes) (b58 : String → Bytes)
    (randomString : Nat → Bytes) (toAddress : String) (data : Bytes) :
    Res (Transaction × Option GoError) :=
  let data1 := if data = [] then randomString 10 else data
  let tXInput : TXInput := ⟨[], -1, [], data1⟩
  (GetPubKeyHashFromAddress b58 toAddress).bind fun pubKeyHash =>
    let txOutput : TXOutput := ⟨BlockReward, some pubKeyHash⟩
    let tx : Transaction := ⟨[], [tXInput], [txOutput]⟩
    .ok ({ tx with ID := tx.Hash H ser }, none)

/-- Go `bc.VerifyTransaction(tx)` with the caller's side made explicit: the method
builds a fresh map with `FindUTXOSet` and a copy of the transaction with
`TrimmedCopy`, and assigns to neither `bc.blocks` nor a block.  The first
component is the chain after the call. -/
def Blockchain.VerifyTransactionCall (ser : Transaction → Bytes)
    (ecv : Nat → Nat → Bytes → Nat → Nat → Bool) (bc : Blockchain) (tx : Transaction) :
    Blockchain × Res Bool :=
  (bc, bc.VerifyTransaction ser ecv tx)

/-! ## Balances (`jun_account.go`) -/

/-- Inner loop of `GetBalance` over the outputs stored under one transaction;
the sum is a Go `int`. -/
def balanceInner (pubKeyHash : Bytes) : List (Int × TXOutput) → Int → Int
  | [], accumulatedBalance => accumulatedBalance
  | (_, txOutput) :: rest, accumulatedBalance =>
    if txOutput.IsLockedWithKey pubKeyHash then
      balanceInner pubKeyHash rest (wrapInt64 (accumulatedBalance + txOutput.Value))
    else balanceInner pubKeyHash rest accumulatedBalance

/-- The two loops of `GetBalance` on the set `u` for the key hash
`pubKeyHash`. -/
def lockedBalance (u : UTXOSet) (pubKeyHash : Bytes) : Int :=
  u.foldl (fun accumulatedBalance e => balanceInner pubKeyHash e.2 accumulatedBalance) 0

/-- Go `acc.GetBalance()`. -/
def Account.GetBalance (H R : Bytes → Bytes) (acc : Account) : Int :=
  lockedBalance acc.Blockchain.FindUTXOSet (HashPubKey H R acc.PubKeyBytes)

/-! ## Sums over maps -/

/-- The sum of `f` over the values of a map. -/
def assocSum {K V : Type} (f : V → Int) (m : List (K × V)) : Int :=
  (m.map fun e => f e.2).sum

/-- The value of an output for the key hash `pubKeyHash`: its `Value` when it
is locked with it, nothing otherwise. -/
def lockedValue (pubKeyHash : Bytes) (txOutput : TXOutput) : Int :=
  if txOutput.IsLockedWithKey pubKeyHash then txOutput.Value else 0

/-- The exact total of the values of the outputs of `u` locked with
`pubKeyHash`. -/
def lockedTotal (u : UTXOSet) (pubKeyHash : Bytes) : Int :=
  assocSum (fun inner => assocSum (lockedValue pubKeyHash) inner) u

/-- The listing `u` is a map of maps whose inner keys are output indexes: no
outer key and, under an outer key, no inner key is listed twice, and no inner
key is negative. -/
def wellFormed (u : UTXOSet) : Bool :=
  decide (u.map fun e => e.1).Nodup &&
    u.all fun e => decide (e.2.map fun p => p.1).Nodup && e.2.all fun p => decide (0 ≤ p.1)

/-- The input loop of `Update` for one transaction. -/
def spendAll (tx : Transaction) (u : UTXOSet) : UTXOSet :=
  tx.Vin.foldl
    (fun u txInput => if tx.IsCoinbase = .ok true then u else spendInput u txInput) u

/-! ## The curve P-256 -/

/-- The prime `P` of `elliptic.P256()` (FIPS 186-4, D.1.2.3). -/
def p256P : Nat :=
  115792089210356248762697446949407573530086143415290314195533631308867097853951

/-- The coefficient `B` of `elliptic.P256()`. -/
def p256B : Nat :=
  41058363725152142129326129780047268409114441015993725554835256314039467401291

/-- The point `(x, y)` is on the curve `y² = x³ - 3x + B` over the field of
`P` elements. -/
def onP256 (x y : Nat) : Bool :=
  decide (x < p256P) && decide (y < p256P) &&
    decide (y * y % p256P = (x * x * x + (p256P - 3) * x + p256B) % p256P)

/-- Go `NewTXOutput(value, address)`. -/
def NewTXOutput (b58 : String → Bytes) (value : Int) (address : String) : Res TXOutput :=
  (GetPubKeyHashFromAddress b58 address).bind fun pubKeyHash =>
    .ok ⟨value, some pubKeyHash⟩

/-- The listing `u` is a map of maps: no outer key and, under an outer key, no
inner key is listed twice. -/
def isMap (u : UTXOSet) : Prop :=
  (u.map fun e => e.1).Nodup ∧ ∀ e ∈ u, (e.2.map fun p => p.1).Nodup

/-! ## Further data to run the model on -/

/-- First coordinate of the point `43 · G` of P-256: it takes 32 bytes. -/
def point43X : Nat :=
  68940400736695912148960890999721852106142292820061709409680925607912859161229

/-- Second coordinate of the point `43 · G` of P-256: it takes 31 bytes. -/
def point43Y : Nat :=
  107423973961867739917642914452788810230878776317276661678353934116262542999

/-- A 20-byte stand-in for RIPEMD-160. -/
def toyRipemd (b : Bytes) : Bytes :=
  (toyHash b).take 20

/-- The set in which the key with bytes `pubKeyToByte 2 3` owns one output of
value `BlockReward`. -/
def transferSet : UTXOSet :=
  [("aa", [(0, ⟨BlockReward, some (HashPubKey toyHash toyRipemd (pubKeyToByte 2 3))⟩)])]

/-- A peer whose replica holds `replayGenesis`. -/
def replayPeer : Account :=
  ⟨"b", 1, [4, 4], "addr", 0, ⟨[replayGenesis]⟩, [], 0, []⟩

/-- The transaction that `NewUTXOTransaction` builds on `transferSet` to pay 5
under the stand-ins `toyHash`, `toyRipemd`, `toySer` and `toyDecode`. -/
def transferSample : Transaction :=
  ⟨1 :: 199 :: List.replicate 30 30, [⟨[0xaa], 0, [], pubKeyToByte 2 3⟩],
    [⟨5, some [97, 98, 99, 100]⟩, ⟨5, some (HashPubKey toyHash toyRipemd (pubKeyToByte 2 3))⟩]⟩

/-- The transaction `transferSample` as `Sign` leaves it when `ecdsa.Sign`
produces the pair `(5, 6)`. -/
def transferSigned : Transaction :=
  { transferSample with Vin := [⟨[0xaa], 0, [5, 6], pubKeyToByte 2 3⟩] }

/-- A coinbase that pays `BlockReward` to the key of `transferSet`. -/
def rewardSample : Transaction :=
  ⟨[0xcb], [⟨[], -1, [], [1]⟩],
    [⟨BlockReward, some (HashPubKey toyHash toyRipemd (pubKeyToByte 2 3))⟩]⟩

/-! ## Inputs and the values they name -/

/-- One input for every output of `u` that is locked with `pubKeyHash`, as
`NewUTXOTransaction` writes it: the bytes of the outer key, the inner key, no
signature and the key `pubKey`. -/
def lockedInputs (h2b : String → Bytes) (pubKey pubKeyHash : Bytes) (u : UTXOSet) :
    List TXInput :=
  u.flatMap fun e =>
    (e.2.filter fun p => p.2.IsLockedWithKey pubKeyHash).map fun p =>
      (⟨h2b e.1, p.1, [], pubKey⟩ : TXInput)

/-- The values of the entries `u[hex(Txid)][OutIdx]` that the inputs of `tx`
name, one for each input. -/
def referencedValues (u : UTXOSet) (tx : Transaction) : List Int :=
  tx.Vin.map fun txInput => (utxoAt u (hex txInput.Txid) txInput.OutIdx).Value

/-- The values of the outputs of `tx`. -/
def outputValues (tx : Transaction) : List Int :=
  tx.Vout.map fun txOutput => txOutput.Value

/-! ## Inputs of a block -/

/-- The pairs `(Txid, OutIdx)` named by the inputs of the transactions of the
list that are not coinbases for `IsCoinbase`, in order. -/
def spentKeys (txs : List Transaction) : List (Bytes × Int) :=
  txs.flatMap fun tx =>
    if tx.IsCoinbase = .ok true then []
    else tx.Vin.map fun txInput => (txInput.Txid, txInput.OutIdx)

/-! ## Looking transactions up and signing on a replica (`block.go`, `blockchain.go`) -/

/-- Go `b.FindTransaction(ID)`: the first transaction of the block whose `ID` has
the bytes of `ID`, and the error returned. -/
def Block.FindTransaction (b : Block) (ID : Bytes) : Option Transaction × Option GoError :=
  match b.Transactions.find? fun tx => decide (tx.ID = ID) with
  | some tx => (some tx, none)
  | none => (none, some .ErrTxNotFound)

/-- Go `bc.FindTransaction(ID)`: the result of the first block in which
`Block.FindTransaction` returns no error. -/
def Blockchain.FindTransaction (bc : Blockchain) (ID : Bytes) :
    Option Transaction × Option GoError :=
  match bc.blocks.find? fun block => decide ((block.FindTransaction ID).2 = none) with
  | some block => ((block.FindTransaction ID).1, none)
  | none => (none, some .ErrTxNotFound)

/-- Go `bc.GetInputTXsOf(tx)`: the map from `Bytes2Hex(input.Txid)` to the
transaction found for it, for the inputs for which one is found. -/
def Blockchain.GetInputTXsOf (bc : Blockchain) (tx : Transaction) :
    Option (List (String × Transaction)) × Option GoError :=
  let txMap := tx.Vin.foldl
    (fun txMap input =>
      match bc.FindTransaction input.Txid with
      | (some found, none) => mapSet txMap (Bytes2Hex input.Txid) found
      | _ => txMap) ([] : List (String × Transaction))
  if txMap.length = 0 then (none, some .ErrTxNotFound) else (some txMap, none)

/-- Go `bc.SignTransaction(tx, privKey)`: the transaction afterwards, which is
signed in place through the pointer, and the error returned.  `sgn` is
`ecdsa.Sign` with the private key. -/
def Blockchain.SignTransaction (H R : Bytes → Bytes) (ser : Transaction → Bytes)
    (sgn : Bytes → Option (Nat × Nat)) (bc : Blockchain) (tx : Transaction) :
    Res (Transaction × Option GoError) :=
  match bc.GetInputTXsOf tx with
  | (_, some errFindPrevTXs) => .ok (tx, some errFindPrevTXs)
  | (prevTXs, none) =>
    (tx.Sign H R ser sgn (prevTXs.getD [])).bind fun signed =>
      match signed.2 with
      | some errSign => .ok (signed.1, some errSign)
      | none => .ok (signed.1, none)

/-! ## Peers and the orchestrator (`jun_account.go`, `jun_users.go`) -/

/-- A buffered channel of `*Block` (`make(chan *Block, 8)` in `NewAccount`): its
capacity and the blocks waiting in it, oldest first; `none` is the nil
pointer. -/
structure Chan where
  capacity : Nat
  buffer : List (Option Block)
deriving DecidableEq, Repr

/-- The channels of the program, each under the number that stands for the
reference to it.  A number that is not listed is the nil channel. -/
abbrev Channels := List (Nat × Chan)

/-- Go `channel <- block` while no receiver is taking blocks: the block joins the
buffer when there is room; on a full channel and on the nil channel the send
blocks, and the outcome `timeout` stands for the call that does not return. -/
def chanSend (chans : Channels) (channel : Nat) (block : Option Block) : Res Channels :=
  match mapGet chans channel with
  | none => .timeout
  | some ch =>
    if ch.buffer.length < ch.capacity then
      .ok (mapSet chans channel { ch with buffer := ch.buffer ++ [block] })
    else .timeout

/-- The loop of `BroadcastBlock` over the entries of `ChannelMap`, in the order
in which the run time visits the map. -/
def broadcastLoop (block : Option Block) : List (String × Nat) → Channels → Res Channels
  | [], chans => .ok chans
  | e :: rest, chans => (chanSend chans e.2 block).bind fun chans1 =>
      broadcastLoop block rest chans1

/-- Go `acc.BroadcastBlock(block)`: the channels afterwards. -/
def Account.BroadcastBlock (acc : Account) (chans : Channels) (block : Option Block) :
    Res Channels :=
  broadcastLoop block acc.ChannelMap chans

/-- Go `acc.ProduceTransferTx(to, amount)`: the transaction and the error
returned.  `sgn key` is `ecdsa.Sign` with the private key `key`. -/
def Account.ProduceTransferTx (H R : Bytes → Bytes) (ser : Transaction → Bytes)
    (sgn : Nat → Bytes → Option (Nat × Nat)) (b58 : String → Bytes) (h2b : String → Bytes)
    (order : List (String × List Int) → List (String × List Int))
    (acc : Account) (toAddress : String) (amount : Int) :
    Res (Option Transaction × Option GoError) :=
  let utxos := acc.Blockchain.FindUTXOSet
  (NewUTXOTransaction H R ser b58 h2b order acc.PubKeyBytes toAddress amount utxos).bind
    fun built =>
      match built with
      | (_, some err) => .ok (none, some err)
      | (none, none) => .panic
      | (some tx, none) =>
        (acc.Blockchain.SignTransaction H R ser (sgn acc.PrivateKey) tx).bind fun signed =>
          match signed.2 with
          | some err => .ok (none, some err)
          | none => .ok (some signed.1, none)

/-- Go `acc.MineTransaction(tx)`: the account afterwards (its replica is updated
through the pointer) and the block returned, `none` for nil.  The errors of
`NewCoinbaseTX` and `MineBlock` are printed and dropped. -/
def Account.MineTransaction (H : Bytes → Bytes) (ser : Transaction → Bytes)
    (ecv : Nat → Nat → Bytes → Nat → Nat → Bool) (b58 : String → Bytes)
    (randomString : Nat → Bytes) (now : Int) (fuel : Nat) (acc : Account)
    (tx : Transaction) : Res (Account × Option Block) :=
  (acc.Blockchain.VerifyTransaction ser ecv tx).bind fun verified =>
    if !verified then .ok (acc, none)
    else
      (NewCoinbaseTX H ser b58 randomString acc.Address []).bind fun coinbase =>
        (acc.Blockchain.MineBlock H ser ecv now fuel [coinbase.1, tx]).bind fun mined =>
          .ok ({ acc with Blockchain := mined.1 }, mined.2.1)

/-- Go `type Users struct`. -/
structure Users where
  UsersMap : List (String × Account)
deriving DecidableEq, Repr

/-- Go `u.Transfer(from, to, miner, amount)`: the peers and the channels
afterwards, and the error returned.  `u.UsersMap[name]` of a name that is not
in the map is the zero `Account`, whose `Blockchain` is nil and whose `Address`
is empty: calling `ProduceTransferTx` or `MineTransaction` on it is a nil
dereference.  Each peer holds its own replica, as `NewUsers` sets them up, so
the replica that `MineTransaction` extends is the miner's alone. -/
def Users.Transfer (H R : Bytes → Bytes) (ser : Transaction → Bytes)
    (ecv : Nat → Nat → Bytes → Nat → Nat → Bool)
    (sgn : Nat → Bytes → Option (Nat × Nat)) (b58 : String → Bytes) (h2b : String → Bytes)
    (order : List (String × List Int) → List (String × List Int))
    (randomString : Nat → Bytes) (now : Int) (fuel : Nat)
    (u : Users) (chans : Channels) (sender recipient miner : String) (amount : Int) :
    Res (Users × Channels × Option GoError) :=
  match mapGet u.UsersMap sender with
  | none => .panic
  | some senderAcc =>
    let toAddress := ((mapGet u.UsersMap recipient).map fun acc => acc.Address).getD ""
    (senderAcc.ProduceTransferTx H R ser sgn b58 h2b order toAddress amount).bind fun produced =>
      match produced with
      | (_, some err) => .ok (u, chans, some err)
      | (none, none) => .panic
      | (some tx, none) =>
        match mapGet u.UsersMap miner with
        | none => .panic
        | some minerAcc =>
          (minerAcc.MineTransaction H ser ecv b58 randomString now fuel tx).bind fun mined =>
            (mined.1.BroadcastBlock chans mined.2).bind fun chans1 =>
              .ok (⟨mapSet u.UsersMap miner mined.1⟩, chans1, none)

/-! ## Three peers to run the model on -/

/-- A coinbase with identifier `aa` that pays `BlockReward` to the key with
bytes `pubKeyToByte 2 3`. -/
def ownerCoinbase : Transaction :=
  ⟨[0xaa], [⟨[], -1, [], [1]⟩],
    [⟨BlockReward, some (HashPubKey toyHash toyRipemd (pubKeyToByte 2 3))⟩]⟩

/-- The genesis block with `ownerCoinbase`, mined under `toyHash`. -/
def ownerGenesis : Block :=
  { NewBlock 1 [ownerCoinbase] [] with Nonce := 1, Hash := 0 :: 20 :: List.replicate 30 56 }

/-- The peer `a`, who owns the output of `ownerGenesis`; its channel is number 1. -/
def peerA : Account :=
  ⟨"a", 7, pubKeyToByte 2 3, "1aaaaaaaa", 0, ⟨[ownerGenesis]⟩,
    [("b", "1abcdefgh"), ("c", "1cccccccc")], 1, [("b", 2), ("c", 3)]⟩

/-- The peer `b`; its channel is number 2. -/
def peerB : Account :=
  ⟨"b", 8, pubKeyToByte 4 5, "1abcdefgh", 0, ⟨[ownerGenesis]⟩,
    [("a", "1aaaaaaaa"), ("c", "1cccccccc")], 2, [("a", 1), ("c", 3)]⟩

/-- The peer `c`; its channel is number 3. -/
def peerC : Account :=
  ⟨"c", 9, pubKeyToByte 6 7, "1cccccccc", 0, ⟨[ownerGenesis]⟩,
    [("b", "1abcdefgh"), ("a", "1aaaaaaaa")], 3, [("b", 2), ("a", 1)]⟩

/-- Three peers set up as `NewUsers` does: the same genesis block in three
replicas, and each peer holding the channels of the other two. -/
def sampleUsers : Users :=
  ⟨[("a", peerA), ("b", peerB), ("c", peerC)]⟩

/-- The three channels of `sampleUsers`, of capacity 8 and empty. -/
def sampleChannels : Channels :=
  [(1, ⟨8, []⟩), (2, ⟨8, []⟩), (3, ⟨8, []⟩)]

/-! ## The UTXO set with the inner maps as references

In Go the values of `map[string]map[int]TXOutput` are references: two outer keys
can hold the same inner map, and `Update` changes inner maps in place.  `UTXOSet`
above lists under each outer key the contents of its inner map and so stands
for the sets in which no inner map is shared; `UTXORefs` keeps the references
and covers every value of the Go type. -/

/-- Go `map[string]map[int]TXOutput` with its references: `outer` gives the
reference stored under each outer key, `none` for the nil map, and `heap` gives
the contents of the inner map behind each reference.  Two outer keys that hold
the same reference share one inner map. -/
structure UTXORefs where
  outer : List (String × Option Nat)
  heap : List (Nat × List (Int × TXOutput))
deriving DecidableEq, Repr

/-- The value `u[k]` with the comma-ok form, seen through the reference: the
contents of the inner map stored under `k`, empty for the nil map. -/
def UTXORefs.entry (s : UTXORefs) (k : String) : Option (List (Int × TXOutput)) :=
  (mapGet s.outer k).map fun r =>
    match r with
    | some p => (mapGet s.heap p).getD []
    | none => []

/-- The contents of `u[k]`; a missing outer key reads as the nil map. -/
def UTXORefs.inner (s : UTXORefs) (k : String) : List (Int × TXOutput) :=
  (s.entry k).getD []

/-- Go `u[k][i]` with the comma-ok form. -/
def UTXORefs.get (s : UTXORefs) (k : String) (i : Int) : Option TXOutput :=
  mapGet (s.inner k) i

/-- The expression `u[k][i]`: a missing key reads as the zero output. -/
def UTXORefs.read (s : UTXORefs) (k : String) (i : Int) : TXOutput :=
  (s.get k i).getD zeroTXOutput

/-- A reference that is not in use: what `make(map[int]TXOutput)` returns. -/
def UTXORefs.fresh (s : UTXORefs) : Nat :=
  ((s.heap.map fun e => e.1) ++ s.outer.filterMap fun e => e.2).foldr max 0 + 1

/-- Body of the input loop of `Update` for one input of a transaction that is
not a coinbase: `delete(u[k], i)` acts on the inner map behind the reference,
for every outer key that holds it. -/
def UTXORefs.spendInput (s : UTXORefs) (txInput : TXInput) : UTXORefs :=
  let txInputTxidString := hex txInput.Txid
  if s.read txInputTxidString txInput.OutIdx ≠ zeroTXOutput then
    let s1 : UTXORefs :=
      match mapGet s.outer txInputTxidString with
      | some (some p) =>
        ⟨s.outer, mapSet s.heap p (mapDelete ((mapGet s.heap p).getD []) txInput.OutIdx)⟩
      | _ => s
    if (s1.inner txInputTxidString).length = 0 then
      ⟨mapDelete s1.outer txInputTxidString, s1.heap⟩
    else s1
  else s

/-- Body of the output loop of `Update`: a new inner map is made when `u[k]` is
nil, that is when the key is missing or holds the nil map. -/
def UTXORefs.addOutput (txIDString : String) (s : UTXORefs) (index : Nat)
    (txOutput : TXOutput) : UTXORefs :=
  let s1 : UTXORefs :=
    match mapGet s.outer txIDString with
    | some (some _) => s
    | _ => ⟨mapSet s.outer txIDString (some s.fresh), mapSet s.heap s.fresh []⟩
  match mapGet s1.outer txIDString with
  | some (some p) =>
    ⟨s1.outer, mapSet s1.heap p (mapSet ((mapGet s1.heap p).getD []) (index : Int) txOutput)⟩
  | _ => s1

/-- The output loop of `Update`. -/
def UTXORefs.addOutputs (txIDString : String) : List TXOutput → Nat → UTXORefs → UTXORefs
  | [], _, s => s
  | txOutput :: rest, index, s =>
    UTXORefs.addOutputs txIDString rest (index + 1) (s.addOutput txIDString index txOutput)

/-- Body of the transaction loop of `Update`. -/
def UTXORefs.updateTx (s : UTXORefs) (tx : Transaction) : UTXORefs :=
  let s1 := tx.Vin.foldl
    (fun s txInput => if tx.IsCoinbase = .ok true then s else s.spendInput txInput) s
  UTXORefs.addOutputs (hex tx.ID) tx.Vout 0 s1

/-- Go `u.Update(transactions)` on a set with its references. -/
def UTXORefs.Update (s : UTXORefs) (transactions : List Transaction) : UTXORefs :=
  transactions.foldl UTXORefs.updateTx s

/-- Go `bc.FindUTXOSet()` with the references: the set starts as
`make(UTXOSet)`. -/
def UTXORefs.FindUTXOSet (bc : Blockchain) : UTXORefs :=
  bc.blocks.foldl (fun uTXOSet block => uTXOSet.Update block.Transactions) ⟨[], []⟩

/-- No two outer keys hold the same inner map. -/
def UTXORefs.unshared (s : UTXORefs) : Prop :=
  ∀ k j p, mapGet s.outer k = some (some p) → mapGet s.outer j = some (some p) → k = j

/-- No outer key is mapped to an empty inner map; the nil map is empty. -/
def UTXORefs.noEmpty (s : UTXORefs) : Prop :=
  ∀ k, s.entry k ≠ some []

/-- The listing `u` gives under every outer key the contents that `s` holds
under it. -/
def UTXORefs.agrees (s : UTXORefs) (u : UTXOSet) : Prop :=
  ∀ k, s.entry k = mapGet u k

/-- The set `s` as a listing of contents. -/
def UTXORefs.toSet (s : UTXORefs) : UTXOSet :=
  s.outer.map fun e =>
    (e.1, match e.2 with
      | some p => (mapGet s.heap p).getD []
      | none => [])

/-- Two outer keys `aa` and `bb` that hold one inner map, which is empty. -/
def sharedEmpty : UTXORefs :=
  ⟨[("aa", some 1), ("bb", some 1)], [(1, [])]⟩

/-- A transaction, not a coinbase, whose input names output `0` of `bb`. -/
def spendsBB : Transaction :=
  ⟨[1], [⟨[0xbb], 0, [], []⟩], []⟩

/-- Two outer keys `aa` and `bb` that hold one inner map with the one inner
key 5. -/
def sharedFive : UTXORefs :=
  ⟨[("aa", some 1), ("bb", some 1)], [(1, [(5, ⟨10, some [7]⟩)])]⟩

/-- A transaction, not a coinbase, whose input names output `5` of `bb`. -/
def spendsBBFive : Transaction :=
  ⟨[1], [⟨[0xbb], 5, [], []⟩], []⟩

/-- Two outer keys with an inner map each. -/
def unsharedFive : UTXORefs :=
  ⟨[("aa", some 1), ("bb", some 2)], [(1, [(5, ⟨10, some [7]⟩)]), (2, [(5, ⟨10, some [7]⟩)])]⟩

/-! ## Further stand-ins and samples -/

/-- A stand-in for `ecdsa.Verify` that, like it, rejects a signature in which
`r` or `s` is zero, as it is for an empty `Signature`; otherwise it accepts
when the signature halves repeat the key halves. -/
def strictVerify (x y : Nat) (_payload : Bytes) (r s : Nat) : Bool :=
  decide (0 < r ∧ 0 < s ∧ r = x ∧ s = y)

/-- A transaction that spends output `0` of the coinbase `aa` and pays 10 to
the key hash `[8]`; its input carries a key and a signature that `strictVerify`
accepts. -/
def signedOne : Transaction :=
  ⟨[1], [⟨[0xaa], 0, [2, 3], [2, 3]⟩], [⟨10, some [8]⟩]⟩

/-- A transaction that spends output `0` of the coinbase `aa` as well and pays
10 to the key hash `[9]`. -/
def signedTwo : Transaction :=
  ⟨[2], [⟨[0xaa], 0, [2, 3], [2, 3]⟩], [⟨10, some [9]⟩]⟩

/-- The block that `MineBlock` builds on `replayGenesis` from `signedOne`. -/
def signedBlock : Block :=
  { NewBlock 2 [signedOne] replayGenesis.Hash with
    Nonce := 1, Hash := 0 :: 120 :: List.replicate 30 88 }

/-- The block that `MineBlock` builds on `replayGenesis` from `signedOne` and
`signedTwo`. -/
def signedTwiceBlock : Block :=
  { NewBlock 2 [signedOne, signedTwo] replayGenesis.Hash with
    Nonce := 2, Hash := 0 :: 212 :: List.replicate 30 88 }

/-- The block that `MineBlock` builds on `replayGenesis` from `signedOne`
followed by the coinbase `aa`, which is already in `replayGenesis`. -/
def signedReplayBlock : Block :=
  { NewBlock 2 [signedOne, sampleCoinbase 170] replayGenesis.Hash with
    Nonce := 2, Hash := 0 :: 248 :: List.replicate 30 88 }

/-- A set whose one output, owned by the key with bytes `pubKeyToByte 2 3`, is
stored under the inner key `-1`. -/
def negIndexSet : UTXOSet :=
  [("aa", [(-1, ⟨BlockReward, some (HashPubKey toyHash toyRipemd (pubKeyToByte 2 3))⟩)])]

/-- The transaction that `NewUTXOTransaction` builds on `negIndexSet` to pay 5
under the stand-ins `toyHash`, `toyRipemd`, `toySer` and `toyDecode`. -/
def negIndexTx : Transaction :=
  ⟨1 :: 199 :: List.replicate 30 30, [⟨[0xaa], -1, [], pubKeyToByte 2 3⟩],
    [⟨5, some [97, 98, 99, 100]⟩, ⟨5, some (HashPubKey toyHash toyRipemd (pubKeyToByte 2 3))⟩]⟩

/-- A coinbase that pays `BlockReward` to the key hash `[9]`. -/
def otherReward : Transaction :=
  ⟨[0xcb], [⟨[], -1, [], [1]⟩], [⟨BlockReward, some [9]⟩]⟩

/-! # Theorems -/

set_option maxRecDepth 100000

/-! ## Merkle tree: the construction and the proof round trip -/

theorem pairLevel_cons (H : Bytes → Bytes) (l r : Nat) (rest : List Nat) (hp : Heap)
    (parents : List Nat) :
    pairLevel H (l :: r :: rest) hp parents
      = pairLevel H rest (pairStep H hp l r) (parents ++ [hp.size]) := rfl

theorem pairStep_size (H : Bytes → Bytes) (hp : Heap) (l r : Nat) :
    (pairStep H hp l r).size = hp.size + 1 := rfl

theorem pairStep_Hash (H : Bytes → Bytes) (hp : Heap) (l r a : Nat) :
    ((pairStep H hp l r).node a).Hash
      = if a = hp.size then H ((hp.node l).Hash ++ (hp.node r).Hash) else (hp.node a).Hash := by
  simp only [pairStep, Heap.setParent, Heap.alloc]
  split_ifs <;> simp_all

theorem pairStep_Left (H : Bytes → Bytes) (hp : Heap) (l r a : Nat) :
    ((pairStep H hp l r).node a).Left = if a = hp.size then some l else (hp.node a).Left := by
  simp only [pairStep, Heap.setParent, Heap.alloc]
  split_ifs <;> simp_all

theorem pairStep_Right (H : Bytes → Bytes) (hp : Heap) (l r a : Nat) :
    ((pairStep H hp l r).node a).Right = if a = hp.size then some r else (hp.node a).Right := by
  simp only [pairStep, Heap.setParent, Heap.alloc]
  split_ifs <;> simp_all

theorem pairStep_Parent (H : Bytes → Bytes) (hp : Heap) (l r a : Nat) :
    ((pairStep H hp l r).node a).Parent
      = if a = l ∨ a = r then some hp.size
        else if a = hp.size then none else (hp.node a).Parent := by
  simp only [pairStep, Heap.setParent, Heap.alloc]
  split_ifs <;> simp_all

theorem pairStep_LinksOk (H : Bytes → Bytes) (hp : Heap) (l r : Nat)
    (hl : l < hp.size) (hr : r < hp.size) (hinv : LinksOk H hp) :
    LinksOk H (pairStep H hp l r) := by
  intro p q hp_lt hpar
  rw [pairStep_size] at hp_lt
  rw [pairStep_Parent] at hpar
  by_cases hlr : p = l ∨ p = r
  · rw [if_pos hlr] at hpar
    have hq : q = hp.size := by injection hpar with h; exact h.symm
    subst hq
    refine ⟨by rw [pairStep_size]; omega, by rcases hlr with h | h <;> omega, l, r, ?_, ?_, hl, hr,
      ?_, ?_⟩
    · rw [pairStep_Left, if_pos rfl]
    · rw [pairStep_Right, if_pos rfl]
    · rw [pairStep_Hash, if_pos rfl, pairStep_Hash, if_neg (by omega), pairStep_Hash,
        if_neg (by omega)]
    · rcases hlr with h | h
      · left; rw [h]
      · right; rw [h]
  · rw [if_neg hlr] at hpar
    by_cases hps : p = hp.size
    · rw [if_pos hps] at hpar; exact absurd hpar (by simp)
    · rw [if_neg hps] at hpar
      have hp_lt' : p < hp.size := by omega
      obtain ⟨hq, hpq, l', r', hL, hR, hl', hr', hH, hor⟩ := hinv p q hp_lt' hpar
      refine ⟨by rw [pairStep_size]; omega, hpq, l', r', ?_, ?_, hl', hr', ?_, ?_⟩
      · rw [pairStep_Left, if_neg (by omega)]; exact hL
      · rw [pairStep_Right, if_neg (by omega)]; exact hR
      · rw [pairStep_Hash, if_neg (by omega), pairStep_Hash, if_neg (by omega), pairStep_Hash,
          if_neg (by omega)]
        exact hH
      · rw [pairStep_Hash, if_neg (by omega), pairStep_Hash, if_neg (by omega), pairStep_Hash,
          if_neg (by omega)]
        exact hor

theorem pairStep_TopsIn (H : Bytes → Bytes) (hp : Heap) (l r : Nat) (rest parents : List Nat)
    (htops : TopsIn hp (l :: r :: rest ++ parents)) :
    TopsIn (pairStep H hp l r) (rest ++ (parents ++ [hp.size])) := by
  intro p hp_lt hpar
  rw [pairStep_size] at hp_lt
  rw [pairStep_Parent] at hpar
  by_cases hlr : p = l ∨ p = r
  · rw [if_pos hlr] at hpar; exact absurd hpar (by simp)
  · rw [if_neg hlr] at hpar
    by_cases hps : p = hp.size
    · simp [hps]
    · rw [if_neg hps] at hpar
      have hmem := htops p (by omega) hpar
      simp only [List.cons_append, List.mem_cons, List.mem_append] at hmem
      simp only [List.mem_append, List.mem_singleton]
      rcases hmem with h | h | h | h
      · exact absurd (Or.inl h) hlr
      · exact absurd (Or.inr h) hlr
      · exact Or.inl h
      · exact Or.inr (Or.inl h)

/-- The pairing loop on a level of even length: it returns, and keeps the
invariants. -/
theorem pairLevel_spec (H : Bytes → Bytes) :
    ∀ (n : Nat) (rest : List Nat) (hp : Heap) (parents : List Nat),
      rest.length = 2 * n → (∀ t ∈ rest, t < hp.size) → (∀ t ∈ parents, t < hp.size) →
      LinksOk H hp → TopsIn hp (rest ++ parents) →
      ∃ hp1 parents1, pairLevel H rest hp parents = .ok (hp1, parents1) ∧
        LinksOk H hp1 ∧ TopsIn hp1 parents1 ∧ (∀ t ∈ parents1, t < hp1.size) ∧
        parents1.length = parents.length + n ∧ hp.size ≤ hp1.size ∧
        (∀ a, a < hp.size → (hp1.node a).Hash = (hp.node a).Hash) := by
  intro n
  induction n with
  | zero =>
    intro rest hp parents hlen _ hpar hinv htops
    have hnil : rest = [] := List.length_eq_zero.mp (by omega)
    subst hnil
    exact ⟨hp, parents, rfl, hinv, by simpa using htops, hpar, by simp, le_refl _,
      fun _ _ => rfl⟩
  | succ n ih =>
    intro rest hp parents hlen hrest hpar hinv htops
    match rest, hlen with
    | l :: r :: rest', hlen =>
      have hl : l < hp.size := hrest l (by simp)
      have hr : r < hp.size := hrest r (by simp)
      have hlen' : rest'.length = 2 * n := by simp at hlen; omega
      obtain ⟨hp1, parents1, hrun, h1, h2, h3, h4, h5, h6⟩ :=
        ih rest' (pairStep H hp l r) (parents ++ [hp.size]) hlen'
          (fun t ht => by rw [pairStep_size]; have := hrest t (by simp [ht]); omega)
          (fun t ht => by
            rw [pairStep_size]
            rcases List.mem_append.mp ht with h | h
            · have := hpar t h; omega
            · simp at h; omega)
          (pairStep_LinksOk H hp l r hl hr hinv)
          (pairStep_TopsIn H hp l r rest' parents htops)
      refine ⟨hp1, parents1, by rw [pairLevel_cons]; exact hrun, h1, h2, h3, ?_, ?_, ?_⟩
      · rw [h4]; simp; omega
      · rw [pairStep_size] at h5; omega
      · intro a ha
        rw [h6 a (by rw [pairStep_size]; omega), pairStep_Hash, if_neg (by omega)]

theorem setParent_Hash (hp : Heap) (p : Nat) (par : Option Nat) (a : Nat) :
    ((hp.setParent p par).node a).Hash = (hp.node a).Hash := by
  simp only [Heap.setParent]
  split_ifs <;> simp_all

theorem setParent_Left (hp : Heap) (p : Nat) (par : Option Nat) (a : Nat) :
    ((hp.setParent p par).node a).Left = (hp.node a).Left := by
  simp only [Heap.setParent]
  split_ifs <;> simp_all

theorem setParent_Right (hp : Heap) (p : Nat) (par : Option Nat) (a : Nat) :
    ((hp.setParent p par).node a).Right = (hp.node a).Right := by
  simp only [Heap.setParent]
  split_ifs <;> simp_all

theorem setParent_Parent (hp : Heap) (p : Nat) (par : Option Nat) (a : Nat) :
    ((hp.setParent p par).node a).Parent = if a = p then par else (hp.node a).Parent := by
  simp only [Heap.setParent]
  split_ifs <;> simp_all

theorem clearParent_LinksOk (H : Bytes → Bytes) (hp : Heap) (root : Nat)
    (hinv : LinksOk H hp) : LinksOk H (hp.setParent root none) := by
  intro p q hp_lt hpar
  rw [setParent_Parent] at hpar
  by_cases hpr : p = root
  · rw [if_pos hpr] at hpar; exact absurd hpar (by simp)
  · rw [if_neg hpr] at hpar
    obtain ⟨hq, hpq, l, r, hL, hR, hl, hr, hH, hor⟩ := hinv p q hp_lt hpar
    refine ⟨hq, hpq, l, r, ?_, ?_, hl, hr, ?_, ?_⟩
    · rw [setParent_Left]; exact hL
    · rw [setParent_Right]; exact hR
    · simp only [setParent_Hash]; exact hH
    · simp only [setParent_Hash]; exact hor

theorem clearParent_TopsIn (hp : Heap) (root : Nat) (htops : TopsIn hp [root]) :
    TopsIn (hp.setParent root none) [root] := by
  intro p hp_lt hpar
  rw [setParent_Parent] at hpar
  by_cases hpr : p = root
  · simp [hpr]
  · rw [if_neg hpr] at hpar
    exact htops p hp_lt hpar

/-- The level loop returns when the budget is at least the length of the
level, and the heap it returns has a single node without a parent. -/
theorem buildLevels_spec (H : Bytes → Bytes) :
    ∀ (fuel : Nat) (hp : Heap) (cur : List Nat),
      cur ≠ [] → cur.length ≤ fuel → (∀ t ∈ cur, t < hp.size) →
      LinksOk H hp → TopsIn hp cur →
      ∃ hp1 root, buildLevels H fuel hp cur = .ok (hp1, root) ∧
        LinksOk H hp1 ∧ TopsIn hp1 [root] ∧ root < hp1.size ∧ hp.size ≤ hp1.size ∧
        (∀ a, a < hp.size → (hp1.node a).Hash = (hp.node a).Hash) := by
  intro fuel
  induction fuel with
  | zero =>
    intro hp cur hne hlen
    have : cur = [] := List.length_eq_zero.mp (by omega)
    exact absurd this hne
  | succ fuel ih =>
    intro hp cur hne hlen hcur hinv htops
    by_cases hgt : cur.length > 1
    · have hlast : cur.getLast? = some (cur.getLast hne) := List.getLast?_eq_getLast cur hne
      have hlen1 : ∃ n, (if cur.length % 2 ≠ 0 then cur ++ (cur.getLast?).toList else cur).length
          = 2 * n ∧ 1 ≤ n ∧ n ≤ fuel := by
        by_cases hodd : cur.length % 2 ≠ 0
        · refine ⟨(cur.length + 1) / 2, ?_, by omega, by omega⟩
          rw [if_pos hodd, hlast]; simp; omega
        · refine ⟨cur.length / 2, ?_, by omega, by omega⟩
          rw [if_neg hodd]; omega
      obtain ⟨n, hn, hn1, hn2⟩ := hlen1
      have hmem : ∀ t ∈ (if cur.length % 2 ≠ 0 then cur ++ (cur.getLast?).toList else cur),
          t ∈ cur := by
        intro t ht
        by_cases hodd : cur.length % 2 ≠ 0
        · rw [if_pos hodd, hlast] at ht
          rcases List.mem_append.mp ht with h | h
          · exact h
          · simp at h; rw [h]; exact List.getLast_mem hne
        · rw [if_neg hodd] at ht; exact ht
      have hsub : ∀ t ∈ cur,
          t ∈ (if cur.length % 2 ≠ 0 then cur ++ (cur.getLast?).toList else cur) := by
        intro t ht
        by_cases hodd : cur.length % 2 ≠ 0
        · rw [if_pos hodd]; exact List.mem_append_left _ ht
        · rw [if_neg hodd]; exact ht
      obtain ⟨hp1, parents1, hrun, h1, h2, h3, h4, h5, h6⟩ :=
        pairLevel_spec H n _ hp [] hn (fun t ht => hcur t (hmem t ht)) (by simp) hinv
          (fun p hp_lt hpar => by
            rw [List.append_nil]; exact hsub p (htops p hp_lt hpar))
      have hne1 : parents1 ≠ [] := by
        intro h; rw [h] at h4; simp at h4; omega
      obtain ⟨hp2, root, hrun2, k1, k2, k3, k4, k5⟩ :=
        ih hp1 parents1 hne1 (by rw [h4]; simp; omega) h3 h1 h2
      refine ⟨hp2, root, ?_, k1, k2, k3, by omega, ?_⟩
      · simp only [buildLevels, if_pos hgt, hrun, Res.bind]
        exact hrun2
      · intro a ha
        rw [k5 a (by omega), h6 a ha]
    · match cur, hne with
      | [root], _ =>
        refine ⟨hp.setParent root none, root, ?_, clearParent_LinksOk H hp root hinv,
          clearParent_TopsIn hp root htops, hcur root (by simp), le_refl _, ?_⟩
        · simp [buildLevels]
        · intro a _; rw [setParent_Hash]
      | _ :: _ :: _, _ => simp at hgt

/-- The leaf loop: every datum gets a leaf carrying its digest, every node
allocated is listed, and no node has a parent yet. -/
theorem initLeafs_spec (H : Bytes → Bytes) :
    ∀ (data : List Bytes) (hp : Heap) (leafs : List Nat),
      (∀ a, (hp.node a).Parent = none) → (∀ t ∈ leafs, t < hp.size) →
      (∀ p, p < hp.size → p ∈ leafs) →
      (∀ a, ((initLeafs H data hp leafs).1.node a).Parent = none) ∧
      (∀ t ∈ (initLeafs H data hp leafs).2, t < (initLeafs H data hp leafs).1.size) ∧
      (∀ p, p < (initLeafs H data hp leafs).1.size → p ∈ (initLeafs H data hp leafs).2) ∧
      (initLeafs H data hp leafs).2.length = leafs.length + data.length ∧
      (∀ t ∈ leafs, t ∈ (initLeafs H data hp leafs).2 ∧
        ((initLeafs H data hp leafs).1.node t).Hash = (hp.node t).Hash) ∧
      (∀ d ∈ data, ∃ t ∈ (initLeafs H data hp leafs).2,
        ((initLeafs H data hp leafs).1.node t).Hash = H d) := by
  intro data
  induction data with
  | nil =>
    intro hp leafs h1 h2 h3
    exact ⟨h1, h2, h3, by simp [initLeafs], fun t ht => ⟨ht, rfl⟩, by simp⟩
  | cons value rest ih =>
    intro hp leafs h1 h2 h3
    have hstep : initLeafs H (value :: rest) hp leafs
        = initLeafs H rest (hp.alloc ⟨none, none, none, H value⟩).1 (leafs ++ [hp.size]) := rfl
    rw [hstep]
    obtain ⟨k1, k2, k3, k4, k5, k6⟩ :=
      ih (hp.alloc ⟨none, none, none, H value⟩).1 (leafs ++ [hp.size])
        (fun a => by simp only [Heap.alloc]; split_ifs <;> simp [h1])
        (fun t ht => by
          simp only [Heap.alloc]
          rcases List.mem_append.mp ht with h | h
          · have := h2 t h; omega
          · simp at h; omega)
        (fun p hp_lt => by
          simp only [Heap.alloc] at hp_lt
          by_cases hps : p = hp.size
          · simp [hps]
          · exact List.mem_append_left _ (h3 p (by omega)))
    refine ⟨k1, k2, k3, by rw [k4]; simp; omega, ?_, ?_⟩
    · intro t ht
      refine ⟨(k5 t (List.mem_append_left _ ht)).1, ?_⟩
      rw [(k5 t (List.mem_append_left _ ht)).2]
      have := h2 t ht
      simp only [Heap.alloc]
      rw [if_neg (by omega)]
    · intro d hd
      rcases List.mem_cons.mp hd with h | h
      · refine ⟨hp.size, (k5 hp.size (by simp)).1, ?_⟩
        rw [(k5 hp.size (by simp)).2, h]
        simp [Heap.alloc]
      · exact k6 d h

/-- The walk of `MakeMerkleProof` from a node carrying digest `st.hash`: it
ends at a node without a parent, and folding the recorded siblings over
`st.hash` as `VerifyProof` does gives the digest of that node. -/
theorem climb_spec (H : Bytes → Bytes) (hp : Heap) (hinv : LinksOk H hp) :
    ∀ (fuel : Nat) (st : ClimbState),
      st.targetNode < hp.size → (hp.node st.targetNode).Hash = st.hash →
      hp.size - st.targetNode < fuel →
      ∃ pr ix t, climb hp fuel st
          = .ok ⟨st.proof ++ pr, st.indexes ++ ix, t, (hp.node t).Hash⟩ ∧
        t < hp.size ∧ (hp.node t).Parent = none ∧
        verifyLoop H pr ix st.hash = .ok (hp.node t).Hash := by
  intro fuel
  induction fuel with
  | zero => intro st _ _ h; omega
  | succ fuel ih =>
    intro st hlt hhash hfuel
    cases hpar : (hp.node st.targetNode).Parent with
    | none =>
      refine ⟨[], [], st.targetNode, ?_, hlt, hpar, ?_⟩
      · simp only [climb, hpar, List.append_nil, hhash]
      · simp only [verifyLoop, hhash]
    | some q =>
      obtain ⟨hq, hpq, l, r, hL, hR, _, _, hH, hor⟩ := hinv st.targetNode q hlt hpar
      by_cases hleft : (hp.node l).Hash = st.hash
      · obtain ⟨pr, ix, t, hrun, ht, htp, hver⟩ :=
          ih ⟨st.proof ++ [(hp.node r).Hash], st.indexes ++ [rightNode], q, (hp.node q).Hash⟩
            hq rfl (by simp only; omega)
        refine ⟨(hp.node r).Hash :: pr, rightNode :: ix, t, ?_, ht, htp, ?_⟩
        · simp only [climb, hpar, hL, hR, if_pos hleft]
          rw [hrun]; simp
        · have hne : ¬ (rightNode = leftNode) := by decide
          simp only [verifyLoop, if_neg hne]
          rw [← hleft, ← hH]; exact hver
      · have hright : (hp.node r).Hash = st.hash := by
          rcases hor with h | h
          · exact absurd (h.trans hhash) hleft
          · exact h.trans hhash
        obtain ⟨pr, ix, t, hrun, ht, htp, hver⟩ :=
          ih ⟨st.proof ++ [(hp.node l).Hash], st.indexes ++ [leftNode], q, (hp.node q).Hash⟩
            hq rfl (by simp only; omega)
        refine ⟨(hp.node l).Hash :: pr, leftNode :: ix, t, ?_, ht, htp, ?_⟩
        · simp only [climb, hpar, hL, hR, if_neg hleft]
          rw [hrun]; simp
        · simp only [verifyLoop, if_true]
          rw [← hright, ← hH]; exact hver

/-- The tree built by `NewMerkleTree` on a non-empty list: the call returns,
every datum has a leaf, the links of the heap are sound and the root is the
only node without a parent. -/
theorem NewMerkleTree_spec (H : Bytes → Bytes) (data : List Bytes) (hne : data ≠ []) :
    ∃ T, NewMerkleTree H (some data) = .ok T ∧
      (∀ d ∈ data, ∃ leaf ∈ T.Leafs, (T.heap.node leaf).Hash = H d) ∧
      (∀ leaf ∈ T.Leafs, leaf < T.heap.size) ∧
      LinksOk H T.heap ∧ TopsIn T.heap [T.RootNode] := by
  rcases hinit : initLeafs H data Heap.empty [] with ⟨hp, leafs0⟩
  obtain ⟨k1, k2, k3, k4, _, k6⟩ :=
    initLeafs_spec H data Heap.empty [] (fun _ => rfl) (by simp) (fun p h => by
      simp [Heap.empty] at h)
  rw [hinit] at k1 k2 k3 k4 k6
  dsimp only at k1 k2 k3 k4 k6
  simp only [List.length_nil, Nat.zero_add] at k4
  have hlen0 : 0 < data.length := List.length_pos.mpr hne
  have hne0 : leafs0 ≠ [] := by
    intro h; rw [h] at k4; simp at k4; omega
  have hlast : leafs0.getLast? = some (leafs0.getLast hne0) :=
    List.getLast?_eq_getLast leafs0 hne0
  obtain ⟨leafs, hleafs⟩ : ∃ leafs, leafs =
      (if leafs0.length % 2 ≠ 0 ∧ leafs0.length ≠ 1 then leafs0 ++ (leafs0.getLast?).toList
        else leafs0) := ⟨_, rfl⟩
  have hsub : ∀ t ∈ leafs0, t ∈ leafs := by
    intro t ht
    rw [hleafs]
    split_ifs
    · exact List.mem_append_left _ ht
    · exact ht
  have hmem : ∀ t ∈ leafs, t ∈ leafs0 := by
    intro t ht
    rw [hleafs] at ht
    split_ifs at ht
    · rw [hlast] at ht
      rcases List.mem_append.mp ht with h | h
      · exact h
      · simp at h; rw [h]; exact List.getLast_mem hne0
    · exact ht
  have hneL : leafs ≠ [] := by
    obtain ⟨t, ht⟩ := List.exists_mem_of_ne_nil leafs0 hne0
    exact List.ne_nil_of_mem (hsub t ht)
  have hlinks : LinksOk H hp := by
    intro p q _ hpar
    rw [k1 p] at hpar
    exact absurd hpar (by simp)
  obtain ⟨hp1, root, hrun, h1, h2, _, h4, h5⟩ :=
    buildLevels_spec H (leafs.length + 1) hp leafs hneL (by omega)
      (fun t ht => k2 t (hmem t ht)) hlinks (fun p hlt _ => hsub p (k3 p hlt))
  refine ⟨⟨hp1, root, leafs⟩, ?_, ?_, ?_, h1, h2⟩
  · simp only [NewMerkleTree, hinit]
    rw [← hleafs, hrun]
    rfl
  · intro d hd
    obtain ⟨t, ht, hth⟩ := k6 d hd
    exact ⟨t, hsub t ht, by
      show (hp1.node t).Hash = H d
      rw [h5 t (k2 t ht)]; exact hth⟩
  · intro leaf hleaf
    have := k2 leaf (hmem leaf hleaf)
    show leaf < hp1.size
    omega

/-- C1: for every non-empty list of data the call `NewMerkleTree(data)` returns a
tree `T` in which every datum has a leaf carrying its digest, and for every leaf
hash `L` of `T` the call `MakeMerkleProof(L)` returns a proof and an index
list without error such that `VerifyProof(T.MerkleRootHash(), L, proof)` is
true.  Odd leaf counts and repeated data are covered: there is no condition on
`data` other than being non-empty, and none on the digest function. -/
theorem merkle_proof_roundtrip (H : Bytes → Bytes) (data : List Bytes) (hne : data ≠ []) :
    ∃ T, NewMerkleTree H (some data) = .ok T ∧
      (∀ d ∈ data, ∃ leaf ∈ T.Leafs, (T.heap.node leaf).Hash = H d) ∧
      ∀ leaf ∈ T.Leafs, ∃ proof index,
        T.MakeMerkleProof (T.heap.node leaf).Hash = .ok (proof, index, none) ∧
        VerifyProof H T.MerkleRootHash (T.heap.node leaf).Hash ⟨proof, index⟩ = .ok true := by
  obtain ⟨T, hT, hdata, hleafs, hlinks, htops⟩ := NewMerkleTree_spec H data hne
  refine ⟨T, hT, hdata, ?_⟩
  intro leaf hleaf
  cases hfind : T.Leafs.find?
      (fun x => decide ((T.heap.node leaf).Hash = (T.heap.node x).Hash)) with
  | none =>
    have := (List.find?_eq_none.mp hfind) leaf hleaf
    simp at this
  | some t0 =>
    have ht0 : t0 ∈ T.Leafs := List.mem_of_find?_eq_some hfind
    have hh0 : (T.heap.node leaf).Hash = (T.heap.node t0).Hash := by
      have := List.find?_some hfind
      simpa using this
    obtain ⟨pr, ix, t, hrun, ht, htp, hver⟩ :=
      climb_spec H T.heap hlinks (T.heap.size + 1) ⟨[], [], t0, (T.heap.node leaf).Hash⟩
        (hleafs t0 ht0) hh0.symm (by simp only; omega)
    have htroot : t = T.RootNode := by
      have := htops t ht htp
      simpa using this
    refine ⟨pr, ix, ?_, ?_⟩
    · simp only [MerkleTree.MakeMerkleProof, hfind, hrun, Res.map, List.nil_append]
    · simp only [VerifyProof] at hver ⊢
      rw [hver, htroot]
      simp [Res.map, MerkleTree.MerkleRootHash]

/-- Witness for `merkle_proof_roundtrip`: three data items, two of them equal
(odd leaf count, repeated datum). -/
theorem merkle_proof_roundtrip_witness :
    ([[1], [2], [1]] : List Bytes) ≠ [] ∧
    ∃ T, NewMerkleTree toyHash (some [[1], [2], [1]]) = .ok T ∧
      (∀ d ∈ ([[1], [2], [1]] : List Bytes), ∃ leaf ∈ T.Leafs, (T.heap.node leaf).Hash = toyHash d) ∧
      ∀ leaf ∈ T.Leafs, ∃ proof index,
        T.MakeMerkleProof (T.heap.node leaf).Hash = .ok (proof, index, none) ∧
        VerifyProof toyHash T.MerkleRootHash (T.heap.node leaf).Hash ⟨proof, index⟩ = .ok true :=
  ⟨by decide, merkle_proof_roundtrip toyHash [[1], [2], [1]] (by decide)⟩

/-! ## The block's Merkle root against the tree of `NewMerkleTree` -/

theorem pairHashes_cons (H : Bytes → Bytes) (l r : Bytes) (rest parentHash : List Bytes) :
    pairHashes H (l :: r :: rest) parentHash
      = pairHashes H rest (parentHash ++ [H (l ++ r)]) := rfl

/-- Length of the level produced by the pairing loop of `HashTransactions`. -/
theorem pairHashes_length (H : Bytes → Bytes) :
    ∀ (n : Nat) (level parentHash parents : List Bytes), level.length ≤ n →
      pairHashes H level parentHash = .ok parents →
      parents.length = parentHash.length + level.length / 2 := by
  intro n
  induction n with
  | zero =>
    intro level parentHash parents hlen hrun
    have hnil : level = [] := List.length_eq_zero.mp (by omega)
    subst hnil
    simp only [pairHashes, Res.ok.injEq] at hrun
    rw [← hrun]; simp
  | succ n ih =>
    intro level parentHash parents hlen hrun
    match level, hlen, hrun with
    | [], _, hrun =>
      simp only [pairHashes, Res.ok.injEq] at hrun
      rw [← hrun]; simp
    | [_], _, hrun => simp [pairHashes] at hrun
    | l :: r :: rest, hlen, hrun =>
      rw [pairHashes_cons] at hrun
      have := ih rest _ parents (by simp at hlen; omega) hrun
      rw [this]; simp; omega

/-- The pairing loop of `NewMerkleTree` computes, on the digests of the nodes,
what the pairing loop of `HashTransactions` computes. -/
theorem pairLevel_hashes (H : Bytes → Bytes) :
    ∀ (n : Nat) (rest : List Nat) (hp : Heap) (parents : List Nat) (hp1 : Heap)
      (parents1 : List Nat),
      rest.length ≤ n → (∀ t ∈ rest, t < hp.size) → (∀ t ∈ parents, t < hp.size) →
      pairLevel H rest hp parents = .ok (hp1, parents1) →
      (∀ t ∈ parents1, t < hp1.size) ∧
      pairHashes H (rest.map fun a => (hp.node a).Hash) (parents.map fun a => (hp.node a).Hash)
        = .ok (parents1.map fun a => (hp1.node a).Hash) := by
  intro n
  induction n with
  | zero =>
    intro rest hp parents hp1 parents1 hlen _ hpar hrun
    have hnil : rest = [] := List.length_eq_zero.mp (by omega)
    subst hnil
    simp only [pairLevel, Res.ok.injEq, Prod.mk.injEq] at hrun
    obtain ⟨h1, h2⟩ := hrun
    subst h1; subst h2
    exact ⟨hpar, rfl⟩
  | succ n ih =>
    intro rest hp parents hp1 parents1 hlen hrest hpar hrun
    match rest, hlen, hrest, hrun with
    | [], _, _, hrun =>
      simp only [pairLevel, Res.ok.injEq, Prod.mk.injEq] at hrun
      obtain ⟨h1, h2⟩ := hrun
      subst h1; subst h2
      exact ⟨hpar, rfl⟩
    | [_], _, _, hrun => simp [pairLevel] at hrun
    | l :: r :: rest1, hlen, hrest, hrun =>
      rw [pairLevel_cons] at hrun
      have hl : l < hp.size := hrest l (by simp)
      have hr : r < hp.size := hrest r (by simp)
      have hrest1 : ∀ t ∈ rest1, t < hp.size := fun t ht => hrest t (by simp [ht])
      obtain ⟨k1, k2⟩ := ih rest1 (pairStep H hp l r) (parents ++ [hp.size]) hp1 parents1
        (by simp at hlen; omega)
        (fun t ht => by rw [pairStep_size]; have := hrest1 t ht; omega)
        (fun t ht => by
          rw [pairStep_size]
          rcases List.mem_append.mp ht with h | h
          · have := hpar t h; omega
          · simp at h; omega)
        hrun
      refine ⟨k1, ?_⟩
      have e1 : (rest1.map fun a => ((pairStep H hp l r).node a).Hash)
          = rest1.map fun a => (hp.node a).Hash := by
        apply List.map_congr_left
        intro a ha
        have := hrest1 a ha
        rw [pairStep_Hash, if_neg (by omega)]
      have e2 : ((parents ++ [hp.size]).map fun a => ((pairStep H hp l r).node a).Hash)
          = (parents.map fun a => (hp.node a).Hash)
            ++ [H ((hp.node l).Hash ++ (hp.node r).Hash)] := by
        rw [List.map_append]
        congr 1
        · apply List.map_congr_left
          intro a ha
          have := hpar a ha
          rw [pairStep_Hash, if_neg (by omega)]
        · simp [pairStep_Hash]
      rw [e1, e2] at k2
      simp only [List.map_cons]
      rw [pairHashes_cons]
      exact k2

/-- The level loop of `NewMerkleTree` leaves at the root the digest that
`rootOfLevels` computes from the digests of the level it starts from. -/
theorem buildLevels_hashes (H : Bytes → Bytes) :
    ∀ (fuel : Nat) (hp : Heap) (cur : List Nat) (hp1 : Heap) (root : Nat),
      (∀ t ∈ cur, t < hp.size) → buildLevels H fuel hp cur = .ok (hp1, root) →
      rootOfLevels H fuel (cur.map fun a => (hp.node a).Hash) = .ok (hp1.node root).Hash := by
  intro fuel
  induction fuel with
  | zero => intro hp cur hp1 root _ hrun; simp [buildLevels] at hrun
  | succ fuel ih =>
    intro hp cur hp1 root hcur hrun
    by_cases hgt : cur.length > 1
    · have hne : cur ≠ [] := by intro h; rw [h] at hgt; simp at hgt
      have hlast : cur.getLast? = some (cur.getLast hne) := List.getLast?_eq_getLast cur hne
      simp only [buildLevels, if_pos hgt] at hrun
      cases hpl : pairLevel H
          (if cur.length % 2 ≠ 0 then cur ++ (cur.getLast?).toList else cur) hp [] with
      | panic => rw [hpl] at hrun; simp [Res.bind] at hrun
      | timeout => rw [hpl] at hrun; simp [Res.bind] at hrun
      | ok res =>
        obtain ⟨hpA, parentsA⟩ := res
        rw [hpl] at hrun
        simp only [Res.bind] at hrun
        have hvalid : ∀ t ∈ (if cur.length % 2 ≠ 0 then cur ++ (cur.getLast?).toList else cur),
            t < hp.size := by
          intro t ht
          split_ifs at ht
          · rw [hlast] at ht
            rcases List.mem_append.mp ht with h | h
            · exact hcur t h
            · simp at h; rw [h]; exact hcur _ (List.getLast_mem hne)
          · exact hcur t ht
        obtain ⟨k1, k2⟩ := pairLevel_hashes H _ _ hp [] hpA parentsA (le_refl _) hvalid
          (by simp) hpl
        have hrec := ih hpA parentsA hp1 root k1 hrun
        have hmap : ((if cur.length % 2 ≠ 0 then cur ++ (cur.getLast?).toList else cur).map
            fun a => (hp.node a).Hash)
            = (if (cur.map fun a => (hp.node a).Hash).length % 2 ≠ 0 then
                (cur.map fun a => (hp.node a).Hash)
                  ++ ((cur.map fun a => (hp.node a).Hash).getLast?).toList
              else cur.map fun a => (hp.node a).Hash) := by
          rw [List.length_map]
          split_ifs
          · rw [List.map_append, List.getLast?_map, hlast]; rfl
          · rfl
        rw [hmap] at k2
        have hgt1 : (cur.map fun a => (hp.node a).Hash).length > 1 := by
          rw [List.length_map]; exact hgt
        simp only [rootOfLevels, if_pos hgt1, List.map_nil] at k2 ⊢
        rw [k2]
        exact hrec
    · match cur, hgt, hrun with
      | [], _, hrun => simp [buildLevels] at hrun
      | [r], _, hrun =>
        simp only [buildLevels, List.length_singleton, gt_iff_lt, lt_self_iff_false, if_false,
          Res.ok.injEq, Prod.mk.injEq] at hrun
        obtain ⟨h1, h2⟩ := hrun
        subst h1; subst h2
        simp [rootOfLevels, setParent_Hash]
      | _ :: _ :: _, hgt, _ => simp at hgt

/-- The digests of the leaves made by the leaf loop of `NewMerkleTree`. -/
theorem initLeafs_hashes (H : Bytes → Bytes) :
    ∀ (data : List Bytes) (hp : Heap) (leafs : List Nat), (∀ t ∈ leafs, t < hp.size) →
      ((initLeafs H data hp leafs).2.map fun a => ((initLeafs H data hp leafs).1.node a).Hash)
        = (leafs.map fun a => (hp.node a).Hash) ++ data.map H := by
  intro data
  induction data with
  | nil => intro hp leafs _; simp [initLeafs]
  | cons value rest ih =>
    intro hp leafs hvalid
    have hstep : initLeafs H (value :: rest) hp leafs
        = initLeafs H rest (hp.alloc ⟨none, none, none, H value⟩).1 (leafs ++ [hp.size]) := rfl
    rw [hstep, ih]
    · rw [List.map_append, List.append_assoc]
      congr 1
      · apply List.map_congr_left
        intro a ha
        have := hvalid a ha
        simp only [Heap.alloc]
        rw [if_neg (by omega)]
      · simp [Heap.alloc]
    · intro t ht
      simp only [Heap.alloc]
      rcases List.mem_append.mp ht with h | h
      · have := hvalid t h; omega
      · simp at h; omega

/-- The root hash of the tree of `NewMerkleTree`, as a function of the digests
of the data. -/
theorem NewMerkleTree_root (H : Bytes → Bytes) (data : List Bytes) (T : MerkleTree)
    (hT : NewMerkleTree H (some data) = .ok T) :
    rootOfLevels H
      ((if (data.map H).length % 2 ≠ 0 ∧ (data.map H).length ≠ 1 then
          data.map H ++ ((data.map H).getLast?).toList else data.map H).length + 1)
      (if (data.map H).length % 2 ≠ 0 ∧ (data.map H).length ≠ 1 then
          data.map H ++ ((data.map H).getLast?).toList else data.map H)
      = .ok T.MerkleRootHash := by
  rcases hinit : initLeafs H data Heap.empty [] with ⟨hp, leafs0⟩
  have hh := initLeafs_hashes H data Heap.empty [] (by simp)
  obtain ⟨_, k2, _, k4, _, _⟩ :=
    initLeafs_spec H data Heap.empty [] (fun _ => rfl) (by simp) (fun p h => by
      simp [Heap.empty] at h)
  rw [hinit] at hh k2 k4
  dsimp only at hh k2 k4
  simp only [List.map_nil, List.nil_append] at hh
  simp only [List.length_nil, Nat.zero_add] at k4
  simp only [NewMerkleTree, hinit] at hT
  cases hb : buildLevels H
      ((if leafs0.length % 2 ≠ 0 ∧ leafs0.length ≠ 1 then leafs0 ++ (leafs0.getLast?).toList
        else leafs0).length + 1) hp
      (if leafs0.length % 2 ≠ 0 ∧ leafs0.length ≠ 1 then leafs0 ++ (leafs0.getLast?).toList
        else leafs0) with
  | panic => rw [hb] at hT; simp [Res.map] at hT
  | timeout => rw [hb] at hT; simp [Res.map] at hT
  | ok res =>
    obtain ⟨hp1, root⟩ := res
    rw [hb] at hT
    simp only [Res.map, Res.ok.injEq] at hT
    subst hT
    have hvalid : ∀ t ∈ (if leafs0.length % 2 ≠ 0 ∧ leafs0.length ≠ 1 then
        leafs0 ++ (leafs0.getLast?).toList else leafs0), t < hp.size := by
      intro t ht
      split_ifs at ht
      · rcases List.mem_append.mp ht with h | h
        · exact k2 t h
        · have hm : t ∈ leafs0 := by
            cases hl : leafs0.getLast? with
            | none => rw [hl] at h; simp at h
            | some x =>
              rw [hl] at h
              simp at h
              rw [h]
              exact List.mem_of_getLast?_eq_some hl
          exact k2 t hm
      · exact k2 t ht
    have hroot := buildLevels_hashes H _ hp _ hp1 root hvalid hb
    have hmap : ((if leafs0.length % 2 ≠ 0 ∧ leafs0.length ≠ 1 then
        leafs0 ++ (leafs0.getLast?).toList else leafs0).map fun a => (hp.node a).Hash)
        = (if (data.map H).length % 2 ≠ 0 ∧ (data.map H).length ≠ 1 then
            data.map H ++ ((data.map H).getLast?).toList else data.map H) := by
      rw [← hh, List.length_map]
      split_ifs
      · rw [List.map_append, List.getLast?_map]
        cases leafs0.getLast? <;> rfl
      · rfl
    have hlen : (if leafs0.length % 2 ≠ 0 ∧ leafs0.length ≠ 1 then
        leafs0 ++ (leafs0.getLast?).toList else leafs0).length
        = (if (data.map H).length % 2 ≠ 0 ∧ (data.map H).length ≠ 1 then
            data.map H ++ ((data.map H).getLast?).toList else data.map H).length := by
      rw [← hmap, List.length_map]
    rw [hmap, hlen] at hroot
    exact hroot

/-- The duplication step of `HashTransactions`, when it does not panic on a
level no longer than the number of transactions, appends the last digest of
the level. -/
theorem extendOdd_ok (nTx : Nat) (level level1 : List Bytes) (hgt : level.length > 1)
    (hle : level.length ≤ nTx) (h : extendOdd nTx level = .ok level1) :
    level1 = if level.length % 2 ≠ 0 then level ++ (level.getLast?).toList else level := by
  unfold extendOdd at h
  by_cases hodd : level.length % 2 ≠ 0
  · rw [if_pos hodd] at h ⊢
    cases hx : level[nTx - 1]? with
    | none => rw [hx] at h; simp at h
    | some x =>
      rw [hx] at h
      simp only [Res.ok.injEq] at h
      obtain ⟨hlt, _⟩ := List.getElem?_eq_some_iff.mp hx
      have hidx : nTx - 1 = level.length - 1 := by omega
      rw [List.getLast?_eq_getElem?, ← hidx, hx, ← h]
      rfl
  · rw [if_neg hodd] at h ⊢
    simp only [Res.ok.injEq] at h
    exact h.symm

/-- Whenever the level loop of `HashTransactions` returns, it returns the digest
of `rootOfLevels`. -/
theorem hashLevels_refines (H : Bytes → Bytes) (nTx : Nat) :
    ∀ (fuel : Nat) (level : List Bytes) (r : Bytes), level.length ≤ nTx →
      hashLevels H nTx fuel level = .ok r → rootOfLevels H fuel level = .ok r := by
  intro fuel
  induction fuel with
  | zero => intro level r _ h; simp [hashLevels] at h
  | succ fuel ih =>
    intro level r hle h
    by_cases hgt : level.length > 1
    · simp only [hashLevels, if_pos hgt] at h
      cases he : extendOdd nTx level with
      | panic => rw [he] at h; simp [Res.bind] at h
      | timeout => rw [he] at h; simp [Res.bind] at h
      | ok level1 =>
        rw [he] at h
        simp only [Res.bind] at h
        have h1 := extendOdd_ok nTx level level1 hgt hle he
        cases hp : pairHashes H level1 [] with
        | panic => rw [hp] at h; simp at h
        | timeout => rw [hp] at h; simp at h
        | ok parents =>
          rw [hp] at h
          simp only at h
          have hlen := pairHashes_length H _ level1 [] parents (le_refl _) hp
          have hl1 : level1.length ≤ level.length + 1 := by
            rw [h1]; split_ifs
            · cases level.getLast? <;> simp
            · omega
          have hrec := ih parents r (by simp at hlen; omega) h
          simp only [rootOfLevels, if_pos hgt]
          rw [← h1, hp]
          exact hrec
    · simp only [hashLevels, if_neg hgt] at h
      simp only [rootOfLevels, if_neg hgt]
      exact h

/-- The budget that `HashTransactions` gives its level loop is never used up:
the call returns or panics. -/
theorem hashLevels_no_timeout (H : Bytes → Bytes) (nTx : Nat) :
    ∀ (fuel : Nat) (level : List Bytes), level.length ≤ fuel → 0 < fuel →
      hashLevels H nTx fuel level ≠ .timeout := by
  intro fuel
  induction fuel with
  | zero => intro level _ h; omega
  | succ fuel ih =>
    intro level hle _
    by_cases hgt : level.length > 1
    · simp only [hashLevels, if_pos hgt]
      cases he : extendOdd nTx level with
      | panic => simp [Res.bind]
      | timeout =>
        unfold extendOdd at he
        split_ifs at he
        · cases hx : level[nTx - 1]? with
          | none => rw [hx] at he; simp at he
          | some x => rw [hx] at he; simp at he
      | ok level1 =>
        simp only [Res.bind]
        have hl1 : level1.length ≤ level.length + 1 := by
          unfold extendOdd at he
          split_ifs at he
          · cases hx : level[nTx - 1]? with
            | none => rw [hx] at he; simp at he
            | some x =>
              rw [hx] at he
              simp only [Res.ok.injEq] at he
              rw [← he]; simp
          · simp only [Res.ok.injEq] at he
            rw [← he]; omega
        cases hp : pairHashes H level1 [] with
        | panic => simp
        | timeout =>
          exfalso
          have hnt : ∀ (n : Nat) (l acc : List Bytes), l.length ≤ n →
              pairHashes H l acc ≠ .timeout := by
            intro n
            induction n with
            | zero =>
              intro l acc hl
              have : l = [] := List.length_eq_zero.mp (by omega)
              subst this; simp [pairHashes]
            | succ n ihn =>
              intro l acc hl
              match l, hl with
              | [], _ => simp [pairHashes]
              | [_], _ => simp [pairHashes]
              | a :: b :: rest, hl =>
                rw [pairHashes_cons]
                exact ihn rest _ (by simp at hl; omega)
          exact hnt _ level1 [] (le_refl _) hp
        | ok parents =>
          simp only
          have hlen := pairHashes_length H _ level1 [] parents (le_refl _) hp
          simp only [List.length_nil, Nat.zero_add] at hlen
          exact ih parents (by omega) (by omega)
    · simp only [hashLevels, if_neg hgt]
      cases level with
      | nil => simp
      | cons a rest => simp

/-- The call `HashTransactions` returns or panics. -/
theorem HashTransactions_no_timeout (H : Bytes → Bytes) (ser : Transaction → Bytes)
    (b : Block) : b.HashTransactions H ser ≠ .timeout :=
  hashLevels_no_timeout H _ _ _ (by simp) (by omega)

/-- A larger budget does not change the result of `rootOfLevels`. -/
theorem rootOfLevels_mono (H : Bytes → Bytes) :
    ∀ (fuel : Nat) (level : List Bytes) (r : Bytes),
      rootOfLevels H fuel level = .ok r → rootOfLevels H (fuel + 1) level = .ok r := by
  intro fuel
  induction fuel with
  | zero => intro level r h; simp [rootOfLevels] at h
  | succ fuel ih =>
    intro level r h
    by_cases hgt : level.length > 1
    · simp only [rootOfLevels, if_pos hgt] at h ⊢
      cases hp : pairHashes H
          (if level.length % 2 ≠ 0 then level ++ (level.getLast?).toList else level) [] with
      | panic => rw [hp] at h; simp [Res.bind] at h
      | timeout => rw [hp] at h; simp [Res.bind] at h
      | ok parents =>
        rw [hp] at h
        simp only [Res.bind] at h ⊢
        exact ih parents r h
    · simp only [rootOfLevels, if_neg hgt] at h ⊢
      exact h

/-- Extending a level of odd length by its last digest beforehand, as
`NewMerkleTree` does with the leaves, does not change the root. -/
theorem rootOfLevels_dup (H : Bytes → Bytes) (fuel : Nat) (level : List Bytes)
    (hodd : level.length % 2 ≠ 0) (hne1 : level.length ≠ 1) :
    rootOfLevels H (fuel + 1) (level ++ (level.getLast?).toList)
      = rootOfLevels H (fuel + 1) level := by
  have hne : level ≠ [] := by intro h; rw [h] at hodd; simp at hodd
  have hlast : level.getLast? = some (level.getLast hne) := List.getLast?_eq_getLast level hne
  have hlen : (level ++ (level.getLast?).toList).length = level.length + 1 := by
    rw [hlast]; simp
  have hgt : level.length > 1 := by
    have : 0 < level.length := List.length_pos.mpr hne
    omega
  have hgt1 : (level ++ (level.getLast?).toList).length > 1 := by omega
  have heven : ¬ ((level ++ (level.getLast?).toList).length % 2 ≠ 0) := by omega
  simp only [rootOfLevels, if_pos hgt1, if_neg heven, if_pos hgt, if_pos hodd]

/-- Whenever `HashTransactions` returns, it returns the root hash of the tree that
`NewMerkleTree` builds from the serialized transactions. -/
theorem HashTransactions_refines (H : Bytes → Bytes) (ser : Transaction → Bytes) (b : Block)
    (r : Bytes) (h : b.HashTransactions H ser = .ok r) :
    ∃ T, NewMerkleTree H (some (b.Transactions.map ser)) = .ok T ∧ T.MerkleRootHash = r := by
  have hne : b.Transactions.map ser ≠ [] := by
    intro hnil
    have : b.Transactions = [] := List.map_eq_nil_iff.mp hnil
    simp [Block.HashTransactions, this, hashLevels] at h
  obtain ⟨T, hT, _⟩ := NewMerkleTree_spec H (b.Transactions.map ser) hne
  refine ⟨T, hT, ?_⟩
  have hroot := NewMerkleTree_root H (b.Transactions.map ser) T hT
  have hmm : (b.Transactions.map ser).map H = b.Transactions.map fun tx => H (ser tx) := by
    rw [List.map_map]; rfl
  rw [hmm] at hroot
  have href := hashLevels_refines H b.Transactions.length (b.Transactions.length + 1)
    (b.Transactions.map fun tx => H (ser tx)) r (by simp) h
  have hlen : (b.Transactions.map fun tx => H (ser tx)).length = b.Transactions.length := by
    simp
  by_cases hc : (b.Transactions.map fun tx => H (ser tx)).length % 2 ≠ 0
      ∧ (b.Transactions.map fun tx => H (ser tx)).length ≠ 1
  · rw [if_pos hc] at hroot
    have hl2 : ((b.Transactions.map fun tx => H (ser tx))
        ++ ((b.Transactions.map fun tx => H (ser tx)).getLast?).toList).length
        = b.Transactions.length + 1 := by
      have hne2 : (b.Transactions.map fun tx => H (ser tx)) ≠ [] := by
        intro hnil; rw [hnil] at hc; simp at hc
      rw [List.getLast?_eq_getLast _ hne2]; simp
    rw [hl2, rootOfLevels_dup H _ _ hc.1 hc.2] at hroot
    have := rootOfLevels_mono H _ _ r href
    rw [this] at hroot
    simp only [Res.ok.injEq] at hroot
    exact hroot.symm
  · rw [if_neg hc, hlen] at hroot
    rw [href] at hroot
    simp only [Res.ok.injEq] at hroot
    exact hroot.symm

/-! ## Proof of work -/

theorem wrapInt64_succ (a : Int) : wrapInt64 (wrapInt64 a + 1) = wrapInt64 (a + 1) := by
  unfold wrapInt64
  omega

theorem wrapInt64_small (a : Int) (h0 : 0 ≤ a) (h1 : a < 2 ^ 63) : wrapInt64 a = a := by
  unfold wrapInt64
  omega

theorem wrapInt64_nonneg (a : Int) (h0 : 0 ≤ a) (hw : 0 ≤ wrapInt64 a) : wrapInt64 a ≤ a := by
  unfold wrapInt64 at *
  omega

/-- The nonce loop started at the nonce reached after `k` increments: when it
returns, it returns the nonce reached after `k + j` increments for some `j`
below the budget, the digest is the one computed from that nonce, it is below
the target, and the `j` nonces tried before were not. -/
theorem runLoop_spec (H : Bytes → Bytes) (target : Nat) (header : Bytes) :
    ∀ (fuel k : Nat) (nonce : Int) (hash : Bytes),
      runLoop H target header fuel (wrapInt64 k) = .ok (nonce, hash) →
      ∃ j, j < fuel ∧ nonce = wrapInt64 ((k + j : Nat) : Int) ∧
        hash = H (addNonce nonce header) ∧ numeric hash < target ∧
        ∀ i, i < j → target ≤ numeric (H (addNonce (wrapInt64 ((k + i : Nat) : Int)) header)) := by
  intro fuel
  induction fuel with
  | zero => intro k nonce hash h; simp [runLoop] at h
  | succ fuel ih =>
    intro k nonce hash h
    by_cases hlt : numeric (H (addNonce (wrapInt64 k) header)) < target
    · simp only [runLoop, if_pos hlt, Res.ok.injEq, Prod.mk.injEq] at h
      obtain ⟨h1, h2⟩ := h
      refine ⟨0, by omega, by simp [← h1], by rw [← h2, ← h1], by rw [← h2]; exact hlt, ?_⟩
      intro i hi; omega
    · simp only [runLoop, if_neg hlt] at h
      rw [wrapInt64_succ] at h
      have hk : ((k : Int) + 1) = ((k + 1 : Nat) : Int) := by push_cast; rfl
      rw [hk] at h
      obtain ⟨j, hj, hn, hh, ht, hall⟩ := ih (k + 1) nonce hash h
      refine ⟨j + 1, by omega, ?_, hh, ht, ?_⟩
      · rw [hn]; congr 2; omega
      · intro i hi
        cases i with
        | zero => simpa using Nat.le_of_not_lt hlt
        | succ i =>
          have := hall i (by omega)
          have he : k + 1 + i = k + (i + 1) := by omega
          rw [he] at this
          exact this

/-- The function `setupHeader` reads the transactions, the previous hash and the timestamp
of the block, not its hash or nonce. -/
theorem setupHeader_congr (H : Bytes → Bytes) (ser : Transaction → Bytes) (b : Block)
    (target : Nat) (nonce : Int) (hash : Bytes) :
    ProofOfWork.setupHeader H ser ⟨some { b with Nonce := nonce, Hash := hash }, target⟩
      = ProofOfWork.setupHeader H ser ⟨some b, target⟩ := rfl

/-- What `Mine` leaves behind when it returns: the block with the nonce and the
digest found by the search, the digest being below the target. -/
theorem Mine_ok_spec (H : Bytes → Bytes) (ser : Transaction → Bytes) (fuel : Nat)
    (b b1 : Block) (hmine : b.Mine H ser fuel = .ok b1) :
    ∃ header nonce hash, (NewProofOfWork (some b)).setupHeader H ser = .ok header ∧
      b1 = { b with Nonce := nonce, Hash := hash } ∧
      hash = H (addNonce nonce header) ∧ numeric hash < 2 ^ 248 ∧ b.Transactions ≠ [] := by
  unfold Block.Mine ProofOfWork.Run at hmine
  cases hhdr : (NewProofOfWork (some b)).setupHeader H ser with
  | panic => simp [hhdr, Res.bind, Res.map] at hmine
  | timeout => simp [hhdr, Res.bind, Res.map] at hmine
  | ok header =>
    rw [hhdr] at hmine
    simp only [Res.bind] at hmine
    cases hrun : runLoop H (NewProofOfWork (some b)).target header fuel 0 with
    | panic => simp [hrun, Res.map] at hmine
    | timeout => simp [hrun, Res.map] at hmine
    | ok res =>
      obtain ⟨nonce, hash⟩ := res
      rw [hrun] at hmine
      simp only [Res.map, Res.ok.injEq] at hmine
      have hrun0 : runLoop H (NewProofOfWork (some b)).target header fuel (wrapInt64 (0 : Nat))
          = .ok (nonce, hash) := by
        have : wrapInt64 ((0 : Nat) : Int) = 0 := by decide
        rw [this]; exact hrun
      obtain ⟨j, _, _, hh, ht, _⟩ := runLoop_spec H _ header fuel 0 nonce hash hrun0
      have htxs : b.Transactions ≠ [] := by
        intro hnil
        simp [NewProofOfWork, ProofOfWork.setupHeader, Block.HashTransactions, hnil, hashLevels,
          Res.map] at hhdr
      have htarget : (NewProofOfWork (some b)).target = 2 ^ 248 := by
        simp [NewProofOfWork, TARGETBITS]
      rw [htarget] at ht
      exact ⟨header, nonce, hash, rfl, hmine.symm, hh, ht, htxs⟩

/-- C3: if `b.Mine()` returns, leaving the block `b1`, then
`NewProofOfWork(b1).Validate()` returns true and `b1.Hash`, read as a big-endian
unsigned integer, is below `2^248`.  (A block without transactions never
reaches this point: `Mine` panics on it.)  The fields of the block other than
`Nonce` and `Hash` are the ones it had. -/
theorem mine_validates (H : Bytes → Bytes) (ser : Transaction → Bytes) (fuel : Nat)
    (b b1 : Block) (hmine : b.Mine H ser fuel = .ok b1) :
    (NewProofOfWork (some b1)).Validate H ser = .ok true ∧ numeric b1.Hash < 2 ^ 248 ∧
      b1.Transactions ≠ [] ∧ b1.Transactions = b.Transactions ∧
      b1.PrevBlockHash = b.PrevBlockHash ∧ b1.Timestamp = b.Timestamp := by
  obtain ⟨header, nonce, hash, hhdr, hb1, hh, ht, htxs⟩ := Mine_ok_spec H ser fuel b b1 hmine
  subst hb1
  have hhdr1 : (NewProofOfWork (some { b with Nonce := nonce, Hash := hash })).setupHeader
      H ser = .ok header := by
    rw [← hhdr]; exact setupHeader_congr H ser b _ nonce hash
  refine ⟨?_, ht, htxs, rfl, rfl, rfl⟩
  unfold ProofOfWork.Validate
  rw [hhdr1]
  simp only [Res.bind, NewProofOfWork]
  have htarget : numeric (H (addNonce nonce header)) < 2 ^ (256 - TARGETBITS) := by
    rw [← hh]; simpa [TARGETBITS] using ht
  rw [if_pos ⟨htarget, hh.symm⟩]

/-- Witness for `mine_validates`: a block of three transactions, mined at the
third nonce tried. -/
theorem mine_validates_witness :
    sampleBlock.Mine toyHash toySer 10 = .ok sampleMined ∧
    ((NewProofOfWork (some sampleMined)).Validate toyHash toySer = .ok true ∧
      numeric sampleMined.Hash < 2 ^ 248 ∧
      sampleMined.Transactions ≠ [] ∧ sampleMined.Transactions = sampleBlock.Transactions ∧
      sampleMined.PrevBlockHash = sampleBlock.PrevBlockHash ∧
      sampleMined.Timestamp = sampleBlock.Timestamp) :=
  ⟨by decide, mine_validates toyHash toySer 10 sampleBlock sampleMined (by decide)⟩

/-- The call `Validate` returns as soon as the header can be assembled, with the value
of the two comparisons. -/
theorem Validate_eq (H : Bytes → Bytes) (ser : Transaction → Bytes) (b : Block)
    (header : Bytes) (hhdr : (NewProofOfWork (some b)).setupHeader H ser = .ok header) :
    (NewProofOfWork (some b)).Validate H ser
      = .ok (decide (numeric (H (header ++ IntToHex b.Nonce)) < 2 ^ (256 - TARGETBITS)
          ∧ H (header ++ IntToHex b.Nonce) = b.Hash)) := by
  unfold ProofOfWork.Validate
  rw [hhdr]
  simp only [Res.bind, NewProofOfWork, addNonce]
  split_ifs with h
  · rw [decide_eq_true h]
  · rw [decide_eq_false h]

/-- C4: for every block `b`, `Validate()` returns true if and only if the header
can be assembled and the digest `SHA-256(setupHeader(b) ‖ IntToHex(b.Nonce))` is
numerically below `2^(256-TARGETBITS)` and equal to `b.Hash`; whenever the header
can be assembled `Validate()` returns the truth value of that conjunction.  In
particular, for a block on which `Validate()` is true, replacing only `b.Hash`
by a different value, or only `b.Nonce` by a nonce whose digest differs from
`b.Hash`, makes `Validate()` return false. -/
theorem validate_iff (H : Bytes → Bytes) (ser : Transaction → Bytes) (b : Block) :
    ((NewProofOfWork (some b)).Validate H ser = .ok true ↔
      ∃ header, (NewProofOfWork (some b)).setupHeader H ser = .ok header ∧
        numeric (H (header ++ IntToHex b.Nonce)) < 2 ^ (256 - TARGETBITS) ∧
        H (header ++ IntToHex b.Nonce) = b.Hash) ∧
    (∀ header, (NewProofOfWork (some b)).setupHeader H ser = .ok header →
      (NewProofOfWork (some b)).Validate H ser
        = .ok (decide (numeric (H (header ++ IntToHex b.Nonce)) < 2 ^ (256 - TARGETBITS)
            ∧ H (header ++ IntToHex b.Nonce) = b.Hash))) ∧
    (∀ hash1, (NewProofOfWork (some b)).Validate H ser = .ok true → hash1 ≠ b.Hash →
      (NewProofOfWork (some { b with Hash := hash1 })).Validate H ser = .ok false) ∧
    (∀ nonce1 header, (NewProofOfWork (some b)).Validate H ser = .ok true →
      (NewProofOfWork (some b)).setupHeader H ser = .ok header →
      H (header ++ IntToHex nonce1) ≠ b.Hash →
      (NewProofOfWork (some { b with Nonce := nonce1 })).Validate H ser = .ok false) := by
  have hiff : (NewProofOfWork (some b)).Validate H ser = .ok true ↔
      ∃ header, (NewProofOfWork (some b)).setupHeader H ser = .ok header ∧
        numeric (H (header ++ IntToHex b.Nonce)) < 2 ^ (256 - TARGETBITS) ∧
        H (header ++ IntToHex b.Nonce) = b.Hash := by
    constructor
    · intro hv
      cases hhdr : (NewProofOfWork (some b)).setupHeader H ser with
      | panic => simp [ProofOfWork.Validate, hhdr, Res.bind] at hv
      | timeout => simp [ProofOfWork.Validate, hhdr, Res.bind] at hv
      | ok header =>
        rw [Validate_eq H ser b header hhdr] at hv
        simp only [Res.ok.injEq, decide_eq_true_eq] at hv
        exact ⟨header, rfl, hv⟩
    · rintro ⟨header, hhdr, hc⟩
      rw [Validate_eq H ser b header hhdr]
      simp only [Res.ok.injEq, decide_eq_true_eq]
      exact hc
  refine ⟨hiff, fun header hhdr => Validate_eq H ser b header hhdr, ?_, ?_⟩
  · intro hash1 hv hne
    obtain ⟨header, hhdr, _, hc2⟩ := hiff.mp hv
    have hhdr1 : (NewProofOfWork (some { b with Hash := hash1 })).setupHeader H ser
        = .ok header := hhdr
    rw [Validate_eq H ser _ header hhdr1]
    simp only [Res.ok.injEq, decide_eq_false_iff_not, not_and]
    intro _ h
    exact hne (h.symm.trans hc2)
  · intro nonce1 header _ hhdr hne
    have hhdr1 : (NewProofOfWork (some { b with Nonce := nonce1 })).setupHeader H ser
        = .ok header := hhdr
    rw [Validate_eq H ser _ header hhdr1]
    simp only [Res.ok.injEq, decide_eq_false_iff_not, not_and]
    intro _ h
    exact hne h

/-- Instances of `validate_iff` on the mined block `sampleMined`: it validates;
with another `Hash` it does not; with the nonce 6, whose digest is below the
target but is not `sampleMined.Hash`, it does not. -/
theorem validate_iff_witness :
    (NewProofOfWork (some sampleMined)).Validate toyHash toySer = .ok true ∧
    (NewProofOfWork (some { sampleMined with Hash := [1] })).Validate toyHash toySer
      = .ok false ∧
    numeric (toyHash (sampleHeader ++ IntToHex 6)) < 2 ^ (256 - TARGETBITS) ∧
    (NewProofOfWork (some { sampleMined with Nonce := 6 })).Validate toyHash toySer
      = .ok false :=
  ⟨by decide,
    (validate_iff toyHash toySer sampleMined).2.2.1 [1] (by decide) (by decide),
    by decide,
    (validate_iff toyHash toySer sampleMined).2.2.2 6 sampleHeader (by decide) (by decide)
      (by decide)⟩

/-- C5: if `Run()` returns `(nonce, hash)` then the header was assembled,
`hash = SHA-256(header ‖ IntToHex(nonce))`, `hash` is numerically below the
target, and every non-negative integer `n` smaller than `nonce` gives a digest
that is not below the target; within the first `2^63` iterations, that is
before the 64-bit counter of the loop can wrap, the nonce returned is itself
non-negative, so it is the least non-negative integer with the property. -/
theorem run_least_nonce (H : Bytes → Bytes) (ser : Transaction → Bytes) (fuel : Nat)
    (pow : ProofOfWork) (nonce : Int) (hash : Bytes)
    (hrun : pow.Run H ser fuel = .ok (nonce, hash)) :
    ∃ header, pow.setupHeader H ser = .ok header ∧
      hash = H (header ++ IntToHex nonce) ∧ numeric hash < pow.target ∧
      (∀ n : Int, 0 ≤ n → n < nonce → pow.target ≤ numeric (H (header ++ IntToHex n))) ∧
      (fuel ≤ 2 ^ 63 → 0 ≤ nonce) := by
  unfold ProofOfWork.Run at hrun
  cases hhdr : pow.setupHeader H ser with
  | panic => simp [hhdr, Res.bind] at hrun
  | timeout => simp [hhdr, Res.bind] at hrun
  | ok header =>
    rw [hhdr] at hrun
    simp only [Res.bind] at hrun
    have hw0 : wrapInt64 ((0 : Nat) : Int) = 0 := by decide
    rw [← hw0] at hrun
    obtain ⟨j, hj, hn, hh, ht, hall⟩ := runLoop_spec H pow.target header fuel 0 nonce hash hrun
    simp only [Nat.zero_add] at hn hall
    refine ⟨header, rfl, hh, ht, ?_, ?_⟩
    · intro n hn0 hlt
      have hnn : 0 ≤ wrapInt64 (j : Int) := by rw [← hn]; omega
      have hle : wrapInt64 (j : Int) ≤ (j : Int) := wrapInt64_nonneg _ (by omega) hnn
      have hn63 : n < 2 ^ 63 := by
        have : wrapInt64 (j : Int) < 2 ^ 63 := by unfold wrapInt64; omega
        omega
      have hi := hall n.toNat (by omega)
      have hcast : ((n.toNat : Nat) : Int) = n := Int.toNat_of_nonneg hn0
      rw [hcast, wrapInt64_small n hn0 hn63] at hi
      exact hi
    · intro hf
      rw [hn, wrapInt64_small (j : Int) (by omega) (by
        have : (2 : Int) ^ 63 = ((2 ^ 63 : Nat) : Int) := by norm_num
        rw [this]; exact_mod_cast (by omega : j < 2 ^ 63))]
      omega

/-- Witness for `run_least_nonce`: on `sampleBlock` the search returns the
nonce 2 after the nonces 0 and 1 have failed. -/
theorem run_least_nonce_witness :
    (NewProofOfWork (some sampleBlock)).Run toyHash toySer 10 = .ok (2, sampleMined.Hash) ∧
    ∃ header, (NewProofOfWork (some sampleBlock)).setupHeader toyHash toySer = .ok header ∧
      sampleMined.Hash = toyHash (header ++ IntToHex 2) ∧
      numeric sampleMined.Hash < (NewProofOfWork (some sampleBlock)).target ∧
      (∀ n : Int, 0 ≤ n → n < 2 →
        (NewProofOfWork (some sampleBlock)).target ≤ numeric (toyHash (header ++ IntToHex n))) ∧
      (10 ≤ 2 ^ 63 → (0 : Int) ≤ 2) :=
  ⟨by decide,
    run_least_nonce toyHash toySer 10 (NewProofOfWork (some sampleBlock)) 2 sampleMined.Hash
      (by decide)⟩

/-! ## Block validation -/

/-- C6: `ValidateBlock(b)` returns true exactly when `b` is not nil, has at least
one transaction and `NewProofOfWork(b).Validate()` returns true.  On the nil
block and on a block without transactions it returns false, although the
proof-of-work check itself would panic on both: it is not evaluated. -/
theorem validateBlock_iff (H : Bytes → Bytes) (ser : Transaction → Bytes)
    (bc : Blockchain) :
    (∀ block, bc.ValidateBlock H ser block = .ok true ↔
      ∃ b, block = some b ∧ b.Transactions ≠ [] ∧
        (NewProofOfWork (some b)).Validate H ser = .ok true) ∧
    (bc.ValidateBlock H ser none = .ok false ∧
      (NewProofOfWork none).Validate H ser = .panic) ∧
    (∀ b, b.Transactions = [] →
      bc.ValidateBlock H ser (some b) = .ok false ∧
      (NewProofOfWork (some b)).Validate H ser = .panic) := by
  refine ⟨?_, ⟨rfl, rfl⟩, ?_⟩
  · intro block
    cases block with
    | none => simp [Blockchain.ValidateBlock]
    | some b =>
      by_cases hnil : b.Transactions = []
      · simp [Blockchain.ValidateBlock, hnil]
      · have hlen : b.Transactions.length ≠ 0 := by
          intro h; exact hnil (List.length_eq_zero.mp h)
        simp only [Blockchain.ValidateBlock, if_pos hlen, Option.some.injEq, exists_eq_left', ne_eq]
        cases hv : (NewProofOfWork (some b)).Validate H ser with
        | panic => simp [Res.bind]
        | timeout => simp [Res.bind]
        | ok v => cases v <;> simp [Res.bind, hnil]
  · intro b hnil
    refine ⟨by simp [Blockchain.ValidateBlock, hnil], ?_⟩
    simp [ProofOfWork.Validate, ProofOfWork.setupHeader, NewProofOfWork, Block.HashTransactions,
      hnil, hashLevels, Res.map, Res.bind]

/-- Instances of `validateBlock_iff`: a mined block is accepted, the nil block
and a block without transactions are rejected. -/
theorem validateBlock_iff_witness :
    samplePeer.Blockchain.ValidateBlock toyHash toySer (some sampleMined) = .ok true ∧
    samplePeer.Blockchain.ValidateBlock toyHash toySer none = .ok false ∧
    samplePeer.Blockchain.ValidateBlock toyHash toySer (some (NewBlock 5 [] [])) = .ok false :=
  ⟨((validateBlock_iff toyHash toySer samplePeer.Blockchain).1 (some sampleMined)).mpr
      ⟨sampleMined, rfl, by decide, by decide⟩,
    (validateBlock_iff toyHash toySer samplePeer.Blockchain).2.1.1,
    ((validateBlock_iff toyHash toySer samplePeer.Blockchain).2.2 (NewBlock 5 [] []) rfl).1⟩

/-! ## Inbound blocks -/

/-- A coinbase transaction verifies against every chain. -/
theorem VerifyTransaction_coinbase (ser : Transaction → Bytes)
    (ecv : Nat → Nat → Bytes → Nat → Nat → Bool) (bc : Blockchain) (tx : Transaction)
    (hcb : tx.IsCoinbase = .ok true) : bc.VerifyTransaction ser ecv tx = .ok true := by
  simp [Blockchain.VerifyTransaction, hcb, Res.bind]

/-- The transaction loop of `HandleMinedBlockIn` when every transaction
verifies. -/
theorem verifyEach_all (ser : Transaction → Bytes)
    (ecv : Nat → Nat → Bytes → Nat → Nat → Bool) (bc : Blockchain) :
    ∀ txs : List Transaction, (∀ tx ∈ txs, bc.VerifyTransaction ser ecv tx = .ok true) →
      verifyEach ser ecv bc txs = .ok true := by
  intro txs
  induction txs with
  | nil => intro _; rfl
  | cons tx rest ih =>
    intro h
    simp only [verifyEach, h tx (by simp), Res.bind]
    simpa using ih (fun t ht => h t (by simp [ht]))

/-- The transaction loop of `HandleMinedBlockIn` when a transaction does not
verify and the ones before it do. -/
theorem verifyEach_fails (ser : Transaction → Bytes)
    (ecv : Nat → Nat → Bytes → Nat → Nat → Bool) (bc : Blockchain) :
    ∀ (pre : List Transaction) (tx : Transaction) (post : List Transaction),
      (∀ t ∈ pre, bc.VerifyTransaction ser ecv t = .ok true) →
      bc.VerifyTransaction ser ecv tx = .ok false →
      verifyEach ser ecv bc (pre ++ tx :: post) = .ok false := by
  intro pre
  induction pre with
  | nil =>
    intro tx post _ hf
    simp [verifyEach, hf, Res.bind]
  | cons t rest ih =>
    intro tx post h hf
    simp only [List.cons_append, verifyEach, h t (by simp), Res.bind]
    simpa using ih tx post (fun t1 ht => h t1 (by simp [ht])) hf

/-- On a transaction with at least one input `VerifyTransaction` returns. -/
theorem VerifyTransaction_returns (ser : Transaction → Bytes)
    (ecv : Nat → Nat → Bytes → Nat → Nat → Bool) (bc : Blockchain) (tx : Transaction)
    (hvin : tx.Vin ≠ []) : ∃ v, bc.VerifyTransaction ser ecv tx = .ok v := by
  cases hv : tx.Vin with
  | nil => exact absurd hv hvin
  | cons vin0 rest =>
    unfold Blockchain.VerifyTransaction Transaction.IsCoinbase
    rw [hv]
    by_cases hcb : vin0.OutIdx = -1
    · exact ⟨true, by simp [hcb, Res.bind]⟩
    · simp only [if_neg hcb, Res.bind]
      split_ifs <;> exact ⟨_, rfl⟩

/-- The transaction loop of `HandleMinedBlockIn` when every call of
`VerifyTransaction` returns and one of them returns false. -/
theorem verifyEach_some_false (ser : Transaction → Bytes)
    (ecv : Nat → Nat → Bytes → Nat → Nat → Bool) (bc : Blockchain) :
    ∀ txs : List Transaction, (∀ t ∈ txs, ∃ v, bc.VerifyTransaction ser ecv t = .ok v) →
      (∃ t ∈ txs, bc.VerifyTransaction ser ecv t = .ok false) →
      verifyEach ser ecv bc txs = .ok false := by
  intro txs
  induction txs with
  | nil => intro _ h; obtain ⟨t, ht, _⟩ := h; simp at ht
  | cons tx rest ih =>
    intro hret hex
    obtain ⟨v, hv⟩ := hret tx (by simp)
    cases v with
    | false => simp [verifyEach, hv, Res.bind]
    | true =>
      simp only [verifyEach, hv, Res.bind]
      have hrest : ∃ t ∈ rest, bc.VerifyTransaction ser ecv t = .ok false := by
        obtain ⟨t, ht, hf⟩ := hex
        rcases List.mem_cons.mp ht with h | h
        · rw [h, hv] at hf; simp at hf
        · exact ⟨t, h, hf⟩
      simpa using ih (fun t ht => hret t (by simp [ht])) hrest

/-- The call `HandleMinedBlockIn` on a block that `ValidateBlock` rejects. -/
theorem handle_invalid (H : Bytes → Bytes) (ser : Transaction → Bytes)
    (ecv : Nat → Nat → Bytes → Nat → Nat → Bool) (acc : Account) (minedBlock : Option Block)
    (hv : acc.Blockchain.ValidateBlock H ser minedBlock = .ok false) :
    acc.HandleMinedBlockIn H ser ecv minedBlock = .ok (acc, some .ErrInvalidBlock) := by
  simp [Account.HandleMinedBlockIn, hv, Res.bind]

/-- The call `HandleMinedBlockIn` on a block that `ValidateBlock` accepts, in terms of
the outcome of the transaction loop. -/
theorem handle_valid (H : Bytes → Bytes) (ser : Transaction → Bytes)
    (ecv : Nat → Nat → Bytes → Nat → Nat → Bool) (acc : Account) (b : Block)
    (hv : acc.Blockchain.ValidateBlock H ser (some b) = .ok true) (verified : Bool)
    (hloop : verifyEach ser ecv acc.Blockchain b.Transactions = .ok verified) :
    acc.HandleMinedBlockIn H ser ecv (some b)
      = if verified = false then .ok (acc, some .ErrSignatureNotValid)
        else .ok ({ acc with Blockchain := ⟨acc.Blockchain.blocks ++ [b]⟩ }, none) := by
  simp [Account.HandleMinedBlockIn, hv, hloop, Res.bind]

/-- A block that `Mine` has returned passes `ValidateBlock` on every replica. -/
theorem ValidateBlock_of_Mine (H : Bytes → Bytes) (ser : Transaction → Bytes) (fuel : Nat)
    (bc : Blockchain) (b b1 : Block) (hmine : b.Mine H ser fuel = .ok b1) :
    bc.ValidateBlock H ser (some b1) = .ok true := by
  obtain ⟨header, nonce, hash, hhdr, hb1, hh, ht, hne⟩ := Mine_ok_spec H ser fuel b b1 hmine
  subst hb1
  have hhdr1 : (NewProofOfWork (some { b with Nonce := nonce, Hash := hash })).setupHeader
      H ser = .ok header := by
    rw [← hhdr]; exact setupHeader_congr H ser b _ nonce hash
  have hlen : b.Transactions.length ≠ 0 := by
    intro h; exact hne (List.length_eq_zero.mp h)
  have hv : (NewProofOfWork (some { b with Nonce := nonce, Hash := hash })).Validate H ser
      = .ok true := by
    rw [Validate_eq H ser _ header hhdr1]
    have htarget : numeric (H (addNonce nonce header)) < 2 ^ (256 - TARGETBITS) := by
      rw [← hh]; simpa [TARGETBITS] using ht
    simp only [Res.ok.injEq, decide_eq_true_eq]
    exact ⟨htarget, hh.symm⟩
  simp [Blockchain.ValidateBlock, hlen, hv, Res.bind]

/-- C7, counterexample: the replica of `samplePeer` ends with `sampleGenesis`,
the inbound block `sampleInbound` has a `PrevBlockHash` different from the hash
of `sampleGenesis`, and `HandleMinedBlockIn` returns no error and appends it. -/
theorem inbound_unlinked_accepted :
    samplePeer.Blockchain.CurrentBlock = .ok sampleGenesis ∧
    sampleInbound.PrevBlockHash ≠ sampleGenesis.Hash ∧
    samplePeer.HandleMinedBlockIn toyHash toySer toyVerify (some sampleInbound)
      = .ok ({ samplePeer with Blockchain := ⟨[sampleGenesis, sampleInbound]⟩ }, none) := by
  decide

/-- C7, as amended: `HandleMinedBlockIn` does not compare `PrevBlockHash` with the
tip (the last block of the replica).  For every peer and every inbound block
`b` whose `PrevBlockHash` differs from the hash of the tip: if `ValidateBlock(b)` is
false the call returns `ErrInvalidBlock` and the chain is unchanged; if
`ValidateBlock(b)` is true and some transaction of `b` does not verify, it returns
the signature error and the chain is unchanged; if `ValidateBlock(b)` is true and
every transaction of `b` verifies, the call returns no error and `b` is
appended.  Such blocks exist for every digest function: a block holding one
coinbase transaction and any `PrevBlockHash`, once `Mine` has returned it, is
appended by every peer. -/
theorem inbound_link_not_checked (H : Bytes → Bytes) (ser : Transaction → Bytes)
    (ecv : Nat → Nat → Bytes → Nat → Nat → Bool) (acc : Account) (tip b : Block)
    (htip : acc.Blockchain.CurrentBlock = .ok tip) (hlink : b.PrevBlockHash ≠ tip.Hash) :
    (∃ init, acc.Blockchain.blocks = init ++ [tip]) ∧
    (acc.Blockchain.ValidateBlock H ser (some b) = .ok false →
      acc.HandleMinedBlockIn H ser ecv (some b) = .ok (acc, some .ErrInvalidBlock)) ∧
    (acc.Blockchain.ValidateBlock H ser (some b) = .ok true →
      (∀ tx ∈ b.Transactions, tx.Vin ≠ []) →
      (∃ tx ∈ b.Transactions, acc.Blockchain.VerifyTransaction ser ecv tx = .ok false) →
      acc.HandleMinedBlockIn H ser ecv (some b) = .ok (acc, some .ErrSignatureNotValid)) ∧
    (acc.Blockchain.ValidateBlock H ser (some b) = .ok true →
      (∀ tx ∈ b.Transactions, acc.Blockchain.VerifyTransaction ser ecv tx = .ok true) →
      acc.HandleMinedBlockIn H ser ecv (some b)
        = .ok ({ acc with Blockchain := ⟨acc.Blockchain.blocks ++ [b]⟩ }, none)) ∧
    (∀ (timestamp : Int) (cb : Transaction) (fuel : Nat) (b1 : Block),
      cb.IsCoinbase = .ok true →
      (NewBlock timestamp [cb] b.PrevBlockHash).Mine H ser fuel = .ok b1 →
      b1.PrevBlockHash ≠ tip.Hash ∧
      acc.HandleMinedBlockIn H ser ecv (some b1)
        = .ok ({ acc with Blockchain := ⟨acc.Blockchain.blocks ++ [b1]⟩ }, none)) := by
  refine ⟨?_, fun hv => handle_invalid H ser ecv acc (some b) hv, ?_, ?_, ?_⟩
  · apply List.getLast?_eq_some_iff.mp
    unfold Blockchain.CurrentBlock at htip
    cases hlast : acc.Blockchain.blocks.getLast? with
    | none => rw [hlast] at htip; simp at htip
    | some x =>
      rw [hlast] at htip
      simp only [Res.ok.injEq] at htip
      rw [htip]
  · intro hv hvin hex
    rw [handle_valid H ser ecv acc b hv false
      (verifyEach_some_false ser ecv acc.Blockchain _
        (fun t ht => VerifyTransaction_returns ser ecv acc.Blockchain t (hvin t ht)) hex)]
    simp
  · intro hv hall
    rw [handle_valid H ser ecv acc b hv true (verifyEach_all ser ecv acc.Blockchain _ hall)]
    simp
  · intro timestamp cb fuel b1 hcb hmine
    obtain ⟨_, nonce, hash, _, hb1, _⟩ := Mine_ok_spec H ser fuel _ b1 hmine
    have htxs : b1.Transactions = [cb] := by rw [hb1]; rfl
    have hprev : b1.PrevBlockHash = b.PrevBlockHash := by rw [hb1]; rfl
    refine ⟨by rw [hprev]; exact hlink, ?_⟩
    have hall : ∀ tx ∈ b1.Transactions, acc.Blockchain.VerifyTransaction ser ecv tx = .ok true := by
      intro tx htx
      rw [htxs] at htx
      simp only [List.mem_singleton] at htx
      rw [htx]
      exact VerifyTransaction_coinbase ser ecv acc.Blockchain cb hcb
    rw [handle_valid H ser ecv acc b1 (ValidateBlock_of_Mine H ser fuel acc.Blockchain _ b1 hmine)
      true (verifyEach_all ser ecv acc.Blockchain _ hall)]
    simp

/-- Witness for `inbound_link_not_checked`. -/
theorem inbound_link_not_checked_witness :
    samplePeer.Blockchain.CurrentBlock = .ok sampleGenesis ∧
    sampleInbound.PrevBlockHash ≠ sampleGenesis.Hash ∧
    ((∃ init, samplePeer.Blockchain.blocks = init ++ [sampleGenesis]) ∧
    (samplePeer.Blockchain.ValidateBlock toyHash toySer (some sampleInbound) = .ok false →
      samplePeer.HandleMinedBlockIn toyHash toySer toyVerify (some sampleInbound)
        = .ok (samplePeer, some .ErrInvalidBlock)) ∧
    (samplePeer.Blockchain.ValidateBlock toyHash toySer (some sampleInbound) = .ok true →
      (∀ tx ∈ sampleInbound.Transactions, tx.Vin ≠ []) →
      (∃ tx ∈ sampleInbound.Transactions,
        samplePeer.Blockchain.VerifyTransaction toySer toyVerify tx = .ok false) →
      samplePeer.HandleMinedBlockIn toyHash toySer toyVerify (some sampleInbound)
        = .ok (samplePeer, some .ErrSignatureNotValid)) ∧
    (samplePeer.Blockchain.ValidateBlock toyHash toySer (some sampleInbound) = .ok true →
      (∀ tx ∈ sampleInbound.Transactions,
        samplePeer.Blockchain.VerifyTransaction toySer toyVerify tx = .ok true) →
      samplePeer.HandleMinedBlockIn toyHash toySer toyVerify (some sampleInbound)
        = .ok ({ samplePeer with
            Blockchain := ⟨samplePeer.Blockchain.blocks ++ [sampleInbound]⟩ }, none)) ∧
    (∀ (timestamp : Int) (cb : Transaction) (fuel : Nat) (b1 : Block),
      cb.IsCoinbase = .ok true →
      (NewBlock timestamp [cb] sampleInbound.PrevBlockHash).Mine toyHash toySer fuel = .ok b1 →
      b1.PrevBlockHash ≠ sampleGenesis.Hash ∧
      samplePeer.HandleMinedBlockIn toyHash toySer toyVerify (some b1)
        = .ok ({ samplePeer with
            Blockchain := ⟨samplePeer.Blockchain.blocks ++ [b1]⟩ }, none))) :=
  ⟨by decide, by decide,
    inbound_link_not_checked toyHash toySer toyVerify samplePeer sampleGenesis sampleInbound
      (by decide) (by decide)⟩

/-- C8: `HandleMinedBlockIn(b)` returns `ErrInvalidBlock` when `ValidateBlock(b)` is
false, and the account, hence its chain, is unchanged; when `ValidateBlock(b)` is
true and some transaction of `b` does not verify against the chain of the
peer, it returns the signature error and the account is unchanged (stated
twice: for transactions that all have an input, so that every call of
`VerifyTransaction` returns, and for any block in which the transactions before
the failing one verify); when `ValidateBlock(b)` is true and every transaction
verifies, it returns no error and the chain is the old chain with `b` appended
as its last block. -/
theorem handle_inbound_cases (H : Bytes → Bytes) (ser : Transaction → Bytes)
    (ecv : Nat → Nat → Bytes → Nat → Nat → Bool) (acc : Account) :
    (∀ minedBlock, acc.Blockchain.ValidateBlock H ser minedBlock = .ok false →
      acc.HandleMinedBlockIn H ser ecv minedBlock = .ok (acc, some .ErrInvalidBlock)) ∧
    (∀ b, acc.Blockchain.ValidateBlock H ser (some b) = .ok true →
      (∀ t ∈ b.Transactions, t.Vin ≠ []) →
      (∃ t ∈ b.Transactions, acc.Blockchain.VerifyTransaction ser ecv t = .ok false) →
      acc.HandleMinedBlockIn H ser ecv (some b) = .ok (acc, some .ErrSignatureNotValid)) ∧
    (∀ b pre tx post, acc.Blockchain.ValidateBlock H ser (some b) = .ok true →
      b.Transactions = pre ++ tx :: post →
      (∀ t ∈ pre, acc.Blockchain.VerifyTransaction ser ecv t = .ok true) →
      acc.Blockchain.VerifyTransaction ser ecv tx = .ok false →
      acc.HandleMinedBlockIn H ser ecv (some b) = .ok (acc, some .ErrSignatureNotValid)) ∧
    (∀ b, acc.Blockchain.ValidateBlock H ser (some b) = .ok true →
      (∀ t ∈ b.Transactions, acc.Blockchain.VerifyTransaction ser ecv t = .ok true) →
      acc.HandleMinedBlockIn H ser ecv (some b)
        = .ok ({ acc with Blockchain := ⟨acc.Blockchain.blocks ++ [b]⟩ }, none) ∧
      ∃ acc1, acc.HandleMinedBlockIn H ser ecv (some b) = .ok (acc1, none) ∧
        acc1.Blockchain.blocks = acc.Blockchain.blocks ++ [b] ∧
        acc1.Blockchain.blocks.getLast? = some b) := by
  refine ⟨fun minedBlock hv => handle_invalid H ser ecv acc minedBlock hv, ?_, ?_, ?_⟩
  · intro b hv hvin hex
    have hloop : verifyEach ser ecv acc.Blockchain b.Transactions = .ok false :=
      verifyEach_some_false ser ecv acc.Blockchain _
        (fun t ht => VerifyTransaction_returns ser ecv acc.Blockchain t (hvin t ht)) hex
    rw [handle_valid H ser ecv acc b hv false hloop]
    simp
  · intro b pre tx post hv htxs hpre hf
    have hloop : verifyEach ser ecv acc.Blockchain b.Transactions = .ok false := by
      rw [htxs]; exact verifyEach_fails ser ecv acc.Blockchain pre tx post hpre hf
    rw [handle_valid H ser ecv acc b hv false hloop]
    simp
  · intro b hv hall
    have hrun : acc.HandleMinedBlockIn H ser ecv (some b)
        = .ok ({ acc with Blockchain := ⟨acc.Blockchain.blocks ++ [b]⟩ }, none) := by
      rw [handle_valid H ser ecv acc b hv true (verifyEach_all ser ecv acc.Blockchain _ hall)]
      simp
    exact ⟨hrun, _, hrun, rfl, by simp⟩

/-- Instances of `handle_inbound_cases` on `samplePeer`: the nil block is
refused with `ErrInvalidBlock`; `sampleRejected`, whose second transaction spends
an output the replica does not hold, is refused with the signature error;
`sampleInbound` is appended. -/
theorem handle_inbound_cases_witness :
    samplePeer.HandleMinedBlockIn toyHash toySer toyVerify none
      = .ok (samplePeer, some .ErrInvalidBlock) ∧
    samplePeer.HandleMinedBlockIn toyHash toySer toyVerify (some sampleRejected)
      = .ok (samplePeer, some .ErrSignatureNotValid) ∧
    samplePeer.HandleMinedBlockIn toyHash toySer toyVerify (some sampleInbound)
      = .ok ({ samplePeer with
          Blockchain := ⟨samplePeer.Blockchain.blocks ++ [sampleInbound]⟩ }, none) :=
  ⟨(handle_inbound_cases toyHash toySer toyVerify samplePeer).1 none (by decide),
    (handle_inbound_cases toyHash toySer toyVerify samplePeer).2.1 sampleRejected
      (by decide) (by decide) (by decide),
    ((handle_inbound_cases toyHash toySer toyVerify samplePeer).2.2.2 sampleInbound (by decide)
      (by decide)).1⟩

/-! ## The Merkle root of a block -/

/-- The level loop of `HashTransactions` on five leaves: the second level has
three digests and the index `len(b.Transactions)-1 = 4` is out of range. -/
theorem hashLevels_five (H : Bytes → Bytes) (a b c d e : Bytes) (fuel : Nat) :
    hashLevels H 5 (fuel + 2) [a, b, c, d, e] = .panic := by
  simp [hashLevels, extendOdd, pairHashes, Res.bind]

/-- The call `HashTransactions` panics on every block with five transactions. -/
theorem HashTransactions_five (H : Bytes → Bytes) (ser : Transaction → Bytes) (b : Block)
    (t1 t2 t3 t4 t5 : Transaction) (h : b.Transactions = [t1, t2, t3, t4, t5]) :
    b.HashTransactions H ser = .panic := by
  simp [Block.HashTransactions, h, hashLevels, extendOdd, pairHashes, Res.bind]

/-- The call `Mine` panics when `HashTransactions` does. -/
theorem Mine_panics (H : Bytes → Bytes) (ser : Transaction → Bytes) (fuel : Nat) (b : Block)
    (h : b.HashTransactions H ser = .panic) : b.Mine H ser fuel = .panic := by
  simp [Block.Mine, ProofOfWork.Run, ProofOfWork.setupHeader, NewProofOfWork, h, Res.bind,
    Res.map]

/-- C2, the code at the failing input: on a block with five transactions,
whatever they are, `HashTransactions` stops with an index panic, whereas
`NewMerkleTree` applied to the five serializations returns a tree, whose root
hash the claim equates with the result of `HashTransactions`.  On every block on
which `HashTransactions` does return, its result is the root hash of that tree. -/
theorem hashTransactions_five_diverges (H : Bytes → Bytes) (ser : Transaction → Bytes)
    (timestamp : Int) (prevBlockHash : Bytes) (t1 t2 t3 t4 t5 : Transaction) :
    ((NewBlock timestamp [t1, t2, t3, t4, t5] prevBlockHash).HashTransactions H ser = .panic ∧
      ∃ T, NewMerkleTree H (some ([t1, t2, t3, t4, t5].map ser)) = .ok T) ∧
    (∀ (b : Block) (r : Bytes), b.HashTransactions H ser = .ok r →
      ∃ T, NewMerkleTree H (some (b.Transactions.map ser)) = .ok T ∧ T.MerkleRootHash = r) := by
  refine ⟨⟨HashTransactions_five H ser _ t1 t2 t3 t4 t5 rfl, ?_⟩,
    fun b r h => HashTransactions_refines H ser b r h⟩
  obtain ⟨T, hT, _⟩ := NewMerkleTree_spec H ([t1, t2, t3, t4, t5].map ser) (by simp)
  exact ⟨T, hT⟩

/-! ## Mining a block -/

/-- The filter loop of `MineBlock` when every call of `VerifyTransaction`
returns: the transactions that verify are appended in order. -/
theorem collectValid_spec (ser : Transaction → Bytes)
    (ecv : Nat → Nat → Bytes → Nat → Nat → Bool) (bc : Blockchain) :
    ∀ (txs validTx : List Transaction),
      (∀ tx ∈ txs, ∃ v, bc.VerifyTransaction ser ecv tx = .ok v) →
      collectValid ser ecv bc txs validTx
        = .ok (validTx ++ txs.filter fun tx =>
            decide (bc.VerifyTransaction ser ecv tx = .ok true)) := by
  intro txs
  induction txs with
  | nil => intro validTx _; simp [collectValid]
  | cons tx rest ih =>
    intro validTx h
    obtain ⟨v, hv⟩ := h tx (by simp)
    have hrest : ∀ t ∈ rest, ∃ v, bc.VerifyTransaction ser ecv t = .ok v :=
      fun t ht => h t (by simp [ht])
    cases v with
    | true =>
      simp only [collectValid, hv, Res.bind, if_true]
      rw [ih _ hrest]
      simp [hv]
    | false =>
      simp only [collectValid, hv, Res.bind]
      rw [ih _ hrest]
      simp [hv]

/-- The call `MineBlock` when every call of `VerifyTransaction` returns: without a
transaction that verifies it returns `ErrNoValidTx` and the chain is unchanged;
otherwise, if `Mine` returns on the new block, the chain grows by that block,
which holds the transactions that verify, in order, and points at the
previous tip. -/
theorem MineBlock_spec (H : Bytes → Bytes) (ser : Transaction → Bytes)
    (ecv : Nat → Nat → Bytes → Nat → Nat → Bool) (now : Int) (fuel : Nat)
    (bc : Blockchain) (txs : List Transaction)
    (hret : ∀ tx ∈ txs, ∃ v, bc.VerifyTransaction ser ecv tx = .ok v) :
    ((txs.filter fun tx => decide (bc.VerifyTransaction ser ecv tx = .ok true)) = [] →
      bc.MineBlock H ser ecv now fuel txs = .ok (bc, none, some .ErrNoValidTx)) ∧
    (∀ tip b1,
      (txs.filter fun tx => decide (bc.VerifyTransaction ser ecv tx = .ok true)) ≠ [] →
      bc.CurrentBlock = .ok tip →
      (NewBlock now (txs.filter fun tx => decide (bc.VerifyTransaction ser ecv tx = .ok true))
        tip.Hash).Mine H ser fuel = .ok b1 →
      bc.MineBlock H ser ecv now fuel txs = .ok (⟨bc.blocks ++ [b1]⟩, some b1, none) ∧
      b1.Transactions = (txs.filter fun tx =>
        decide (bc.VerifyTransaction ser ecv tx = .ok true)) ∧
      b1.PrevBlockHash = tip.Hash) := by
  have hcol := collectValid_spec ser ecv bc txs [] hret
  simp only [List.nil_append] at hcol
  constructor
  · intro hnil
    simp [Blockchain.MineBlock, hcol, hnil, Res.bind]
  · intro tip b1 hne htip hmine
    obtain ⟨_, nonce, hash, _, hb1, _⟩ := Mine_ok_spec H ser fuel _ b1 hmine
    have htxs : b1.Transactions = (txs.filter fun tx =>
        decide (bc.VerifyTransaction ser ecv tx = .ok true)) := by rw [hb1]; rfl
    have hprev : b1.PrevBlockHash = tip.Hash := by rw [hb1]; rfl
    have hlen : ¬ ((txs.filter fun tx =>
        decide (bc.VerifyTransaction ser ecv tx = .ok true)).length = 0) := by
      intro h; exact hne (List.length_eq_zero.mp h)
    refine ⟨?_, htxs, hprev⟩
    unfold Blockchain.MineBlock
    rw [hcol]
    simp only [Res.bind, if_neg hlen]
    rw [htip]
    simp only [Res.bind]
    rw [hmine]

/-- C9, the code at the failing input: the chain holds one block and the five
transactions offered are coinbase transactions, so each of them passes
`VerifyTransaction`; `MineBlock` stops with the index panic of
`HashTransactions` instead of appending the block of the five transactions,
for every digest, encoder, signature check, clock value and search budget.
Apart from that: when no transaction verifies, `MineBlock` returns `ErrNoValidTx`
and the chain is unchanged; when some do and `Mine` returns on the new block,
the chain grows by that block, which is the block returned, holds the
transactions that verify in their order and points at the previous tip. -/
theorem mineBlock_five_valid_panics (H : Bytes → Bytes) (ser : Transaction → Bytes)
    (ecv : Nat → Nat → Bytes → Nat → Nat → Bool) (now : Int) (fuel : Nat) :
    ((∀ tx ∈ fiveCoinbases,
        (⟨[sampleGenesis]⟩ : Blockchain).VerifyTransaction ser ecv tx = .ok true) ∧
      (⟨[sampleGenesis]⟩ : Blockchain).MineBlock H ser ecv now fuel fiveCoinbases = .panic) ∧
    (∀ (bc : Blockchain) (txs : List Transaction),
      (∀ tx ∈ txs, ∃ v, bc.VerifyTransaction ser ecv tx = .ok v) →
      ((txs.filter fun tx => decide (bc.VerifyTransaction ser ecv tx = .ok true)) = [] →
        bc.MineBlock H ser ecv now fuel txs = .ok (bc, none, some .ErrNoValidTx)) ∧
      (∀ tip b1,
        (txs.filter fun tx => decide (bc.VerifyTransaction ser ecv tx = .ok true)) ≠ [] →
        bc.CurrentBlock = .ok tip →
        (NewBlock now (txs.filter fun tx => decide (bc.VerifyTransaction ser ecv tx = .ok true))
          tip.Hash).Mine H ser fuel = .ok b1 →
        bc.MineBlock H ser ecv now fuel txs = .ok (⟨bc.blocks ++ [b1]⟩, some b1, none) ∧
        b1.Transactions = (txs.filter fun tx =>
          decide (bc.VerifyTransaction ser ecv tx = .ok true)) ∧
        b1.PrevBlockHash = tip.Hash)) := by
  have hall : ∀ tx ∈ fiveCoinbases,
      (⟨[sampleGenesis]⟩ : Blockchain).VerifyTransaction ser ecv tx = .ok true := by
    intro tx htx
    apply VerifyTransaction_coinbase
    simp only [fiveCoinbases, List.mem_cons, List.mem_singleton, List.mem_nil_iff, or_false] at htx
    rcases htx with h | h | h | h | h <;> rw [h] <;> rfl
  refine ⟨⟨hall, ?_⟩, fun bc txs hret => MineBlock_spec H ser ecv now fuel bc txs hret⟩
  have hcol := collectValid_spec ser ecv ⟨[sampleGenesis]⟩ fiveCoinbases []
    (fun tx htx => ⟨true, hall tx htx⟩)
  have hfilter : (fiveCoinbases.filter fun tx =>
      decide ((⟨[sampleGenesis]⟩ : Blockchain).VerifyTransaction ser ecv tx = .ok true))
      = fiveCoinbases := by
    apply List.filter_eq_self.mpr
    intro tx htx
    simp [hall tx htx]
  rw [hfilter] at hcol
  simp only [List.nil_append] at hcol
  have htip : (⟨[sampleGenesis]⟩ : Blockchain).CurrentBlock = .ok sampleGenesis := rfl
  have hmine : (NewBlock now fiveCoinbases sampleGenesis.Hash).Mine H ser fuel = .panic :=
    Mine_panics H ser fuel _ (HashTransactions_five H ser _ _ _ _ _ _ rfl)
  have hlen : ¬ (fiveCoinbases.length = 0) := by decide
  unfold Blockchain.MineBlock
  rw [hcol]
  simp only [Res.bind, if_neg hlen]
  rw [htip]
  simp only [Res.bind]
  rw [hmine]

/-! ## The UTXO set -/

theorem mapGet_mapSet_same {K V : Type} [DecidableEq K] (m : List (K × V)) (k : K) (v : V) :
    mapGet (mapSet m k v) k = some v := by
  induction m with
  | nil => simp [mapSet, mapGet]
  | cons e rest ih =>
    obtain ⟨k1, v1⟩ := e
    by_cases h : k1 = k
    · simp [mapSet, mapGet, h]
    · simp [mapSet, mapGet, h, ih]

theorem mapGet_mapDelete_same {K V : Type} [DecidableEq K] (m : List (K × V)) (k : K) :
    mapGet (mapDelete m k) k = none := by
  induction m with
  | nil => simp [mapDelete, mapGet]
  | cons e rest ih =>
    obtain ⟨k1, v1⟩ := e
    by_cases h : k1 = k
    · simpa [mapDelete, h] using ih
    · simpa [mapDelete, mapGet, h] using ih

/-- An input whose key reads as the zero output, be it absent or present with
the zero output stored, leaves the set as it is. -/
theorem spendInput_zero (u : UTXOSet) (txInput : TXInput)
    (h : utxoAt u (hex txInput.Txid) txInput.OutIdx = zeroTXOutput) :
    spendInput u txInput = u := by
  simp [spendInput, h]

/-- An input whose key holds an output other than the zero output removes
the key. -/
theorem spendInput_nonzero (u : UTXOSet) (txInput : TXInput)
    (h : utxoAt u (hex txInput.Txid) txInput.OutIdx ≠ zeroTXOutput) :
    mapGet ((mapGet (spendInput u txInput) (hex txInput.Txid)).getD []) txInput.OutIdx
      = none := by
  cases hk : mapGet u (hex txInput.Txid) with
  | none => simp [utxoAt, hk, mapGet] at h
  | some inner =>
    simp only [spendInput, if_pos h, hk, mapGet_mapSet_same, Option.getD_some]
    split_ifs
    · simp [mapGet_mapDelete_same, mapGet]
    · simp [mapGet_mapSet_same, mapGet_mapDelete_same]

/-- C10, the code at the failing input: the set holds the key (`aa`, 0) with the
zero output stored under it, and the transaction `sampleSpender`, which is not
a coinbase, has an input naming that key.  `Update` leaves the entry in place.
With any other output stored under the key, here the output of value 0 locked
with the empty non-nil key hash, the entry and then the outer key are removed.
In general the step of `Update` for one input changes nothing when the key
reads as the zero output, and removes the key when it holds another output. -/
theorem update_keeps_zero_output :
    (sampleSpender.IsCoinbase = .ok false ∧
      mapGet ((mapGet [("aa", [((0 : Int), zeroTXOutput)])] "aa").getD []) 0
        = some zeroTXOutput ∧
      Update [("aa", [(0, zeroTXOutput)])] [sampleSpender] = [("aa", [(0, zeroTXOutput)])] ∧
      Update [("aa", [(0, ⟨0, some []⟩)])] [sampleSpender] = []) ∧
    (∀ (u : UTXOSet) (txInput : TXInput),
      utxoAt u (hex txInput.Txid) txInput.OutIdx = zeroTXOutput → spendInput u txInput = u) ∧
    (∀ (u : UTXOSet) (txInput : TXInput),
      utxoAt u (hex txInput.Txid) txInput.OutIdx ≠ zeroTXOutput →
      mapGet ((mapGet (spendInput u txInput) (hex txInput.Txid)).getD []) txInput.OutIdx
        = none) :=
  ⟨by decide, spendInput_zero, spendInput_nonzero⟩

/-- The five transitions of the fixture `testUTXOs`: `Update` takes the set
`utxos` of each block to its set `expectedUTXOs`. -/
theorem update_fixtures (genesisData : Bytes) (n : Nat) (hn : n < 5) :
    sameUTXOSet (Update (testUTXOsBefore n) (testBlockTxs genesisData n)) (testUTXOsExpected n)
      = true := by
  interval_cases n <;> rfl

/-! ## Go maps -/

theorem mapGet_mapSet {K V : Type} [DecidableEq K] (m : List (K × V)) (k j : K) (v : V) :
    mapGet (mapSet m k v) j = if j = k then some v else mapGet m j := by
  induction m with
  | nil =>
    by_cases h : j = k
    · simp [mapSet, mapGet, h]
    · have h1 : ¬ k = j := fun e => h e.symm
      simp [mapSet, mapGet, h, h1]
  | cons e rest ih =>
    obtain ⟨k1, v1⟩ := e
    by_cases h1 : k1 = k
    · by_cases h : j = k
      · simp [mapSet, mapGet, h1, h]
      · have h2 : ¬ k = j := fun e => h e.symm
        simp [mapSet, mapGet, h1, h, h2]
    · by_cases h : j = k
      · simp only [mapSet, if_neg h1, mapGet, h, if_true]
        rw [h] at ih
        simpa using ih
      · by_cases h3 : k1 = j
        · simp [mapSet, mapGet, h1, h, h3]
        · simp only [mapSet, if_neg h1, mapGet, if_neg h3, if_neg h]
          simpa [h] using ih

theorem mapGet_mapDelete {K V : Type} [DecidableEq K] (m : List (K × V)) (k j : K) :
    mapGet (mapDelete m k) j = if j = k then none else mapGet m j := by
  induction m with
  | nil => simp [mapDelete, mapGet]
  | cons e rest ih =>
    obtain ⟨k1, v1⟩ := e
    by_cases h1 : k1 = k
    · have hd : mapDelete ((k1, v1) :: rest) k = mapDelete rest k := by
        simp [mapDelete, h1]
      rw [hd, ih]
      by_cases h : j = k
      · simp [h]
      · have h2 : ¬ k1 = j := by rw [h1]; exact fun e => h e.symm
        simp [h, mapGet, h2]
    · have hd : mapDelete ((k1, v1) :: rest) k = (k1, v1) :: mapDelete rest k := by
        simp [mapDelete, h1]
      rw [hd]
      by_cases h3 : k1 = j
      · have h : ¬ j = k := by rw [← h3]; exact h1
        simp [mapGet, h3, h]
      · simp only [mapGet, if_neg h3]
        exact ih

/-- A map is empty exactly when no key reads. -/
theorem length_eq_zero_iff_mapGet {K V : Type} [DecidableEq K] (m : List (K × V)) :
    m.length = 0 ↔ ∀ j, mapGet m j = none := by
  constructor
  · intro h j
    have : m = [] := List.length_eq_zero.mp h
    subst this; rfl
  · intro h
    cases m with
    | nil => rfl
    | cons e rest =>
      obtain ⟨k1, v1⟩ := e
      have := h k1
      simp [mapGet] at this

/-! ## One step of `Update`, seen from one key -/

theorem utxoAt_eq (u : UTXOSet) (k : String) (i : Int) :
    utxoAt u k i = (utxoGet u k i).getD zeroTXOutput := rfl

theorem spendStep_of_zero (x : Option TXOutput) (h : x.getD zeroTXOutput = zeroTXOutput) :
    spendStep x = x := by
  simp [spendStep, h]

theorem spendStep_of_ne (x : Option TXOutput) (h : x.getD zeroTXOutput ≠ zeroTXOutput) :
    spendStep x = none := by
  simp [spendStep, h]

theorem spendStep_getD (x : Option TXOutput) :
    (spendStep x).getD zeroTXOutput = zeroTXOutput := by
  by_cases h : x.getD zeroTXOutput = zeroTXOutput
  · rw [spendStep_of_zero x h]; exact h
  · rw [spendStep_of_ne x h]; rfl

theorem spendStep_idem (x : Option TXOutput) : spendStep (spendStep x) = spendStep x :=
  spendStep_of_zero _ (spendStep_getD x)

/-- An input whose key reads as the zero output changes nothing. -/
theorem spendInput_of_zero (u : UTXOSet) (txInput : TXInput)
    (h : utxoAt u (hex txInput.Txid) txInput.OutIdx = zeroTXOutput) :
    spendInput u txInput = u := by
  simp [spendInput, h]

/-- The outer entry under the key of an input that is spent: it is dropped when
nothing else is stored under it, otherwise it loses the inner key. -/
theorem mapGet_spendInput_same (u : UTXOSet) (txInput : TXInput)
    (inner : List (Int × TXOutput))
    (hk : mapGet u (hex txInput.Txid) = some inner)
    (h : utxoAt u (hex txInput.Txid) txInput.OutIdx ≠ zeroTXOutput) :
    mapGet (spendInput u txInput) (hex txInput.Txid)
      = if (mapDelete inner txInput.OutIdx).length = 0 then none
        else some (mapDelete inner txInput.OutIdx) := by
  simp only [spendInput, if_pos h, hk, mapGet_mapSet, if_true, Option.getD_some]
  split_ifs
  · rw [mapGet_mapDelete, if_pos rfl]
  · rw [mapGet_mapSet, if_pos rfl]

/-- An input leaves the outer entries under other keys alone. -/
theorem mapGet_spendInput_other (u : UTXOSet) (txInput : TXInput) (k : String)
    (hne : k ≠ hex txInput.Txid) :
    mapGet (spendInput u txInput) k = mapGet u k := by
  by_cases h : utxoAt u (hex txInput.Txid) txInput.OutIdx = zeroTXOutput
  · rw [spendInput_of_zero u txInput h]
  · cases hk : mapGet u (hex txInput.Txid) with
    | none => simp [utxoAt, hk, mapGet] at h
    | some inner =>
      simp only [spendInput, if_pos h, hk, mapGet_mapSet, if_true, Option.getD_some]
      split_ifs
      · rw [mapGet_mapDelete, if_neg hne, mapGet_mapSet, if_neg hne]
      · rw [mapGet_mapSet, if_neg hne]

/-- One input of a transaction that is not a coinbase, seen from the key
`(k, i)`. -/
theorem utxoGet_spendInput (u : UTXOSet) (txInput : TXInput) (k : String) (i : Int) :
    utxoGet (spendInput u txInput) k i
      = if hex txInput.Txid = k ∧ txInput.OutIdx = i then spendStep (utxoGet u k i)
        else utxoGet u k i := by
  by_cases h : utxoAt u (hex txInput.Txid) txInput.OutIdx = zeroTXOutput
  · rw [spendInput_of_zero u txInput h]
    split_ifs with hm
    · obtain ⟨h1, h2⟩ := hm
      subst h1; subst h2
      exact (spendStep_of_zero _ h).symm
    · rfl
  · cases hk : mapGet u (hex txInput.Txid) with
    | none => simp [utxoAt, hk, mapGet] at h
    | some inner =>
      by_cases hkk : k = hex txInput.Txid
      · subst hkk
        have hget : ∀ j, utxoGet u (hex txInput.Txid) j = mapGet inner j := by
          intro j; simp [utxoGet, hk]
        unfold utxoGet
        rw [mapGet_spendInput_same u txInput inner hk h]
        simp only [hk, Option.getD_some, true_and]
        by_cases hi : txInput.OutIdx = i
        · have hs : spendStep (mapGet inner txInput.OutIdx) = none := by
            apply spendStep_of_ne
            rw [← hget, ← utxoAt_eq]; exact h
          rw [if_pos hi, ← hi, hs]
          by_cases hlen : (mapDelete inner txInput.OutIdx).length = 0
          · rw [if_pos hlen]; rfl
          · rw [if_neg hlen, Option.getD_some, mapGet_mapDelete, if_pos rfl]
        · have hi2 : ¬ i = txInput.OutIdx := fun e => hi e.symm
          rw [if_neg hi]
          by_cases hlen : (mapDelete inner txInput.OutIdx).length = 0
          · have := (length_eq_zero_iff_mapGet _).mp hlen i
            rw [mapGet_mapDelete, if_neg hi2] at this
            rw [if_pos hlen, this]; rfl
          · rw [if_neg hlen, Option.getD_some, mapGet_mapDelete, if_neg hi2]
      · have hkk2 : ¬ hex txInput.Txid = k := fun e => hkk e.symm
        unfold utxoGet
        rw [mapGet_spendInput_other u txInput k hkk, if_neg (fun hm => hkk2 hm.1)]

/-- The outer entry under the key of an output that is stored. -/
theorem mapGet_addOutput_same (txIDString : String) (u : UTXOSet) (index : Nat)
    (txOutput : TXOutput) :
    mapGet (addOutput txIDString u index txOutput) txIDString
      = some (mapSet ((mapGet u txIDString).getD []) (index : Int) txOutput) := by
  unfold addOutput
  simp only [mapGet_mapSet, if_true]
  split_ifs with h
  · simp [mapGet_mapSet, h]
  · rfl

/-- An output leaves the outer entries under other keys alone. -/
theorem mapGet_addOutput_other (txIDString : String) (u : UTXOSet) (index : Nat)
    (txOutput : TXOutput) (k : String) (hne : k ≠ txIDString) :
    mapGet (addOutput txIDString u index txOutput) k = mapGet u k := by
  unfold addOutput
  simp only [mapGet_mapSet, if_neg hne]
  split_ifs
  · rw [mapGet_mapSet, if_neg hne]
  · rfl

/-- One output, seen from the key `(k, i)`. -/
theorem utxoGet_addOutput (txIDString : String) (u : UTXOSet) (index : Nat)
    (txOutput : TXOutput) (k : String) (i : Int) :
    utxoGet (addOutput txIDString u index txOutput) k i
      = if txIDString = k ∧ (index : Int) = i then some txOutput else utxoGet u k i := by
  by_cases hk : k = txIDString
  · subst hk
    unfold utxoGet
    rw [mapGet_addOutput_same, Option.getD_some, mapGet_mapSet]
    by_cases hi : i = (index : Int)
    · rw [if_pos hi, if_pos ⟨rfl, hi.symm⟩]
    · rw [if_neg hi, if_neg (fun hm => hi hm.2.symm)]
  · unfold utxoGet
    rw [mapGet_addOutput_other _ _ _ _ _ hk, if_neg (fun hm => hk hm.1.symm)]

/-- The outputs of a transaction, seen from the key `(k, i)`. -/
theorem utxoGet_addOutputs (txIDString : String) (k : String) (i : Int) :
    ∀ (vout : List TXOutput) (index : Nat) (u : UTXOSet),
      utxoGet (addOutputs txIDString vout index u) k i
        = ledgerOutputs k i txIDString vout index (utxoGet u k i) := by
  intro vout
  induction vout with
  | nil => intro index u; rfl
  | cons txOutput rest ih =>
    intro index u
    simp only [addOutputs, ledgerOutputs]
    rw [ih, utxoGet_addOutput]

/-- One transaction, seen from the key `(k, i)`. -/
theorem utxoGet_updateTx (u : UTXOSet) (tx : Transaction) (k : String) (i : Int) :
    utxoGet (updateTx u tx) k i = ledgerTx k i tx (utxoGet u k i) := by
  unfold updateTx ledgerTx ledgerInputs
  rw [utxoGet_addOutputs]
  congr 1
  generalize tx.Vin = vin
  induction vin generalizing u with
  | nil => rfl
  | cons txInput rest ih =>
    simp only [List.foldl_cons]
    rw [ih]
    congr 1
    split_ifs with h1 h2
    · rfl
    · exact utxoGet_spendInput u txInput k i |>.trans (by rw [if_pos h2])
    · exact utxoGet_spendInput u txInput k i |>.trans (by rw [if_neg h2])

/-- The map that `Update` computes agrees, key by key, with the ledger. -/
theorem utxoGet_Update (k : String) (i : Int) :
    ∀ (txs : List Transaction) (u : UTXOSet),
      utxoGet (Update u txs) k i = ledger k i txs (utxoGet u k i) := by
  intro txs
  induction txs with
  | nil => intro u; rfl
  | cons tx rest ih =>
    intro u
    simp only [Update, ledger, List.foldl_cons] at ih ⊢
    rw [ih, utxoGet_updateTx]

/-! ## Replaying the same list twice -/

theorem ledgerShape_comp (f g : Option TXOutput → Option TXOutput)
    (hf : ledgerShape f) (hg : ledgerShape g) : ledgerShape (fun x => g (f x)) := by
  rcases hg with hg | hg | ⟨c, hg⟩
  · rcases hf with hf | hf | ⟨d, hf⟩
    · exact Or.inl fun x => by simp only [hg, hf]
    · exact Or.inr (Or.inl fun x => by simp only [hg, hf])
    · exact Or.inr (Or.inr ⟨d, fun x => by simp only [hg, hf]⟩)
  · rcases hf with hf | hf | ⟨d, hf⟩
    · exact Or.inr (Or.inl fun x => by simp only [hg, hf])
    · exact Or.inr (Or.inl fun x => by simp only [hg, hf, spendStep_idem])
    · exact Or.inr (Or.inr ⟨spendStep d, fun x => by simp only [hg, hf]⟩)
  · exact Or.inr (Or.inr ⟨c, fun x => hg _⟩)

theorem ledgerShape_idem (f : Option TXOutput → Option TXOutput) (hf : ledgerShape f)
    (x : Option TXOutput) : f (f x) = f x := by
  rcases hf with hf | hf | ⟨c, hf⟩
  · rw [hf]
  · rw [hf, hf, spendStep_idem]
  · rw [hf, hf]

theorem ledgerShape_foldl {α : Type} (step : Option TXOutput → α → Option TXOutput)
    (hstep : ∀ a, ledgerShape fun x => step x a) :
    ∀ l : List α, ledgerShape fun x => l.foldl step x := by
  intro l
  induction l with
  | nil => exact Or.inl fun x => rfl
  | cons a rest ih =>
    simp only [List.foldl_cons]
    exact ledgerShape_comp (fun x => step x a) (fun x => rest.foldl step x) (hstep a) ih

theorem ledgerShape_inputs (k : String) (i : Int) (tx : Transaction) :
    ledgerShape (ledgerInputs k i tx) := by
  unfold ledgerInputs
  apply ledgerShape_foldl
  intro txInput
  by_cases h1 : tx.IsCoinbase = .ok true
  · exact Or.inl fun x => by simp only [if_pos h1]
  · by_cases h2 : hex txInput.Txid = k ∧ txInput.OutIdx = i
    · exact Or.inr (Or.inl fun x => by simp only [if_neg h1, if_pos h2])
    · exact Or.inl fun x => by simp only [if_neg h1, if_neg h2]

theorem ledgerShape_outputs (k : String) (i : Int) (txIDString : String) :
    ∀ (vout : List TXOutput) (index : Nat),
      ledgerShape (ledgerOutputs k i txIDString vout index) := by
  intro vout
  induction vout with
  | nil => intro index; exact Or.inl fun x => rfl
  | cons txOutput rest ih =>
    intro index
    have hstep : ledgerShape fun x : Option TXOutput =>
        if txIDString = k ∧ (index : Int) = i then some txOutput else x := by
      by_cases h : txIDString = k ∧ (index : Int) = i
      · exact Or.inr (Or.inr ⟨some txOutput, fun x => by simp only [if_pos h]⟩)
      · exact Or.inl fun x => by simp only [if_neg h]
    exact ledgerShape_comp
      (fun x => if txIDString = k ∧ (index : Int) = i then some txOutput else x)
      (ledgerOutputs k i txIDString rest (index + 1)) hstep (ih (index + 1))

theorem ledgerShape_tx (k : String) (i : Int) (tx : Transaction) :
    ledgerShape (ledgerTx k i tx) :=
  ledgerShape_comp (ledgerInputs k i tx) (ledgerOutputs k i (hex tx.ID) tx.Vout 0)
    (ledgerShape_inputs k i tx) (ledgerShape_outputs k i _ _ 0)

theorem ledgerShape_ledger (k : String) (i : Int) (txs : List Transaction) :
    ledgerShape (ledger k i txs) := by
  unfold ledger
  exact ledgerShape_foldl (fun x tx => ledgerTx k i tx x) (fun tx => ledgerShape_tx k i tx) txs

/-- Replaying a list a second time changes no entry. -/
theorem utxoGet_Update_twice (u : UTXOSet) (txs : List Transaction) (k : String) (i : Int) :
    utxoGet (Update (Update u txs) txs) k i = utxoGet (Update u txs) k i := by
  rw [utxoGet_Update, utxoGet_Update]
  exact ledgerShape_idem _ (ledgerShape_ledger k i txs) _

/-! ### The outer keys -/

/-- One input either leaves the outer entry under `k` as it is or leaves a
normal entry there. -/
theorem entry_spendInput (u : UTXOSet) (txInput : TXInput) (k : String) :
    mapGet (spendInput u txInput) k = mapGet u k
      ∨ normalEntry (mapGet (spendInput u txInput) k) := by
  by_cases hk : k = hex txInput.Txid
  · by_cases h : utxoAt u (hex txInput.Txid) txInput.OutIdx = zeroTXOutput
    · left; rw [spendInput_of_zero u txInput h]
    · right
      subst hk
      cases he : mapGet u (hex txInput.Txid) with
      | none => simp [utxoAt, he, mapGet] at h
      | some inner =>
        rw [mapGet_spendInput_same u txInput inner he h]
        by_cases hlen : (mapDelete inner txInput.OutIdx).length = 0
        · rw [if_pos hlen]; intro hs; cases hs
        · rw [if_neg hlen]
          intro _
          by_contra hno
          apply hlen
          rw [length_eq_zero_iff_mapGet]
          intro j
          by_contra hj
          exact hno ⟨j, by
            rw [Option.getD_some]
            exact Option.ne_none_iff_isSome.mp hj⟩
  · left; exact mapGet_spendInput_other u txInput k hk

/-- One output either leaves the outer entry under `k` as it is or leaves a
normal entry there. -/
theorem entry_addOutput (txIDString : String) (u : UTXOSet) (index : Nat)
    (txOutput : TXOutput) (k : String) :
    mapGet (addOutput txIDString u index txOutput) k = mapGet u k
      ∨ normalEntry (mapGet (addOutput txIDString u index txOutput) k) := by
  by_cases hk : k = txIDString
  · right
    subst hk
    rw [mapGet_addOutput_same]
    intro _
    exact ⟨(index : Int), by rw [Option.getD_some, mapGet_mapSet, if_pos rfl]; rfl⟩
  · left; exact mapGet_addOutput_other _ _ _ _ _ hk

/-- One input: the outer entry under `k` afterwards depends on the outer entry
under `k` before it only. -/
theorem entry_spendInput_congr (u v : UTXOSet) (txInput : TXInput) (k : String)
    (h : mapGet u k = mapGet v k) :
    mapGet (spendInput u txInput) k = mapGet (spendInput v txInput) k := by
  by_cases hk : k = hex txInput.Txid
  · subst hk
    have hat : utxoAt u (hex txInput.Txid) txInput.OutIdx
        = utxoAt v (hex txInput.Txid) txInput.OutIdx := by
      unfold utxoAt; rw [h]
    by_cases hz : utxoAt u (hex txInput.Txid) txInput.OutIdx = zeroTXOutput
    · rw [spendInput_of_zero u txInput hz, spendInput_of_zero v txInput (hat ▸ hz)]
      exact h
    · cases he : mapGet u (hex txInput.Txid) with
      | none => simp [utxoAt, he, mapGet] at hz
      | some inner =>
        rw [mapGet_spendInput_same u txInput inner he hz,
          mapGet_spendInput_same v txInput inner (h ▸ he) (hat ▸ hz)]
  · rw [mapGet_spendInput_other u txInput k hk, mapGet_spendInput_other v txInput k hk]
    exact h

/-- One output: the outer entry under `k` afterwards depends on the outer
entry under `k` before it only. -/
theorem entry_addOutput_congr (txIDString : String) (u v : UTXOSet) (index : Nat)
    (txOutput : TXOutput) (k : String) (h : mapGet u k = mapGet v k) :
    mapGet (addOutput txIDString u index txOutput) k
      = mapGet (addOutput txIDString v index txOutput) k := by
  by_cases hk : k = txIDString
  · subst hk
    rw [mapGet_addOutput_same, mapGet_addOutput_same, h]
  · rw [mapGet_addOutput_other _ _ _ _ _ hk, mapGet_addOutput_other _ _ _ _ _ hk]
    exact h

theorem entry_foldl {α : Type} (f : UTXOSet → α → UTXOSet) (k : String)
    (hf : ∀ u a, mapGet (f u a) k = mapGet u k ∨ normalEntry (mapGet (f u a) k)) :
    ∀ (l : List α) (u : UTXOSet),
      mapGet (l.foldl f u) k = mapGet u k ∨ normalEntry (mapGet (l.foldl f u) k) := by
  intro l
  induction l with
  | nil => intro u; exact Or.inl rfl
  | cons a rest ih =>
    intro u
    simp only [List.foldl_cons]
    rcases ih (f u a) with h1 | h1
    · rcases hf u a with h2 | h2
      · exact Or.inl (h1.trans h2)
      · exact Or.inr (by rw [h1]; exact h2)
    · exact Or.inr h1

theorem entry_foldl_congr {α : Type} (f : UTXOSet → α → UTXOSet) (k : String)
    (hf : ∀ u v a, mapGet u k = mapGet v k → mapGet (f u a) k = mapGet (f v a) k) :
    ∀ (l : List α) (u v : UTXOSet), mapGet u k = mapGet v k →
      mapGet (l.foldl f u) k = mapGet (l.foldl f v) k := by
  intro l
  induction l with
  | nil => intro u v h; exact h
  | cons a rest ih =>
    intro u v h
    simp only [List.foldl_cons]
    exact ih _ _ (hf u v a h)

theorem entry_addOutputs (txIDString : String) (k : String) :
    ∀ (vout : List TXOutput) (index : Nat) (u : UTXOSet),
      mapGet (addOutputs txIDString vout index u) k = mapGet u k
        ∨ normalEntry (mapGet (addOutputs txIDString vout index u) k) := by
  intro vout
  induction vout with
  | nil => intro index u; exact Or.inl rfl
  | cons txOutput rest ih =>
    intro index u
    simp only [addOutputs]
    rcases ih (index + 1) (addOutput txIDString u index txOutput) with h1 | h1
    · rcases entry_addOutput txIDString u index txOutput k with h2 | h2
      · exact Or.inl (h1.trans h2)
      · exact Or.inr (by rw [h1]; exact h2)
    · exact Or.inr h1

theorem entry_addOutputs_congr (txIDString : String) (k : String) :
    ∀ (vout : List TXOutput) (index : Nat) (u v : UTXOSet), mapGet u k = mapGet v k →
      mapGet (addOutputs txIDString vout index u) k
        = mapGet (addOutputs txIDString vout index v) k := by
  intro vout
  induction vout with
  | nil => intro index u v h; exact h
  | cons txOutput rest ih =>
    intro index u v h
    simp only [addOutputs]
    exact ih _ _ _ (entry_addOutput_congr txIDString u v index txOutput k h)

theorem entry_updateTx (u : UTXOSet) (tx : Transaction) (k : String) :
    mapGet (updateTx u tx) k = mapGet u k ∨ normalEntry (mapGet (updateTx u tx) k) := by
  unfold updateTx
  have hin := entry_foldl
    (fun u txInput => if tx.IsCoinbase = .ok true then u else spendInput u txInput) k
    (fun u txInput => by
      by_cases hc : tx.IsCoinbase = .ok true
      · simp only [if_pos hc]; exact Or.inl trivial
      · simp only [if_neg hc]; exact entry_spendInput u txInput k) tx.Vin u
  rcases entry_addOutputs (hex tx.ID) k tx.Vout 0
    (tx.Vin.foldl
      (fun u txInput => if tx.IsCoinbase = .ok true then u else spendInput u txInput) u)
    with h1 | h1
  · rcases hin with h2 | h2
    · exact Or.inl (h1.trans h2)
    · exact Or.inr (by rw [h1]; exact h2)
  · exact Or.inr h1

theorem entry_updateTx_congr (u v : UTXOSet) (tx : Transaction) (k : String)
    (h : mapGet u k = mapGet v k) :
    mapGet (updateTx u tx) k = mapGet (updateTx v tx) k := by
  unfold updateTx
  apply entry_addOutputs_congr
  exact entry_foldl_congr
    (fun u txInput => if tx.IsCoinbase = .ok true then u else spendInput u txInput) k
    (fun u v txInput huv => by
      by_cases hc : tx.IsCoinbase = .ok true
      · simp only [if_pos hc]; exact huv
      · simp only [if_neg hc]; exact entry_spendInput_congr u v txInput k huv) tx.Vin u v h

/-- After `Update` the outer entry under a key is the one from before or it is
normal. -/
theorem entry_Update (u : UTXOSet) (txs : List Transaction) (k : String) :
    mapGet (Update u txs) k = mapGet u k ∨ normalEntry (mapGet (Update u txs) k) :=
  entry_foldl updateTx k (fun u tx => entry_updateTx u tx k) txs u

/-- The outer entry under a key after `Update` depends on the outer entry under
that key before it only. -/
theorem entry_Update_congr (u v : UTXOSet) (txs : List Transaction) (k : String)
    (h : mapGet u k = mapGet v k) :
    mapGet (Update u txs) k = mapGet (Update v txs) k :=
  entry_foldl_congr updateTx k (fun u v tx huv => entry_updateTx_congr u v tx k huv) txs u v h

/-- A normal entry is present exactly when some inner key is. -/
theorem normalEntry_isSome (u : UTXOSet) (k : String) (h : normalEntry (mapGet u k)) :
    (mapGet u k).isSome = true ↔ ∃ i, (utxoGet u k i).isSome = true := by
  constructor
  · intro hs; exact h hs
  · rintro ⟨i, hi⟩
    cases he : mapGet u k with
    | none => simp [utxoGet, he, mapGet] at hi
    | some inner => rfl

/-- Applying `Update` with the same list a second time leaves the set, read as
a Go map, as the first application left it. -/
theorem Update_idempotent (u : UTXOSet) (txs : List Transaction) :
    sameMap (Update (Update u txs) txs) (Update u txs) := by
  intro k
  refine ⟨?_, fun i => utxoGet_Update_twice u txs k i⟩
  rcases entry_Update u txs k with h | h
  · rw [← entry_Update_congr u (Update u txs) txs k h.symm]
  · have h2 : normalEntry (mapGet (Update (Update u txs) txs) k) := by
      rcases entry_Update (Update u txs) txs k with h3 | h3
      · rw [h3]; exact h
      · exact h3
    have e1 := normalEntry_isSome _ k h
    have e2 := normalEntry_isSome _ k h2
    have e3 : (∃ i, (utxoGet (Update (Update u txs) txs) k i).isSome = true)
        ↔ ∃ i, (utxoGet (Update u txs) k i).isSome = true := by
      constructor
      · rintro ⟨i, hi⟩; exact ⟨i, by rw [← utxoGet_Update_twice]; exact hi⟩
      · rintro ⟨i, hi⟩; exact ⟨i, by rw [utxoGet_Update_twice]; exact hi⟩
    exact Bool.eq_iff_iff.mpr (e2.trans (e3.trans e1.symm))

/-! ## `FindUTXOSet` and the ledger -/

/-- The set of a chain is the replay of all its transactions on the empty
set. -/
theorem FindUTXOSet_eq (bc : Blockchain) :
    bc.FindUTXOSet = Update [] bc.allTransactions := by
  unfold Blockchain.FindUTXOSet Blockchain.allTransactions
  generalize ([] : UTXOSet) = u
  induction bc.blocks generalizing u with
  | nil => rfl
  | cons b rest ih =>
    simp only [List.foldl_cons, List.flatMap_cons]
    rw [ih]
    simp only [Update, List.foldl_append]

/-- The entry of a key in the set of a chain is what the ledger of that key
holds after all the transactions of the chain. -/
theorem utxoGet_FindUTXOSet (bc : Blockchain) (k : String) (i : Int) :
    utxoGet bc.FindUTXOSet k i = ledger k i bc.allTransactions none := by
  rw [FindUTXOSet_eq, utxoGet_Update]
  rfl

theorem ledger_append (k : String) (i : Int) (l1 l2 : List Transaction)
    (x : Option TXOutput) :
    ledger k i (l1 ++ l2) x = ledger k i l2 (ledger k i l1 x) := by
  simp only [ledger, List.foldl_append]

theorem ledger_cons (k : String) (i : Int) (tx : Transaction) (l : List Transaction)
    (x : Option TXOutput) :
    ledger k i (tx :: l) x = ledger k i l (ledgerTx k i tx x) := rfl

theorem spendFold (c : Prop) [Decidable c] (m : TXInput → Prop) [DecidablePred m] :
    ∀ (vin : List TXInput) (x : Option TXOutput),
      vin.foldl (fun x txInput => if c then x else if m txInput then spendStep x else x) x
        = if ¬ c ∧ ∃ txInput ∈ vin, m txInput then spendStep x else x := by
  intro vin
  induction vin with
  | nil => intro x; simp
  | cons a rest ih =>
    intro x
    simp only [List.foldl_cons]
    rw [ih]
    by_cases hc : c
    · simp [hc]
    · by_cases ha : m a
      · simp only [hc, ha, if_true, if_false, not_false_eq_true, true_and, List.mem_cons,
          exists_eq_or_imp, true_or]
        split_ifs
        · exact spendStep_idem x
        · rfl
      · simp only [hc, ha, if_false, not_false_eq_true, true_and, List.mem_cons,
          exists_eq_or_imp, false_or]

/-- The inputs of a transaction that spends the key act on it as one spend. -/
theorem ledgerInputs_spends (k : String) (i : Int) (tx : Transaction) (x : Option TXOutput)
    (h : spends tx k i) : ledgerInputs k i tx x = spendStep x := by
  unfold ledgerInputs
  rw [spendFold (tx.IsCoinbase = .ok true) (fun txInput => hex txInput.Txid = k ∧ txInput.OutIdx = i)]
  exact if_pos h

/-- The inputs of a transaction that does not spend the key leave it alone. -/
theorem ledgerInputs_not_spends (k : String) (i : Int) (tx : Transaction)
    (x : Option TXOutput) (h : ¬ spends tx k i) : ledgerInputs k i tx x = x := by
  unfold ledgerInputs
  rw [spendFold (tx.IsCoinbase = .ok true) (fun txInput => hex txInput.Txid = k ∧ txInput.OutIdx = i)]
  exact if_neg h

/-- The outputs of a transaction leave alone a key that is not one of theirs. -/
theorem ledgerOutputs_other (k : String) (i : Int) (txIDString : String) :
    ∀ (vout : List TXOutput) (index : Nat) (x : Option TXOutput),
      ¬ (txIDString = k ∧ (index : Int) ≤ i ∧ i < index + vout.length) →
      ledgerOutputs k i txIDString vout index x = x := by
  intro vout
  induction vout with
  | nil => intro index x _; rfl
  | cons txOutput rest ih =>
    intro index x h
    simp only [ledgerOutputs]
    rw [ih]
    · rw [if_neg]
      rintro ⟨h1, h2⟩
      apply h
      refine ⟨h1, by omega, ?_⟩
      simp only [List.length_cons]; push_cast; omega
    · rintro ⟨h1, h2, h3⟩
      apply h
      refine ⟨h1, by push_cast at h2; omega, ?_⟩
      simp only [List.length_cons]; push_cast at h3 ⊢; omega

/-- The outputs of a transaction store one of them under a key that is one of
theirs. -/
theorem ledgerOutputs_same (k : String) (i : Int) (txIDString : String) :
    ∀ (vout : List TXOutput) (index : Nat) (x : Option TXOutput),
      txIDString = k → (index : Int) ≤ i → i < index + vout.length →
      ∃ txOutput ∈ vout, ledgerOutputs k i txIDString vout index x = some txOutput := by
  intro vout
  induction vout with
  | nil => intro index x _ h2 h3; simp only [List.length_nil] at h3; push_cast at h3; omega
  | cons txOutput rest ih =>
    intro index x h1 h2 h3
    simp only [ledgerOutputs]
    by_cases hi : (index : Int) = i
    · rw [if_pos ⟨h1, hi⟩, ledgerOutputs_other]
      · exact ⟨txOutput, List.mem_cons_self _ _, rfl⟩
      · rintro ⟨_, h4, _⟩; push_cast at h4; omega
    · obtain ⟨o, ho, he⟩ := ih (index + 1)
        (if txIDString = k ∧ (index : Int) = i then some txOutput else x) h1
        (by push_cast; omega)
        (by simp only [List.length_cons] at h3; push_cast at h3 ⊢; omega)
      exact ⟨o, List.mem_cons_of_mem _ ho, he⟩

theorem ledgerTx_not_creates (k : String) (i : Int) (tx : Transaction) (x : Option TXOutput)
    (h : ¬ creates tx k i) : ledgerTx k i tx x = ledgerInputs k i tx x := by
  unfold ledgerTx
  apply ledgerOutputs_other
  rintro ⟨h1, h2, h3⟩
  exact h ⟨h1, by push_cast at h2; omega, by push_cast at h3; omega⟩

theorem ledgerTx_creates (k : String) (i : Int) (tx : Transaction) (x : Option TXOutput)
    (h : creates tx k i) : ∃ txOutput ∈ tx.Vout, ledgerTx k i tx x = some txOutput := by
  unfold ledgerTx
  obtain ⟨h1, h2, h3⟩ := h
  exact ledgerOutputs_same k i (hex tx.ID) tx.Vout 0 _ h1 (by push_cast; omega)
    (by push_cast; omega)

theorem spendStep_none : spendStep none = none := rfl

/-- A key that no transaction of the list creates stays absent. -/
theorem ledger_none (k : String) (i : Int) :
    ∀ txs : List Transaction, (∀ tx ∈ txs, ¬ creates tx k i) → ledger k i txs none = none := by
  intro txs
  induction txs with
  | nil => intro _; rfl
  | cons tx rest ih =>
    intro h
    rw [ledger_cons, ledgerTx_not_creates k i tx none (h tx (List.mem_cons_self _ _))]
    have hin : ledgerInputs k i tx none = none := by
      by_cases hs : spends tx k i
      · rw [ledgerInputs_spends k i tx none hs]; rfl
      · exact ledgerInputs_not_spends k i tx none hs
    rw [hin]
    exact ih fun t ht => h t (List.mem_cons_of_mem _ ht)

/-- A key that is present was created by a transaction of the list. -/
theorem created_of_present (k : String) (i : Int) (txs : List Transaction)
    (h : (ledger k i txs none).isSome = true) : ∃ tx ∈ txs, creates tx k i := by
  by_contra hno
  push_neg at hno
  rw [ledger_none k i txs hno] at h
  cases h

/-- A key that is present or is created, and that no transaction of the list
spends, is present at the end. -/
theorem present_of_unspent (k : String) (i : Int) :
    ∀ (txs : List Transaction) (x : Option TXOutput),
      (∀ tx ∈ txs, ¬ spends tx k i) →
      (x.isSome = true ∨ ∃ tx ∈ txs, creates tx k i) →
      (ledger k i txs x).isSome = true := by
  intro txs
  induction txs with
  | nil =>
    intro x _ h
    rcases h with h | ⟨tx, ht, _⟩
    · exact h
    · cases ht
  | cons tx rest ih =>
    intro x hs h
    rw [ledger_cons]
    apply ih _ fun t ht => hs t (List.mem_cons_of_mem _ ht)
    by_cases hc : creates tx k i
    · obtain ⟨o, _, ho⟩ := ledgerTx_creates k i tx x hc
      left; rw [ho]; rfl
    · rw [ledgerTx_not_creates k i tx x hc,
        ledgerInputs_not_spends k i tx x (hs tx (List.mem_cons_self _ _))]
      rcases h with h | ⟨t, ht, hct⟩
      · exact Or.inl h
      · rcases List.mem_cons.mp ht with e | e
        · subst e; exact absurd hct hc
        · exact Or.inr ⟨t, e, hct⟩

/-- When no output is the zero output, the ledger never holds the zero
output. -/
theorem ledger_nonzero (k : String) (i : Int) :
    ∀ (txs : List Transaction) (x : Option TXOutput),
      (∀ tx ∈ txs, ∀ txOutput ∈ tx.Vout, txOutput ≠ zeroTXOutput) →
      x ≠ some zeroTXOutput → ledger k i txs x ≠ some zeroTXOutput := by
  intro txs
  induction txs with
  | nil => intro x _ h; exact h
  | cons tx rest ih =>
    intro x hz hx
    rw [ledger_cons]
    apply ih _ fun t ht => hz t (List.mem_cons_of_mem _ ht)
    have hin : ledgerInputs k i tx x ≠ some zeroTXOutput := by
      by_cases hs : spends tx k i
      · rw [ledgerInputs_spends k i tx x hs]
        unfold spendStep
        split_ifs
        · exact hx
        · simp
      · rw [ledgerInputs_not_spends k i tx x hs]; exact hx
    by_cases hc : creates tx k i
    · obtain ⟨o, hmem, ho⟩ := ledgerTx_creates k i tx x hc
      rw [ho]
      intro e
      exact hz tx (List.mem_cons_self _ _) o hmem (Option.some.inj e)
    · rw [ledgerTx_not_creates k i tx x hc]; exact hin

/-- A spend empties an entry that is not the zero output. -/
theorem spendStep_nonzero (x : Option TXOutput) (h : x ≠ some zeroTXOutput) :
    spendStep x = none := by
  cases x with
  | none => rfl
  | some o =>
    apply spendStep_of_ne
    intro e
    exact h (by rw [Option.getD_some] at e; rw [e])

/-- What `spendsEarlier` gives for a transaction inside the list. -/
theorem spendsEarlier_spec :
    ∀ (pre : List Transaction) (seen : List String) (tx : Transaction)
      (post : List Transaction),
      spendsEarlier seen (pre ++ tx :: post) = true →
      tx.IsCoinbase ≠ .ok true → ∀ txInput ∈ tx.Vin,
        hex txInput.Txid ∈ seen ∨ ∃ t ∈ pre, hex t.ID = hex txInput.Txid := by
  intro pre
  induction pre with
  | nil =>
    intro seen tx post h hc txInput hin
    simp only [List.nil_append, spendsEarlier, Bool.and_eq_true, Bool.or_eq_true,
      decide_eq_true_eq, List.all_eq_true] at h
    rcases h.1 with h1 | h1
    · exact absurd h1 hc
    · exact Or.inl (h1 txInput hin)
  | cons a rest ih =>
    intro seen tx post h hc txInput hin
    simp only [List.cons_append, spendsEarlier, Bool.and_eq_true] at h
    rcases ih (hex a.ID :: seen) tx post h.2 hc txInput hin with h1 | ⟨t, ht, he⟩
    · rcases List.mem_cons.mp h1 with e | e
      · exact Or.inr ⟨a, List.mem_cons_self _ _, e.symm⟩
      · exact Or.inl e
    · exact Or.inr ⟨t, List.mem_cons_of_mem _ ht, he⟩

/-- In a list with distinct identifiers where inputs name earlier
transactions and no output is the zero output, a key that a transaction
spends is absent at the end. -/
theorem absent_of_spent (k : String) (i : Int) (txs : List Transaction)
    (hid : (txs.map fun tx => hex tx.ID).Nodup)
    (hord : spendsEarlier [] txs = true)
    (hnz : ∀ tx ∈ txs, ∀ txOutput ∈ tx.Vout, txOutput ≠ zeroTXOutput)
    (hs : ∃ tx ∈ txs, spends tx k i) : ledger k i txs none = none := by
  obtain ⟨S, hS, hsp⟩ := hs
  obtain ⟨pre, post, rfl⟩ := List.append_of_mem hS
  obtain ⟨hcb, txInput, hin, hk, hi⟩ := hsp
  have hearlier : ∃ t ∈ pre, hex t.ID = k := by
    rcases spendsEarlier_spec pre [] S post hord hcb txInput hin with h | ⟨t, ht, he⟩
    · cases h
    · exact ⟨t, ht, he.trans hk⟩
  obtain ⟨t, ht, hte⟩ := hearlier
  have hlate : ∀ t2 ∈ S :: post, ¬ creates t2 k i := by
    intro t2 ht2 hc
    rw [List.map_append, List.nodup_append] at hid
    exact hid.2.2 (List.mem_map.mpr ⟨t, ht, hte⟩)
      (List.mem_map.mpr ⟨t2, ht2, hc.1⟩)
  rw [ledger_append, ledger_cons,
    ledgerTx_not_creates k i S _ (hlate S (List.mem_cons_self _ _)),
    ledgerInputs_spends k i S _ ⟨hcb, txInput, hin, hk, hi⟩,
    spendStep_nonzero _ (ledger_nonzero k i pre none
      (fun tx h => hnz tx (List.mem_append_left _ h)) (by simp))]
  exact ledger_none k i post fun t2 h2 => hlate t2 (List.mem_cons_of_mem _ h2)

/-! ## The UTXO set of a chain -/

/-- C11, as stated, fails.  In `replayChain` the coinbase with identifier `aa`
is in the first block and again in the third, and `sampleSpender`, which is not
a coinbase, has an input naming output `0` of `aa`.  `FindUTXOSet` replays the
blocks in order, so the output is removed by the second block and stored again
by the third: the key is in the set although a transaction of the chain that
is not a coinbase names it.  The chain is the one that `Mine` and two calls of
`MineBlock` build under the stand-ins `toyHash`, `toySer` and `toyVerify`, and
the repeated coinbase passes `VerifyTransaction` for every signature check. -/
theorem findUTXOSet_replayed_coinbase :
    ¬ ((utxoGet replayChain.FindUTXOSet "aa" 0).isSome = true ↔
        (∃ tx ∈ replayChain.allTransactions, creates tx "aa" 0) ∧
          ¬ ∃ tx ∈ replayChain.allTransactions, spends tx "aa" 0) ∧
    utxoGet replayChain.FindUTXOSet "aa" 0 = some ⟨10, some [7]⟩ ∧
    sampleSpender.IsCoinbase = .ok false ∧
    sampleSpender.Vin.map (fun txInput => (hex txInput.Txid, txInput.OutIdx)) = [("aa", 0)] ∧
    (NewBlock 1 [sampleCoinbase 170] []).Mine toyHash toySer 50 = .ok replayGenesis ∧
    Blockchain.MineBlock toyHash toySer toyVerify 2 50 ⟨[replayGenesis]⟩ [sampleSpender]
      = .ok (⟨[replayGenesis, replaySpend]⟩, some replaySpend, none) ∧
    Blockchain.MineBlock toyHash toySer toyVerify 3 50 ⟨[replayGenesis, replaySpend]⟩
        [sampleCoinbase 170]
      = .ok (replayChain, some replayAgain, none) ∧
    ∀ (ser : Transaction → Bytes) (ecv : Nat → Nat → Bytes → Nat → Nat → Bool),
      Blockchain.VerifyTransaction ser ecv ⟨[replayGenesis, replaySpend]⟩ (sampleCoinbase 170)
        = .ok true := by
  refine ⟨fun h => ?_, by decide, by decide, by decide, by decide, by decide, by decide,
    fun ser ecv => VerifyTransaction_coinbase ser ecv _ _ (by decide)⟩
  have hp : (utxoGet replayChain.FindUTXOSet "aa" 0).isSome = true := by decide
  exact (h.mp hp).2 ⟨sampleSpender, by decide, by decide, ⟨[0xaa], 0, [], []⟩, by decide,
    by decide, rfl⟩

/-- C11, amended.  For a chain in which the hexadecimal identifiers of the
transactions are pairwise distinct, every input of a transaction that is not a
coinbase names a transaction placed earlier in the chain, and no output is the
zero output, the set returned by `FindUTXOSet` holds the key `(k, i)` exactly
when `i` is an output index of a transaction of the chain with identifier `k`
and no transaction of the chain that is not a coinbase has an input naming
`(k, i)`. -/
theorem findUTXOSet_iff_unspent (bc : Blockchain) (k : String) (i : Int)
    (hid : (bc.allTransactions.map fun tx => hex tx.ID).Nodup)
    (hord : spendsEarlier [] bc.allTransactions = true)
    (hnz : ∀ tx ∈ bc.allTransactions, ∀ txOutput ∈ tx.Vout, txOutput ≠ zeroTXOutput) :
    (utxoGet bc.FindUTXOSet k i).isSome = true ↔
      (∃ tx ∈ bc.allTransactions, creates tx k i) ∧
        ¬ ∃ tx ∈ bc.allTransactions, spends tx k i := by
  rw [utxoGet_FindUTXOSet]
  constructor
  · intro hp
    refine ⟨created_of_present k i _ hp, fun hs => ?_⟩
    rw [absent_of_spent k i _ hid hord hnz hs] at hp
    cases hp
  · rintro ⟨hc, hs⟩
    exact present_of_unspent k i _ none (fun tx ht hsp => hs ⟨tx, ht, hsp⟩) (Or.inr hc)

theorem findUTXOSet_iff_unspent_witness :
    ((utxoGet spentChain.FindUTXOSet "aa" 0).isSome = true ↔
        (∃ tx ∈ spentChain.allTransactions, creates tx "aa" 0) ∧
          ¬ ∃ tx ∈ spentChain.allTransactions, spends tx "aa" 0) ∧
      ((utxoGet spentChain.FindUTXOSet "ab" 0).isSome = true ↔
        (∃ tx ∈ spentChain.allTransactions, creates tx "ab" 0) ∧
          ¬ ∃ tx ∈ spentChain.allTransactions, spends tx "ab" 0) ∧
      (utxoGet spentChain.FindUTXOSet "aa" 0).isSome = false ∧
      (utxoGet spentChain.FindUTXOSet "ab" 0).isSome = true :=
  ⟨findUTXOSet_iff_unspent spentChain "aa" 0 (by decide) (by decide) (by decide),
    findUTXOSet_iff_unspent spentChain "ab" 0 (by decide) (by decide) (by decide),
    by decide, by decide⟩
/-! ## Spendable outputs -/

theorem wrapInt64_add (a b : Int) : wrapInt64 (wrapInt64 a + b) = wrapInt64 (a + b) := by
  unfold wrapInt64
  omega

theorem wrapInt64_idem (a : Int) : wrapInt64 (wrapInt64 a) = wrapInt64 a := by
  unfold wrapInt64
  omega

/-- The inner loop of `FindSpendableOutputs`, balance: the values of the locked
outputs are added, as a Go `int`. -/
theorem spendableInner_balance (pubKeyHash : Bytes) (txID : String) :
    ∀ (inner : List (Int × TXOutput)) (st : Int × List (String × List Int)),
      wrapInt64 st.1 = st.1 →
      (spendableInner pubKeyHash txID inner st).1
        = wrapInt64 (st.1 +
            ((inner.filter fun p => p.2.IsLockedWithKey pubKeyHash).map fun p => p.2.Value).sum) := by
  intro inner
  induction inner with
  | nil => intro st h; simp [spendableInner, h]
  | cons p rest ih =>
    intro st h
    obtain ⟨outIdx, txOutput⟩ := p
    obtain ⟨accumulatedBalance, spendableOutputs⟩ := st
    by_cases hl : txOutput.IsLockedWithKey pubKeyHash = true
    · simp only [spendableInner, if_pos hl]
      rw [ih _ (wrapInt64_idem _)]
      simp only [List.filter_cons, hl, if_true, List.map_cons, List.sum_cons]
      rw [wrapInt64_add, add_assoc]
    · simp only [spendableInner, if_neg hl]
      rw [ih _ h]
      simp only [List.filter_cons, hl, if_false, Bool.false_eq_true]

/-- The outer loop of `FindSpendableOutputs`, balance. -/
theorem spendableFold_balance (pubKeyHash : Bytes) :
    ∀ (u : UTXOSet) (st : Int × List (String × List Int)),
      wrapInt64 st.1 = st.1 →
      (u.foldl (fun st e => spendableInner pubKeyHash e.1 e.2 st) st).1
        = wrapInt64 (st.1 + (lockedValues u pubKeyHash).sum) := by
  intro u
  induction u with
  | nil => intro st h; simp [lockedValues, h]
  | cons e rest ih =>
    intro st h
    simp only [List.foldl_cons]
    have hb := spendableInner_balance pubKeyHash e.1 e.2 st h
    rw [ih _ (by rw [hb]; exact wrapInt64_idem _), hb, wrapInt64_add]
    simp only [lockedValues, List.flatMap_cons, List.sum_append]
    rw [add_assoc]

/-- The inner loop of `FindSpendableOutputs`, chosen outputs: under `txID` the
indexes of the locked outputs are appended, the other keys are left alone. -/
theorem spendableInner_chosen (pubKeyHash : Bytes) (txID : String) :
    ∀ (inner : List (Int × TXOutput)) (st : Int × List (String × List Int)) (k : String),
      mapGet (spendableInner pubKeyHash txID inner st).2 k
        = if k = txID ∧ (inner.filter fun p => p.2.IsLockedWithKey pubKeyHash) ≠ [] then
            some ((mapGet st.2 k).getD []
              ++ (inner.filter fun p => p.2.IsLockedWithKey pubKeyHash).map fun p => p.1)
          else mapGet st.2 k := by
  intro inner
  induction inner with
  | nil => intro st k; simp [spendableInner]
  | cons p rest ih =>
    intro st k
    obtain ⟨outIdx, txOutput⟩ := p
    obtain ⟨accumulatedBalance, spendableOutputs⟩ := st
    by_cases hl : txOutput.IsLockedWithKey pubKeyHash = true
    · simp only [spendableInner, if_pos hl]
      rw [ih]
      simp only [List.filter_cons, hl, if_true, List.map_cons, ne_eq, List.cons_ne_nil,
        not_false_eq_true, and_true, mapGet_mapSet]
      by_cases hk : k = txID
      · subst hk
        simp only [if_true, true_and, Option.getD_some, List.append_assoc, List.singleton_append]
        split_ifs with h
        · rw [h]; rfl
        · rfl
      · simp only [hk, if_false, false_and]
    · simp only [spendableInner, if_neg hl]
      rw [ih]
      simp only [List.filter_cons, hl, if_false, Bool.false_eq_true]

/-- The outer loop of `FindSpendableOutputs`, chosen outputs. -/
theorem spendableFold_chosen (pubKeyHash : Bytes) (k : String) :
    ∀ (u : UTXOSet) (st : Int × List (String × List Int)),
      mapGet (u.foldl (fun st e => spendableInner pubKeyHash e.1 e.2 st) st).2 k
        = if lockedIndexes u pubKeyHash k = [] then mapGet st.2 k
          else some ((mapGet st.2 k).getD [] ++ lockedIndexes u pubKeyHash k) := by
  intro u
  induction u with
  | nil => intro st; simp [lockedIndexes]
  | cons e rest ih =>
    intro st
    simp only [List.foldl_cons]
    rw [ih, spendableInner_chosen]
    have hcons : lockedIndexes (e :: rest) pubKeyHash k
        = (if e.1 = k then (e.2.filter fun p => p.2.IsLockedWithKey pubKeyHash).map fun p => p.1
            else []) ++ lockedIndexes rest pubKeyHash k := by
      simp only [lockedIndexes, List.flatMap_cons]
    rw [hcons]
    by_cases hk : e.1 = k
    · subst hk
      simp only [if_true, true_and, ne_eq]
      by_cases hf : (e.2.filter fun p => p.2.IsLockedWithKey pubKeyHash) = []
      · simp only [hf, not_true_eq_false, if_false, List.map_nil, List.nil_append]
      · simp only [hf, not_false_eq_true, if_true, Option.getD_some, List.append_assoc,
          List.append_eq_nil, List.map_eq_nil_iff, false_and, if_false]
        split_ifs with h
        · rw [h, List.append_nil]
        · rfl
    · have hk2 : ¬ k = e.1 := fun h => hk h.symm
      simp only [hk, hk2, if_false, false_and, List.nil_append]

theorem mem_lockedIndexes (u : UTXOSet) (pubKeyHash : Bytes) (k : String) (i : Int) :
    i ∈ lockedIndexes u pubKeyHash k ↔
      ∃ inner txOutput, (k, inner) ∈ u ∧ (i, txOutput) ∈ inner
        ∧ txOutput.IsLockedWithKey pubKeyHash = true := by
  unfold lockedIndexes
  simp only [List.mem_flatMap]
  constructor
  · rintro ⟨e, he, hi⟩
    by_cases hk : e.1 = k
    · rw [if_pos hk] at hi
      simp only [List.mem_map, List.mem_filter] at hi
      obtain ⟨p, ⟨hp, hl⟩, rfl⟩ := hi
      exact ⟨e.2, p.2, by rw [← hk]; exact he, hp, hl⟩
    · rw [if_neg hk] at hi; cases hi
  · rintro ⟨inner, txOutput, hu, hi, hl⟩
    refine ⟨(k, inner), hu, ?_⟩
    simp only [if_true, List.mem_map, List.mem_filter]
    exact ⟨(i, txOutput), ⟨hi, hl⟩, rfl⟩

/-- What `FindSpendableOutputs` returns. -/
theorem FindSpendableOutputs_eq (u : UTXOSet) (pubKeyHash : Bytes) (amount : Int) :
    (FindSpendableOutputs u pubKeyHash amount).1 = wrapInt64 (lockedValues u pubKeyHash).sum ∧
    ∀ k, mapGet (FindSpendableOutputs u pubKeyHash amount).2 k
      = if lockedIndexes u pubKeyHash k = [] then none
        else some (lockedIndexes u pubKeyHash k) := by
  unfold FindSpendableOutputs
  constructor
  · rw [spendableFold_balance pubKeyHash u (0, []) (by decide)]
    simp
  · intro k
    rw [spendableFold_chosen]
    rfl

/-! ## Signature bytes -/

theorem numeric_append (a b : Bytes) :
    numeric (a ++ b) = numeric a * 256 ^ b.length + numeric b := by
  unfold numeric
  rw [List.foldl_append]
  generalize List.foldl (fun acc x => acc * 256 + x) 0 a = n
  induction b generalizing n with
  | nil => simp
  | cons x rest ih =>
    simp only [List.foldl_cons, List.length_cons]
    rw [ih (n * 256 + x), ih (0 * 256 + x)]
    ring

theorem numeric_cons (x : Nat) (b : Bytes) :
    numeric (x :: b) = x * 256 ^ b.length + numeric b := by
  have h := numeric_append [x] b
  simpa [numeric] using h

/-- The loop of `big.Int.Bytes` writes the digits of `n` in front of `acc`. -/
theorem numeric_bigBytesAux :
    ∀ (fuel n : Nat) (acc : Bytes), n ≤ fuel →
      numeric (bigBytesAux fuel n acc) = n * 256 ^ acc.length + numeric acc := by
  intro fuel
  induction fuel with
  | zero =>
    intro n acc h
    have : n = 0 := by omega
    subst this
    simp [bigBytesAux]
  | succ fuel ih =>
    intro n acc h
    by_cases hn : n = 0
    · subst hn; simp [bigBytesAux]
    · simp only [bigBytesAux, if_neg hn]
      rw [ih (n / 256) _ (by omega), numeric_cons, List.length_cons, pow_succ]
      have hdiv : 256 * (n / 256) + n % 256 = n := Nat.div_add_mod n 256
      calc n / 256 * (256 ^ acc.length * 256) + (n % 256 * 256 ^ acc.length + numeric acc)
          = (256 * (n / 256) + n % 256) * 256 ^ acc.length + numeric acc := by ring
        _ = n * 256 ^ acc.length + numeric acc := by rw [hdiv]

/-- Reading the bytes of `n` back gives `n`. -/
theorem numeric_bigBytes (n : Nat) : numeric (bigBytes n) = n := by
  unfold bigBytes
  rw [numeric_bigBytesAux n n [] (le_refl n)]
  simp [numeric]

/-- When the two scalars have byte strings of the same length, halving the
signature gives them back. -/
theorem halves_of_equal_length (r s : Nat)
    (h : (bigBytes r).length = (bigBytes s).length) :
    numeric ((bigBytes r ++ bigBytes s).take ((bigBytes r ++ bigBytes s).length / 2)) = r ∧
    numeric ((bigBytes r ++ bigBytes s).drop ((bigBytes r ++ bigBytes s).length / 2)) = s := by
  have hl : (bigBytes r ++ bigBytes s).length / 2 = (bigBytes r).length := by
    rw [List.length_append, ← h]; omega
  rw [hl, List.take_left, List.drop_left]
  exact ⟨numeric_bigBytes r, numeric_bigBytes s⟩

/-! ## `Sign` and `Verify` -/

theorem TrimmedCopy_signed (tx : Transaction) (sig : Bytes) :
    ({ tx with Vin := tx.Vin.map fun input => { input with Signature := sig } } :
      Transaction).TrimmedCopy = tx.TrimmedCopy := by
  simp [Transaction.TrimmedCopy, List.map_map, Function.comp_def]

theorem IsCoinbase_signed (tx : Transaction) (sig : Bytes) :
    ({ tx with Vin := tx.Vin.map fun input => { input with Signature := sig } } :
      Transaction).IsCoinbase = tx.IsCoinbase := by
  unfold Transaction.IsCoinbase
  cases h : tx.Vin with
  | nil => simp
  | cons a rest => simp

theorem inputKnown_signed (H R : Bytes → Bytes) (prevTXs : List (String × Transaction))
    (input : TXInput) (sig : Bytes) :
    inputKnown H R prevTXs { input with Signature := sig } = inputKnown H R prevTXs input := rfl

/-- The transaction that `Sign` leaves when it signs. -/
theorem Sign_signs (H R : Bytes → Bytes) (ser : Transaction → Bytes)
    (sgn : Bytes → Option (Nat × Nat)) (tx : Transaction)
    (prevTXs : List (String × Transaction)) (r s : Nat)
    (hc : tx.IsCoinbase = .ok false)
    (hk : tx.Vin.all (fun input => inputKnown H R prevTXs input) = true)
    (hs : sgn (ser tx.TrimmedCopy) = some (r, s)) :
    tx.Sign H R ser sgn prevTXs
      = .ok ({ tx with Vin := tx.Vin.map fun input =>
                { input with Signature := bigBytes r ++ bigBytes s } }, none) := by
  unfold Transaction.Sign
  rw [hc]
  simp only [Res.bind, Bool.false_eq_true, if_false, hk, if_true, hs]

/-- The verdict of `Verify` on a transaction signed by `Sign`: every input is
checked with the two halves of the stored signature. -/
theorem Verify_signed (H R : Bytes → Bytes) (ser : Transaction → Bytes)
    (ecv : Nat → Nat → Bytes → Nat → Nat → Bool) (tx : Transaction)
    (prevTXs : List (String × Transaction)) (sig : Bytes)
    (hc : tx.IsCoinbase = .ok false)
    (hk : tx.Vin.all (fun input => inputKnown H R prevTXs input) = true) :
    ({ tx with Vin := tx.Vin.map fun input => { input with Signature := sig } } :
      Transaction).Verify H R ser ecv prevTXs
      = .ok (tx.Vin.all fun input =>
          ecv (numeric (input.PubKey.take (input.PubKey.length / 2)))
            (numeric (input.PubKey.drop (input.PubKey.length / 2))) (ser tx.TrimmedCopy)
            (numeric (sig.take (sig.length / 2))) (numeric (sig.drop (sig.length / 2)))) := by
  unfold Transaction.Verify
  rw [IsCoinbase_signed, hc, TrimmedCopy_signed]
  have hk2 : (tx.Vin.map fun input => { input with Signature := sig }).all
      (fun input => inputKnown H R prevTXs input) = true := by
    rw [List.all_map]; exact hk
  simp only [Res.bind, Bool.false_eq_true, if_false, hk2, if_true, List.all_map,
    Function.comp_def, inputVerifies]
  split_ifs with h
  · rw [h]
  · rw [Bool.not_eq_true] at h; rw [h]

/-! ### When halving recovers the pair -/

theorem numeric_lt (b : Bytes) (h : ∀ x ∈ b, x < 256) : numeric b < 256 ^ b.length := by
  induction b with
  | nil => simp [numeric]
  | cons x rest ih =>
    rw [numeric_cons, List.length_cons, pow_succ]
    have hx : x < 256 := h x (List.mem_cons_self _ _)
    have hr := ih fun y hy => h y (List.mem_cons_of_mem _ hy)
    have hp : 0 < 256 ^ rest.length := by positivity
    nlinarith

theorem bigBytesAux_bytes :
    ∀ (fuel n : Nat) (acc : Bytes), (∀ x ∈ acc, x < 256) →
      ∀ x ∈ bigBytesAux fuel n acc, x < 256 := by
  intro fuel
  induction fuel with
  | zero => intro n acc h; simpa [bigBytesAux] using h
  | succ fuel ih =>
    intro n acc h
    by_cases hn : n = 0
    · simpa [bigBytesAux, hn] using h
    · simp only [bigBytesAux, if_neg hn]
      apply ih
      intro x hx
      rcases List.mem_cons.mp hx with e | e
      · rw [e]; exact Nat.mod_lt _ (by decide)
      · exact h x e

theorem bigBytes_bytes (n : Nat) : ∀ x ∈ bigBytes n, x < 256 :=
  bigBytesAux_bytes n n [] (fun _ h => by cases h)

/-- The number of bytes that the loop of `big.Int.Bytes` writes: none for
zero, otherwise the `d` with `256 ^ (d - 1) ≤ n < 256 ^ d`. -/
theorem bigBytesAux_length :
    ∀ (fuel n : Nat) (acc : Bytes), n ≤ fuel →
      ∃ d, (bigBytesAux fuel n acc).length = acc.length + d ∧ (n = 0 → d = 0) ∧
        (n ≠ 0 → 256 ^ (d - 1) ≤ n ∧ 1 ≤ d) := by
  intro fuel
  induction fuel with
  | zero =>
    intro n acc h
    exact ⟨0, by simp [bigBytesAux], fun _ => rfl, fun hn => absurd (by omega) hn⟩
  | succ fuel ih =>
    intro n acc h
    by_cases hn : n = 0
    · exact ⟨0, by simp [bigBytesAux, hn], fun _ => rfl, fun h0 => absurd hn h0⟩
    · simp only [bigBytesAux, if_neg hn]
      obtain ⟨d, hl, h0, h1⟩ := ih (n / 256) ((n % 256) :: acc) (by omega)
      refine ⟨d + 1, by rw [hl, List.length_cons]; omega, fun h => absurd h hn, fun _ => ?_⟩
      refine ⟨?_, by omega⟩
      by_cases hq : n / 256 = 0
      · rw [h0 hq]; simp; omega
      · obtain ⟨hb, hd⟩ := h1 hq
        have : d + 1 - 1 = (d - 1) + 1 := by omega
        rw [this, pow_succ]
        have := Nat.div_mul_le_self n 256
        nlinarith

/-- A positive number is at least `256 ^ (length - 1)` of its byte string. -/
theorem bigBytes_lower (n : Nat) (hn : n ≠ 0) :
    256 ^ ((bigBytes n).length - 1) ≤ n ∧ 1 ≤ (bigBytes n).length := by
  obtain ⟨d, hl, _, h1⟩ := bigBytesAux_length n n [] (le_refl n)
  simp only [List.length_nil, Nat.zero_add] at hl
  unfold bigBytes
  rw [hl]
  exact h1 hn

/-- Halving recovers the pair when the byte string of `r` is as long as that
of `s` or one byte shorter. -/
theorem halves_recover (r s : Nat)
    (h : (bigBytes r).length = (bigBytes s).length
      ∨ (bigBytes r).length + 1 = (bigBytes s).length) :
    numeric ((bigBytes r ++ bigBytes s).take ((bigBytes r ++ bigBytes s).length / 2)) = r ∧
    numeric ((bigBytes r ++ bigBytes s).drop ((bigBytes r ++ bigBytes s).length / 2)) = s := by
  have hl : (bigBytes r ++ bigBytes s).length / 2 = (bigBytes r).length := by
    rw [List.length_append]; omega
  rw [hl, List.take_left, List.drop_left]
  exact ⟨numeric_bigBytes r, numeric_bigBytes s⟩

/-- Halving loses `r` when its byte string is longer than that of `s`: the
first half is a proper prefix of the bytes of `r`. -/
theorem halves_lose_r (r s : Nat) (h : (bigBytes s).length < (bigBytes r).length) :
    numeric ((bigBytes r ++ bigBytes s).take ((bigBytes r ++ bigBytes s).length / 2)) < r := by
  have hr : r ≠ 0 := by
    intro h0
    rw [h0] at h
    simp [bigBytes, bigBytesAux] at h
  obtain ⟨hlow, _⟩ := bigBytes_lower r hr
  have hh : (bigBytes r ++ bigBytes s).length / 2 ≤ (bigBytes r).length - 1 := by
    rw [List.length_append]; omega
  have htake : (bigBytes r ++ bigBytes s).take ((bigBytes r ++ bigBytes s).length / 2)
      = (bigBytes r).take ((bigBytes r ++ bigBytes s).length / 2) := by
    apply List.take_append_of_le_length
    omega
  rw [htake]
  have hlt := numeric_lt ((bigBytes r).take ((bigBytes r ++ bigBytes s).length / 2))
    (fun x hx => bigBytes_bytes r x (List.mem_of_mem_take hx))
  have hlen : ((bigBytes r).take ((bigBytes r ++ bigBytes s).length / 2)).length
      ≤ (bigBytes r).length - 1 := by
    rw [List.length_take]; omega
  calc _ < 256 ^ ((bigBytes r).take ((bigBytes r ++ bigBytes s).length / 2)).length := hlt
    _ ≤ 256 ^ ((bigBytes r).length - 1) := Nat.pow_le_pow_right (by decide) hlen
    _ ≤ r := hlow

/-- Halving loses `s` when the byte string of `r` is shorter than that of `s`
by two bytes or more: the second half is a proper suffix of the bytes of
`s`. -/
theorem halves_lose_s (r s : Nat) (h : (bigBytes r).length + 2 ≤ (bigBytes s).length) :
    numeric ((bigBytes r ++ bigBytes s).drop ((bigBytes r ++ bigBytes s).length / 2)) < s := by
  have hs : s ≠ 0 := by
    intro h0
    rw [h0] at h
    simp [bigBytes, bigBytesAux] at h
  obtain ⟨hlow, _⟩ := bigBytes_lower s hs
  have hdrop : (bigBytes r ++ bigBytes s).drop ((bigBytes r ++ bigBytes s).length / 2)
      = (bigBytes s).drop ((bigBytes r ++ bigBytes s).length / 2 - (bigBytes r).length) := by
    rw [List.drop_append_eq_append_drop, List.drop_of_length_le, List.nil_append]
    rw [List.length_append]; omega
  rw [hdrop]
  have hlt := numeric_lt
    ((bigBytes s).drop ((bigBytes r ++ bigBytes s).length / 2 - (bigBytes r).length))
    (fun x hx => bigBytes_bytes s x (List.mem_of_mem_drop hx))
  have hlen : ((bigBytes s).drop
      ((bigBytes r ++ bigBytes s).length / 2 - (bigBytes r).length)).length
      ≤ (bigBytes s).length - 1 := by
    rw [List.length_drop, List.length_append]; omega
  calc _ < 256 ^ ((bigBytes s).drop
        ((bigBytes r ++ bigBytes s).length / 2 - (bigBytes r).length)).length := hlt
    _ ≤ 256 ^ ((bigBytes s).length - 1) := Nat.pow_le_pow_right (by decide) hlen
    _ ≤ s := hlow

/-- After `Sign` has signed with a pair whose halves are recovered, `Verify`
returns the verdict of `ecdsa.Verify` on that pair, for every input. -/
theorem Verify_after_Sign (H R : Bytes → Bytes) (ser : Transaction → Bytes)
    (sgn : Bytes → Option (Nat × Nat)) (ecv : Nat → Nat → Bytes → Nat → Nat → Bool)
    (tx : Transaction) (prevTXs : List (String × Transaction)) (r s : Nat)
    (hc : tx.IsCoinbase = .ok false)
    (hk : tx.Vin.all (fun input => inputKnown H R prevTXs input) = true)
    (hs : sgn (ser tx.TrimmedCopy) = some (r, s))
    (hl : (bigBytes r).length = (bigBytes s).length
      ∨ (bigBytes r).length + 1 = (bigBytes s).length) :
    ∃ signed, tx.Sign H R ser sgn prevTXs = .ok (signed, none) ∧
      signed.Verify H R ser ecv prevTXs
        = .ok (tx.Vin.all fun input =>
            ecv (numeric (input.PubKey.take (input.PubKey.length / 2)))
              (numeric (input.PubKey.drop (input.PubKey.length / 2))) (ser tx.TrimmedCopy)
              r s) := by
  refine ⟨_, Sign_signs H R ser sgn tx prevTXs r s hc hk hs, ?_⟩
  rw [Verify_signed H R ser ecv tx prevTXs _ hc hk, (halves_recover r s hl).1,
    (halves_recover r s hl).2]

/-! ## Building a transaction -/

/-- The three outcomes of `NewUTXOTransaction`. -/
theorem NewUTXOTransaction_cases (H R : Bytes → Bytes) (ser : Transaction → Bytes)
    (b58 : String → Bytes) (h2b : String → Bytes)
    (order : List (String × List Int) → List (String × List Int))
    (pubKey : Bytes) (toAddress : String) (amount : Int) (utxos : UTXOSet) :
    (NewUTXOTransaction H R ser b58 h2b order pubKey toAddress amount utxos
        = .ok (none, some .ErrNoFunds)
      ∧ (FindSpendableOutputs utxos (HashPubKey H R pubKey) amount).1 < amount)
    ∨ (NewUTXOTransaction H R ser b58 h2b order pubKey toAddress amount utxos = .panic
      ∧ ¬ (FindSpendableOutputs utxos (HashPubKey H R pubKey) amount).1 < amount
      ∧ (b58 toAddress).length < 5)
    ∨ ((∃ tx, NewUTXOTransaction H R ser b58 h2b order pubKey toAddress amount utxos
          = .ok (some tx, none)
        ∧ tx.Vout =
          [⟨amount, some (((b58 toAddress).take ((b58 toAddress).length - 4)).drop 1)⟩,
            ⟨wrapInt64 ((FindSpendableOutputs utxos (HashPubKey H R pubKey) amount).1 - amount),
              some (HashPubKey H R pubKey)⟩])
      ∧ ¬ (FindSpendableOutputs utxos (HashPubKey H R pubKey) amount).1 < amount
      ∧ ¬ (b58 toAddress).length < 5) := by
  unfold NewUTXOTransaction GetPubKeyHashFromAddress
  by_cases h1 : (FindSpendableOutputs utxos (HashPubKey H R pubKey) amount).1 < amount
  · left; simp only [h1, if_true, and_self]
  · right
    by_cases h2 : (b58 toAddress).length < 5
    · left; simp only [h1, h2, if_true, if_false, Res.bind, not_false_eq_true, and_self]
    · right
      simp only [h1, h2, if_false, Res.bind, not_false_eq_true, and_true]
      exact ⟨_, rfl, rfl⟩

/-- C13.  `FindSpendableOutputs` returns the sum, as a Go `int`, of the values of
all the outputs of `u` locked with `pubKeyHash`, whatever `amount` is, and a
map that holds under each outer key the inner keys of all its locked outputs,
an outer key without locked output being absent; the result is the same for
every `amount`. -/
theorem findSpendableOutputs_spec (u : UTXOSet) (pubKeyHash : Bytes) (amount : Int) :
    (FindSpendableOutputs u pubKeyHash amount).1 = wrapInt64 (lockedValues u pubKeyHash).sum ∧
    (∀ k, mapGet (FindSpendableOutputs u pubKeyHash amount).2 k
      = if lockedIndexes u pubKeyHash k = [] then none
        else some (lockedIndexes u pubKeyHash k)) ∧
    (∀ k i, i ∈ lockedIndexes u pubKeyHash k ↔
      ∃ inner txOutput, (k, inner) ∈ u ∧ (i, txOutput) ∈ inner
        ∧ txOutput.IsLockedWithKey pubKeyHash = true) ∧
    (∀ amount2, FindSpendableOutputs u pubKeyHash amount2
      = FindSpendableOutputs u pubKeyHash amount) :=
  ⟨(FindSpendableOutputs_eq u pubKeyHash amount).1,
    (FindSpendableOutputs_eq u pubKeyHash amount).2,
    mem_lockedIndexes u pubKeyHash, fun _ => rfl⟩

theorem findSpendableOutputs_spec_witness :
    FindSpendableOutputs (testUTXOsExpected 0) pkhRodrigo 3
      = (10, [("9402c56f49de02d2b9c4633837d82e3881227a3ea90c4073c02815fdcf5afaa2", [0])]) ∧
    FindSpendableOutputs (testUTXOsBefore 4) pkhLeander 1 = (3,
      [("e9e5fc159f24b2b33310f77aef4e425e77ed71be87dbf9a0c7764b5417bd3e4b", [0]),
        ("91d6fe8fe351e50fa6e16bb391ff74f5dc650646ce6ad02442e647742566b31b", [0])]) ∧
    (FindSpendableOutputs (testUTXOsBefore 4) pkhLeander 1).1
      = wrapInt64 (lockedValues (testUTXOsBefore 4) pkhLeander).sum :=
  ⟨by decide, by decide, (findSpendableOutputs_spec (testUTXOsBefore 4) pkhLeander 1).1⟩

/-- C14, amended.  `NewUTXOTransaction` returns `ErrNoFunds` and no transaction
exactly when the total of the outputs of `utxos` locked with
`HashPubKey(pubKey)` is below `amount`; when the total equals `amount`, and the
address decodes to the five bytes or more that `GetPubKeyHashFromAddress`
slices, it returns a transaction and no error. -/
theorem newUTXOTransaction_noFunds_iff (H R : Bytes → Bytes) (ser : Transaction → Bytes)
    (b58 : String → Bytes) (h2b : String → Bytes)
    (order : List (String × List Int) → List (String × List Int))
    (pubKey : Bytes) (toAddress : String) (amount : Int) (utxos : UTXOSet) :
    (NewUTXOTransaction H R ser b58 h2b order pubKey toAddress amount utxos
        = .ok (none, some .ErrNoFunds)
      ↔ wrapInt64 (lockedValues utxos (HashPubKey H R pubKey)).sum < amount) ∧
    (∀ res, NewUTXOTransaction H R ser b58 h2b order pubKey toAddress amount utxos = .ok res →
      (res.2 = some .ErrNoFunds ↔ res.1 = none) ∧
      (res.2 = none ∨ res.2 = some .ErrNoFunds)) ∧
    (wrapInt64 (lockedValues utxos (HashPubKey H R pubKey)).sum = amount →
      5 ≤ (b58 toAddress).length →
      ∃ tx, NewUTXOTransaction H R ser b58 h2b order pubKey toAddress amount utxos
        = .ok (some tx, none)) := by
  rw [← (FindSpendableOutputs_eq utxos (HashPubKey H R pubKey) amount).1]
  rcases NewUTXOTransaction_cases H R ser b58 h2b order pubKey toAddress amount utxos with
    ⟨h1, h2⟩ | ⟨h1, h2, h3⟩ | ⟨⟨tx, h1, _⟩, h2, h3⟩
  · refine ⟨⟨fun _ => h2, fun _ => h1⟩, ?_, fun he => by omega⟩
    intro res hres
    rw [h1] at hres
    cases hres
    simp
  · refine ⟨⟨fun h => (by rw [h1] at h; cases h), fun h => absurd h h2⟩, ?_,
      fun _ h5 => by omega⟩
    intro res hres
    rw [h1] at hres
    cases hres
  · refine ⟨⟨fun h => (by rw [h1] at h; cases h), fun h => absurd h h2⟩, ?_,
      fun _ _ => ⟨tx, h1⟩⟩
    intro res hres
    rw [h1] at hres
    cases hres
    simp

theorem newUTXOTransaction_noFunds_iff_witness :
    (NewUTXOTransaction toyHash toyHash toySer toyDecode (fun _ => [0xaa]) id [1, 2] "1abcdefgh"
        11 [("aa", [(0, ⟨10, some (HashPubKey toyHash toyHash [1, 2])⟩)])]
      = .ok (none, some .ErrNoFunds)) ∧
    (∃ tx, NewUTXOTransaction toyHash toyHash toySer toyDecode (fun _ => [0xaa]) id [1, 2]
        "1abcdefgh" 10 [("aa", [(0, ⟨10, some (HashPubKey toyHash toyHash [1, 2])⟩)])]
      = .ok (some tx, none)) :=
  ⟨(newUTXOTransaction_noFunds_iff toyHash toyHash toySer toyDecode (fun _ => [0xaa]) id [1, 2]
      "1abcdefgh" 11 [("aa", [(0, ⟨10, some (HashPubKey toyHash toyHash [1, 2])⟩)])]).1.mpr
      (by decide),
    (newUTXOTransaction_noFunds_iff toyHash toyHash toySer toyDecode (fun _ => [0xaa]) id [1, 2]
      "1abcdefgh" 10 [("aa", [(0, ⟨10, some (HashPubKey toyHash toyHash [1, 2])⟩)])]).2.2
      (by decide) (by decide)⟩

/-- C15, where the code departs from it.  The sender owns one output of value 10
and pays 10: the accumulated balance equals the amount.  For every digest
function, encoder and visiting order, `NewUTXOTransaction` returns a
transaction with two outputs, the second one a change output of value 0 locked
with the sender's key hash.  The first output is as claimed. -/
theorem newUTXOTransaction_zero_change (H R : Bytes → Bytes) (ser : Transaction → Bytes)
    (h2b : String → Bytes) (order : List (String × List Int) → List (String × List Int))
    (pubKey : Bytes) :
    (FindSpendableOutputs [("aa", [(0, ⟨10, some (HashPubKey H R pubKey)⟩)])]
      (HashPubKey H R pubKey) 10).1 = 10 ∧
    GetPubKeyHashFromAddress toyDecode "1abcdefgh" = .ok [97, 98, 99, 100] ∧
    ∃ tx, NewUTXOTransaction H R ser toyDecode h2b order pubKey "1abcdefgh" 10
        [("aa", [(0, ⟨10, some (HashPubKey H R pubKey)⟩)])] = .ok (some tx, none) ∧
      tx.Vout = [⟨10, some [97, 98, 99, 100]⟩, ⟨0, some (HashPubKey H R pubKey)⟩] ∧
      tx.Vout.length = 2 := by
  have hf : (FindSpendableOutputs [("aa", [(0, ⟨10, some (HashPubKey H R pubKey)⟩)])]
      (HashPubKey H R pubKey) 10).1 = 10 := by
    simp [FindSpendableOutputs, spendableInner, TXOutput.IsLockedWithKey, wrapInt64]
  refine ⟨hf, by decide, ?_⟩
  rcases NewUTXOTransaction_cases H R ser toyDecode h2b order pubKey "1abcdefgh" 10
      [("aa", [(0, ⟨10, some (HashPubKey H R pubKey)⟩)])] with
    ⟨_, h2⟩ | ⟨_, _, h3⟩ | ⟨⟨tx, h1, hv⟩, _, _⟩
  · rw [hf] at h2; omega
  · exact absurd h3 (by decide)
  · refine ⟨tx, h1, ?_, by rw [hv]; rfl⟩
    rw [hv, hf]
    have hd : ((toyDecode "1abcdefgh").take ((toyDecode "1abcdefgh").length - 4)).drop 1
        = [97, 98, 99, 100] := by decide
    rw [hd]
    rfl

/-! ## Trimmed copy and coinbase test -/

/-- C16.  `TrimmedCopy` returns a transaction with the `ID` and the `Vout` of
`tx` and as many inputs, the input at each position having the `Txid` and the
`OutIdx` of the input of `tx` at that position and empty `Signature` and
`PubKey`; the caller's transaction is the same after the call. -/
theorem trimmedCopy_spec (tx : Transaction) :
    tx.TrimmedCopyCall.1 = tx ∧
    tx.TrimmedCopyCall.2 = tx.TrimmedCopy ∧
    tx.TrimmedCopy.ID = tx.ID ∧
    tx.TrimmedCopy.Vout = tx.Vout ∧
    tx.TrimmedCopy.Vin.length = tx.Vin.length ∧
    ∀ n, tx.TrimmedCopy.Vin.get? n
      = (tx.Vin.get? n).map fun input => ⟨input.Txid, input.OutIdx, [], []⟩ := by
  refine ⟨rfl, rfl, rfl, rfl, ?_, fun n => ?_⟩
  · simp [Transaction.TrimmedCopy]
  · simp [Transaction.TrimmedCopy, List.getElem?_map]

/-- C17, as stated, fails.  The transaction `twoInputSample` has two inputs, the
first with `OutIdx` equal to `-1`, and `IsCoinbase` returns true for it. -/
theorem isCoinbase_two_inputs :
    twoInputSample.IsCoinbase = .ok true ∧ twoInputSample.Vin.length = 2 ∧
    ¬ (twoInputSample.IsCoinbase = .ok true ↔
        twoInputSample.Vin.length = 1 ∧
          twoInputSample.Vin.map (fun input => input.OutIdx) = [-1]) := by
  decide

/-- C17, amended.  `IsCoinbase` reads the first input only: for a transaction
with at least one input it returns true exactly when the `OutIdx` of the first
input is `-1`, whatever the number of inputs, and false otherwise; on a
transaction without input it panics. -/
theorem isCoinbase_first_input (tx : Transaction) :
    (∀ input rest, tx.Vin = input :: rest →
      (tx.IsCoinbase = .ok true ↔ input.OutIdx = -1) ∧
      (tx.IsCoinbase = .ok false ↔ input.OutIdx ≠ -1)) ∧
    (tx.Vin = [] → tx.IsCoinbase = .panic) := by
  unfold Transaction.IsCoinbase
  constructor
  · intro input rest h
    rw [h]
    by_cases ho : input.OutIdx = -1
    · simp [ho]
    · simp [ho]
  · intro h
    rw [h]

theorem isCoinbase_first_input_witness :
    ((twoInputSample.IsCoinbase = .ok true ↔ (-1 : Int) = -1) ∧
      (twoInputSample.IsCoinbase = .ok false ↔ (-1 : Int) ≠ -1)) ∧
    ((sampleSpender.IsCoinbase = .ok true ↔ (0 : Int) = -1) ∧
      (sampleSpender.IsCoinbase = .ok false ↔ (0 : Int) ≠ -1)) ∧
    (⟨[1], [], []⟩ : Transaction).IsCoinbase = .panic :=
  ⟨(isCoinbase_first_input twoInputSample).1 ⟨[], -1, [], []⟩ [⟨[0xaa], 0, [], []⟩] rfl,
    (isCoinbase_first_input sampleSpender).1 ⟨[0xaa], 0, [], []⟩ [] rfl,
    (isCoinbase_first_input ⟨[1], [], []⟩).2 rfl⟩

/-! ## Signing -/

/-- C18.  For a transaction that is not a coinbase, when the `Txid` of some
input is not a key of `prevTXs`, or the prior transaction found under it has
no output locked with the hash of the key of the input, `Sign` returns
`ErrTxInputNotFound` and the transaction is as it was; for a coinbase `Sign`
returns nil and the transaction is as it was. -/
theorem sign_input_not_found (H R : Bytes → Bytes) (ser : Transaction → Bytes)
    (sgn : Bytes → Option (Nat × Nat)) (tx : Transaction)
    (prevTXs : List (String × Transaction)) :
    (tx.IsCoinbase = .ok false →
      (∃ input ∈ tx.Vin, mapGet prevTXs (Bytes2Hex input.Txid) = none ∨
        ∃ prev, mapGet prevTXs (Bytes2Hex input.Txid) = some prev ∧
          ∀ output ∈ prev.Vout, output.PubKeyHash.getD [] ≠ HashPubKey H R input.PubKey) →
      tx.Sign H R ser sgn prevTXs = .ok (tx, some .ErrTxInputNotFound)) ∧
    (tx.IsCoinbase = .ok true → tx.Sign H R ser sgn prevTXs = .ok (tx, none)) := by
  unfold Transaction.Sign
  constructor
  · rintro hc ⟨input, hin, hbad⟩
    have hk : ¬ tx.Vin.all (fun input => inputKnown H R prevTXs input) = true := by
      intro hall
      have h1 := List.all_eq_true.mp hall input hin
      unfold inputKnown at h1
      rcases hbad with hnone | ⟨prev, hsome, hno⟩
      · rw [hnone] at h1; cases h1
      · rw [hsome] at h1
        simp only [List.any_eq_true, decide_eq_true_eq] at h1
        obtain ⟨output, ho, he⟩ := h1
        exact hno output ho he.symm
    rw [hc]
    simp only [Res.bind, Bool.false_eq_true, if_false, hk]
  · intro hc
    rw [hc]
    simp only [Res.bind, if_true]

theorem sign_input_not_found_witness :
    signSample.Sign toyHash toyHash toySer (fun _ => some (5, 6)) []
      = .ok (signSample, some .ErrTxInputNotFound) ∧
    signSample.Sign toyHash toyHash toySer (fun _ => some (5, 6))
        [("aa", sampleCoinbase 170)]
      = .ok (signSample, some .ErrTxInputNotFound) ∧
    (sampleCoinbase 170).Sign toyHash toyHash toySer (fun _ => some (5, 6)) []
      = .ok (sampleCoinbase 170, none) :=
  ⟨(sign_input_not_found toyHash toyHash toySer (fun _ => some (5, 6)) signSample []).1
      (by decide) ⟨⟨[0xaa], 0, [], pubKeyToByte 2 3⟩, by decide, Or.inl (by decide)⟩,
    (sign_input_not_found toyHash toyHash toySer (fun _ => some (5, 6)) signSample
        [("aa", sampleCoinbase 170)]).1
      (by decide) ⟨⟨[0xaa], 0, [], pubKeyToByte 2 3⟩, by decide,
        Or.inr ⟨sampleCoinbase 170, by decide, by decide⟩⟩,
    (sign_input_not_found toyHash toyHash toySer (fun _ => some (5, 6)) (sampleCoinbase 170)
        []).2 (by decide)⟩

theorem signSample_known (H R : Bytes → Bytes) :
    signSample.Vin.all (fun input => inputKnown H R (signSamplePrev H R) input) = true := by
  have hk : mapGet (signSamplePrev H R) (Bytes2Hex [0xaa])
      = some ⟨[0xaa], [⟨[], -1, [], []⟩], [⟨10, some (HashPubKey H R (pubKeyToByte 2 3))⟩]⟩ := by
    have hx : Bytes2Hex [0xaa] = "aa" := by decide
    rw [hx]
    simp [signSamplePrev, mapGet]
  simp [signSample, inputKnown, hk]

/-- C19, where the code departs from it.  The transaction `signSample` is not a
coinbase, its input carries the key bytes of the point `(2, 3)` and names an
output locked with the hash of that key.  When `ecdsa.Sign` produces the pair
`(256, 1)`, `Sign` returns nil and stores the three bytes `01 00 01`; `Verify`
then hands `ecdsa.Verify` the pair `(1, 1)`, so its verdict is the verdict on
another signature: with a check that accepts exactly the pair that was
produced, `Verify` returns false. -/
theorem verify_after_sign_unpadded (H R : Bytes → Bytes) (ser : Transaction → Bytes)
    (ecv : Nat → Nat → Bytes → Nat → Nat → Bool) :
    signSample.IsCoinbase = .ok false ∧
    ∃ signed, signSample.Sign H R ser (fun _ => some (256, 1)) (signSamplePrev H R)
        = .ok (signed, none) ∧
      signed.Vin.map (fun input => input.Signature) = [[1, 0, 1]] ∧
      signed.Verify H R ser ecv (signSamplePrev H R)
        = .ok (ecv 2 3 (ser signSample.TrimmedCopy) 1 1) ∧
      signed.Verify H R ser (fun x y _ r s => decide (x = 2 ∧ y = 3 ∧ r = 256 ∧ s = 1))
          (signSamplePrev H R)
        = .ok false := by
  have hc : signSample.IsCoinbase = .ok false := by decide
  have hs := Sign_signs H R ser (fun _ => some (256, 1)) signSample (signSamplePrev H R) 256 1
    hc (signSample_known H R) rfl
  have hv := fun ecv => Verify_signed H R ser ecv signSample (signSamplePrev H R)
    (bigBytes 256 ++ bigBytes 1) hc (signSample_known H R)
  have hx : numeric ((pubKeyToByte 2 3).take ((pubKeyToByte 2 3).length / 2)) = 2 := by decide
  have hy : numeric ((pubKeyToByte 2 3).drop ((pubKeyToByte 2 3).length / 2)) = 3 := by decide
  have hr : numeric ((bigBytes 256 ++ bigBytes 1).take ((bigBytes 256 ++ bigBytes 1).length / 2))
      = 1 := by decide
  have hs1 : numeric ((bigBytes 256 ++ bigBytes 1).drop ((bigBytes 256 ++ bigBytes 1).length / 2))
      = 1 := by decide
  refine ⟨hc, _, hs, by decide, ?_, ?_⟩
  · rw [hv]
    simp only [signSample, List.all_cons, List.all_nil, Bool.and_true, hx, hy, hr, hs1]
  · rw [hv]
    simp only [signSample, List.all_cons, List.all_nil, Bool.and_true, hx, hy, hr, hs1]
    rfl

/-- C20, where the code departs from it.  `Sign` stores `r.Bytes()` followed by
`s.Bytes()`, each without leading zero bytes and without padding.  For the
pair `(256, 1)` the stored signature is `01 00 01`: its halves, split at
`length/2`, are `01` and `00 01`, which decode to `(1, 1)`.  In general the
halves decode to `(r, s)` exactly when the byte string of `r` is as long as
that of `s` or one byte shorter. -/
theorem sign_halves_unpadded (H R : Bytes → Bytes) (ser : Transaction → Bytes) :
    (∃ signed, signSample.Sign H R ser (fun _ => some (256, 1)) (signSamplePrev H R)
        = .ok (signed, none) ∧
      signed.Vin.map (fun input => input.Signature) = [bigBytes 256 ++ bigBytes 1]) ∧
    bigBytes 256 ++ bigBytes 1 = [1, 0, 1] ∧
    numeric ((bigBytes 256 ++ bigBytes 1).take ((bigBytes 256 ++ bigBytes 1).length / 2)) = 1 ∧
    numeric ((bigBytes 256 ++ bigBytes 1).drop ((bigBytes 256 ++ bigBytes 1).length / 2)) = 1 ∧
    ∀ r s : Nat,
      (numeric ((bigBytes r ++ bigBytes s).take ((bigBytes r ++ bigBytes s).length / 2)) = r ∧
        numeric ((bigBytes r ++ bigBytes s).drop ((bigBytes r ++ bigBytes s).length / 2)) = s)
      ↔ ((bigBytes r).length = (bigBytes s).length
        ∨ (bigBytes r).length + 1 = (bigBytes s).length) := by
  refine ⟨⟨_, Sign_signs H R ser (fun _ => some (256, 1)) signSample (signSamplePrev H R) 256 1
    (by decide) (signSample_known H R) rfl, rfl⟩, by decide, by decide, by decide,
    fun r s => ⟨fun h => ?_, halves_recover r s⟩⟩
  by_contra hne
  have hcase : (bigBytes s).length < (bigBytes r).length
      ∨ (bigBytes r).length + 2 ≤ (bigBytes s).length := by omega
  rcases hcase with h1 | h1
  · have := halves_lose_r r s h1
    omega
  · have := halves_lose_s r s h1
    omega

theorem sign_halves_unpadded_witness :
    ¬ (numeric ((bigBytes 256 ++ bigBytes 1).take ((bigBytes 256 ++ bigBytes 1).length / 2))
          = 256 ∧
        numeric ((bigBytes 256 ++ bigBytes 1).drop ((bigBytes 256 ++ bigBytes 1).length / 2))
          = 1) ∧
    (numeric ((bigBytes 257 ++ bigBytes 258).take ((bigBytes 257 ++ bigBytes 258).length / 2))
        = 257 ∧
      numeric ((bigBytes 257 ++ bigBytes 258).drop ((bigBytes 257 ++ bigBytes 258).length / 2))
        = 258) ∧
    (numeric ((bigBytes 1 ++ bigBytes 256).take ((bigBytes 1 ++ bigBytes 256).length / 2))
        = 1 ∧
      numeric ((bigBytes 1 ++ bigBytes 256).drop ((bigBytes 1 ++ bigBytes 256).length / 2))
        = 256) :=
  ⟨fun h => absurd (((sign_halves_unpadded toyHash toyHash toySer).2.2.2.2 256 1).mp h)
      (by decide),
    ((sign_halves_unpadded toyHash toyHash toySer).2.2.2.2 257 258).mpr (Or.inl (by decide)),
    ((sign_halves_unpadded toyHash toyHash toySer).2.2.2.2 1 256).mpr (Or.inr (by decide))⟩

/-! ## Key bytes -/

/-- The byte string of `n` has `k + 1` bytes when `256 ^ k ≤ n < 256 ^ (k + 1)`. -/
theorem bigBytes_length_eq (n k : Nat) (h1 : 256 ^ k ≤ n) (h2 : n < 256 ^ (k + 1)) :
    (bigBytes n).length = k + 1 := by
  have hn : n ≠ 0 := by
    intro h0
    rw [h0] at h1
    have : 0 < 256 ^ k := by positivity
    omega
  obtain ⟨hlow, hpos⟩ := bigBytes_lower n hn
  have hup := numeric_lt (bigBytes n) (bigBytes_bytes n)
  rw [numeric_bigBytes] at hup
  have ha : k < (bigBytes n).length := by
    by_contra hle
    have : 256 ^ (bigBytes n).length ≤ 256 ^ k := Nat.pow_le_pow_right (by decide) (by omega)
    omega
  have hb : (bigBytes n).length - 1 < k + 1 := by
    by_contra hle
    have : 256 ^ (k + 1) ≤ 256 ^ ((bigBytes n).length - 1) :=
      Nat.pow_le_pow_right (by decide) (by omega)
    omega
  omega

/-! ## Addresses -/

/-- The checksum has four bytes. -/
theorem checksum_ok (H : Bytes → Bytes) (hH : ∀ b, 4 ≤ (H b).length) (payload : Bytes) :
    checksum H payload = .ok ((H (H payload)).take 4) ∧ ((H (H payload)).take 4).length = 4 := by
  have h := hH (H payload)
  unfold checksum
  rw [if_neg (by omega)]
  exact ⟨rfl, by rw [List.length_take]; omega⟩

/-- The outcomes of `ValidateAddress`. -/
theorem ValidateAddress_cases (H : Bytes → Bytes) (b58 : String → Bytes) (address : String) :
    ((b58 address).length < 5 ∧ ValidateAddress H b58 address = .panic) ∨
    (5 ≤ (b58 address).length ∧
      ∃ r, checksum H ([version] ++ ((b58 address).take ((b58 address).length - 4)).drop 1) = r ∧
        ValidateAddress H b58 address
          = r.map fun cs => decide ((b58 address).drop ((b58 address).length - 4) = cs)) := by
  unfold ValidateAddress
  by_cases h : (b58 address).length < 5
  · left; exact ⟨h, by simp only [if_pos h]⟩
  · right
    refine ⟨by omega, _, rfl, ?_⟩
    simp only [if_neg h, addressChecksumLen]
    cases checksum H ([version] ++ ((b58 address).take ((b58 address).length - 4)).drop 1) <;> rfl

/-- The bytes that `GetAddress` encodes, and how they split. -/
theorem address_payload_split (pkh cs : Bytes) (hcs : cs.length = 4) :
    5 ≤ ([version] ++ pkh ++ cs).length ∧
    (([version] ++ pkh ++ cs).take (([version] ++ pkh ++ cs).length - 4)).drop 1 = pkh ∧
    ([version] ++ pkh ++ cs).drop (([version] ++ pkh ++ cs).length - 4) = cs := by
  have hlen : ([version] ++ pkh ++ cs).length - 4 = ([version] ++ pkh).length := by
    simp only [List.length_append, List.length_singleton]; omega
  refine ⟨by simp only [List.length_append, List.length_singleton]; omega, ?_, ?_⟩
  · rw [hlen, List.take_left]; rfl
  · rw [hlen, List.drop_left]

/-! ## Mining and receiving -/

/-- The filter loop of `MineBlock`, read backwards: what it returns is the
transactions it started from followed by transactions that verify. -/
theorem collectValid_sound (ser : Transaction → Bytes)
    (ecv : Nat → Nat → Bytes → Nat → Nat → Bool) (bc : Blockchain) :
    ∀ (txs validTx out : List Transaction), collectValid ser ecv bc txs validTx = .ok out →
      ∃ extra, out = validTx ++ extra ∧
        ∀ tx ∈ extra, bc.VerifyTransaction ser ecv tx = .ok true := by
  intro txs
  induction txs with
  | nil =>
    intro validTx out h
    simp only [collectValid, Res.ok.injEq] at h
    exact ⟨[], by rw [← h, List.append_nil], fun _ h => by cases h⟩
  | cons tx rest ih =>
    intro validTx out h
    simp only [collectValid] at h
    cases hv : bc.VerifyTransaction ser ecv tx with
    | panic => rw [hv] at h; cases h
    | timeout => rw [hv] at h; cases h
    | ok v =>
      rw [hv] at h
      simp only [Res.bind] at h
      cases v with
      | true =>
        simp only [if_true] at h
        obtain ⟨extra, he, hall⟩ := ih _ _ h
        refine ⟨tx :: extra, by rw [he, List.append_assoc]; rfl, ?_⟩
        intro t ht
        rcases List.mem_cons.mp ht with e | e
        · rw [e]; exact hv
        · exact hall t e
      | false =>
        simp only [Bool.false_eq_true, if_false] at h
        exact ih _ _ h

/-- What a successful call of `MineBlock` tells: the chain grew by the block
returned, `Mine` returned it, and each of its transactions passed
`VerifyTransaction` on the chain as it was. -/
theorem MineBlock_ok_inv (H : Bytes → Bytes) (ser : Transaction → Bytes)
    (ecv : Nat → Nat → Bytes → Nat → Nat → Bool) (now : Int) (fuel : Nat)
    (bc bc1 : Blockchain) (txs : List Transaction) (b1 : Block)
    (h : bc.MineBlock H ser ecv now fuel txs = .ok (bc1, some b1, none)) :
    bc1 = ⟨bc.blocks ++ [b1]⟩ ∧
    (∃ b : Block, b.Mine H ser fuel = .ok b1 ∧ b.Transactions = b1.Transactions) ∧
    ∀ tx ∈ b1.Transactions, bc.VerifyTransaction ser ecv tx = .ok true := by
  unfold Blockchain.MineBlock at h
  cases hc : collectValid ser ecv bc txs [] with
  | panic => rw [hc] at h; cases h
  | timeout => rw [hc] at h; cases h
  | ok validTx =>
    rw [hc] at h
    simp only [Res.bind] at h
    by_cases hlen : validTx.length = 0
    · rw [if_pos hlen] at h; cases h
    · rw [if_neg hlen] at h
      cases ht : bc.CurrentBlock with
      | panic => rw [ht] at h; cases h
      | timeout => rw [ht] at h; cases h
      | ok tip =>
        rw [ht] at h
        simp only [Res.bind] at h
        cases hm : (NewBlock now validTx tip.Hash).Mine H ser fuel with
        | panic => rw [hm] at h; cases h
        | timeout => rw [hm] at h; cases h
        | ok block =>
          rw [hm] at h
          simp only [Res.bind, Res.ok.injEq, Prod.mk.injEq, Option.some.injEq, and_true] at h
          obtain ⟨h1, h2⟩ := h
          subst h2
          obtain ⟨_, nonce, hash, _, hb, _⟩ := Mine_ok_spec H ser fuel _ _ hm
          have htx : block.Transactions = validTx := by rw [hb]; rfl
          refine ⟨h1.symm, ⟨_, hm, by rw [htx]; rfl⟩, ?_⟩
          obtain ⟨extra, he, hall⟩ := collectValid_sound ser ecv bc txs [] validTx hc
          rw [List.nil_append] at he
          rw [htx, he]
          exact hall

/-! ## Key bytes and the halving of `Verify` -/

/-- C21, where the code departs from it.  `pubKeyToByte` appends `Y.Bytes()` to
`X.Bytes()`, each without leading zero bytes and without padding.  The point
`(point43X, point43Y)` is on P-256; its first coordinate takes 32 bytes and its
second 31, so the key has 63 bytes, `Verify` and `VerifyTransaction` split it
at byte 31, and the first half decodes to a number below `X`.  In general the
halves decode to `(X, Y)` exactly when the byte string of `X` is as long as
that of `Y` or one byte shorter. -/
theorem pubKeyToByte_halves_unpadded :
    onP256 point43X point43Y = true ∧
    (bigBytes point43X).length = 32 ∧ (bigBytes point43Y).length = 31 ∧
    (pubKeyToByte point43X point43Y).length = 63 ∧
    numeric ((pubKeyToByte point43X point43Y).take
      ((pubKeyToByte point43X point43Y).length / 2)) < point43X ∧
    ∀ x y : Nat,
      (numeric ((pubKeyToByte x y).take ((pubKeyToByte x y).length / 2)) = x ∧
        numeric ((pubKeyToByte x y).drop ((pubKeyToByte x y).length / 2)) = y)
      ↔ ((bigBytes x).length = (bigBytes y).length
        ∨ (bigBytes x).length + 1 = (bigBytes y).length) := by
  have hx : (bigBytes point43X).length = 32 :=
    bigBytes_length_eq point43X 31 (by norm_num [point43X]) (by norm_num [point43X])
  have hy : (bigBytes point43Y).length = 31 :=
    bigBytes_length_eq point43Y 30 (by norm_num [point43Y]) (by norm_num [point43Y])
  refine ⟨by decide, hx, hy, by unfold pubKeyToByte; rw [List.length_append, hx, hy],
    halves_lose_r point43X point43Y (by rw [hx, hy]; decide),
    fun x y => ⟨fun h => ?_, halves_recover x y⟩⟩
  unfold pubKeyToByte at h
  by_contra hne
  have hcase : (bigBytes y).length < (bigBytes x).length
      ∨ (bigBytes x).length + 2 ≤ (bigBytes y).length := by omega
  rcases hcase with h1 | h1
  · have := halves_lose_r x y h1
    omega
  · have := halves_lose_s x y h1
    omega

theorem pubKeyToByte_halves_unpadded_witness :
    ¬ (numeric ((pubKeyToByte 256 1).take ((pubKeyToByte 256 1).length / 2)) = 256 ∧
        numeric ((pubKeyToByte 256 1).drop ((pubKeyToByte 256 1).length / 2)) = 1) ∧
    (numeric ((pubKeyToByte 2 3).take ((pubKeyToByte 2 3).length / 2)) = 2 ∧
      numeric ((pubKeyToByte 2 3).drop ((pubKeyToByte 2 3).length / 2)) = 3) :=
  ⟨fun h => absurd ((pubKeyToByte_halves_unpadded.2.2.2.2.2 256 1).mp h) (by decide),
    (pubKeyToByte_halves_unpadded.2.2.2.2.2 2 3).mpr (Or.inl (by decide))⟩

/-! ## The identifier of a transaction -/

/-- What `Sign` leaves of a transaction: the identifier, the outputs and, in
every input, everything but the signature. -/
theorem Sign_frame (H R : Bytes → Bytes) (ser : Transaction → Bytes)
    (sgn : Bytes → Option (Nat × Nat)) (tx signed : Transaction)
    (prevTXs : List (String × Transaction)) (err : Option GoError)
    (h : tx.Sign H R ser sgn prevTXs = .ok (signed, err)) :
    signed.ID = tx.ID ∧ signed.Vout = tx.Vout ∧
    signed.Vin.map (fun input => (input.Txid, input.OutIdx, input.PubKey))
      = tx.Vin.map (fun input => (input.Txid, input.OutIdx, input.PubKey)) ∧
    (tx.IsCoinbase = .ok true → signed = tx) := by
  unfold Transaction.Sign at h
  cases hc : tx.IsCoinbase with
  | panic => rw [hc] at h; cases h
  | timeout => rw [hc] at h; cases h
  | ok c =>
    rw [hc] at h
    simp only [Res.bind] at h
    cases c with
    | true =>
      simp only [if_true, Res.ok.injEq, Prod.mk.injEq] at h
      rw [← h.1]
      exact ⟨rfl, rfl, rfl, fun _ => rfl⟩
    | false =>
      simp only [Bool.false_eq_true, if_false] at h
      by_cases hk : tx.Vin.all (fun input => inputKnown H R prevTXs input) = true
      · rw [if_pos hk] at h
        cases hs : sgn (ser tx.TrimmedCopy) with
        | none => rw [hs] at h; cases h
        | some rs =>
          obtain ⟨r, s⟩ := rs
          rw [hs] at h
          simp only [Res.ok.injEq, Prod.mk.injEq] at h
          rw [← h.1]
          refine ⟨rfl, rfl, ?_, fun h1 => by cases h1⟩
          simp [List.map_map, Function.comp_def]
      · rw [if_neg hk] at h
        simp only [Res.ok.injEq, Prod.mk.injEq] at h
        rw [← h.1]
        exact ⟨rfl, rfl, rfl, fun _ => rfl⟩

/-- C22, as stated, fails.  `NewUTXOTransaction` returns a transaction whose `ID`
is its `Hash()`, and `Sign` returns nil on it, storing the signature in the
input without computing the `ID` again: afterwards the `ID` is not the `Hash()`
of the signed transaction.  The stand-ins `toyHash` and `toySer` are the digest
and the encoder here; like `gob`, `toySer` writes the signature. -/
theorem sign_keeps_old_id :
    NewUTXOTransaction toyHash toyRipemd toySer toyDecode (fun _ => [0xaa]) id
      (pubKeyToByte 2 3) "1abcdefgh" 5 transferSet = .ok (some transferSample, none) ∧
    transferSample.ID = transferSample.Hash toyHash toySer ∧
    transferSample.Sign toyHash toyRipemd toySer (fun _ => some (5, 6))
        (signSamplePrev toyHash toyRipemd)
      = .ok (transferSigned, none) ∧
    transferSigned.ID = transferSample.ID ∧
    transferSigned.Vin.map (fun input => input.Signature) = [[5, 6]] ∧
    transferSigned.ID ≠ transferSigned.Hash toyHash toySer := by
  refine ⟨by decide, by decide, by decide, by decide, by decide, by decide⟩

/-- C22, amended.  The `ID` of the transaction that `NewCoinbaseTX` or
`NewUTXOTransaction` returns is its `Hash()`.  `Sign` does not compute the `ID`
again: whatever it returns, the `ID`, the outputs and, in every input, the
fields other than `Signature` are as before, and a coinbase is unchanged.  So
the `ID` of a signed transaction is the `Hash()` the transaction had before it
was signed. -/
theorem id_is_hash_before_signing (H R : Bytes → Bytes) (ser : Transaction → Bytes)
    (sgn : Bytes → Option (Nat × Nat)) (b58 : String → Bytes) (h2b : String → Bytes)
    (order : List (String × List Int) → List (String × List Int))
    (randomString : Nat → Bytes) :
    (∀ (toAddress : String) (data : Bytes) (tx : Transaction) (err : Option GoError),
      NewCoinbaseTX H ser b58 randomString toAddress data = .ok (tx, err) →
      tx.ID = tx.Hash H ser) ∧
    (∀ (pubKey : Bytes) (toAddress : String) (amount : Int) (utxos : UTXOSet)
        (tx : Transaction) (err : Option GoError),
      NewUTXOTransaction H R ser b58 h2b order pubKey toAddress amount utxos
        = .ok (some tx, err) →
      tx.ID = tx.Hash H ser) ∧
    (∀ (tx : Transaction) (prevTXs : List (String × Transaction)) (signed : Transaction)
        (err : Option GoError), tx.Sign H R ser sgn prevTXs = .ok (signed, err) →
      tx.ID = tx.Hash H ser →
      signed.ID = tx.Hash H ser ∧ signed.Vout = tx.Vout ∧
      signed.Vin.map (fun input => (input.Txid, input.OutIdx, input.PubKey))
        = tx.Vin.map (fun input => (input.Txid, input.OutIdx, input.PubKey)) ∧
      (tx.IsCoinbase = .ok true → signed = tx ∧ signed.ID = signed.Hash H ser)) := by
  refine ⟨?_, ?_, ?_⟩
  · intro toAddress data tx err h
    unfold NewCoinbaseTX at h
    cases hp : GetPubKeyHashFromAddress b58 toAddress with
    | panic => rw [hp] at h; cases h
    | timeout => rw [hp] at h; cases h
    | ok pkh =>
      rw [hp] at h
      simp only [Res.bind, Res.ok.injEq, Prod.mk.injEq] at h
      rw [← h.1]
      rfl
  · intro pubKey toAddress amount utxos tx err h
    unfold NewUTXOTransaction GetPubKeyHashFromAddress at h
    by_cases h1 : (FindSpendableOutputs utxos (HashPubKey H R pubKey) amount).1 < amount
    · simp only [h1, if_true, Res.ok.injEq, Prod.mk.injEq] at h
      cases h.1
    · by_cases h2 : (b58 toAddress).length < 5
      · simp only [h1, h2, if_true, if_false, Res.bind] at h
        cases h
      · simp only [h1, h2, if_false, Res.bind, Res.ok.injEq, Prod.mk.injEq,
          Option.some.injEq] at h
        rw [← h.1]
        rfl
  · intro tx prevTXs signed err h hid
    obtain ⟨h1, h2, h3, h4⟩ := Sign_frame H R ser sgn tx signed prevTXs err h
    refine ⟨h1.trans hid, h2, h3, fun hc => ⟨h4 hc, ?_⟩⟩
    rw [h4 hc]; exact hid

theorem id_is_hash_before_signing_witness :
    (∃ tx, NewCoinbaseTX toyHash toySer toyDecode (fun _ => [7, 7]) "1abcdefgh" [1]
        = .ok (tx, none) ∧ tx.ID = tx.Hash toyHash toySer) ∧
    transferSample.ID = transferSample.Hash toyHash toySer ∧
    transferSigned.ID = transferSample.Hash toyHash toySer := by
  have h := id_is_hash_before_signing toyHash toyRipemd toySer (fun _ => some (5, 6))
    toyDecode (fun _ => [0xaa]) id (fun _ => [7, 7])
  have h2 := h.2.1 (pubKeyToByte 2 3) "1abcdefgh" 5 transferSet transferSample none
    (by decide)
  exact ⟨⟨_, rfl, h.1 "1abcdefgh" [1] _ none rfl⟩, h2,
    (h.2.2 transferSample (signSamplePrev toyHash toyRipemd) transferSigned none (by decide)
      h2).1⟩

/-! ## `VerifyTransaction` -/

/-- C23.  `VerifyTransaction` returns true for a coinbase; for a transaction that
is not a coinbase it returns false when the key `(hex(Txid), OutIdx)` of some
input is not in the set that `FindUTXOSet` rebuilds by applying `Update` to the
blocks in order; the chain is the same after the call. -/
theorem verifyTransaction_spec (ser : Transaction → Bytes)
    (ecv : Nat → Nat → Bytes → Nat → Nat → Bool) (bc : Blockchain) (tx : Transaction) :
    (tx.IsCoinbase = .ok true → bc.VerifyTransaction ser ecv tx = .ok true) ∧
    (tx.IsCoinbase = .ok false →
      (∃ txInput ∈ tx.Vin,
        utxoGet (bc.blocks.foldl (fun u block => Update u block.Transactions) [])
          (hex txInput.Txid) txInput.OutIdx = none) →
      bc.VerifyTransaction ser ecv tx = .ok false) ∧
    (bc.VerifyTransactionCall ser ecv tx).1 = bc ∧
    (bc.VerifyTransactionCall ser ecv tx).2 = bc.VerifyTransaction ser ecv tx := by
  refine ⟨fun hc => VerifyTransaction_coinbase ser ecv bc tx hc, ?_, rfl, rfl⟩
  rintro hc ⟨txInput, hin, hnone⟩
  have hany : (tx.Vin.any fun txInput =>
      decide (utxoAt bc.FindUTXOSet (hex txInput.Txid) txInput.OutIdx = zeroTXOutput))
      = true := by
    rw [List.any_eq_true]
    refine ⟨txInput, hin, ?_⟩
    rw [decide_eq_true_eq, utxoAt_eq]
    have : utxoGet bc.FindUTXOSet (hex txInput.Txid) txInput.OutIdx = none := hnone
    rw [this]
    rfl
  unfold Blockchain.VerifyTransaction
  rw [hc]
  simp only [Res.bind, Bool.false_eq_true, if_false, hany, if_true]

theorem verifyTransaction_spec_witness :
    Blockchain.VerifyTransaction toySer toyVerify ⟨[replayGenesis, replaySpend]⟩
        (sampleCoinbase 170) = .ok true ∧
    Blockchain.VerifyTransaction toySer toyVerify ⟨[replayGenesis, replaySpend]⟩ sampleSpender
        = .ok false ∧
    Blockchain.VerifyTransaction toySer toyVerify ⟨[replayGenesis]⟩ sampleSpender = .ok true :=
  ⟨(verifyTransaction_spec toySer toyVerify ⟨[replayGenesis, replaySpend]⟩
      (sampleCoinbase 170)).1 (by decide),
    (verifyTransaction_spec toySer toyVerify ⟨[replayGenesis, replaySpend]⟩ sampleSpender).2.1
      (by decide) ⟨⟨[0xaa], 0, [], []⟩, by decide, by decide⟩,
    by decide⟩

/-! ## Addresses -/

/-- C24.  For every key `pk`, `GetAddress` returns and `ValidateAddress` accepts
the string of the address, given that decoding the encoded payload gives the
payload back.  The digest is taken to have the four bytes that `checksum`
slices. -/
theorem validateAddress_of_getAddress (H R : Bytes → Bytes) (b58e : Bytes → Bytes)
    (b58 : String → Bytes) (pk : Bytes) (hH : ∀ b, 4 ≤ (H b).length)
    (hinv : ∀ cs, checksum H ([version] ++ HashPubKey H R pk) = .ok cs →
      b58 (GetStringAddress (b58e ([version] ++ HashPubKey H R pk ++ cs)))
        = [version] ++ HashPubKey H R pk ++ cs) :
    ∃ address, GetAddress H R b58e pk = .ok address ∧
      ValidateAddress H b58 (GetStringAddress address) = .ok true := by
  obtain ⟨hcs, hlen⟩ := checksum_ok H hH ([version] ++ HashPubKey H R pk)
  have hdec := hinv _ hcs
  obtain ⟨h5, hmid, hend⟩ := address_payload_split (HashPubKey H R pk) _ hlen
  refine ⟨b58e ([version] ++ HashPubKey H R pk ++ (H (H ([version] ++ HashPubKey H R pk))).take 4),
    by simp only [GetAddress, hcs, Res.bind], ?_⟩
  unfold ValidateAddress
  simp only [hdec, addressChecksumLen]
  rw [if_neg (by omega), hmid, hend, hcs]
  simp only [Res.bind, decide_True]

theorem validateAddress_of_getAddress_witness :
    ∃ address, GetAddress toyHash toyRipemd (fun b => b) [1, 2] = .ok address ∧
      ValidateAddress toyHash toyDecode (GetStringAddress address) = .ok true :=
  validateAddress_of_getAddress toyHash toyRipemd (fun b => b) toyDecode [1, 2]
    (fun b => by simp [toyHash])
    (fun cs h => by
      have hc : checksum toyHash ([version] ++ HashPubKey toyHash toyRipemd [1, 2])
          = .ok [3, 247, 32, 32] := by decide
      rw [hc] at h
      cases h
      decide)

/-- C25.  For every key `pk`, `GetPubKeyHashFromAddress` on the string of
`GetAddress(pk)` returns `HashPubKey(pk)`, which has 20 bytes, so an output
locked to that address with `NewTXOutput` is an output that
`IsLockedWithKey(HashPubKey(pk))` accepts, and `IsLockedWithKey(HashPubKey(pk))`
accepts the outputs that carry these bytes and no others.  Decoding the encoded
payload is taken to give the payload back, the digest to have the four bytes
that `checksum` slices and RIPEMD-160 its 20 bytes. -/
theorem pubKeyHash_of_getAddress (H R : Bytes → Bytes) (b58e : Bytes → Bytes)
    (b58 : String → Bytes) (pk : Bytes) (hH : ∀ b, 4 ≤ (H b).length)
    (hR : ∀ b, (R b).length = 20)
    (hinv : ∀ cs, checksum H ([version] ++ HashPubKey H R pk) = .ok cs →
      b58 (GetStringAddress (b58e ([version] ++ HashPubKey H R pk ++ cs)))
        = [version] ++ HashPubKey H R pk ++ cs) :
    ∃ address, GetAddress H R b58e pk = .ok address ∧
      GetPubKeyHashFromAddress b58 (GetStringAddress address) = .ok (HashPubKey H R pk) ∧
      (HashPubKey H R pk).length = 20 ∧
      (∀ value, ∃ txOutput, NewTXOutput b58 value (GetStringAddress address) = .ok txOutput ∧
        txOutput.IsLockedWithKey (HashPubKey H R pk) = true) ∧
      (∀ txOutput : TXOutput, txOutput.IsLockedWithKey (HashPubKey H R pk) = true ↔
        txOutput.PubKeyHash.getD [] = HashPubKey H R pk) := by
  obtain ⟨hcs, hlen⟩ := checksum_ok H hH ([version] ++ HashPubKey H R pk)
  have hdec := hinv _ hcs
  obtain ⟨h5, hmid, hend⟩ := address_payload_split (HashPubKey H R pk) _ hlen
  have hget : GetPubKeyHashFromAddress b58 (GetStringAddress
      (b58e ([version] ++ HashPubKey H R pk ++ (H (H ([version] ++ HashPubKey H R pk))).take 4)))
      = .ok (HashPubKey H R pk) := by
    unfold GetPubKeyHashFromAddress
    rw [hdec, if_neg (by omega), hmid]
  refine ⟨_, by simp only [GetAddress, hcs, Res.bind], hget, hR _, fun value => ?_,
    fun txOutput => ?_⟩
  · refine ⟨⟨value, some (HashPubKey H R pk)⟩, by simp only [NewTXOutput, hget, Res.bind], ?_⟩
    simp [TXOutput.IsLockedWithKey]
  · simp [TXOutput.IsLockedWithKey]

theorem pubKeyHash_of_getAddress_witness :
    ∃ address, GetAddress toyHash toyRipemd (fun b => b) [1, 2] = .ok address ∧
      GetPubKeyHashFromAddress toyDecode (GetStringAddress address)
        = .ok (HashPubKey toyHash toyRipemd [1, 2]) ∧
      (HashPubKey toyHash toyRipemd [1, 2]).length = 20 := by
  obtain ⟨address, h1, h2, h3, _⟩ :=
    pubKeyHash_of_getAddress toyHash toyRipemd (fun b => b) toyDecode [1, 2]
      (fun b => by simp [toyHash]) (fun b => by simp [toyRipemd, toyHash])
      (fun cs h => by
        have hc : checksum toyHash ([version] ++ HashPubKey toyHash toyRipemd [1, 2])
            = .ok [3, 247, 32, 32] := by decide
        rw [hc] at h
        cases h
        decide)
  exact ⟨address, h1, h2, h3⟩

/-- C26, where the code departs from it.  The empty string decodes to no byte
under `toyDecode`, as it does under Base58, and `ValidateAddress` panics on it
in the slice expression `addressDecoded[1:length-addressChecksumLen]`, for
every digest function.  In general it panics on every address that decodes to
fewer than five bytes; on the others it recomputes the checksum and returns
whether the last four bytes equal it. -/
theorem validateAddress_short_panics (H : Bytes → Bytes) :
    toyDecode "" = [] ∧ ValidateAddress H toyDecode "" = .panic ∧
    ValidateAddress H toyDecode "1abc" = .panic ∧
    ∀ (b58 : String → Bytes) (address : String),
      ((b58 address).length < 5 ∧ ValidateAddress H b58 address = .panic) ∨
      (5 ≤ (b58 address).length ∧
        ∃ r, checksum H ([version] ++ ((b58 address).take ((b58 address).length - 4)).drop 1)
            = r ∧
          ValidateAddress H b58 address
            = r.map fun cs => decide ((b58 address).drop ((b58 address).length - 4) = cs)) := by
  refine ⟨by decide, ?_, ?_, fun b58 address => ValidateAddress_cases H b58 address⟩
  · rcases ValidateAddress_cases H toyDecode "" with ⟨_, h⟩ | ⟨h, _⟩
    · exact h
    · exact absurd h (by decide)
  · rcases ValidateAddress_cases H toyDecode "1abc" with ⟨_, h⟩ | ⟨h, _⟩
    · exact h
    · exact absurd h (by decide)

/-! ## Coinbase transactions -/

/-- C27, amended.  For an address that decodes to the five bytes or more that
`GetPubKeyHashFromAddress` slices, `NewCoinbaseTX` returns a transaction and no
error; the transaction has one input, with empty `Txid`, `OutIdx` equal to
`-1`, empty `Signature` and `PubKey` equal to `data`, or to the result of
`RandomString(10)` when `data` is empty, and one output of value `BlockReward`
locked with the key hash of the address; `IsCoinbase` is true for it and its
`ID` is its `Hash()`.  On the other addresses the call panics. -/
theorem newCoinbaseTX_spec (H : Bytes → Bytes) (ser : Transaction → Bytes)
    (b58 : String → Bytes) (randomString : Nat → Bytes) (toAddress : String) (data : Bytes) :
    (5 ≤ (b58 toAddress).length →
      ∃ tx pubKeyHash, NewCoinbaseTX H ser b58 randomString toAddress data = .ok (tx, none) ∧
        GetPubKeyHashFromAddress b58 toAddress = .ok pubKeyHash ∧
        tx.Vin = [⟨[], -1, [], if data = [] then randomString 10 else data⟩] ∧
        tx.Vout = [⟨BlockReward, some pubKeyHash⟩] ∧
        tx.IsCoinbase = .ok true ∧ tx.ID = tx.Hash H ser ∧
        ((randomString 10).length = 10 → data = [] →
          ∀ input ∈ tx.Vin, input.PubKey.length = 10)) ∧
    ((b58 toAddress).length < 5 →
      NewCoinbaseTX H ser b58 randomString toAddress data = .panic) := by
  unfold NewCoinbaseTX GetPubKeyHashFromAddress
  constructor
  · intro h5
    have h5n : ¬ (b58 toAddress).length < 5 := by omega
    simp only [if_neg h5n, Res.bind]
    refine ⟨_, _, rfl, rfl, rfl, rfl, rfl, rfl, ?_⟩
    intro hr hd input hin
    simp only [List.mem_singleton] at hin
    rw [hin]
    simp only [if_pos hd]
    exact hr
  · intro h5
    simp only [if_pos h5, Res.bind]

theorem newCoinbaseTX_spec_witness :
    (∃ tx pubKeyHash, NewCoinbaseTX toyHash toySer toyDecode (fun n => List.replicate n 65)
        "1abcdefgh" [] = .ok (tx, none) ∧
      GetPubKeyHashFromAddress toyDecode "1abcdefgh" = .ok pubKeyHash ∧
      tx.Vin = [⟨[], -1, [], List.replicate 10 65⟩] ∧
      tx.Vout = [⟨BlockReward, some pubKeyHash⟩] ∧
      tx.IsCoinbase = .ok true ∧ tx.ID = tx.Hash toyHash toySer) ∧
    NewCoinbaseTX toyHash toySer toyDecode (fun n => List.replicate n 65) "1abc" [1]
      = .panic := by
  obtain ⟨tx, pkh, h1, h2, h3, h4, h5, h6, _⟩ :=
    (newCoinbaseTX_spec toyHash toySer toyDecode (fun n => List.replicate n 65)
      "1abcdefgh" []).1 (by decide)
  exact ⟨⟨tx, pkh, h1, h2, h3, h4, h5, h6⟩,
    (newCoinbaseTX_spec toyHash toySer toyDecode (fun n => List.replicate n 65)
      "1abc" [1]).2 (by decide)⟩

/-! ## The empty Merkle tree -/

/-- In a heap whose links are sound, above every allocated node there is an
allocated node without a parent. -/
theorem exists_top (H : Bytes → Bytes) (hp : Heap) (hlinks : LinksOk H hp) :
    ∀ (n p : Nat), hp.size - p ≤ n → p < hp.size →
      ∃ q, q < hp.size ∧ (hp.node q).Parent = none := by
  intro n
  induction n with
  | zero => intro p h1 h2; omega
  | succ n ih =>
    intro p h1 h2
    cases hpar : (hp.node p).Parent with
    | none => exact ⟨p, h2, hpar⟩
    | some q =>
      obtain ⟨hq, hpq, _⟩ := hlinks p q h2 hpar
      exact ih q (by omega) hq

/-- C28.  `NewMerkleTree` panics on the nil list and on the list of length 0; on
every list with an element it returns a tree whose root is a node of the tree,
without a parent. -/
theorem newMerkleTree_empty_panics (H : Bytes → Bytes) :
    NewMerkleTree H none = .panic ∧ NewMerkleTree H (some []) = .panic ∧
    ∀ (value : Bytes) (rest : List Bytes),
      ∃ T, NewMerkleTree H (some (value :: rest)) = .ok T ∧
        T.RootNode < T.heap.size ∧ (T.heap.node T.RootNode).Parent = none := by
  refine ⟨rfl, rfl, fun value rest => ?_⟩
  obtain ⟨T, hT, hleaf, halloc, hlinks, htops⟩ :=
    NewMerkleTree_spec H (value :: rest) (by simp)
  obtain ⟨leaf, hmem, _⟩ := hleaf value (List.mem_cons_self _ _)
  obtain ⟨q, hq, hpar⟩ := exists_top H T.heap hlinks (T.heap.size - leaf) leaf (le_refl _)
    (halloc leaf hmem)
  have hroot : q = T.RootNode := by
    have := htops q hq hpar
    simpa using this
  exact ⟨T, hT, hroot ▸ hq, hroot ▸ hpar⟩

/-! ## Replicas -/

/-- C29.  When `MineBlock` returns the block `B` on the miner's chain and the
chain of a receiving peer is the miner's chain as it was before the call,
`HandleMinedBlockIn(B)` returns nil on that peer and leaves it with the miner's
chain: the same length and the same tip. -/
theorem replica_convergence (H : Bytes → Bytes) (ser : Transaction → Bytes)
    (ecv : Nat → Nat → Bytes → Nat → Nat → Bool) (now : Int) (fuel : Nat)
    (miner mined : Blockchain) (txs : List Transaction) (B : Block) (receiver : Account)
    (hmine : miner.MineBlock H ser ecv now fuel txs = .ok (mined, some B, none))
    (hsame : receiver.Blockchain = miner) :
    ∃ received, receiver.HandleMinedBlockIn H ser ecv (some B) = .ok (received, none) ∧
      received.Blockchain = mined ∧
      received.Blockchain.blocks.length = mined.blocks.length ∧
      received.Blockchain.CurrentBlock = .ok B ∧ mined.CurrentBlock = .ok B ∧
      mined.blocks = miner.blocks ++ [B] := by
  obtain ⟨hm, ⟨b, hb, _⟩, hall⟩ := MineBlock_ok_inv H ser ecv now fuel miner mined txs B hmine
  have hv := ValidateBlock_of_Mine H ser fuel receiver.Blockchain b B hb
  have hloop := verifyEach_all ser ecv receiver.Blockchain B.Transactions
    (by rw [hsame]; exact hall)
  have hh := handle_valid H ser ecv receiver B hv true hloop
  simp only [Bool.true_eq_false, if_false] at hh
  refine ⟨_, hh, ?_, ?_, ?_, ?_, ?_⟩
  · rw [hm, hsame]
  · rw [hm, hsame]
  · simp [Blockchain.CurrentBlock]
  · rw [hm]; simp [Blockchain.CurrentBlock]
  · rw [hm]

theorem replica_convergence_witness :
    ∃ received, replayPeer.HandleMinedBlockIn toyHash toySer toyVerify (some replaySpend)
        = .ok (received, none) ∧
      received.Blockchain = ⟨[replayGenesis, replaySpend]⟩ ∧
      received.Blockchain.blocks.length = 2 ∧
      received.Blockchain.CurrentBlock = .ok replaySpend := by
  obtain ⟨received, h1, h2, h3, h4, _⟩ :=
    replica_convergence toyHash toySer toyVerify 2 50 ⟨[replayGenesis]⟩
      ⟨[replayGenesis, replaySpend]⟩ [sampleSpender] replaySpend replayPeer (by decide) rfl
  exact ⟨received, h1, h2, by rw [h3]; rfl, h4⟩

/-! ## Maps as listings -/

theorem mem_of_mapGet {K V : Type} [DecidableEq K] :
    ∀ (m : List (K × V)) (k : K) (v : V), mapGet m k = some v → (k, v) ∈ m := by
  intro m
  induction m with
  | nil => intro k v h; cases h
  | cons e rest ih =>
    intro k v h
    obtain ⟨k1, v1⟩ := e
    simp only [mapGet] at h
    by_cases hk : k1 = k
    · rw [if_pos hk] at h
      cases h
      rw [hk]
      exact List.mem_cons_self _ _
    · rw [if_neg hk] at h
      exact List.mem_cons_of_mem _ (ih k v h)

theorem mapGet_eq_none {K V : Type} [DecidableEq K] :
    ∀ (m : List (K × V)) (k : K), k ∉ m.map (fun e => e.1) → mapGet m k = none := by
  intro m
  induction m with
  | nil => intro k _; rfl
  | cons e rest ih =>
    intro k h
    obtain ⟨k1, v1⟩ := e
    simp only [List.map_cons, List.mem_cons, not_or] at h
    simp only [mapGet]
    rw [if_neg (fun e => h.1 e.symm)]
    exact ih k h.2

theorem mapGet_of_mem {K V : Type} [DecidableEq K] :
    ∀ (m : List (K × V)) (k : K) (v : V), (m.map fun e => e.1).Nodup → (k, v) ∈ m →
      mapGet m k = some v := by
  intro m
  induction m with
  | nil => intro k v _ h; cases h
  | cons e rest ih =>
    intro k v hnd h
    obtain ⟨k1, v1⟩ := e
    simp only [List.map_cons, List.nodup_cons] at hnd
    simp only [mapGet]
    rcases List.mem_cons.mp h with e | e
    · cases e
      rw [if_pos rfl]
    · have hk : ¬ k1 = k := by
        intro hk
        apply hnd.1
        rw [hk]
        exact List.mem_map.mpr ⟨(k, v), e, rfl⟩
      rw [if_neg hk]
      exact ih k v hnd.2 e

theorem mem_mapSet {K V : Type} [DecidableEq K] :
    ∀ (m : List (K × V)) (k : K) (v : V) (e : K × V), e ∈ mapSet m k v →
      e = (k, v) ∨ e ∈ m := by
  intro m
  induction m with
  | nil =>
    intro k v e h
    simp only [mapSet, List.mem_singleton] at h
    exact Or.inl h
  | cons e0 rest ih =>
    intro k v e h
    obtain ⟨k1, v1⟩ := e0
    simp only [mapSet] at h
    by_cases hk : k1 = k
    · rw [if_pos hk] at h
      rcases List.mem_cons.mp h with h1 | h1
      · exact Or.inl h1
      · exact Or.inr (List.mem_cons_of_mem _ h1)
    · rw [if_neg hk] at h
      rcases List.mem_cons.mp h with h1 | h1
      · exact Or.inr (by rw [h1]; exact List.mem_cons_self _ _)
      · rcases ih k v e h1 with h2 | h2
        · exact Or.inl h2
        · exact Or.inr (List.mem_cons_of_mem _ h2)

theorem mem_keys_mapSet {K V : Type} [DecidableEq K] :
    ∀ (m : List (K × V)) (k : K) (v : V) (j : K),
      j ∈ (mapSet m k v).map (fun e => e.1) → j = k ∨ j ∈ m.map (fun e => e.1) := by
  intro m k v j h
  obtain ⟨e, he, rfl⟩ := List.mem_map.mp h
  rcases mem_mapSet m k v e he with h1 | h1
  · left; rw [h1]
  · right; exact List.mem_map.mpr ⟨e, h1, rfl⟩

theorem nodup_mapSet {K V : Type} [DecidableEq K] :
    ∀ (m : List (K × V)) (k : K) (v : V), (m.map fun e => e.1).Nodup →
      ((mapSet m k v).map fun e => e.1).Nodup := by
  intro m
  induction m with
  | nil => intro k v _; simp [mapSet]
  | cons e0 rest ih =>
    intro k v hnd
    obtain ⟨k1, v1⟩ := e0
    simp only [List.map_cons, List.nodup_cons] at hnd
    simp only [mapSet]
    by_cases hk : k1 = k
    · rw [if_pos hk]
      simp only [List.map_cons, List.nodup_cons]
      exact ⟨hk ▸ hnd.1, hnd.2⟩
    · rw [if_neg hk]
      simp only [List.map_cons, List.nodup_cons]
      refine ⟨fun hmem => ?_, ih k v hnd.2⟩
      rcases mem_keys_mapSet rest k v k1 hmem with h1 | h1
      · exact hk h1
      · exact hnd.1 h1

theorem mem_mapDelete {K V : Type} [DecidableEq K] (m : List (K × V)) (k : K) (e : K × V)
    (h : e ∈ mapDelete m k) : e ∈ m :=
  List.mem_of_mem_filter h

theorem nodup_mapDelete {K V : Type} [DecidableEq K] (m : List (K × V)) (k : K)
    (hnd : (m.map fun e => e.1).Nodup) : ((mapDelete m k).map fun e => e.1).Nodup :=
  hnd.sublist (List.Sublist.map _ (List.filter_sublist m))

theorem assocSum_cons {K V : Type} (f : V → Int) (e : K × V) (m : List (K × V)) :
    assocSum f (e :: m) = f e.2 + assocSum f m := by
  simp [assocSum]

theorem assocSum_mapSet {K V : Type} [DecidableEq K] (f : V → Int) :
    ∀ (m : List (K × V)) (k : K) (v : V),
      assocSum f (mapSet m k v) = assocSum f m - ((mapGet m k).map f).getD 0 + f v := by
  intro m
  induction m with
  | nil => intro k v; simp [mapSet, mapGet, assocSum]
  | cons e0 rest ih =>
    intro k v
    obtain ⟨k1, v1⟩ := e0
    simp only [mapSet, mapGet]
    by_cases hk : k1 = k
    · rw [if_pos hk, if_pos hk, assocSum_cons, assocSum_cons]
      simp only [Option.map_some', Option.getD_some]
      omega
    · rw [if_neg hk, if_neg hk, assocSum_cons, assocSum_cons, ih]
      omega

theorem assocSum_mapDelete {K V : Type} [DecidableEq K] (f : V → Int) :
    ∀ (m : List (K × V)) (k : K), (m.map fun e => e.1).Nodup →
      assocSum f (mapDelete m k) = assocSum f m - ((mapGet m k).map f).getD 0 := by
  intro m
  induction m with
  | nil => intro k _; simp [mapDelete, mapGet, assocSum]
  | cons e0 rest ih =>
    intro k hnd
    obtain ⟨k1, v1⟩ := e0
    simp only [List.map_cons, List.nodup_cons] at hnd
    have hstep := ih k hnd.2
    simp only [mapDelete] at hstep ⊢
    simp only [mapGet, List.filter_cons]
    by_cases hk : k1 = k
    · have hnone : mapGet rest k = none := mapGet_eq_none rest k (hk ▸ hnd.1)
      rw [hnone] at hstep
      simp only [Option.map_none', Option.getD_none, sub_zero] at hstep
      simp only [hk, ne_eq, not_true_eq_false, decide_False, Bool.false_eq_true, if_false,
        if_true, Option.map_some', Option.getD_some, assocSum_cons]
      rw [hstep]
      omega
    · simp only [hk, ne_eq, not_false_eq_true, decide_True, if_true, if_false, assocSum_cons]
      rw [hstep]
      omega

theorem assocSum_zero {K V : Type} (f : V → Int) :
    ∀ (m : List (K × V)), (∀ e ∈ m, f e.2 = 0) → assocSum f m = 0 := by
  intro m
  induction m with
  | nil => intro _; rfl
  | cons e0 rest ih =>
    intro h
    rw [assocSum_cons, h e0 (List.mem_cons_self _ _),
      ih fun e he => h e (List.mem_cons_of_mem _ he)]
    rfl

/-- The sum over a map in which only the value under `k0` counts. -/
theorem assocSum_single {K V : Type} [DecidableEq K] (f : V → Int) :
    ∀ (m : List (K × V)) (k0 : K) (v0 : V), (m.map fun e => e.1).Nodup →
      mapGet m k0 = some v0 → (∀ e ∈ m, e.1 ≠ k0 → f e.2 = 0) → assocSum f m = f v0 := by
  intro m
  induction m with
  | nil => intro k0 v0 _ h; cases h
  | cons e0 rest ih =>
    intro k0 v0 hnd hget hz
    obtain ⟨k1, v1⟩ := e0
    simp only [List.map_cons, List.nodup_cons] at hnd
    simp only [mapGet] at hget
    rw [assocSum_cons]
    by_cases hk : k1 = k0
    · rw [if_pos hk] at hget
      cases hget
      have hrest : assocSum f rest = 0 := by
        apply assocSum_zero
        intro e he
        apply hz e (List.mem_cons_of_mem _ he)
        intro hek
        apply hnd.1
        rw [hk, ← hek]
        exact List.mem_map.mpr ⟨e, he, rfl⟩
      rw [hrest]
      simp
    · rw [if_neg hk] at hget
      rw [hz (k1, v1) (List.mem_cons_self _ _) hk,
        ih k0 v0 hnd.2 hget fun e he => hz e (List.mem_cons_of_mem _ he)]
      simp

/-! ## `Update` keeps the listing a map -/

theorem isMap_mapSet (u : UTXOSet) (k : String) (inner : List (Int × TXOutput))
    (hu : isMap u) (hinner : (inner.map fun p => p.1).Nodup) : isMap (mapSet u k inner) := by
  refine ⟨nodup_mapSet u k inner hu.1, fun e he => ?_⟩
  rcases mem_mapSet u k inner e he with h | h
  · rw [h]; exact hinner
  · exact hu.2 e h

theorem isMap_mapDelete (u : UTXOSet) (k : String) (hu : isMap u) : isMap (mapDelete u k) :=
  ⟨nodup_mapDelete u k hu.1, fun e he => hu.2 e (mem_mapDelete u k e he)⟩

theorem isMap_inner (u : UTXOSet) (k : String) (hu : isMap u) :
    (((mapGet u k).getD []).map fun p => p.1).Nodup := by
  cases h : mapGet u k with
  | none => simp
  | some inner => exact hu.2 (k, inner) (mem_of_mapGet u k inner h)

theorem isMap_spendInput (u : UTXOSet) (txInput : TXInput) (hu : isMap u) :
    isMap (spendInput u txInput) := by
  unfold spendInput
  simp only
  split_ifs with h1 h2
  · cases h : mapGet u (hex txInput.Txid) with
    | none => exact isMap_mapDelete _ _ hu
    | some inner =>
      exact isMap_mapDelete _ _ (isMap_mapSet u _ _ hu
        (nodup_mapDelete inner _ (hu.2 _ (mem_of_mapGet u _ inner h))))
  · cases h : mapGet u (hex txInput.Txid) with
    | none => exact hu
    | some inner =>
      exact isMap_mapSet u _ _ hu (nodup_mapDelete inner _ (hu.2 _ (mem_of_mapGet u _ inner h)))
  · exact hu

theorem isMap_addOutput (txIDString : String) (u : UTXOSet) (index : Nat)
    (txOutput : TXOutput) (hu : isMap u) : isMap (addOutput txIDString u index txOutput) := by
  unfold addOutput
  simp only
  have hu1 : isMap (if mapGet u txIDString = none then mapSet u txIDString [] else u) := by
    split_ifs
    · exact isMap_mapSet u _ _ hu (by simp)
    · exact hu
  exact isMap_mapSet _ _ _ hu1 (nodup_mapSet _ _ _ (isMap_inner _ _ hu1))

theorem isMap_spendAll (tx : Transaction) : ∀ (u : UTXOSet), isMap u → isMap (spendAll tx u) := by
  unfold spendAll
  generalize tx.Vin = vin
  induction vin with
  | nil => intro u hu; exact hu
  | cons txInput rest ih =>
    intro u hu
    simp only [List.foldl_cons]
    apply ih
    split_ifs
    · exact hu
    · exact isMap_spendInput u txInput hu

/-! ## Totals, step by step -/

theorem lockedValue_zero (pubKeyHash : Bytes) : lockedValue pubKeyHash zeroTXOutput = 0 := by
  unfold lockedValue zeroTXOutput
  split_ifs <;> rfl

/-- An output stored under a free key adds its value to the total. -/
theorem lockedTotal_addOutput (txIDString : String) (u : UTXOSet) (index : Nat)
    (txOutput : TXOutput) (pubKeyHash : Bytes)
    (hfree : utxoGet u txIDString (index : Int) = none) :
    lockedTotal (addOutput txIDString u index txOutput) pubKeyHash
      = lockedTotal u pubKeyHash + lockedValue pubKeyHash txOutput := by
  unfold lockedTotal addOutput
  simp only
  cases h : mapGet u txIDString with
  | none =>
    simp only [if_true]
    rw [assocSum_mapSet, mapGet_mapSet, if_pos rfl, assocSum_mapSet, h]
    simp [mapSet, assocSum]
  | some inner =>
    have hinner : mapGet inner (index : Int) = none := by
      simpa [utxoGet, h] using hfree
    simp only [reduceCtorEq, if_false, h, Option.getD_some]
    rw [assocSum_mapSet, h, assocSum_mapSet, hinner]
    simp only [Option.map_some', Option.getD_some, Option.map_none', Option.getD_none]
    omega

/-- An input takes the value of the output it removes from the total. -/
theorem lockedTotal_spendInput (u : UTXOSet) (txInput : TXInput) (pubKeyHash : Bytes)
    (hu : isMap u) :
    lockedTotal (spendInput u txInput) pubKeyHash
      = lockedTotal u pubKeyHash
        - lockedValue pubKeyHash (utxoAt u (hex txInput.Txid) txInput.OutIdx) := by
  by_cases hz : utxoAt u (hex txInput.Txid) txInput.OutIdx = zeroTXOutput
  · rw [spendInput_of_zero u txInput hz, hz, lockedValue_zero]
    omega
  · cases hk : mapGet u (hex txInput.Txid) with
    | none => simp [utxoAt, hk, mapGet] at hz
    | some inner =>
      have hinner : (inner.map fun p => p.1).Nodup :=
        hu.2 _ (mem_of_mapGet u _ inner hk)
      have hat : utxoAt u (hex txInput.Txid) txInput.OutIdx
          = (mapGet inner txInput.OutIdx).getD zeroTXOutput := by
        simp [utxoAt, hk]
      have hsome : ∃ out, mapGet inner txInput.OutIdx = some out := by
        cases hm : mapGet inner txInput.OutIdx with
        | none => rw [hat, hm] at hz; exact absurd rfl hz
        | some out => exact ⟨out, rfl⟩
      obtain ⟨out, hout⟩ := hsome
      rw [hat, hout, Option.getD_some]
      have hdel : assocSum (lockedValue pubKeyHash) (mapDelete inner txInput.OutIdx)
          = assocSum (lockedValue pubKeyHash) inner - lockedValue pubKeyHash out := by
        rw [assocSum_mapDelete _ inner _ hinner, hout]
        rfl
      unfold lockedTotal spendInput
      simp only [if_pos hz, hk, mapGet_mapSet, if_true, Option.getD_some]
      split_ifs with hlen
      · rw [assocSum_mapDelete _ _ _ (nodup_mapSet u _ _ hu.1), mapGet_mapSet, if_pos rfl,
          assocSum_mapSet, hk]
        have hnil : mapDelete inner txInput.OutIdx = [] := List.length_eq_zero.mp hlen
        simp only [Option.map_some', Option.getD_some]
        rw [hnil] at hdel ⊢
        simp only [assocSum, List.map_nil, List.sum_nil] at hdel ⊢
        omega
      · rw [assocSum_mapSet, hk]
        simp only [Option.map_some', Option.getD_some]
        omega

/-! ## The balance loop -/

theorem balanceInner_eq (pubKeyHash : Bytes) :
    ∀ (inner : List (Int × TXOutput)) (accumulatedBalance : Int),
      wrapInt64 accumulatedBalance = accumulatedBalance →
      balanceInner pubKeyHash inner accumulatedBalance
        = wrapInt64 (accumulatedBalance + assocSum (lockedValue pubKeyHash) inner) := by
  intro inner
  induction inner with
  | nil => intro acc h; simp [balanceInner, assocSum, h]
  | cons p rest ih =>
    intro acc h
    obtain ⟨outIdx, txOutput⟩ := p
    by_cases hl : txOutput.IsLockedWithKey pubKeyHash = true
    · simp only [balanceInner, if_pos hl]
      rw [ih _ (wrapInt64_idem _), wrapInt64_add, assocSum_cons]
      simp only [lockedValue, if_pos hl]
      rw [add_assoc]
    · simp only [balanceInner, if_neg hl]
      rw [ih _ h, assocSum_cons]
      simp only [lockedValue, if_neg hl, zero_add]

/-- The two loops of `GetBalance` compute the total as a Go `int`. -/
theorem lockedBalance_eq (u : UTXOSet) (pubKeyHash : Bytes) :
    lockedBalance u pubKeyHash = wrapInt64 (lockedTotal u pubKeyHash) := by
  unfold lockedBalance lockedTotal
  have hgen : ∀ (u : UTXOSet) (acc : Int), wrapInt64 acc = acc →
      u.foldl (fun accumulatedBalance e => balanceInner pubKeyHash e.2 accumulatedBalance) acc
        = wrapInt64 (acc + assocSum (fun inner => assocSum (lockedValue pubKeyHash) inner) u) := by
    intro u
    induction u with
    | nil => intro acc h; simp [assocSum, h]
    | cons e rest ih =>
      intro acc h
      simp only [List.foldl_cons]
      have hb := balanceInner_eq pubKeyHash e.2 acc h
      rw [ih _ (by rw [hb]; exact wrapInt64_idem _), hb, wrapInt64_add, assocSum_cons, add_assoc]
  rw [hgen u 0 (by decide), zero_add]

/-- The total of `lockedValues` is `lockedTotal`. -/
theorem lockedValues_sum (u : UTXOSet) (pubKeyHash : Bytes) :
    (lockedValues u pubKeyHash).sum = lockedTotal u pubKeyHash := by
  have hinner : ∀ inner : List (Int × TXOutput),
      ((inner.filter fun p => p.2.IsLockedWithKey pubKeyHash).map fun p => p.2.Value).sum
        = assocSum (lockedValue pubKeyHash) inner := by
    intro inner
    induction inner with
    | nil => rfl
    | cons p rest ih =>
      rw [assocSum_cons, ← ih]
      by_cases hl : p.2.IsLockedWithKey pubKeyHash = true
      · simp [List.filter_cons, hl, lockedValue]
      · simp [List.filter_cons, hl, lockedValue]
  unfold lockedValues lockedTotal
  induction u with
  | nil => rfl
  | cons e rest ih =>
    rw [List.flatMap_cons, List.sum_append, ih, assocSum_cons, hinner]

/-! ## The input loop of one transaction -/

theorem spendAll_coinbase (tx : Transaction) (u : UTXOSet) (hc : tx.IsCoinbase = .ok true) :
    spendAll tx u = u := by
  unfold spendAll
  simp only [if_pos hc]
  generalize tx.Vin = vin
  induction vin with
  | nil => rfl
  | cons txInput rest ih => simp only [List.foldl_cons]; exact ih

theorem spendAll_not_coinbase (tx : Transaction) (u : UTXOSet)
    (hc : tx.IsCoinbase ≠ .ok true) : spendAll tx u = tx.Vin.foldl spendInput u := by
  unfold spendAll
  simp only [if_neg hc]

theorem updateTx_eq (u : UTXOSet) (tx : Transaction) :
    updateTx u tx = addOutputs (hex tx.ID) tx.Vout 0 (spendAll tx u) := rfl

/-- The input loop, seen from the key `(k, i)`. -/
theorem utxoGet_spendAll (tx : Transaction) (k : String) (i : Int) (u : UTXOSet) :
    utxoGet (spendAll tx u) k i = ledgerInputs k i tx (utxoGet u k i) := by
  unfold spendAll ledgerInputs
  generalize tx.Vin = vin
  induction vin generalizing u with
  | nil => rfl
  | cons txInput rest ih =>
    simp only [List.foldl_cons]
    rw [ih]
    congr 1
    split_ifs with h1 h2
    · rfl
    · exact utxoGet_spendInput u txInput k i |>.trans (by rw [if_pos h2])
    · exact utxoGet_spendInput u txInput k i |>.trans (by rw [if_neg h2])

/-- The input loop leaves alone the outer keys that no input names. -/
theorem mapGet_spendAll_other (tx : Transaction) (k : String)
    (hne : ∀ txInput ∈ tx.Vin, hex txInput.Txid ≠ k) (u : UTXOSet) :
    mapGet (spendAll tx u) k = mapGet u k := by
  by_cases hc : tx.IsCoinbase = .ok true
  · rw [spendAll_coinbase tx u hc]
  · rw [spendAll_not_coinbase tx u hc]
    revert hne
    generalize tx.Vin = vin
    intro hne
    induction vin generalizing u with
    | nil => rfl
    | cons txInput rest ih =>
      simp only [List.foldl_cons]
      rw [ih _ (fun t ht => hne t (List.mem_cons_of_mem _ ht))]
      exact mapGet_spendInput_other u txInput k
        (fun e => hne txInput (List.mem_cons_self _ _) e.symm)

/-- What an input reads at a key after another input has been processed: the
zero output or what was there. -/
theorem utxoAt_spendInput (u : UTXOSet) (txInput : TXInput) (k : String) (i : Int) :
    utxoAt (spendInput u txInput) k i = zeroTXOutput
      ∨ utxoAt (spendInput u txInput) k i = utxoAt u k i := by
  rw [utxoAt_eq, utxoAt_eq, utxoGet_spendInput]
  split_ifs
  · by_cases hz : (utxoGet u k i).getD zeroTXOutput = zeroTXOutput
    · right; rw [spendStep_of_zero _ hz]
    · left; rw [spendStep_of_ne _ hz]; rfl
  · right; rfl

/-- The input loop leaves the total for `pubKeyHash` as it is when the outputs
that the inputs name count for nothing under `pubKeyHash`. -/
theorem lockedTotal_spendAll_other (tx : Transaction) (pubKeyHash : Bytes) (u : UTXOSet)
    (hu : isMap u)
    (hnone : ∀ txInput ∈ tx.Vin,
      lockedValue pubKeyHash (utxoAt u (hex txInput.Txid) txInput.OutIdx) = 0) :
    lockedTotal (spendAll tx u) pubKeyHash = lockedTotal u pubKeyHash := by
  by_cases hc : tx.IsCoinbase = .ok true
  · rw [spendAll_coinbase tx u hc]
  · rw [spendAll_not_coinbase tx u hc]
    revert hnone
    generalize tx.Vin = vin
    intro hnone
    induction vin generalizing u with
    | nil => rfl
    | cons txInput rest ih =>
      simp only [List.foldl_cons]
      rw [ih (spendInput u txInput) (isMap_spendInput u txInput hu), lockedTotal_spendInput u _ _ hu,
        hnone txInput (List.mem_cons_self _ _)]
      · omega
      · intro t ht
        rcases utxoAt_spendInput u txInput (hex t.Txid) t.OutIdx with h | h
        · rw [h, lockedValue_zero]
        · rw [h]; exact hnone t (List.mem_cons_of_mem _ ht)

/-! ## The transaction that `NewUTXOTransaction` builds -/

theorem wellFormed_spec (u : UTXOSet) (h : wellFormed u = true) :
    isMap u ∧ ∀ e ∈ u, ∀ p ∈ e.2, 0 ≤ p.1 := by
  unfold wellFormed at h
  simp only [Bool.and_eq_true, decide_eq_true_eq, List.all_eq_true] at h
  exact ⟨⟨h.1, fun e he => (h.2 e he).1⟩, fun e he p hp => (h.2 e he).2 p hp⟩

theorem utxoGet_of_mem (u : UTXOSet) (hu : isMap u) (k : String)
    (inner : List (Int × TXOutput)) (i : Int) (txOutput : TXOutput)
    (h1 : (k, inner) ∈ u) (h2 : (i, txOutput) ∈ inner) : utxoGet u k i = some txOutput := by
  unfold utxoGet
  rw [mapGet_of_mem u k inner hu.1 h1, Option.getD_some]
  exact mapGet_of_mem inner i txOutput (hu.2 _ h1) h2

theorem mem_of_utxoGet (u : UTXOSet) (k : String) (i : Int) (txOutput : TXOutput)
    (h : utxoGet u k i = some txOutput) :
    ∃ inner, (k, inner) ∈ u ∧ (i, txOutput) ∈ inner := by
  unfold utxoGet at h
  cases hk : mapGet u k with
  | none => rw [hk] at h; cases h
  | some inner =>
    rw [hk, Option.getD_some] at h
    exact ⟨inner, mem_of_mapGet u k inner hk, mem_of_mapGet inner i txOutput h⟩

theorem spendableInner_nodup (pubKeyHash : Bytes) (txID : String) :
    ∀ (inner : List (Int × TXOutput)) (st : Int × List (String × List Int)),
      (st.2.map fun e => e.1).Nodup →
      ((spendableInner pubKeyHash txID inner st).2.map fun e => e.1).Nodup := by
  intro inner
  induction inner with
  | nil => intro st h; exact h
  | cons p rest ih =>
    intro st h
    obtain ⟨outIdx, txOutput⟩ := p
    obtain ⟨accumulatedBalance, spendableOutputs⟩ := st
    simp only [spendableInner]
    split_ifs
    · exact ih _ (nodup_mapSet _ _ _ h)
    · exact ih _ h

theorem FindSpendableOutputs_nodup (u : UTXOSet) (pubKeyHash : Bytes) (amount : Int) :
    ((FindSpendableOutputs u pubKeyHash amount).2.map fun e => e.1).Nodup := by
  unfold FindSpendableOutputs
  have hgen : ∀ (u : UTXOSet) (st : Int × List (String × List Int)),
      (st.2.map fun e => e.1).Nodup →
      ((u.foldl (fun st e => spendableInner pubKeyHash e.1 e.2 st) st).2.map fun e => e.1).Nodup := by
    intro u
    induction u with
    | nil => intro st h; exact h
    | cons e rest ih =>
      intro st h
      simp only [List.foldl_cons]
      exact ih _ (spendableInner_nodup pubKeyHash e.1 e.2 st h)
  exact hgen u (0, []) (by simp)

/-- What a successful call of `NewUTXOTransaction` returns. -/
theorem NewUTXOTransaction_ok_inv (H R : Bytes → Bytes) (ser : Transaction → Bytes)
    (b58 : String → Bytes) (h2b : String → Bytes)
    (order : List (String × List Int) → List (String × List Int))
    (pubKey : Bytes) (toAddress : String) (amount : Int) (utxos : UTXOSet)
    (tx : Transaction) (err : Option GoError)
    (h : NewUTXOTransaction H R ser b58 h2b order pubKey toAddress amount utxos
      = .ok (some tx, err)) :
    ∃ pubKeyHashRecepient, GetPubKeyHashFromAddress b58 toAddress = .ok pubKeyHashRecepient ∧
      tx.Vin = ((order (FindSpendableOutputs utxos (HashPubKey H R pubKey) amount).2).flatMap
        fun e => e.2.map fun outIdx => (⟨h2b e.1, outIdx, [], pubKey⟩ : TXInput)) ∧
      tx.Vout = [⟨amount, some pubKeyHashRecepient⟩,
        ⟨wrapInt64 ((FindSpendableOutputs utxos (HashPubKey H R pubKey) amount).1 - amount),
          some (HashPubKey H R pubKey)⟩] := by
  unfold NewUTXOTransaction at h
  by_cases h1 : (FindSpendableOutputs utxos (HashPubKey H R pubKey) amount).1 < amount
  · simp only [h1, if_true, Res.ok.injEq, Prod.mk.injEq] at h
    cases h.1
  · cases hp : GetPubKeyHashFromAddress b58 toAddress with
    | panic => simp only [h1, if_false, hp, Res.bind] at h; cases h
    | timeout => simp only [h1, if_false, hp, Res.bind] at h; cases h
    | ok pkh =>
      simp only [h1, if_false, hp, Res.bind, Res.ok.injEq, Prod.mk.injEq,
        Option.some.injEq] at h
      rw [← h.1]
      exact ⟨pkh, rfl, rfl, rfl⟩

/-- Every input of the transaction names an output of `utxos` that is locked
with the key hash of the sender. -/
theorem input_sound (utxos : UTXOSet) (pubKeyHash pubKey : Bytes) (amount : Int)
    (h2b : String → Bytes) (order : List (String × List Int) → List (String × List Int))
    (hu : isMap utxos) (horder : ∀ m, (order m).Perm m) (txInput : TXInput)
    (hin : txInput ∈ (order (FindSpendableOutputs utxos pubKeyHash amount).2).flatMap
      fun e => e.2.map fun outIdx => (⟨h2b e.1, outIdx, [], pubKey⟩ : TXInput)) :
    ∃ k inner txOutput, txInput.Txid = h2b k ∧ (k, inner) ∈ utxos ∧
      (txInput.OutIdx, txOutput) ∈ inner ∧
      utxoGet utxos k txInput.OutIdx = some txOutput ∧
      txOutput.IsLockedWithKey pubKeyHash = true := by
  obtain ⟨e, he, hmap⟩ := List.mem_flatMap.mp hin
  obtain ⟨i, hi, rfl⟩ := List.mem_map.mp hmap
  have hmem : e ∈ (FindSpendableOutputs utxos pubKeyHash amount).2 := (horder _).mem_iff.mp he
  have hget := mapGet_of_mem _ e.1 e.2 (FindSpendableOutputs_nodup utxos pubKeyHash amount) hmem
  rw [(FindSpendableOutputs_eq utxos pubKeyHash amount).2 e.1] at hget
  have hidx : i ∈ lockedIndexes utxos pubKeyHash e.1 := by
    by_cases hnil : lockedIndexes utxos pubKeyHash e.1 = []
    · rw [if_pos hnil] at hget; cases hget
    · rw [if_neg hnil] at hget
      rw [Option.some.inj hget]
      exact hi
  obtain ⟨inner, txOutput, h1, h2, h3⟩ := (mem_lockedIndexes utxos pubKeyHash e.1 i).mp hidx
  exact ⟨e.1, inner, txOutput, rfl, h1, h2, utxoGet_of_mem utxos hu _ _ _ _ h1 h2, h3⟩

/-- Every output of `utxos` that is locked with the key hash of the sender is
named by an input of the transaction. -/
theorem input_cover (utxos : UTXOSet) (pubKeyHash pubKey : Bytes) (amount : Int)
    (h2b : String → Bytes) (order : List (String × List Int) → List (String × List Int))
    (horder : ∀ m, (order m).Perm m) (k : String) (i : Int) (txOutput : TXOutput)
    (hget : utxoGet utxos k i = some txOutput)
    (hl : txOutput.IsLockedWithKey pubKeyHash = true) :
    (⟨h2b k, i, [], pubKey⟩ : TXInput) ∈
      (order (FindSpendableOutputs utxos pubKeyHash amount).2).flatMap
        fun e => e.2.map fun outIdx => (⟨h2b e.1, outIdx, [], pubKey⟩ : TXInput) := by
  obtain ⟨inner, h1, h2⟩ := mem_of_utxoGet utxos k i txOutput hget
  have hidx : i ∈ lockedIndexes utxos pubKeyHash k :=
    (mem_lockedIndexes utxos pubKeyHash k i).mpr ⟨inner, txOutput, h1, h2, hl⟩
  have hne : lockedIndexes utxos pubKeyHash k ≠ [] := by
    intro h; rw [h] at hidx; cases hidx
  have hfound := (FindSpendableOutputs_eq utxos pubKeyHash amount).2 k
  rw [if_neg hne] at hfound
  have hmem := (horder _).mem_iff.mpr (mem_of_mapGet _ _ _ hfound)
  exact List.mem_flatMap.mpr ⟨_, hmem, List.mem_map.mpr ⟨i, hidx, rfl⟩⟩

/-! ## A coinbase and a transfer applied to a set -/

theorem lockedValue_mk (pubKeyHash : Bytes) (value : Int) (lock : Bytes) :
    lockedValue pubKeyHash ⟨value, some lock⟩ = if pubKeyHash = lock then value else 0 := by
  unfold lockedValue TXOutput.IsLockedWithKey
  simp only [Option.getD_some, decide_eq_true_eq]
  by_cases h : lock = pubKeyHash
  · rw [if_pos h, if_pos h.symm]
  · rw [if_neg h, if_neg (fun e => h e.symm)]

theorem lockedValue_other (pubKeyHash sender : Bytes) (txOutput : TXOutput)
    (hl : txOutput.IsLockedWithKey sender = true) (hne : pubKeyHash ≠ sender) :
    lockedValue pubKeyHash txOutput = 0 := by
  unfold lockedValue
  rw [if_neg]
  intro h
  unfold TXOutput.IsLockedWithKey at hl h
  rw [decide_eq_true_eq] at hl h
  exact hne (h.symm.trans hl)

/-- The exact totals after `Update` has applied a coinbase and the transaction
that `NewUTXOTransaction` built on the set. -/
theorem transfer_lockedTotal (H R : Bytes → Bytes) (ser : Transaction → Bytes)
    (b58 : String → Bytes) (h2b : String → Bytes)
    (order : List (String × List Int) → List (String × List Int))
    (senderPK : Bytes) (recipientAddr : String) (amount : Int) (u : UTXOSet)
    (tx cb : Transaction) (minerPkh h : Bytes)
    (hwf : wellFormed u = true) (hhex : ∀ e ∈ u, hex (h2b e.1) = e.1)
    (horder : ∀ m, (order m).Perm m)
    (htx : NewUTXOTransaction H R ser b58 h2b order senderPK recipientAddr amount u
      = .ok (some tx, none))
    (hcb : cb.IsCoinbase = .ok true) (hcbout : cb.Vout = [⟨BlockReward, some minerPkh⟩])
    (hfresh1 : mapGet u (hex tx.ID) = none) (hfresh2 : mapGet u (hex cb.ID) = none)
    (hne : hex tx.ID ≠ hex cb.ID) :
    ∃ rcpt, GetPubKeyHashFromAddress b58 recipientAddr = .ok rcpt ∧
      lockedTotal (Update u [cb, tx]) h
        = (if h = HashPubKey H R senderPK then 0 else lockedTotal u h)
          + (if h = minerPkh then BlockReward else 0)
          + (if h = rcpt then amount else 0)
          + (if h = HashPubKey H R senderPK then
              wrapInt64 (wrapInt64 (lockedTotal u (HashPubKey H R senderPK)) - amount) else 0) := by
  obtain ⟨hu, hidx⟩ := wellFormed_spec u hwf
  obtain ⟨rcpt, hrcpt, hvin, hvout⟩ :=
    NewUTXOTransaction_ok_inv H R ser b58 h2b order senderPK recipientAddr amount u tx none htx
  refine ⟨rcpt, hrcpt, ?_⟩
  have hfound : (FindSpendableOutputs u (HashPubKey H R senderPK) amount).1
      = wrapInt64 (lockedTotal u (HashPubKey H R senderPK)) := by
    rw [(FindSpendableOutputs_eq u _ amount).1, lockedValues_sum]
  rw [hfound] at hvout
  -- the inputs
  have hkey : ∀ t ∈ tx.Vin, hex t.Txid ≠ hex cb.ID ∧ hex t.Txid ≠ hex tx.ID ∧ 0 ≤ t.OutIdx ∧
      ∃ out, utxoGet u (hex t.Txid) t.OutIdx = some out ∧
        out.IsLockedWithKey (HashPubKey H R senderPK) = true := by
    intro t ht
    obtain ⟨k, inner, out, h1, h2, h3, h4, h5⟩ :=
      input_sound u (HashPubKey H R senderPK) senderPK amount h2b order hu horder t (hvin ▸ ht)
    have hk : hex t.Txid = k := by rw [h1]; exact hhex _ h2
    have hinu : mapGet u k = some inner := mapGet_of_mem u k inner hu.1 h2
    rw [hk]
    refine ⟨fun e => ?_, fun e => ?_, hidx _ h2 _ h3, out, h4, h5⟩
    · rw [e, hfresh2] at hinu; cases hinu
    · rw [e, hfresh1] at hinu; cases hinu
  have hnc : tx.IsCoinbase ≠ .ok true := by
    unfold Transaction.IsCoinbase
    cases hv : tx.Vin with
    | nil => simp
    | cons t rest =>
      have h0 := (hkey t (by rw [hv]; exact List.mem_cons_self _ _)).2.2.1
      have hneg : ¬ t.OutIdx = -1 := by omega
      simp [hneg]
  -- the coinbase
  have hu1def : updateTx u cb = addOutput (hex cb.ID) u 0 ⟨BlockReward, some minerPkh⟩ := by
    rw [updateTx_eq, spendAll_coinbase cb u hcb, hcbout]
    rfl
  have hu1 : isMap (addOutput (hex cb.ID) u 0 ⟨BlockReward, some minerPkh⟩) :=
    isMap_addOutput _ _ _ _ hu
  have ht1 := lockedTotal_addOutput (hex cb.ID) u 0 ⟨BlockReward, some minerPkh⟩ h
    (by simp [utxoGet, hfresh2, mapGet])
  have hlook1 : ∀ k i, k ≠ hex cb.ID →
      utxoGet (addOutput (hex cb.ID) u 0 ⟨BlockReward, some minerPkh⟩) k i = utxoGet u k i := by
    intro k i hk
    rw [utxoGet_addOutput, if_neg (fun e => hk e.1.symm)]
  -- the outputs of the transfer
  have hu2 : isMap (spendAll tx (addOutput (hex cb.ID) u 0 ⟨BlockReward, some minerPkh⟩)) :=
    isMap_spendAll tx _ hu1
  have hm2 : mapGet (spendAll tx (addOutput (hex cb.ID) u 0 ⟨BlockReward, some minerPkh⟩))
      (hex tx.ID) = none := by
    rw [mapGet_spendAll_other tx (hex tx.ID) (fun t ht => (hkey t ht).2.1),
      mapGet_addOutput_other _ _ _ _ _ hne]
    exact hfresh1
  have hupd : Update u [cb, tx]
      = addOutput (hex tx.ID)
          (addOutput (hex tx.ID)
            (spendAll tx (addOutput (hex cb.ID) u 0 ⟨BlockReward, some minerPkh⟩)) 0
            ⟨amount, some rcpt⟩) 1
          ⟨wrapInt64 (wrapInt64 (lockedTotal u (HashPubKey H R senderPK)) - amount),
            some (HashPubKey H R senderPK)⟩ := by
    show updateTx (updateTx u cb) tx = _
    rw [hu1def, updateTx_eq, hvout]
    rfl
  have hfree1 : utxoGet (spendAll tx (addOutput (hex cb.ID) u 0 ⟨BlockReward, some minerPkh⟩))
      (hex tx.ID) ((0 : Nat) : Int) = none := by
    simp [utxoGet, hm2, mapGet]
  have hfree2 : utxoGet (addOutput (hex tx.ID)
      (spendAll tx (addOutput (hex cb.ID) u 0 ⟨BlockReward, some minerPkh⟩)) 0
      ⟨amount, some rcpt⟩) (hex tx.ID) ((1 : Nat) : Int) = none := by
    rw [utxoGet_addOutput, if_neg (fun e => absurd e.2 (by decide))]
    simp [utxoGet, hm2, mapGet]
  rw [hupd, lockedTotal_addOutput _ _ _ _ _ hfree2, lockedTotal_addOutput _ _ _ _ _ hfree1,
    lockedValue_mk, lockedValue_mk]
  -- the inputs of the transfer
  by_cases hs : h = HashPubKey H R senderPK
  · have hcbentry : mapGet (spendAll tx (addOutput (hex cb.ID) u 0 ⟨BlockReward, some minerPkh⟩))
        (hex cb.ID) = some [(0, ⟨BlockReward, some minerPkh⟩)] := by
      rw [mapGet_spendAll_other tx (hex cb.ID) (fun t ht => (hkey t ht).1),
        mapGet_addOutput_same, hfresh2]
      rfl
    have hothers : ∀ e ∈ spendAll tx (addOutput (hex cb.ID) u 0 ⟨BlockReward, some minerPkh⟩),
        e.1 ≠ hex cb.ID → assocSum (lockedValue h) e.2 = 0 := by
      intro e he hek
      apply assocSum_zero
      intro p hp
      have hget := utxoGet_of_mem _ hu2 e.1 e.2 p.1 p.2 he hp
      rw [utxoGet_spendAll, hlook1 _ _ hek] at hget
      by_cases hsp : spends tx e.1 p.1
      · rw [ledgerInputs_spends _ _ _ _ hsp] at hget
        unfold spendStep at hget
        split_ifs at hget with hz
        rw [hget, Option.getD_some] at hz
        rw [hz, lockedValue_zero]
      · rw [ledgerInputs_not_spends _ _ _ _ hsp] at hget
        by_cases hl : p.2.IsLockedWithKey (HashPubKey H R senderPK) = true
        · exfalso
          apply hsp
          obtain ⟨inner, hin, _⟩ := mem_of_utxoGet u e.1 p.1 p.2 hget
          have hcov := input_cover u (HashPubKey H R senderPK) senderPK amount h2b order horder
            e.1 p.1 p.2 hget hl
          rw [← hvin] at hcov
          exact ⟨hnc, _, hcov, hhex (e.1, inner) hin, rfl⟩
        · unfold lockedValue
          rw [hs, if_neg hl]
    have htot : lockedTotal (spendAll tx (addOutput (hex cb.ID) u 0 ⟨BlockReward, some minerPkh⟩)) h
        = lockedValue h ⟨BlockReward, some minerPkh⟩ := by
      unfold lockedTotal
      rw [assocSum_single (fun inner => assocSum (lockedValue h) inner) _ (hex cb.ID)
        [(0, ⟨BlockReward, some minerPkh⟩)] hu2.1 hcbentry hothers]
      simp [assocSum]
    rw [htot, lockedValue_mk, if_pos hs, if_pos hs]
    omega
  · have hsame : lockedTotal (spendAll tx (addOutput (hex cb.ID) u 0 ⟨BlockReward, some minerPkh⟩)) h
        = lockedTotal (addOutput (hex cb.ID) u 0 ⟨BlockReward, some minerPkh⟩) h := by
      apply lockedTotal_spendAll_other tx h _ hu1
      intro t ht
      obtain ⟨hk1, _, _, out, hget, hl⟩ := hkey t ht
      rw [utxoAt_eq, hlook1 _ _ hk1, hget, Option.getD_some]
      exact lockedValue_other h _ out hl hs
    rw [hsame, ht1, lockedValue_mk, if_neg hs, if_neg hs]

/-! ## Balances after a transfer -/

/-- C30, amended.  Let `u` be a set that is a map of maps with output indexes as inner
keys and whose outer keys are given back by `hex` after `Hex2Bytes`, let
`NewUTXOTransaction` return `tx` on it, let `cb` be a coinbase whose output pays
`BlockReward` to the miner, and let the identifiers of `tx` and `cb` be
distinct keys that `u` does not hold.  After `Update` has applied `cb` and `tx`,
the balance that the loops of `GetBalance` compute for a key hash is the one
from before, plus `amount` for the key hash of the recipient, minus `amount`
for the key hash of the sender, plus `BlockReward` for the key hash of the
miner, as a Go `int`; the three changes add up when two of the key hashes
coincide. -/
theorem transfer_balances (H R : Bytes → Bytes) (ser : Transaction → Bytes)
    (b58 : String → Bytes) (h2b : String → Bytes)
    (order : List (String × List Int) → List (String × List Int))
    (senderPK : Bytes) (recipientAddr : String) (amount : Int) (u : UTXOSet)
    (tx cb : Transaction) (minerPkh : Bytes)
    (hwf : wellFormed u = true) (hhex : ∀ e ∈ u, hex (h2b e.1) = e.1)
    (horder : ∀ m, (order m).Perm m)
    (htx : NewUTXOTransaction H R ser b58 h2b order senderPK recipientAddr amount u
      = .ok (some tx, none))
    (hcb : cb.IsCoinbase = .ok true) (hcbout : cb.Vout = [⟨BlockReward, some minerPkh⟩])
    (hfresh1 : mapGet u (hex tx.ID) = none) (hfresh2 : mapGet u (hex cb.ID) = none)
    (hne : hex tx.ID ≠ hex cb.ID) :
    ∃ rcpt, GetPubKeyHashFromAddress b58 recipientAddr = .ok rcpt ∧
      ∀ h, lockedBalance (Update u [cb, tx]) h
        = wrapInt64 (lockedBalance u h
            + (if h = rcpt then amount else 0)
            - (if h = HashPubKey H R senderPK then amount else 0)
            + (if h = minerPkh then BlockReward else 0)) := by
  obtain ⟨rcpt, hrcpt, _⟩ := transfer_lockedTotal H R ser b58 h2b order senderPK recipientAddr
    amount u tx cb minerPkh [] hwf hhex horder htx hcb hcbout hfresh1 hfresh2 hne
  refine ⟨rcpt, hrcpt, fun h => ?_⟩
  obtain ⟨rcpt1, hrcpt1, htot⟩ := transfer_lockedTotal H R ser b58 h2b order senderPK
    recipientAddr amount u tx cb minerPkh h hwf hhex horder htx hcb hcbout hfresh1 hfresh2 hne
  rw [hrcpt] at hrcpt1
  cases hrcpt1
  rw [lockedBalance_eq, lockedBalance_eq, htot]
  by_cases hs : h = HashPubKey H R senderPK
  · rw [← hs]
    simp only [if_true]
    generalize (if h = minerPkh then BlockReward else 0) = a
    generalize (if h = rcpt then amount else 0) = b
    generalize lockedTotal u h = t
    unfold wrapInt64
    omega
  · simp only [if_neg hs]
    generalize (if h = minerPkh then BlockReward else 0) = a
    generalize (if h = rcpt then amount else 0) = b
    generalize lockedTotal u h = t
    unfold wrapInt64
    omega

theorem transfer_balances_witness :
    (∃ rcpt, GetPubKeyHashFromAddress toyDecode "1abcdefgh" = .ok rcpt ∧
      ∀ h, lockedBalance (Update transferSet [rewardSample, transferSample]) h
        = wrapInt64 (lockedBalance transferSet h
            + (if h = rcpt then 5 else 0)
            - (if h = HashPubKey toyHash toyRipemd (pubKeyToByte 2 3) then 5 else 0)
            + (if h = HashPubKey toyHash toyRipemd (pubKeyToByte 2 3) then BlockReward
                else 0))) ∧
    lockedBalance transferSet (HashPubKey toyHash toyRipemd (pubKeyToByte 2 3)) = BlockReward ∧
    lockedBalance (Update transferSet [rewardSample, transferSample])
        (HashPubKey toyHash toyRipemd (pubKeyToByte 2 3)) = BlockReward + BlockReward / 2 ∧
    lockedBalance (Update transferSet [rewardSample, transferSample]) [97, 98, 99, 100]
      = BlockReward / 2 ∧
    lockedBalance (Update transferSet [rewardSample, transferSample]) [9] = 0 :=
  ⟨transfer_balances toyHash toyRipemd toySer toyDecode (fun _ => [0xaa]) id (pubKeyToByte 2 3)
      "1abcdefgh" 5 transferSet transferSample rewardSample
      (HashPubKey toyHash toyRipemd (pubKeyToByte 2 3)) (by decide) (by decide)
      (fun m => List.Perm.refl m) (by decide) (by decide) rfl (by decide) (by decide)
      (by decide),
    by decide, by decide, by decide, by decide⟩

/-! ## Totality of `HashTransactions` -/

/-- The pairing loop of `HashTransactions` returns on a level of even length,
with half as many digests. -/
theorem pairHashes_even (H : Bytes → Bytes) :
    ∀ (n : Nat) (level parentHash : List Bytes), level.length ≤ n → level.length % 2 = 0 →
      ∃ parents, pairHashes H level parentHash = .ok parents ∧
        parents.length = parentHash.length + level.length / 2 := by
  intro n
  induction n with
  | zero =>
    intro level parentHash hlen _
    have hnil : level = [] := List.length_eq_zero.mp (by omega)
    subst hnil
    exact ⟨parentHash, rfl, by simp⟩
  | succ n ih =>
    intro level parentHash hlen heven
    match level, hlen, heven with
    | [], _, _ => exact ⟨parentHash, rfl, by simp⟩
    | [_], _, h1 => simp at h1
    | l :: r :: rest, h2, h3 =>
      simp only [List.length_cons] at h2 h3
      have hrest : rest.length ≤ n := by omega
      obtain ⟨parents, hp, hl⟩ := ih rest (parentHash ++ [H (l ++ r)]) hrest (by omega)
      refine ⟨parents, by rw [pairHashes_cons]; exact hp, ?_⟩
      rw [hl]
      simp only [List.length_append, List.length_cons, List.length_nil]
      omega

/-- Halving an even number keeps the property of being a power of two. -/
theorem pow_two_half (L : Nat) (he : L % 2 = 0) :
    (∃ k, L = 2 ^ k) ↔ ∃ k, L / 2 = 2 ^ k := by
  constructor
  · rintro ⟨k, hk⟩
    cases k with
    | zero => simp at hk; omega
    | succ k =>
      refine ⟨k, ?_⟩
      rw [hk, pow_succ, Nat.mul_div_cancel _ (by norm_num)]
  · rintro ⟨k, hk⟩
    refine ⟨k + 1, ?_⟩
    rw [pow_succ, ← hk]
    omega

/-- An odd number above one is not a power of two. -/
theorem odd_not_pow_two (L : Nat) (h1 : 1 < L) (ho : L % 2 ≠ 0) : ¬ ∃ k, L = 2 ^ k := by
  rintro ⟨k, hk⟩
  cases k with
  | zero => simp at hk; omega
  | succ k =>
    rw [pow_succ] at hk
    omega

/-- The level loop of `HashTransactions` on a level that is shorter than the
block has transactions: it returns when the length of the level is a power of
two and panics otherwise. -/
theorem hashLevels_below (H : Bytes → Bytes) (nTx : Nat) :
    ∀ (fuel : Nat) (level : List Bytes), 1 ≤ level.length → level.length < nTx →
      level.length ≤ fuel →
      ((∃ k, level.length = 2 ^ k) → ∃ r, hashLevels H nTx fuel level = .ok r) ∧
      ((¬ ∃ k, level.length = 2 ^ k) → hashLevels H nTx fuel level = .panic) := by
  intro fuel
  induction fuel with
  | zero => intro level h1 _ h0; omega
  | succ fuel ih =>
    intro level h1 hlt hfuel
    by_cases hgt : level.length > 1
    · simp only [hashLevels, if_pos hgt]
      by_cases hodd : level.length % 2 ≠ 0
      · have hnone : level[nTx - 1]? = none := List.getElem?_eq_none (by omega)
        simp only [extendOdd, if_pos hodd, hnone, Res.bind]
        exact ⟨fun hp => absurd hp (odd_not_pow_two _ hgt hodd), fun _ => by first | rfl | trivial⟩
      · have heven : level.length % 2 = 0 := by omega
        obtain ⟨parents, hp, hl⟩ := pairHashes_even H _ level [] (le_refl _) heven
        simp only [List.length_nil, Nat.zero_add] at hl
        simp only [extendOdd, if_neg hodd, Res.bind, hp]
        have hrec := ih parents (by omega) (by omega) (by omega)
        rw [hl, ← pow_two_half _ heven] at hrec
        exact hrec
    · simp only [hashLevels, if_neg hgt]
      match level, h1, hgt with
      | [a], _, _ =>
        exact ⟨fun _ => ⟨a, rfl⟩, fun hn => absurd ⟨0, by simp⟩ hn⟩
      | _ :: _ :: _, _, h3 => simp at h3

/-- The blocks on which `HashTransactions` returns: those for which half the
number of transactions, rounded up, is a power of two, that is 1, 2, 3, 4, 7, 8,
15, 16 and so on.  On every other block it panics. -/
theorem HashTransactions_returns_iff (H : Bytes → Bytes) (ser : Transaction → Bytes)
    (b : Block) :
    ((∃ k, (b.Transactions.length + 1) / 2 = 2 ^ k) → ∃ r, b.HashTransactions H ser = .ok r) ∧
    ((¬ ∃ k, (b.Transactions.length + 1) / 2 = 2 ^ k) → b.HashTransactions H ser = .panic) := by
  unfold Block.HashTransactions
  have hlen : (b.Transactions.map fun tx => H (ser tx)).length = b.Transactions.length := by
    simp
  generalize (b.Transactions.map fun tx => H (ser tx)) = level at hlen
  generalize b.Transactions.length = n at hlen
  by_cases hgt : level.length > 1
  · simp only [hashLevels, if_pos hgt]
    by_cases hodd : level.length % 2 ≠ 0
    · obtain ⟨x, hx⟩ : ∃ x, level[n - 1]? = some x :=
        ⟨level[n - 1], List.getElem?_eq_getElem (by omega)⟩
      have heven : (level ++ [x]).length % 2 = 0 := by
        simp only [List.length_append, List.length_cons, List.length_nil]; omega
      obtain ⟨parents, hp, hl⟩ := pairHashes_even H _ (level ++ [x]) [] (le_refl _) heven
      simp only [List.length_nil, Nat.zero_add, List.length_append, List.length_cons] at hl
      simp only [extendOdd, if_pos hodd, hx, Res.bind, hp]
      have hrec := hashLevels_below H n n parents (by omega) (by omega) (by omega)
      rw [hl, hlen] at hrec
      exact hrec
    · have heven : level.length % 2 = 0 := by omega
      obtain ⟨parents, hp, hl⟩ := pairHashes_even H _ level [] (le_refl _) heven
      simp only [List.length_nil, Nat.zero_add] at hl
      simp only [extendOdd, if_neg hodd, Res.bind, hp]
      have hrec := hashLevels_below H n n parents (by omega) (by omega) (by omega)
      have hhalf : level.length / 2 = (n + 1) / 2 := by omega
      rw [hl, hhalf] at hrec
      exact hrec
  · simp only [hashLevels, if_neg hgt]
    cases level with
    | nil =>
      simp only [List.length_nil] at hlen
      subst hlen
      refine ⟨fun hp => ?_, fun _ => rfl⟩
      obtain ⟨k, hk⟩ := hp
      have h0 : (0 + 1) / 2 = 0 := by norm_num
      rw [h0] at hk
      have := Nat.two_pow_pos k
      omega
    | cons a rest =>
      cases rest with
      | nil =>
        simp only [List.length_cons, List.length_nil] at hlen
        subst hlen
        exact ⟨fun _ => ⟨a, rfl⟩, fun hn => absurd ⟨0, by norm_num⟩ hn⟩
      | cons _ _ => simp at hgt

/-- C34, where the code departs from it.  On every block with five, six or nine
transactions, whatever they are, and for every digest function and encoder,
`HashTransactions` stops with an index panic: the digest appended to a level of
odd length is read at the index `len(b.Transactions)-1`, which is out of range
from the second level on.  In general `HashTransactions` returns a digest when
half the number of transactions, rounded up, is a power of two (1, 2, 3, 4, 7,
8, 15, 16 … transactions) and panics on every other block, the empty one
included. -/
theorem hashTransactions_not_total (H : Bytes → Bytes) (ser : Transaction → Bytes)
    (b : Block) :
    (b.Transactions.length = 5 ∨ b.Transactions.length = 6 ∨ b.Transactions.length = 9 →
      b.HashTransactions H ser = .panic) ∧
    ((∃ k, (b.Transactions.length + 1) / 2 = 2 ^ k) → ∃ r, b.HashTransactions H ser = .ok r) ∧
    ((¬ ∃ k, (b.Transactions.length + 1) / 2 = 2 ^ k) → b.HashTransactions H ser = .panic) := by
  refine ⟨?_, HashTransactions_returns_iff H ser b⟩
  rintro (h | h | h)
  · exact (HashTransactions_returns_iff H ser b).2
      (by rw [h]; exact odd_not_pow_two 3 (by norm_num) (by norm_num))
  · exact (HashTransactions_returns_iff H ser b).2
      (by rw [h]; exact odd_not_pow_two 3 (by norm_num) (by norm_num))
  · exact (HashTransactions_returns_iff H ser b).2
      (by rw [h]; exact odd_not_pow_two 5 (by norm_num) (by norm_num))

theorem hashTransactions_not_total_witness :
    (NewBlock 1 [sampleCoinbase 0, sampleCoinbase 1, sampleCoinbase 2, sampleCoinbase 3,
        sampleCoinbase 4, sampleCoinbase 5] []).HashTransactions toyHash toySer = .panic ∧
    (∃ r, (NewBlock 1 [sampleCoinbase 0, sampleCoinbase 1, sampleCoinbase 2] []).HashTransactions
      toyHash toySer = .ok r) ∧
    (NewBlock 1 (List.replicate 10 (sampleCoinbase 0)) []).HashTransactions toyHash toySer
      = .panic :=
  ⟨(hashTransactions_not_total toyHash toySer _).1 (Or.inr (Or.inl rfl)),
    (hashTransactions_not_total toyHash toySer _).2.1 ⟨1, rfl⟩,
    (hashTransactions_not_total toyHash toySer _).2.2
      (odd_not_pow_two 5 (by norm_num) (by norm_num))⟩

/-! ## Value conservation in `NewUTXOTransaction` -/

/-- Under an outer key that `u` does not list there is no locked index. -/
theorem lockedIndexes_not_key (pubKeyHash : Bytes) (k : String) :
    ∀ u : UTXOSet, k ∉ u.map (fun e => e.1) → lockedIndexes u pubKeyHash k = [] := by
  intro u
  induction u with
  | nil => intro _; rfl
  | cons e rest ih =>
    intro h
    simp only [List.map_cons, List.mem_cons, not_or] at h
    have hk : ¬ e.1 = k := fun h1 => h.1 h1.symm
    have hr := ih h.2
    unfold lockedIndexes at hr ⊢
    simp only [List.flatMap_cons, if_neg hk, List.nil_append]
    exact hr

/-- In a map, the locked indexes under a key are those of the one inner map
stored under it. -/
theorem lockedIndexes_of_mem (pubKeyHash : Bytes) (k : String) (inner : List (Int × TXOutput)) :
    ∀ u : UTXOSet, (u.map fun e => e.1).Nodup → (k, inner) ∈ u →
      lockedIndexes u pubKeyHash k
        = (inner.filter fun p => p.2.IsLockedWithKey pubKeyHash).map fun p => p.1 := by
  intro u
  induction u with
  | nil => intro _ h; cases h
  | cons e rest ih =>
    intro hnd hmem
    simp only [List.map_cons, List.nodup_cons] at hnd
    have hcons : lockedIndexes (e :: rest) pubKeyHash k
        = (if e.1 = k then (e.2.filter fun p => p.2.IsLockedWithKey pubKeyHash).map fun p => p.1
            else []) ++ lockedIndexes rest pubKeyHash k := by
      unfold lockedIndexes
      simp only [List.flatMap_cons]
    rw [hcons]
    rcases List.mem_cons.mp hmem with h | h
    · have hk : k ∉ rest.map (fun e => e.1) := by rw [← h] at hnd; exact hnd.1
      rw [lockedIndexes_not_key pubKeyHash k rest hk, ← h]
      simp only [if_true, List.append_nil]
    · have hk : ¬ e.1 = k := by
        intro h1
        exact hnd.1 (List.mem_map.mpr ⟨(k, inner), h, h1.symm⟩)
      rw [if_neg hk, List.nil_append]
      exact ih hnd.2 h

/-- Two functions that agree on the elements of a list give the same
`flatMap`. -/
theorem flatMap_congr_mem {α β : Type} (f g : α → List β) :
    ∀ l : List α, (∀ a ∈ l, f a = g a) → l.flatMap f = l.flatMap g := by
  intro l
  induction l with
  | nil => intro _; rfl
  | cons a rest ih =>
    intro h
    simp only [List.flatMap_cons]
    rw [h a (List.mem_cons_self _ _), ih fun b hb => h b (List.mem_cons_of_mem _ hb)]

/-- The entries of the map that `FindSpendableOutputs` returns: one for every
outer key of `u` that holds a locked output, with the inner keys of its locked
outputs. -/
theorem found_mem_iff (u : UTXOSet) (pubKeyHash : Bytes) (amount : Int)
    (hu : (u.map fun e => e.1).Nodup) (e : String × List Int) :
    e ∈ (FindSpendableOutputs u pubKeyHash amount).2 ↔
      e ∈ (u.filter fun a =>
          decide ((a.2.filter fun p => p.2.IsLockedWithKey pubKeyHash).map (fun p => p.1) ≠ [])).map
        fun a => (a.1, (a.2.filter fun p => p.2.IsLockedWithKey pubKeyHash).map fun p => p.1) := by
  have hget := (FindSpendableOutputs_eq u pubKeyHash amount).2 e.1
  constructor
  · intro hmem
    have hg := mapGet_of_mem _ e.1 e.2 (FindSpendableOutputs_nodup u pubKeyHash amount) hmem
    rw [hget] at hg
    by_cases hnil : lockedIndexes u pubKeyHash e.1 = []
    · rw [if_pos hnil] at hg; cases hg
    · rw [if_neg hnil] at hg
      have he2 : lockedIndexes u pubKeyHash e.1 = e.2 := Option.some.inj hg
      obtain ⟨i, hi⟩ := List.exists_mem_of_ne_nil _ hnil
      obtain ⟨inner, txOutput, hin, _, _⟩ := (mem_lockedIndexes u pubKeyHash e.1 i).mp hi
      have hl := lockedIndexes_of_mem pubKeyHash e.1 inner u hu hin
      refine List.mem_map.mpr ⟨(e.1, inner), List.mem_filter.mpr ⟨hin, ?_⟩, ?_⟩
      · simp only [decide_eq_true_eq]
        rw [← hl]; exact hnil
      · simp only
        rw [← hl, he2]
  · intro hmem
    obtain ⟨a, ha, hae⟩ := List.mem_map.mp hmem
    obtain ⟨hau, hne⟩ := List.mem_filter.mp ha
    simp only [decide_eq_true_eq] at hne
    have hl := lockedIndexes_of_mem pubKeyHash a.1 a.2 u hu hau
    rw [← hl] at hne
    have hk : a.1 = e.1 := by rw [← hae]
    rw [← hk, if_neg hne] at hget
    have := mem_of_mapGet _ _ _ hget
    rw [hl] at this
    rw [← hae]
    exact this

/-- The inputs that `NewUTXOTransaction` builds are, up to the order in which
the run time visits the maps, one for each locked output of `u`. -/
theorem inputs_perm (u : UTXOSet) (pubKeyHash pubKey : Bytes) (amount : Int)
    (h2b : String → Bytes) (order : List (String × List Int) → List (String × List Int))
    (hu : (u.map fun e => e.1).Nodup) (horder : ∀ m, (order m).Perm m) :
    ((order (FindSpendableOutputs u pubKeyHash amount).2).flatMap fun e =>
        e.2.map fun outIdx => (⟨h2b e.1, outIdx, [], pubKey⟩ : TXInput)).Perm
      (lockedInputs h2b pubKey pubKeyHash u) := by
  have hF : (FindSpendableOutputs u pubKeyHash amount).2.Nodup :=
    List.Nodup.of_map _ (FindSpendableOutputs_nodup u pubKeyHash amount)
  have hkeys : (((u.filter fun a =>
      decide ((a.2.filter fun p => p.2.IsLockedWithKey pubKeyHash).map (fun p => p.1) ≠ [])).map
        fun a => (a.1, (a.2.filter fun p => p.2.IsLockedWithKey pubKeyHash).map fun p => p.1)).map
        fun e => e.1).Nodup := by
    rw [List.map_map]
    exact List.Nodup.sublist (List.Sublist.map _ (List.filter_sublist _)) hu
  have hF2 := List.Nodup.of_map _ hkeys
  have hperm := (List.perm_ext_iff_of_nodup hF hF2).mpr
    (fun e => found_mem_iff u pubKeyHash amount hu e)
  refine ((horder _).flatMap_right _).trans ((hperm.flatMap_right _).trans ?_)
  apply List.Perm.of_eq
  unfold lockedInputs
  clear hkeys hF2 hperm hF hu
  induction u with
  | nil => rfl
  | cons a rest ih =>
    by_cases hne : (a.2.filter fun p => p.2.IsLockedWithKey pubKeyHash).map (fun p => p.1) ≠ []
    · simp only [List.filter_cons, hne, decide_True, if_true, List.map_cons, List.flatMap_cons,
        List.map_map, not_false_eq_true, ne_eq]
      rw [ih]
      rfl
    · simp only [List.filter_cons, hne, decide_False, if_false, List.flatMap_cons,
        Bool.false_eq_true]
      rw [ih]
      have : (a.2.filter fun p => p.2.IsLockedWithKey pubKeyHash) = [] := by
        simp only [ne_eq, not_not, List.map_eq_nil_iff] at hne
        exact hne
      rw [this]
      rfl

/-- In a map whose outer keys `hex` gives back after `Hex2Bytes`, the entries
that the inputs of `lockedInputs` name hold the values of the locked
outputs. -/
theorem lockedInputs_values (u : UTXOSet) (pubKeyHash pubKey : Bytes) (h2b : String → Bytes)
    (hu : isMap u) (hhex : ∀ e ∈ u, hex (h2b e.1) = e.1) :
    (lockedInputs h2b pubKey pubKeyHash u).map
        (fun txInput => (utxoAt u (hex txInput.Txid) txInput.OutIdx).Value)
      = lockedValues u pubKeyHash := by
  unfold lockedInputs lockedValues
  rw [List.map_flatMap]
  apply flatMap_congr_mem
  intro e he
  rw [List.map_map]
  apply List.map_congr_left
  intro p hp
  have hp2 : p ∈ e.2 := (List.mem_filter.mp hp).1
  simp only [Function.comp]
  rw [hhex e he, utxoAt_eq, utxoGet_of_mem u hu e.1 e.2 p.1 p.2 he hp2]
  rfl

/-- C37.  Let `utxos` be a map of maps whose outer keys `hex` gives back after
`Hex2Bytes`, and let `NewUTXOTransaction` return `tx` on it.  The inputs of `tx`
are, in the order in which the run time visits the maps, exactly one for each
output of `utxos` locked with `HashPubKey(pubKey)`, each with the key `pubKey`
and no signature.  The sum of the values of the outputs of `tx` equals the sum
of the values of the entries that its inputs name, as Go `int`s; the two sums
are the same integer when `amount` is not negative and the second one is
within the range of a Go `int`.  When `amount` is not negative, no output of
`tx` has a negative value. -/
theorem newUTXOTransaction_conserves (H R : Bytes → Bytes) (ser : Transaction → Bytes)
    (b58 : String → Bytes) (h2b : String → Bytes)
    (order : List (String × List Int) → List (String × List Int))
    (pubKey : Bytes) (toAddress : String) (amount : Int) (utxos : UTXOSet) (tx : Transaction)
    (hu : isMap utxos) (hhex : ∀ e ∈ utxos, hex (h2b e.1) = e.1)
    (horder : ∀ m, (order m).Perm m)
    (htx : NewUTXOTransaction H R ser b58 h2b order pubKey toAddress amount utxos
      = .ok (some tx, none)) :
    tx.Vin.Perm (lockedInputs h2b pubKey (HashPubKey H R pubKey) utxos) ∧
    (∀ txInput ∈ tx.Vin, txInput.PubKey = pubKey ∧ txInput.Signature = []) ∧
    wrapInt64 (outputValues tx).sum = wrapInt64 (referencedValues utxos tx).sum ∧
    (0 ≤ amount → wrapInt64 (referencedValues utxos tx).sum = (referencedValues utxos tx).sum →
      (outputValues tx).sum = (referencedValues utxos tx).sum) ∧
    (0 ≤ amount → ∀ txOutput ∈ tx.Vout, 0 ≤ txOutput.Value) := by
  obtain ⟨rcpt, _, hvin, hvout⟩ :=
    NewUTXOTransaction_ok_inv H R ser b58 h2b order pubKey toAddress amount utxos tx none htx
  have hfunds : ¬ (FindSpendableOutputs utxos (HashPubKey H R pubKey) amount).1 < amount := by
    rcases NewUTXOTransaction_cases H R ser b58 h2b order pubKey toAddress amount utxos with
      ⟨h1, _⟩ | ⟨h1, _, _⟩ | ⟨_, h2, _⟩
    · rw [h1] at htx; cases htx
    · rw [h1] at htx; cases htx
    · exact h2
  have hperm : tx.Vin.Perm (lockedInputs h2b pubKey (HashPubKey H R pubKey) utxos) := by
    rw [hvin]
    exact inputs_perm utxos (HashPubKey H R pubKey) pubKey amount h2b order hu.1 horder
  have hsum : (referencedValues utxos tx).sum
      = (lockedValues utxos (HashPubKey H R pubKey)).sum := by
    unfold referencedValues
    rw [(hperm.map _).sum_eq, lockedInputs_values utxos (HashPubKey H R pubKey) pubKey h2b hu hhex]
  have hfound := (FindSpendableOutputs_eq utxos (HashPubKey H R pubKey) amount).1
  have hout : (outputValues tx).sum
      = amount + wrapInt64 ((FindSpendableOutputs utxos (HashPubKey H R pubKey) amount).1
          - amount) := by
    unfold outputValues
    rw [hvout]
    simp
  refine ⟨hperm, ?_, ?_, ?_, ?_⟩
  · intro txInput hin
    rw [hvin] at hin
    obtain ⟨e, _, hmap⟩ := List.mem_flatMap.mp hin
    obtain ⟨i, _, rfl⟩ := List.mem_map.mp hmap
    exact ⟨rfl, rfl⟩
  · rw [hout, hsum, hfound]
    generalize (lockedValues utxos (HashPubKey H R pubKey)).sum = t
    unfold wrapInt64
    omega
  · intro h0 hrange
    rw [hsum] at hrange ⊢
    rw [hfound] at hfunds
    rw [hout, hfound]
    generalize (lockedValues utxos (HashPubKey H R pubKey)).sum = t at hrange hfunds ⊢
    unfold wrapInt64 at hrange hfunds ⊢
    omega
  · intro h0 txOutput hmem
    rw [hvout] at hmem
    rw [hfound] at hfunds hmem
    simp only [List.mem_cons, List.mem_singleton, List.mem_nil_iff, or_false] at hmem
    rcases hmem with h | h
    · rw [h]; exact h0
    · rw [h]
      simp only
      generalize (lockedValues utxos (HashPubKey H R pubKey)).sum = t at hfunds ⊢
      unfold wrapInt64 at hfunds ⊢
      omega

theorem newUTXOTransaction_conserves_witness :
    transferSample.Vin.Perm
      (lockedInputs (fun _ => [0xaa]) (pubKeyToByte 2 3)
        (HashPubKey toyHash toyRipemd (pubKeyToByte 2 3)) transferSet) ∧
    (∀ txInput ∈ transferSample.Vin,
      txInput.PubKey = pubKeyToByte 2 3 ∧ txInput.Signature = []) ∧
    wrapInt64 (outputValues transferSample).sum
      = wrapInt64 (referencedValues transferSet transferSample).sum ∧
    (outputValues transferSample).sum = (referencedValues transferSet transferSample).sum ∧
    (∀ txOutput ∈ transferSample.Vout, 0 ≤ txOutput.Value) ∧
    (referencedValues transferSet transferSample).sum = 10 :=
  have h := newUTXOTransaction_conserves toyHash toyRipemd toySer toyDecode (fun _ => [0xaa]) id
    (pubKeyToByte 2 3) "1abcdefgh" 5 transferSet transferSample
    (wellFormed_spec transferSet (by decide)).1 (by decide) (fun m => List.Perm.refl m)
    (by decide)
  ⟨h.1, h.2.1, h.2.2.1, h.2.2.2.1 (by decide) (by decide), h.2.2.2.2 (by decide), by decide⟩

/-! ## Spending twice -/

/-- Without a transaction that creates the key, the ledger leaves the entry
alone or empties it. -/
theorem ledger_no_create (k : String) (i : Int) :
    ∀ (txs : List Transaction) (x : Option TXOutput), (∀ tx ∈ txs, ¬ creates tx k i) →
      ledger k i txs x = x ∨ ledger k i txs x = none := by
  intro txs
  induction txs with
  | nil => intro x _; exact Or.inl rfl
  | cons tx rest ih =>
    intro x h
    rw [ledger_cons, ledgerTx_not_creates k i tx x (h tx (List.mem_cons_self _ _))]
    have hrest := fun y => ih y fun t ht => h t (List.mem_cons_of_mem _ ht)
    by_cases hs : spends tx k i
    · rw [ledgerInputs_spends k i tx x hs]
      unfold spendStep
      split_ifs
      · exact hrest x
      · right
        rcases hrest none with h1 | h1 <;> exact h1
    · rw [ledgerInputs_not_spends k i tx x hs]
      exact hrest x

/-- An entry other than the zero output that a transaction of the list spends,
and that none creates, is absent at the end. -/
theorem ledger_spent (k : String) (i : Int) (txs : List Transaction) (x : Option TXOutput)
    (hnc : ∀ tx ∈ txs, ¬ creates tx k i) (hs : ∃ tx ∈ txs, spends tx k i)
    (hx : x ≠ some zeroTXOutput) : ledger k i txs x = none := by
  obtain ⟨S, hS, hsp⟩ := hs
  obtain ⟨pre, post, rfl⟩ := List.append_of_mem hS
  have hpre : ledger k i pre x ≠ some zeroTXOutput := by
    rcases ledger_no_create k i pre x (fun t ht => hnc t (List.mem_append_left _ ht)) with h | h
    · rw [h]; exact hx
    · rw [h]; simp
  rw [ledger_append, ledger_cons,
    ledgerTx_not_creates k i S _ (hnc S (List.mem_append_right _ (List.mem_cons_self _ _))),
    ledgerInputs_spends k i S _ hsp, spendStep_nonzero _ hpre]
  exact ledger_none k i post fun t ht =>
    hnc t (List.mem_append_right _ (List.mem_cons_of_mem _ ht))

/-- What a transaction that is not a coinbase has passed when
`VerifyTransaction` returns true: none of its inputs names the zero output or a
missing entry of the set of the chain. -/
theorem VerifyTransaction_true_inv (ser : Transaction → Bytes)
    (ecv : Nat → Nat → Bytes → Nat → Nat → Bool) (bc : Blockchain) (tx : Transaction)
    (hv : bc.VerifyTransaction ser ecv tx = .ok true) (hcb : tx.IsCoinbase = .ok false) :
    ∀ txInput ∈ tx.Vin,
      utxoAt bc.FindUTXOSet (hex txInput.Txid) txInput.OutIdx ≠ zeroTXOutput := by
  unfold Blockchain.VerifyTransaction at hv
  rw [hcb] at hv
  simp only [Res.bind, Bool.false_eq_true, if_false] at hv
  by_cases hany : (tx.Vin.any fun txInput =>
      decide (utxoAt bc.FindUTXOSet (hex txInput.Txid) txInput.OutIdx = zeroTXOutput)) = true
  · rw [if_pos hany] at hv; cases hv
  · intro txInput hin hz
    apply hany
    exact List.any_eq_true.mpr ⟨txInput, hin, by simp [hz]⟩

/-- The set of a chain with one more block. -/
theorem FindUTXOSet_append (bc : Blockchain) (b : Block) :
    (⟨bc.blocks ++ [b]⟩ : Blockchain).FindUTXOSet = Update bc.FindUTXOSet b.Transactions := by
  simp only [Blockchain.FindUTXOSet, List.foldl_append, List.foldl_cons, List.foldl_nil]

/-- The transactions of a chain with one more block. -/
theorem allTransactions_append (bc : Blockchain) (b : Block) :
    (⟨bc.blocks ++ [b]⟩ : Blockchain).allTransactions = bc.allTransactions ++ b.Transactions := by
  simp only [Blockchain.allTransactions, List.flatMap_append, List.flatMap_cons,
    List.flatMap_nil, List.append_nil]

/-- The transaction loop of `HandleMinedBlockIn`, read backwards. -/
theorem verifyEach_true_inv (ser : Transaction → Bytes)
    (ecv : Nat → Nat → Bytes → Nat → Nat → Bool) (bc : Blockchain) :
    ∀ txs : List Transaction, verifyEach ser ecv bc txs = .ok true →
      ∀ tx ∈ txs, bc.VerifyTransaction ser ecv tx = .ok true := by
  intro txs
  induction txs with
  | nil => intro _ tx h; cases h
  | cons t rest ih =>
    intro h tx htx
    simp only [verifyEach] at h
    cases hv : bc.VerifyTransaction ser ecv t with
    | panic => rw [hv] at h; cases h
    | timeout => rw [hv] at h; cases h
    | ok v =>
      rw [hv] at h
      simp only [Res.bind] at h
      cases v with
      | false => simp at h
      | true =>
        simp only [Bool.true_eq_false, if_false] at h
        rcases List.mem_cons.mp htx with e | e
        · rw [e]; exact hv
        · exact ih h tx e

/-- What a call of `HandleMinedBlockIn` that returns no error tells: the block
passed `ValidateBlock`, each of its transactions passed `VerifyTransaction` on
the replica as it was, and the replica grew by the block. -/
theorem handle_ok_inv (H : Bytes → Bytes) (ser : Transaction → Bytes)
    (ecv : Nat → Nat → Bytes → Nat → Nat → Bool) (acc acc1 : Account) (B : Block)
    (h : acc.HandleMinedBlockIn H ser ecv (some B) = .ok (acc1, none)) :
    acc.Blockchain.ValidateBlock H ser (some B) = .ok true ∧
    (∀ tx ∈ B.Transactions, acc.Blockchain.VerifyTransaction ser ecv tx = .ok true) ∧
    acc1 = { acc with Blockchain := ⟨acc.Blockchain.blocks ++ [B]⟩ } := by
  unfold Account.HandleMinedBlockIn at h
  cases hv : acc.Blockchain.ValidateBlock H ser (some B) with
  | panic => rw [hv] at h; cases h
  | timeout => rw [hv] at h; cases h
  | ok valid =>
    rw [hv] at h
    simp only [Res.bind] at h
    cases valid with
    | false => simp at h
    | true =>
      simp only [Bool.true_eq_false, if_false] at h
      cases hl : verifyEach ser ecv acc.Blockchain B.Transactions with
      | panic => rw [hl] at h; cases h
      | timeout => rw [hl] at h; cases h
      | ok verified =>
        rw [hl] at h
        simp only [Res.bind] at h
        cases verified with
        | false => simp at h
        | true =>
          simp only [Bool.true_eq_false, if_false, Res.ok.injEq, Prod.mk.injEq, and_true] at h
          exact ⟨rfl, verifyEach_true_inv ser ecv acc.Blockchain B.Transactions hl, h.symm⟩

/-- After a block whose transactions passed `VerifyTransaction` on the chain
before it, and whose identifiers differ from one another and from those of
the chain, every entry that a transaction of the block, not a coinbase, names
is absent from the set of the longer chain. -/
theorem spent_after_block (ser : Transaction → Bytes)
    (ecv : Nat → Nat → Bytes → Nat → Nat → Bool) (bc : Blockchain) (b1 : Block)
    (tx : Transaction)
    (hid : ((⟨bc.blocks ++ [b1]⟩ : Blockchain).allTransactions.map fun t => hex t.ID).Nodup)
    (hin : tx ∈ b1.Transactions) (hcb : tx.IsCoinbase = .ok false)
    (hv : bc.VerifyTransaction ser ecv tx = .ok true) :
    ∀ txInput ∈ tx.Vin,
      utxoGet (⟨bc.blocks ++ [b1]⟩ : Blockchain).FindUTXOSet (hex txInput.Txid) txInput.OutIdx
        = none := by
  intro txInput hmem
  have hnz := VerifyTransaction_true_inv ser ecv bc tx hv hcb txInput hmem
  rw [utxoAt_eq] at hnz
  rw [FindUTXOSet_append, utxoGet_Update]
  have hsome : (utxoGet bc.FindUTXOSet (hex txInput.Txid) txInput.OutIdx).isSome = true := by
    cases hx : utxoGet bc.FindUTXOSet (hex txInput.Txid) txInput.OutIdx with
    | none => rw [hx] at hnz; exact absurd rfl hnz
    | some o => rfl
  have hx : utxoGet bc.FindUTXOSet (hex txInput.Txid) txInput.OutIdx ≠ some zeroTXOutput := by
    intro e
    rw [e] at hnz
    exact hnz rfl
  rw [utxoGet_FindUTXOSet] at hsome
  obtain ⟨t, ht, hc⟩ := created_of_present _ _ _ hsome
  rw [allTransactions_append, List.map_append, List.nodup_append] at hid
  apply ledger_spent _ _ _ _ _ ⟨tx, hin, ?_, txInput, hmem, rfl, rfl⟩ hx
  · intro t2 ht2 hc2
    exact hid.2.2 (List.mem_map.mpr ⟨t, ht, hc.1⟩) (List.mem_map.mpr ⟨t2, ht2, hc2.1⟩)
  · rw [hcb]; simp

/-- C35, amended.  Let `MineBlock` append the block `b1`, and let the
hexadecimal identifiers of the transactions of the longer chain, those of `b1`
included, be pairwise distinct.  For every transaction of `b1` that is not a
coinbase, `VerifyTransaction` on the longer chain returns false, and every
entry that an input of the transaction names is absent from the set that
`FindUTXOSet` rebuilds from the longer chain. -/
theorem mineBlock_spent_inputs_absent (H : Bytes → Bytes) (ser : Transaction → Bytes)
    (ecv : Nat → Nat → Bytes → Nat → Nat → Bool) (now : Int) (fuel : Nat)
    (bc bc1 : Blockchain) (txs : List Transaction) (b1 : Block) (tx : Transaction)
    (hmine : bc.MineBlock H ser ecv now fuel txs = .ok (bc1, some b1, none))
    (hid : (bc1.allTransactions.map fun t => hex t.ID).Nodup)
    (hin : tx ∈ b1.Transactions) (hcb : tx.IsCoinbase = .ok false) :
    bc1.VerifyTransaction ser ecv tx = .ok false ∧
    ∀ txInput ∈ tx.Vin,
      utxoGet bc1.FindUTXOSet (hex txInput.Txid) txInput.OutIdx = none := by
  obtain ⟨hbc1, _, hall⟩ := MineBlock_ok_inv H ser ecv now fuel bc bc1 txs b1 hmine
  subst hbc1
  have habs := spent_after_block ser ecv bc b1 tx hid hin hcb (hall tx hin)
  refine ⟨?_, habs⟩
  unfold Blockchain.VerifyTransaction
  rw [hcb]
  simp only [Res.bind, Bool.false_eq_true, if_false]
  have hany : (tx.Vin.any fun txInput =>
      decide (utxoAt (⟨bc.blocks ++ [b1]⟩ : Blockchain).FindUTXOSet (hex txInput.Txid)
        txInput.OutIdx = zeroTXOutput)) = true := by
    cases hvin : tx.Vin with
    | nil => simp [Transaction.IsCoinbase, hvin] at hcb
    | cons vin0 rest =>
      have h0 := habs vin0 (by rw [hvin]; exact List.mem_cons_self _ _)
      simp only [List.any_cons, Bool.or_eq_true, decide_eq_true_eq]
      left
      rw [utxoAt_eq, h0]
      rfl
  rw [if_pos hany]

theorem mineBlock_spent_inputs_absent_witness :
    Blockchain.VerifyTransaction toySer strictVerify ⟨[replayGenesis]⟩ signedOne = .ok true ∧
    Blockchain.VerifyTransaction toySer strictVerify ⟨[replayGenesis, signedBlock]⟩ signedOne
      = .ok false ∧
    ∀ txInput ∈ signedOne.Vin,
      utxoGet (⟨[replayGenesis, signedBlock]⟩ : Blockchain).FindUTXOSet (hex txInput.Txid)
        txInput.OutIdx = none :=
  have h := mineBlock_spent_inputs_absent toyHash toySer strictVerify 2 50 ⟨[replayGenesis]⟩
    ⟨[replayGenesis, signedBlock]⟩ [signedOne] signedBlock signedOne (by decide)
    (by decide) (by decide) (by decide)
  ⟨by decide, h.1, h.2⟩

/-- C36, amended.  Every transaction of the block that `MineBlock` appends, and
of a block that `HandleMinedBlockIn` accepts, has passed `VerifyTransaction` on
the chain as it was before the block: each input of one that is not a coinbase
names an entry, other than the zero output, of the set that `FindUTXOSet`
builds from that chain.  The inputs of the block are not compared with one
another. -/
theorem block_inputs_present_before (H : Bytes → Bytes) (ser : Transaction → Bytes)
    (ecv : Nat → Nat → Bytes → Nat → Nat → Bool) (now : Int) (fuel : Nat)
    (bc bc1 : Blockchain) (txs : List Transaction) (b1 : Block) (acc acc1 : Account)
    (B : Block) :
    (bc.MineBlock H ser ecv now fuel txs = .ok (bc1, some b1, none) →
      ∀ tx ∈ b1.Transactions, bc.VerifyTransaction ser ecv tx = .ok true ∧
        (tx.IsCoinbase = .ok false → ∀ txInput ∈ tx.Vin,
          utxoAt bc.FindUTXOSet (hex txInput.Txid) txInput.OutIdx ≠ zeroTXOutput)) ∧
    (acc.HandleMinedBlockIn H ser ecv (some B) = .ok (acc1, none) →
      ∀ tx ∈ B.Transactions, acc.Blockchain.VerifyTransaction ser ecv tx = .ok true ∧
        (tx.IsCoinbase = .ok false → ∀ txInput ∈ tx.Vin,
          utxoAt acc.Blockchain.FindUTXOSet (hex txInput.Txid) txInput.OutIdx
            ≠ zeroTXOutput)) := by
  constructor
  · intro hmine tx htx
    obtain ⟨_, _, hall⟩ := MineBlock_ok_inv H ser ecv now fuel bc bc1 txs b1 hmine
    exact ⟨hall tx htx, fun hcb => VerifyTransaction_true_inv ser ecv bc tx (hall tx htx) hcb⟩
  · intro hacc tx htx
    obtain ⟨_, hall, _⟩ := handle_ok_inv H ser ecv acc acc1 B hacc
    exact ⟨hall tx htx,
      fun hcb => VerifyTransaction_true_inv ser ecv acc.Blockchain tx (hall tx htx) hcb⟩

theorem block_inputs_present_before_witness :
    (∀ tx ∈ signedBlock.Transactions,
      Blockchain.VerifyTransaction toySer strictVerify ⟨[replayGenesis]⟩ tx = .ok true ∧
        (tx.IsCoinbase = .ok false → ∀ txInput ∈ tx.Vin,
          utxoAt (⟨[replayGenesis]⟩ : Blockchain).FindUTXOSet (hex txInput.Txid) txInput.OutIdx
            ≠ zeroTXOutput)) ∧
    (∀ tx ∈ signedBlock.Transactions,
      replayPeer.Blockchain.VerifyTransaction toySer strictVerify tx = .ok true ∧
        (tx.IsCoinbase = .ok false → ∀ txInput ∈ tx.Vin,
          utxoAt replayPeer.Blockchain.FindUTXOSet (hex txInput.Txid) txInput.OutIdx
            ≠ zeroTXOutput)) :=
  ⟨(block_inputs_present_before toyHash toySer strictVerify 2 50 ⟨[replayGenesis]⟩
      ⟨[replayGenesis, signedBlock]⟩ [signedOne] signedBlock replayPeer
      { replayPeer with Blockchain := ⟨[replayGenesis, signedBlock]⟩ } signedBlock).1
      (by decide),
    (block_inputs_present_before toyHash toySer strictVerify 2 50 ⟨[replayGenesis]⟩
      ⟨[replayGenesis, signedBlock]⟩ [signedOne] signedBlock replayPeer
      { replayPeer with Blockchain := ⟨[replayGenesis, signedBlock]⟩ } signedBlock).2
      (by decide)⟩

/-! ## Transfers between peers -/

/-- Writing under a key the value that the map holds under it changes
nothing. -/
theorem mapSet_same {K V : Type} [DecidableEq K] :
    ∀ (m : List (K × V)) (k : K) (v : V), mapGet m k = some v → mapSet m k v = m := by
  intro m
  induction m with
  | nil => intro k v h; cases h
  | cons e rest ih =>
    intro k v h
    obtain ⟨k1, v1⟩ := e
    by_cases hk : k1 = k
    · simp only [mapGet, if_pos hk, Option.some.injEq] at h
      subst hk
      subst h
      simp only [mapSet, if_true]
    · simp only [mapGet, if_neg hk] at h
      simp only [mapSet, if_neg hk, ih k v h]

/-- What the loop of `BroadcastBlock` leaves when it returns: the capacity of
every channel is as before, and its buffer holds the block once more for each
entry of `ChannelMap` that refers to it. -/
theorem broadcastLoop_spec (block : Option Block) :
    ∀ (channelMap : List (String × Nat)) (chans chans1 : Channels),
      broadcastLoop block channelMap chans = .ok chans1 →
      ∀ c, mapGet chans1 c = (mapGet chans c).map fun ch =>
        { ch with buffer := ch.buffer
            ++ List.replicate (channelMap.countP fun e => decide (e.2 = c)) block } := by
  intro channelMap
  induction channelMap with
  | nil =>
    intro chans chans1 h c
    simp only [broadcastLoop, Res.ok.injEq] at h
    rw [← h]
    cases mapGet chans c <;> simp
  | cons e rest ih =>
    intro chans chans1 h c
    simp only [broadcastLoop] at h
    cases hs : chanSend chans e.2 block with
    | panic => rw [hs] at h; cases h
    | timeout => rw [hs] at h; cases h
    | ok chans0 =>
      rw [hs] at h
      simp only [Res.bind] at h
      rw [ih chans0 chans1 h c]
      unfold chanSend at hs
      cases hg : mapGet chans e.2 with
      | none => rw [hg] at hs; cases hs
      | some ch =>
        rw [hg] at hs
        simp only at hs
        by_cases hroom : ch.buffer.length < ch.capacity
        · rw [if_pos hroom] at hs
          simp only [Res.ok.injEq] at hs
          rw [← hs, mapGet_mapSet]
          by_cases hc : c = e.2
          · have hc2 : e.2 = c := hc.symm
            rw [if_pos hc, hc, hg]
            simp only [Option.map_some', List.countP_cons, decide_True, if_true,
              List.replicate_succ, List.append_assoc, List.singleton_append]
          · have hc2 : ¬ e.2 = c := fun h1 => hc h1.symm
            rw [if_neg hc]
            simp only [List.countP_cons, hc2, decide_False, Bool.false_eq_true, if_false,
              Nat.add_zero]
        · rw [if_neg hroom] at hs; cases hs

/-- The call `MineTransaction` on a transaction that does not verify on the
miner's replica returns nil and leaves the replica alone. -/
theorem MineTransaction_invalid (H : Bytes → Bytes) (ser : Transaction → Bytes)
    (ecv : Nat → Nat → Bytes → Nat → Nat → Bool) (b58 : String → Bytes)
    (randomString : Nat → Bytes) (now : Int) (fuel : Nat) (acc : Account) (tx : Transaction)
    (hver : acc.Blockchain.VerifyTransaction ser ecv tx = .ok false) :
    acc.MineTransaction H ser ecv b58 randomString now fuel tx = .ok (acc, none) := by
  simp [Account.MineTransaction, hver, Res.bind]

/-- The call `Transfer` when the miner's `MineTransaction` returns nil: the nil
block is handed to `BroadcastBlock`. -/
theorem Transfer_invalid (H R : Bytes → Bytes) (ser : Transaction → Bytes)
    (ecv : Nat → Nat → Bytes → Nat → Nat → Bool)
    (sgn : Nat → Bytes → Option (Nat × Nat)) (b58 : String → Bytes) (h2b : String → Bytes)
    (order : List (String × List Int) → List (String × List Int))
    (randomString : Nat → Bytes) (now : Int) (fuel : Nat)
    (u : Users) (chans : Channels) (sender recipient miner : String) (amount : Int)
    (senderAcc minerAcc : Account) (tx : Transaction)
    (hfrom : mapGet u.UsersMap sender = some senderAcc)
    (hprod : senderAcc.ProduceTransferTx H R ser sgn b58 h2b order
      (((mapGet u.UsersMap recipient).map fun acc => acc.Address).getD "") amount
        = .ok (some tx, none))
    (hminer : mapGet u.UsersMap miner = some minerAcc)
    (hver : minerAcc.Blockchain.VerifyTransaction ser ecv tx = .ok false) :
    Users.Transfer H R ser ecv sgn b58 h2b order randomString now fuel u chans sender recipient
        miner amount
      = (minerAcc.BroadcastBlock chans none).bind fun chans1 => .ok (u, chans1, none) := by
  unfold Users.Transfer
  rw [hfrom]
  simp only [hprod, Res.bind, hminer,
    MineTransaction_invalid H ser ecv b58 randomString now fuel minerAcc tx hver]
  rw [mapSet_same u.UsersMap miner minerAcc hminer]

/-- The call `Transfer` when the sender's spendable total is below `amount`. -/
theorem Transfer_noFunds (H R : Bytes → Bytes) (ser : Transaction → Bytes)
    (ecv : Nat → Nat → Bytes → Nat → Nat → Bool)
    (sgn : Nat → Bytes → Option (Nat × Nat)) (b58 : String → Bytes) (h2b : String → Bytes)
    (order : List (String × List Int) → List (String × List Int))
    (randomString : Nat → Bytes) (now : Int) (fuel : Nat)
    (u : Users) (chans : Channels) (sender recipient miner : String) (amount : Int)
    (senderAcc : Account)
    (hfrom : mapGet u.UsersMap sender = some senderAcc)
    (hlow : (FindSpendableOutputs senderAcc.Blockchain.FindUTXOSet
      (HashPubKey H R senderAcc.PubKeyBytes) amount).1 < amount) :
    Users.Transfer H R ser ecv sgn b58 h2b order randomString now fuel u chans sender recipient
        miner amount
      = .ok (u, chans, some .ErrNoFunds) := by
  unfold Users.Transfer
  rw [hfrom]
  simp only [Account.ProduceTransferTx, NewUTXOTransaction, if_pos hlow, Res.bind]

/-- The model on the three sample peers when the signature verifies: the
miner's replica grows by one block and that block joins the buffers of the
two channels in the miner's `ChannelMap`. -/
theorem Transfer_sample_mined :
    (Users.Transfer toyHash toyRipemd toySer toyVerify (fun _ _ => some (2, 3)) toyDecode
        (fun _ => [0xaa]) id (fun _ => [9]) 2 50 sampleUsers sampleChannels "a" "b" "c" 5).map
      (fun r =>
        (r.1.UsersMap.map fun e => (e.1, e.2.Blockchain.blocks.length),
          r.2.1.map fun e => (e.1, e.2.buffer.map fun block =>
            block.map fun b => b.Transactions.length),
          r.2.2))
      = (.ok ([("a", 1), ("b", 1), ("c", 2)], [(1, [some 2]), (2, [some 2]), (3, [])], none) :
          Res (List (String × Nat) × List (Nat × List (Option Nat)) × Option GoError)) := by
  rfl

/-- What `NewCoinbaseTX` returns is a coinbase for `IsCoinbase`. -/
theorem NewCoinbaseTX_isCoinbase (H : Bytes → Bytes) (ser : Transaction → Bytes)
    (b58 : String → Bytes) (randomString : Nat → Bytes) (toAddress : String) (data : Bytes)
    (r : Transaction × Option GoError)
    (h : NewCoinbaseTX H ser b58 randomString toAddress data = .ok r) :
    r.1.IsCoinbase = .ok true := by
  unfold NewCoinbaseTX at h
  cases hp : GetPubKeyHashFromAddress b58 toAddress with
  | panic => rw [hp] at h; cases h
  | timeout => rw [hp] at h; cases h
  | ok pubKeyHash =>
    rw [hp] at h
    simp only [Res.bind, Res.ok.injEq] at h
    rw [← h]
    rfl

/-- The call `MineBlock` on a coinbase followed by a transaction that verifies,
when it returns, returns a block and has appended it. -/
theorem MineBlock_pair (H : Bytes → Bytes) (ser : Transaction → Bytes)
    (ecv : Nat → Nat → Bytes → Nat → Nat → Bool) (now : Int) (fuel : Nat)
    (bc : Blockchain) (cb tx : Transaction)
    (mined : Blockchain × Option Block × Option GoError)
    (hcb : cb.IsCoinbase = .ok true) (hver : bc.VerifyTransaction ser ecv tx = .ok true)
    (h : bc.MineBlock H ser ecv now fuel [cb, tx] = .ok mined) :
    ∃ b, mined.2.1 = some b ∧ mined.1 = ⟨bc.blocks ++ [b]⟩ := by
  unfold Blockchain.MineBlock at h
  simp only [collectValid, VerifyTransaction_coinbase ser ecv bc cb hcb, hver, Res.bind,
    if_true, List.nil_append, List.cons_append, List.length_cons, List.length_nil] at h
  have hne : ¬ (0 + 1 + 1 = 0) := by omega
  rw [if_neg hne] at h
  cases ht : bc.CurrentBlock with
  | panic => rw [ht] at h; cases h
  | timeout => rw [ht] at h; cases h
  | ok tip =>
    rw [ht] at h
    simp only [Res.bind] at h
    cases hm : (NewBlock now [cb, tx] tip.Hash).Mine H ser fuel with
    | panic => rw [hm] at h; cases h
    | timeout => rw [hm] at h; cases h
    | ok b =>
      rw [hm] at h
      simp only [Res.ok.injEq] at h
      rw [← h]
      exact ⟨b, rfl, rfl⟩

/-- The call `MineTransaction` on a transaction that verifies on the miner's
replica never returns nil: the coinbase it prepends passes `VerifyTransaction`,
so `MineBlock` has a transaction to keep and returns no error. -/
theorem MineTransaction_valid (H : Bytes → Bytes) (ser : Transaction → Bytes)
    (ecv : Nat → Nat → Bytes → Nat → Nat → Bool) (b58 : String → Bytes)
    (randomString : Nat → Bytes) (now : Int) (fuel : Nat) (acc acc1 : Account)
    (tx : Transaction) (block : Option Block)
    (hver : acc.Blockchain.VerifyTransaction ser ecv tx = .ok true)
    (h : acc.MineTransaction H ser ecv b58 randomString now fuel tx = .ok (acc1, block)) :
    ∃ b, block = some b ∧ acc1 = { acc with Blockchain := ⟨acc.Blockchain.blocks ++ [b]⟩ } := by
  unfold Account.MineTransaction at h
  rw [hver] at h
  simp only [Res.bind, Bool.not_true, Bool.false_eq_true, if_false] at h
  cases hc : NewCoinbaseTX H ser b58 randomString acc.Address [] with
  | panic => rw [hc] at h; cases h
  | timeout => rw [hc] at h; cases h
  | ok coinbase =>
    rw [hc] at h
    simp only at h
    have hcb := NewCoinbaseTX_isCoinbase H ser b58 randomString acc.Address [] coinbase hc
    cases hm : acc.Blockchain.MineBlock H ser ecv now fuel [coinbase.1, tx] with
    | panic => rw [hm] at h; cases h
    | timeout => rw [hm] at h; cases h
    | ok mined =>
      rw [hm] at h
      simp only [Res.ok.injEq, Prod.mk.injEq] at h
      obtain ⟨b, hb1, hb2⟩ := MineBlock_pair H ser ecv now fuel acc.Blockchain coinbase.1 tx
        mined hcb hver hm
      refine ⟨b, by rw [← h.2, hb1], by rw [← h.1, hb2]⟩

/-- C32, where the code departs from it.  Let the sender's `ProduceTransferTx`
return `tx` and let `tx` not verify on the miner's replica.  `MineTransaction`
returns nil and leaves the replica alone, as claimed, but `Transfer` hands that
nil to `BroadcastBlock` without looking at it: the outcome of `Transfer` is the
outcome of broadcasting nil, and whenever it returns, the peers are unchanged,
the error is nil, and the buffer of every channel holds one more nil for each
entry of the miner's `ChannelMap` that refers to it.  The other failure that
the claim names does not occur: on a transaction that verifies,
`MineTransaction` never returns nil, because the coinbase it prepends always
passes the filter of `MineBlock`. -/
theorem transfer_broadcasts_nil (H R : Bytes → Bytes) (ser : Transaction → Bytes)
    (ecv : Nat → Nat → Bytes → Nat → Nat → Bool)
    (sgn : Nat → Bytes → Option (Nat × Nat)) (b58 : String → Bytes) (h2b : String → Bytes)
    (order : List (String × List Int) → List (String × List Int))
    (randomString : Nat → Bytes) (now : Int) (fuel : Nat)
    (u : Users) (chans : Channels) (sender recipient miner : String) (amount : Int)
    (senderAcc minerAcc : Account) (tx : Transaction)
    (hfrom : mapGet u.UsersMap sender = some senderAcc)
    (hprod : senderAcc.ProduceTransferTx H R ser sgn b58 h2b order
      (((mapGet u.UsersMap recipient).map fun acc => acc.Address).getD "") amount
        = .ok (some tx, none))
    (hminer : mapGet u.UsersMap miner = some minerAcc)
    (hver : minerAcc.Blockchain.VerifyTransaction ser ecv tx = .ok false) :
    minerAcc.MineTransaction H ser ecv b58 randomString now fuel tx = .ok (minerAcc, none) ∧
    Users.Transfer H R ser ecv sgn b58 h2b order randomString now fuel u chans sender recipient
        miner amount
      = ((minerAcc.BroadcastBlock chans none).bind fun chans1 => .ok (u, chans1, none)) ∧
    (∀ u1 chans1 err,
      Users.Transfer H R ser ecv sgn b58 h2b order randomString now fuel u chans sender
        recipient miner amount = .ok (u1, chans1, err) →
      u1 = u ∧ err = none ∧
      ∀ c, mapGet chans1 c = (mapGet chans c).map fun ch =>
        { ch with buffer := ch.buffer
            ++ List.replicate (minerAcc.ChannelMap.countP fun e => decide (e.2 = c)) none }) ∧
    ∀ (tx2 : Transaction) (acc1 : Account) (block : Option Block),
      minerAcc.Blockchain.VerifyTransaction ser ecv tx2 = .ok true →
      minerAcc.MineTransaction H ser ecv b58 randomString now fuel tx2 = .ok (acc1, block) →
      block ≠ none := by
  have ht := Transfer_invalid H R ser ecv sgn b58 h2b order randomString now fuel u chans sender
    recipient miner amount senderAcc minerAcc tx hfrom hprod hminer hver
  refine ⟨MineTransaction_invalid H ser ecv b58 randomString now fuel minerAcc tx hver, ht, ?_,
    fun tx2 acc1 block hv2 hm2 => ?_⟩
  swap
  · obtain ⟨b, hb, _⟩ := MineTransaction_valid H ser ecv b58 randomString now fuel minerAcc acc1
      tx2 block hv2 hm2
    rw [hb]
    exact fun hn => Option.noConfusion hn
  intro u1 chans1 err hret
  rw [ht] at hret
  cases hb : minerAcc.BroadcastBlock chans none with
  | panic => rw [hb] at hret; cases hret
  | timeout => rw [hb] at hret; cases hret
  | ok chans2 =>
    rw [hb] at hret
    simp only [Res.bind, Res.ok.injEq, Prod.mk.injEq] at hret
    obtain ⟨h1, h2, h3⟩ := hret
    subst h1 h2 h3
    exact ⟨rfl, rfl, broadcastLoop_spec none minerAcc.ChannelMap chans chans2 hb⟩

theorem transfer_broadcasts_nil_witness :
    Users.Transfer toyHash toyRipemd toySer toyVerify (fun _ _ => some (5, 6)) toyDecode
        (fun _ => [0xaa]) id (fun _ => [9]) 2 50 sampleUsers sampleChannels "a" "b" "c" 5
      = .ok (sampleUsers, [(1, ⟨8, [none]⟩), (2, ⟨8, [none]⟩), (3, ⟨8, []⟩)], none) :=
  (transfer_broadcasts_nil toyHash toyRipemd toySer toyVerify (fun _ _ => some (5, 6)) toyDecode
    (fun _ => [0xaa]) id (fun _ => [9]) 2 50 sampleUsers sampleChannels "a" "b" "c" 5
    peerA peerC transferSigned (by decide) (by decide) (by decide) (by decide)).2.1.trans
    (by decide)

/-- C33.  When `from` names a peer and the total, as a Go `int`, of the outputs
that the set of the sender's replica holds for the sender's key hash is below
`amount`, `Transfer` returns `ErrNoFunds`, and the peers with their replicas
and the channels with their buffers are what they were before the call. -/
theorem transfer_noFunds_unchanged (H R : Bytes → Bytes) (ser : Transaction → Bytes)
    (ecv : Nat → Nat → Bytes → Nat → Nat → Bool)
    (sgn : Nat → Bytes → Option (Nat × Nat)) (b58 : String → Bytes) (h2b : String → Bytes)
    (order : List (String × List Int) → List (String × List Int))
    (randomString : Nat → Bytes) (now : Int) (fuel : Nat)
    (u : Users) (chans : Channels) (sender recipient miner : String) (amount : Int)
    (senderAcc : Account)
    (hfrom : mapGet u.UsersMap sender = some senderAcc)
    (hlow : wrapInt64 (lockedValues senderAcc.Blockchain.FindUTXOSet
      (HashPubKey H R senderAcc.PubKeyBytes)).sum < amount) :
    Users.Transfer H R ser ecv sgn b58 h2b order randomString now fuel u chans sender recipient
        miner amount
      = .ok (u, chans, some .ErrNoFunds) := by
  apply Transfer_noFunds H R ser ecv sgn b58 h2b order randomString now fuel u chans sender
    recipient miner amount senderAcc hfrom
  rw [(FindSpendableOutputs_eq _ _ amount).1]
  exact hlow

theorem transfer_noFunds_unchanged_witness :
    wrapInt64 (lockedValues peerA.Blockchain.FindUTXOSet
      (HashPubKey toyHash toyRipemd peerA.PubKeyBytes)).sum = 10 ∧
    Users.Transfer toyHash toyRipemd toySer toyVerify (fun _ _ => some (2, 3)) toyDecode
        (fun _ => [0xaa]) id (fun _ => [9]) 2 50 sampleUsers sampleChannels "a" "b" "c" 11
      = .ok (sampleUsers, sampleChannels, some .ErrNoFunds) :=
  ⟨by decide,
    transfer_noFunds_unchanged toyHash toyRipemd toySer toyVerify (fun _ _ => some (2, 3))
      toyDecode (fun _ => [0xaa]) id (fun _ => [9]) 2 50 sampleUsers sampleChannels "a" "b" "c"
      11 peerA (by decide) (by decide)⟩

/-! ## Sets with shared inner maps -/

theorem le_foldr_max : ∀ (l : List Nat) (x : Nat), x ∈ l → x ≤ l.foldr max 0 := by
  intro l
  induction l with
  | nil => intro x h; cases h
  | cons a rest ih =>
    intro x h
    simp only [List.foldr_cons]
    rcases List.mem_cons.mp h with e | e
    · rw [e]; exact Nat.le_max_left _ _
    · exact Nat.le_trans (ih x e) (Nat.le_max_right _ _)

/-- The reference that `make` returns is above every reference in use. -/
theorem fresh_gt_outer (s : UTXORefs) (k : String) (p : Nat)
    (h : mapGet s.outer k = some (some p)) : p < s.fresh := by
  unfold UTXORefs.fresh
  have hm : p ∈ (s.heap.map fun e => e.1) ++ s.outer.filterMap fun e => e.2 := by
    apply List.mem_append_right
    exact List.mem_filterMap.mpr ⟨(k, some p), mem_of_mapGet _ _ _ h, rfl⟩
  have := le_foldr_max _ p hm
  omega

theorem entry_of_ref (s : UTXORefs) (k : String) (p : Nat)
    (h : mapGet s.outer k = some (some p)) :
    s.entry k = some ((mapGet s.heap p).getD []) := by
  simp only [UTXORefs.entry, h, Option.map_some']

/-- Writing the inner map behind a reference leaves the keys alone that do not
hold it. -/
theorem entry_heapSet_other (s : UTXORefs) (p : Nat) (v : List (Int × TXOutput)) (k : String)
    (hk : mapGet s.outer k ≠ some (some p)) :
    (⟨s.outer, mapSet s.heap p v⟩ : UTXORefs).entry k = s.entry k := by
  unfold UTXORefs.entry
  cases hg : mapGet s.outer k with
  | none => rfl
  | some r =>
    cases r with
    | none => rfl
    | some q =>
      have hq : ¬ q = p := by
        intro e; rw [hg, e] at hk; exact hk rfl
      simp only [Option.map_some', mapGet_mapSet, if_neg hq]

/-- Writing the inner map behind a reference, seen from a key that holds it. -/
theorem entry_heapSet_same (s : UTXORefs) (p : Nat) (v : List (Int × TXOutput)) (k : String)
    (hk : mapGet s.outer k = some (some p)) :
    (⟨s.outer, mapSet s.heap p v⟩ : UTXORefs).entry k = some v := by
  simp only [UTXORefs.entry, hk, Option.map_some', mapGet_mapSet, if_true, Option.getD_some]

theorem entry_outerDelete (s : UTXORefs) (k0 k : String) :
    (⟨mapDelete s.outer k0, s.heap⟩ : UTXORefs).entry k
      = if k = k0 then none else s.entry k := by
  unfold UTXORefs.entry
  simp only [mapGet_mapDelete]
  split_ifs <;> rfl

theorem read_of_agrees (s : UTXORefs) (u : UTXOSet) (h : s.agrees u) (k : String) (i : Int) :
    s.read k i = utxoAt u k i := by
  unfold UTXORefs.read UTXORefs.get UTXORefs.inner utxoAt
  rw [h k]

/-- One input, on a set without shared inner maps: the listing of contents
follows the set with references. -/
theorem sim_spendInput (s : UTXORefs) (u : UTXOSet) (txInput : TXInput)
    (hs : s.unshared) (ha : s.agrees u) :
    (s.spendInput txInput).agrees (spendInput u txInput) ∧ (s.spendInput txInput).unshared := by
  have hread := read_of_agrees s u ha (hex txInput.Txid) txInput.OutIdx
  by_cases hz : utxoAt u (hex txInput.Txid) txInput.OutIdx = zeroTXOutput
  · have e1 : s.spendInput txInput = s := by
      simp [UTXORefs.spendInput, hread, hz]
    rw [e1, spendInput_of_zero u txInput hz]
    exact ⟨ha, hs⟩
  · cases hk : mapGet u (hex txInput.Txid) with
    | none => simp [utxoAt, hk, mapGet] at hz
    | some inner =>
      have hent := ha (hex txInput.Txid)
      rw [hk] at hent
      cases hg : mapGet s.outer (hex txInput.Txid) with
      | none => simp [UTXORefs.entry, hg] at hent
      | some r =>
        cases r with
        | none =>
          simp only [UTXORefs.entry, hg, Option.map_some', Option.some.injEq] at hent
          simp [utxoAt, hk, ← hent, mapGet] at hz
        | some p =>
          have hin : (mapGet s.heap p).getD [] = inner := by
            rw [entry_of_ref s _ p hg] at hent
            exact Option.some.inj hent
          have hnz : s.read (hex txInput.Txid) txInput.OutIdx ≠ zeroTXOutput := by
            rw [hread]; exact hz
          have hs1 : (⟨s.outer, mapSet s.heap p (mapDelete inner txInput.OutIdx)⟩ :
              UTXORefs).inner (hex txInput.Txid) = mapDelete inner txInput.OutIdx := by
            unfold UTXORefs.inner
            rw [entry_heapSet_same s p _ _ hg]
            rfl
          have hform : s.spendInput txInput
              = if (mapDelete inner txInput.OutIdx).length = 0 then
                  ⟨mapDelete s.outer (hex txInput.Txid),
                    mapSet s.heap p (mapDelete inner txInput.OutIdx)⟩
                else ⟨s.outer, mapSet s.heap p (mapDelete inner txInput.OutIdx)⟩ := by
            simp only [UTXORefs.spendInput, if_pos hnz, hg, hin, hs1]
          constructor
          · intro k
            by_cases hkk : k = hex txInput.Txid
            · rw [hkk, mapGet_spendInput_same u txInput inner hk hz, hform]
              by_cases hlen : (mapDelete inner txInput.OutIdx).length = 0
              · rw [if_pos hlen, if_pos hlen]
                exact (entry_outerDelete ⟨s.outer, _⟩ _ _).trans (if_pos rfl)
              · rw [if_neg hlen, if_neg hlen]
                exact entry_heapSet_same s p _ _ hg
            · rw [mapGet_spendInput_other u txInput k hkk, ← ha k, hform]
              have hne : mapGet s.outer k ≠ some (some p) := by
                intro e
                exact hkk (hs k (hex txInput.Txid) p e hg)
              by_cases hlen : (mapDelete inner txInput.OutIdx).length = 0
              · rw [if_pos hlen]
                exact ((entry_outerDelete ⟨s.outer, _⟩ _ _).trans (if_neg hkk)).trans
                  (entry_heapSet_other s p _ k hne)
              · rw [if_neg hlen]
                exact entry_heapSet_other s p _ k hne
          · rw [hform]
            by_cases hlen : (mapDelete inner txInput.OutIdx).length = 0
            · rw [if_pos hlen]
              intro k j q h1 h2
              simp only [mapGet_mapDelete] at h1 h2
              by_cases e1 : k = hex txInput.Txid
              · rw [if_pos e1] at h1; cases h1
              · by_cases e2 : j = hex txInput.Txid
                · rw [if_pos e2] at h2; cases h2
                · rw [if_neg e1] at h1
                  rw [if_neg e2] at h2
                  exact hs k j q h1 h2
            · rw [if_neg hlen]
              exact hs

theorem mapSet_ne_nil {K V : Type} [DecidableEq K] (m : List (K × V)) (k : K) (v : V) :
    mapSet m k v ≠ [] := by
  cases m with
  | nil => simp [mapSet]
  | cons e rest =>
    obtain ⟨k1, v1⟩ := e
    simp only [mapSet]
    split_ifs <;> simp

/-- The form of the set after one output when a new inner map is made. -/
theorem addOutput_make (txIDString : String) (s : UTXORefs) (index : Nat)
    (txOutput : TXOutput) (h : ∀ p, mapGet s.outer txIDString ≠ some (some p)) :
    s.addOutput txIDString index txOutput
      = ⟨mapSet s.outer txIDString (some s.fresh),
          mapSet (mapSet s.heap s.fresh []) s.fresh (mapSet [] (index : Int) txOutput)⟩ := by
  unfold UTXORefs.addOutput
  cases hg : mapGet s.outer txIDString with
  | none => simp only [mapGet_mapSet, if_true, Option.getD_some]
  | some r =>
    cases r with
    | none => simp only [mapGet_mapSet, if_true, Option.getD_some]
    | some p => exact absurd hg (h p)

/-- The form of the set after one output when the key holds an inner map. -/
theorem addOutput_keep (txIDString : String) (s : UTXORefs) (index : Nat)
    (txOutput : TXOutput) (p : Nat) (h : mapGet s.outer txIDString = some (some p)) :
    s.addOutput txIDString index txOutput
      = ⟨s.outer, mapSet s.heap p
          (mapSet ((mapGet s.heap p).getD []) (index : Int) txOutput)⟩ := by
  unfold UTXORefs.addOutput
  simp only [h]

/-- One output, on a set without shared inner maps. -/
theorem sim_addOutput (txIDString : String) (s : UTXORefs) (u : UTXOSet) (index : Nat)
    (txOutput : TXOutput) (hs : s.unshared) (ha : s.agrees u) :
    (s.addOutput txIDString index txOutput).agrees (addOutput txIDString u index txOutput) ∧
    (s.addOutput txIDString index txOutput).unshared := by
  by_cases hp : ∃ p, mapGet s.outer txIDString = some (some p)
  · obtain ⟨p, hg⟩ := hp
    rw [addOutput_keep txIDString s index txOutput p hg]
    constructor
    · intro k
      by_cases hk : k = txIDString
      · rw [hk, mapGet_addOutput_same, entry_heapSet_same s p _ _ hg, ← ha txIDString,
          entry_of_ref s _ p hg]
        rfl
      · rw [mapGet_addOutput_other _ _ _ _ _ hk, ← ha k]
        apply entry_heapSet_other
        intro e
        exact hk (hs k txIDString p e hg)
    · exact hs
  · have hno : ∀ p, mapGet s.outer txIDString ≠ some (some p) := fun p e => hp ⟨p, e⟩
    rw [addOutput_make txIDString s index txOutput hno]
    have hcur : (mapGet u txIDString).getD [] = [] := by
      rw [← ha txIDString]
      unfold UTXORefs.entry
      cases hg : mapGet s.outer txIDString with
      | none => rfl
      | some r =>
        cases r with
        | none => rfl
        | some p => exact absurd hg (hno p)
    have houter : ∀ k, k ≠ txIDString →
        mapGet (mapSet s.outer txIDString (some s.fresh)) k = mapGet s.outer k := by
      intro k hk
      rw [mapGet_mapSet, if_neg hk]
    have hfresh : ∀ k, mapGet s.outer k ≠ some (some s.fresh) := by
      intro k e
      exact Nat.lt_irrefl _ (fresh_gt_outer s k _ e)
    constructor
    · intro k
      by_cases hk : k = txIDString
      · rw [hk, mapGet_addOutput_same, hcur]
        simp only [UTXORefs.entry, mapGet_mapSet, if_true, Option.map_some', Option.getD_some]
      · rw [mapGet_addOutput_other _ _ _ _ _ hk, ← ha k]
        unfold UTXORefs.entry
        simp only [houter k hk]
        cases hg : mapGet s.outer k with
        | none => rfl
        | some r =>
          cases r with
          | none => rfl
          | some q =>
            have hq : ¬ q = s.fresh := by
              intro e; rw [e] at hg; exact hfresh k hg
            simp only [Option.map_some', mapGet_mapSet, if_neg hq]
    · intro k j q h1 h2
      simp only [mapGet_mapSet] at h1 h2
      by_cases e1 : k = txIDString
      · by_cases e2 : j = txIDString
        · rw [e1, e2]
        · rw [if_pos e1] at h1
          rw [if_neg e2] at h2
          simp only [Option.some.injEq] at h1
          rw [← h1] at h2
          exact absurd h2 (hfresh j)
      · by_cases e2 : j = txIDString
        · rw [if_neg e1] at h1
          rw [if_pos e2] at h2
          simp only [Option.some.injEq] at h2
          rw [← h2] at h1
          exact absurd h1 (hfresh k)
        · rw [if_neg e1] at h1
          rw [if_neg e2] at h2
          exact hs k j q h1 h2

theorem sim_addOutputs (txIDString : String) :
    ∀ (vout : List TXOutput) (index : Nat) (s : UTXORefs) (u : UTXOSet),
      s.unshared → s.agrees u →
      (UTXORefs.addOutputs txIDString vout index s).agrees (addOutputs txIDString vout index u) ∧
      (UTXORefs.addOutputs txIDString vout index s).unshared := by
  intro vout
  induction vout with
  | nil => intro index s u hs ha; exact ⟨ha, hs⟩
  | cons txOutput rest ih =>
    intro index s u hs ha
    obtain ⟨ha1, hs1⟩ := sim_addOutput txIDString s u index txOutput hs ha
    exact ih (index + 1) _ _ hs1 ha1

theorem sim_updateTx (tx : Transaction) (s : UTXORefs) (u : UTXOSet)
    (hs : s.unshared) (ha : s.agrees u) :
    (s.updateTx tx).agrees (updateTx u tx) ∧ (s.updateTx tx).unshared := by
  unfold UTXORefs.updateTx updateTx
  apply sim_addOutputs
  · have hgen : ∀ (vin : List TXInput) (s : UTXORefs) (u : UTXOSet), s.unshared → s.agrees u →
        (vin.foldl (fun s txInput =>
          if tx.IsCoinbase = .ok true then s else s.spendInput txInput) s).unshared := by
      intro vin
      induction vin with
      | nil => intro s u hs _; exact hs
      | cons txInput rest ih =>
        intro s u hs ha
        simp only [List.foldl_cons]
        by_cases hc : tx.IsCoinbase = .ok true
        · simp only [if_pos hc]
          have := ih s u hs ha
          simp only [if_pos hc] at this
          exact this
        · simp only [if_neg hc]
          obtain ⟨ha1, hs1⟩ := sim_spendInput s u txInput hs ha
          have := ih _ _ hs1 ha1
          simp only [if_neg hc] at this
          exact this
    exact hgen tx.Vin s u hs ha
  · have hgen : ∀ (vin : List TXInput) (s : UTXORefs) (u : UTXOSet), s.unshared → s.agrees u →
        (vin.foldl (fun s txInput =>
          if tx.IsCoinbase = .ok true then s else s.spendInput txInput) s).agrees
        (vin.foldl (fun u txInput =>
          if tx.IsCoinbase = .ok true then u else spendInput u txInput) u) := by
      intro vin
      induction vin with
      | nil => intro s u _ ha; exact ha
      | cons txInput rest ih =>
        intro s u hs ha
        simp only [List.foldl_cons]
        by_cases hc : tx.IsCoinbase = .ok true
        · simp only [if_pos hc]
          have := ih s u hs ha
          simp only [if_pos hc] at this
          exact this
        · simp only [if_neg hc]
          obtain ⟨ha1, hs1⟩ := sim_spendInput s u txInput hs ha
          have := ih _ _ hs1 ha1
          simp only [if_neg hc] at this
          exact this
    exact hgen tx.Vin s u hs ha

/-- On a set without shared inner maps `Update` with references does, key by
key, what `Update` on the listing of contents does, and it shares no inner
map afterwards. -/
theorem sim_Update :
    ∀ (txs : List Transaction) (s : UTXORefs) (u : UTXOSet), s.unshared → s.agrees u →
      (s.Update txs).agrees (Update u txs) ∧ (s.Update txs).unshared := by
  intro txs
  induction txs with
  | nil => intro s u hs ha; exact ⟨ha, hs⟩
  | cons tx rest ih =>
    intro s u hs ha
    obtain ⟨ha1, hs1⟩ := sim_updateTx tx s u hs ha
    exact ih _ _ hs1 ha1

/-- The set that `FindUTXOSet` builds shares no inner map, and the listing of
contents `Blockchain.FindUTXOSet` gives its contents key by key. -/
theorem sim_FindUTXOSet (bc : Blockchain) :
    (UTXORefs.FindUTXOSet bc).agrees bc.FindUTXOSet ∧ (UTXORefs.FindUTXOSet bc).unshared := by
  unfold UTXORefs.FindUTXOSet Blockchain.FindUTXOSet
  have hgen : ∀ (blocks : List Block) (s : UTXORefs) (u : UTXOSet), s.unshared → s.agrees u →
      (blocks.foldl (fun uTXOSet block => UTXORefs.Update uTXOSet block.Transactions) s).agrees
        (blocks.foldl (fun uTXOSet block => Update uTXOSet block.Transactions) u) ∧
      (blocks.foldl (fun uTXOSet block =>
        UTXORefs.Update uTXOSet block.Transactions) s).unshared := by
    intro blocks
    induction blocks with
    | nil => intro s u hs ha; exact ⟨ha, hs⟩
    | cons b rest ih =>
      intro s u hs ha
      obtain ⟨ha1, hs1⟩ := sim_Update b.Transactions s u hs ha
      exact ih _ _ hs1 ha1
  apply hgen
  · intro k j p h; cases h
  · intro k; rfl

/-- The listing of contents of a set gives its contents key by key. -/
theorem agrees_toSet (s : UTXORefs) : s.agrees s.toSet := by
  intro k
  unfold UTXORefs.entry UTXORefs.toSet
  induction s.outer with
  | nil => rfl
  | cons e rest ih =>
    obtain ⟨k1, r⟩ := e
    by_cases hk : k1 = k
    · simp only [List.map_cons, mapGet, if_pos hk, Option.map_some']
    · simp only [List.map_cons, mapGet, if_neg hk]
      exact ih

theorem nodup_refs_key (k j : String) (p : Nat) :
    ∀ l : List (String × Option Nat), (l.filterMap fun e => e.2).Nodup →
      (k, some p) ∈ l → (j, some p) ∈ l → k = j := by
  intro l
  induction l with
  | nil => intro _ m1; cases m1
  | cons e rest ih =>
    intro h m1 m2
    have hp : ∀ i, (i, some p) ∈ rest → p ∈ rest.filterMap fun e => e.2 := fun i hi =>
      List.mem_filterMap.mpr ⟨(i, some p), hi, rfl⟩
    rcases List.mem_cons.mp m1 with e1 | e1
    · rcases List.mem_cons.mp m2 with e2 | e2
      · have := e1.trans e2.symm
        exact (Prod.mk.inj this).1
      · rw [← e1] at h
        simp only [List.filterMap_cons] at h
        exact absurd (hp j e2) (List.nodup_cons.mp h).1
    · rcases List.mem_cons.mp m2 with e2 | e2
      · rw [← e2] at h
        simp only [List.filterMap_cons] at h
        exact absurd (hp k e1) (List.nodup_cons.mp h).1
      · apply ih _ e1 e2
        cases hr : e.2 with
        | none => simp only [List.filterMap_cons, hr] at h; exact h
        | some q =>
          simp only [List.filterMap_cons, hr] at h
          exact (List.nodup_cons.mp h).2

/-- A set in whose listing no reference occurs twice shares no inner map. -/
theorem unshared_of_nodup (s : UTXORefs) (h : (s.outer.filterMap fun e => e.2).Nodup) :
    s.unshared := fun k j p h1 h2 =>
  nodup_refs_key k j p s.outer h (mem_of_mapGet _ _ _ h1) (mem_of_mapGet _ _ _ h2)

/-- A set none of whose listed keys holds an empty inner map. -/
theorem noEmpty_of_all (s : UTXORefs) (h : ∀ e ∈ s.outer, s.entry e.1 ≠ some []) :
    s.noEmpty := by
  intro k hk
  cases hg : mapGet s.outer k with
  | none => simp [UTXORefs.entry, hg] at hk
  | some r => exact h (k, r) (mem_of_mapGet _ _ _ hg) hk

/-- On a set without shared and without empty inner maps, `Update` leaves no
empty inner map. -/
theorem noEmpty_Update (s : UTXORefs) (txs : List Transaction) (hs : s.unshared)
    (hn : s.noEmpty) : (s.Update txs).noEmpty := by
  intro k hk
  obtain ⟨ha, _⟩ := sim_Update txs s s.toSet hs (agrees_toSet s)
  rw [ha k] at hk
  rcases entry_Update s.toSet txs k with he | hnorm
  · rw [he, ← agrees_toSet s k] at hk
    exact hn k hk
  · rw [hk] at hnorm
    obtain ⟨i, hi⟩ := hnorm rfl
    simp [mapGet] at hi

theorem get_of_agrees (s : UTXORefs) (u : UTXOSet) (h : s.agrees u) (k : String) (i : Int) :
    s.get k i = utxoGet u k i := by
  unfold UTXORefs.get UTXORefs.inner utxoGet
  rw [h k]

/-- C12.  There are a set and a list of transactions for which applying
`Update` twice gives a set that differs from applying it once.  In
`sharedEmpty` the outer keys `aa` and `bb` hold one and the same inner map,
which is empty.  The first pass stores the output of the coinbase `aa` in that
map and removes it again for the input that names `(bb, 0)`, then drops the
key `bb`; the second pass stores the output again and finds no key `bb` to
spend from.  After one pass `aa` holds an empty map, after two it holds the
output.  On a set in which no two outer keys hold the same inner map a second
pass right after the first changes nothing. -/
theorem update_not_idempotent :
    (∃ (u : UTXORefs) (txs : List Transaction) (k : String) (i : Int),
      ((u.Update txs).Update txs).get k i ≠ (u.Update txs).get k i) ∧
    sharedEmpty.Update [sampleCoinbase 170, spendsBB] = ⟨[("aa", some 1)], [(1, [])]⟩ ∧
    (sharedEmpty.Update [sampleCoinbase 170, spendsBB]).Update [sampleCoinbase 170, spendsBB]
      = ⟨[("aa", some 1)], [(1, [(0, ⟨10, some [7]⟩)])]⟩ ∧
    (∀ (u : UTXORefs) (txs : List Transaction) (k : String) (i : Int), u.unshared →
      ((u.Update txs).Update txs).get k i = (u.Update txs).get k i) := by
  refine ⟨⟨sharedEmpty, [sampleCoinbase 170, spendsBB], "aa", 0, by decide⟩, by decide,
    by decide, ?_⟩
  intro u txs k i hu
  obtain ⟨ha1, hs1⟩ := sim_Update txs u u.toSet hu (agrees_toSet u)
  obtain ⟨ha2, _⟩ := sim_Update txs _ _ hs1 ha1
  rw [get_of_agrees _ _ ha2, get_of_agrees _ _ ha1]
  exact ((Update_idempotent u.toSet txs) k).2 i

theorem update_not_idempotent_witness :
    unsharedFive.unshared ∧
    ((unsharedFive.Update [spendsBBFive]).Update [spendsBBFive]).get "aa" 5
      = (unsharedFive.Update [spendsBBFive]).get "aa" 5 ∧
    ((sharedEmpty.Update [sampleCoinbase 170, spendsBB]).Update
        [sampleCoinbase 170, spendsBB]).get "aa" 0 = some ⟨10, some [7]⟩ ∧
    (sharedEmpty.Update [sampleCoinbase 170, spendsBB]).get "aa" 0 = none :=
  ⟨unshared_of_nodup _ (by decide),
    update_not_idempotent.2.2.2 unsharedFive [spendsBBFive] "aa" 5
      (unshared_of_nodup _ (by decide)),
    by decide, by decide⟩

/-- C31, as stated, fails.  In `sharedFive` the outer keys `aa` and `bb` hold one
and the same inner map, whose only key is 5: no outer key is mapped to an
empty inner map.  `Update` with a transaction that spends `(bb, 5)` deletes the
key 5 from that map and, the map under `bb` being empty now, drops the outer
key `bb`; the outer key `aa` stays, on the emptied map. -/
theorem update_keeps_shared_empty_inner :
    sharedFive.noEmpty ∧
    spendsBBFive.IsCoinbase = .ok false ∧
    sharedFive.Update [spendsBBFive] = ⟨[("aa", some 1)], [(1, [])]⟩ ∧
    (sharedFive.Update [spendsBBFive]).entry "aa" = some [] ∧
    ¬ (sharedFive.Update [spendsBBFive]).noEmpty := by
  refine ⟨noEmpty_of_all _ (by decide), by decide, by decide, by decide, fun h => ?_⟩
  exact h "aa" (by decide)

/-- C31, amended.  When no two outer keys of `u` hold the same inner map and no
outer key of `u` is mapped to an empty inner map, then after `Update`, whatever
the list of transactions, no outer key is mapped to an empty inner map, and
still no inner map is shared.  The set that `FindUTXOSet` builds, for any
chain, shares no inner map and has no empty one. -/
theorem update_no_empty_inner_unshared :
    (∀ (u : UTXORefs) (txs : List Transaction), u.unshared → u.noEmpty →
      (u.Update txs).noEmpty ∧ (u.Update txs).unshared) ∧
    (∀ bc : Blockchain,
      (UTXORefs.FindUTXOSet bc).noEmpty ∧ (UTXORefs.FindUTXOSet bc).unshared) := by
  constructor
  · intro u txs hu hn
    exact ⟨noEmpty_Update u txs hu hn, (sim_Update txs u u.toSet hu (agrees_toSet u)).2⟩
  · intro bc
    obtain ⟨ha, hs⟩ := sim_FindUTXOSet bc
    refine ⟨fun k hk => ?_, hs⟩
    rw [ha k, FindUTXOSet_eq] at hk
    rcases entry_Update [] bc.allTransactions k with he | hnorm
    · rw [he] at hk; cases hk
    · rw [hk] at hnorm
      obtain ⟨i, hi⟩ := hnorm rfl
      simp [mapGet] at hi

theorem update_no_empty_inner_unshared_witness :
    unsharedFive.noEmpty ∧ unsharedFive.unshared ∧
    (unsharedFive.Update [spendsBBFive]).noEmpty ∧
    unsharedFive.Update [spendsBBFive]
      = ⟨[("aa", some 1)], [(1, [(5, ⟨10, some [7]⟩)]), (2, [])]⟩ ∧
    (UTXORefs.FindUTXOSet replayChain).noEmpty :=
  ⟨noEmpty_of_all _ (by decide), unshared_of_nodup _ (by decide),
    (update_no_empty_inner_unshared.1 unsharedFive [spendsBBFive]
      (unshared_of_nodup _ (by decide)) (noEmpty_of_all _ (by decide))).1,
    by decide, (update_no_empty_inner_unshared.2 replayChain).1⟩

/-! ## Addresses that are too short, inner keys that are negative -/

/-- C14, as stated, fails.  Let the sender own one output of value 10 and pay 10,
so that the total equals the amount, and let the address be the empty string,
or any string that `Base58Decode` maps to fewer than five bytes.  For every
digest function, encoder and visiting order, `NewUTXOTransaction` passes the
test of the funds and then panics in `GetPubKeyHashFromAddress`, which slices
`addressDecoded[1:length-addressChecksumLen]` without looking at the length:
the call does not succeed. -/
theorem newUTXOTransaction_short_address_panics :
    (toyDecode "" = [] ∧
      wrapInt64 (lockedValues [("aa", [(0, ⟨10, some (HashPubKey toyHash toyHash [1, 2])⟩)])]
        (HashPubKey toyHash toyHash [1, 2])).sum = 10 ∧
      NewUTXOTransaction toyHash toyHash toySer toyDecode (fun _ => [0xaa]) id [1, 2] "" 10
        [("aa", [(0, ⟨10, some (HashPubKey toyHash toyHash [1, 2])⟩)])] = .panic) ∧
    ∀ (H R : Bytes → Bytes) (ser : Transaction → Bytes) (b58 : String → Bytes)
      (h2b : String → Bytes) (order : List (String × List Int) → List (String × List Int))
      (pubKey : Bytes) (toAddress : String), (b58 toAddress).length < 5 →
      wrapInt64 (lockedValues [("aa", [(0, ⟨10, some (HashPubKey H R pubKey)⟩)])]
        (HashPubKey H R pubKey)).sum = 10 ∧
      NewUTXOTransaction H R ser b58 h2b order pubKey toAddress 10
        [("aa", [(0, ⟨10, some (HashPubKey H R pubKey)⟩)])] = .panic := by
  refine ⟨⟨by decide, by decide, by decide⟩, ?_⟩
  intro H R ser b58 h2b order pubKey toAddress hshort
  have hsum : wrapInt64 (lockedValues [("aa", [(0, ⟨10, some (HashPubKey H R pubKey)⟩)])]
      (HashPubKey H R pubKey)).sum = 10 := by
    simp [lockedValues, TXOutput.IsLockedWithKey]
    decide
  refine ⟨hsum, ?_⟩
  rcases NewUTXOTransaction_cases H R ser b58 h2b order pubKey toAddress 10
      [("aa", [(0, ⟨10, some (HashPubKey H R pubKey)⟩)])] with
    ⟨_, h2⟩ | ⟨h1, _, _⟩ | ⟨_, _, h3⟩
  · rw [(FindSpendableOutputs_eq _ _ _).1, hsum] at h2
    exact absurd h2 (by decide)
  · exact h1
  · exact absurd hshort h3

/-- C27, as stated, fails.  On the empty string, and on every string that
`Base58Decode` maps to fewer than five bytes, `NewCoinbaseTX` panics in
`GetPubKeyHashFromAddress` for every digest function, encoder and data string:
it returns no transaction. -/
theorem newCoinbaseTX_short_address_panics :
    (toyDecode "" = [] ∧
      NewCoinbaseTX toyHash toySer toyDecode (fun n => List.replicate n 65) "" [] = .panic ∧
      NewCoinbaseTX toyHash toySer toyDecode (fun n => List.replicate n 65) "" [1] = .panic) ∧
    ∀ (H : Bytes → Bytes) (ser : Transaction → Bytes) (b58 : String → Bytes)
      (randomString : Nat → Bytes) (toAddress : String) (data : Bytes),
      (b58 toAddress).length < 5 →
      NewCoinbaseTX H ser b58 randomString toAddress data = .panic ∧
      GetPubKeyHashFromAddress b58 toAddress = .panic := by
  refine ⟨⟨by decide, by decide, by decide⟩, ?_⟩
  intro H ser b58 randomString toAddress data hshort
  constructor
  · simp only [NewCoinbaseTX, GetPubKeyHashFromAddress, if_pos hshort, Res.bind]
  · simp only [GetPubKeyHashFromAddress, if_pos hshort]

/-- The transaction that `NewUTXOTransaction` builds from a set whose one locked
output is stored under the inner key `-1` is a coinbase for `IsCoinbase`, and
`Update` skips its inputs. -/
theorem negIndex_isCoinbase (H R : Bytes → Bytes) (ser : Transaction → Bytes)
    (b58 : String → Bytes) (h2b : String → Bytes)
    (order : List (String × List Int) → List (String × List Int))
    (pubKey : Bytes) (toAddress : String) (amount value : Int) (tx : Transaction)
    (horder : ∀ m, (order m).Perm m)
    (htx : NewUTXOTransaction H R ser b58 h2b order pubKey toAddress amount
      [("aa", [(-1, ⟨value, some (HashPubKey H R pubKey)⟩)])] = .ok (some tx, none)) :
    tx.Vin = [⟨h2b "aa", -1, [], pubKey⟩] ∧ tx.IsCoinbase = .ok true ∧
    ∀ u : UTXOSet, updateTx u tx = addOutputs (hex tx.ID) tx.Vout 0 u := by
  obtain ⟨_, _, hvin, _⟩ := NewUTXOTransaction_ok_inv H R ser b58 h2b order pubKey toAddress
    amount _ tx none htx
  have hfound : (FindSpendableOutputs [("aa", [(-1, ⟨value, some (HashPubKey H R pubKey)⟩)])]
      (HashPubKey H R pubKey) amount).2 = [("aa", [-1])] := by
    simp [FindSpendableOutputs, spendableInner, TXOutput.IsLockedWithKey, mapGet, mapSet]
  rw [hfound, List.perm_singleton.mp (horder _)] at hvin
  simp only [List.flatMap_cons, List.flatMap_nil, List.map_cons, List.map_nil,
    List.append_nil] at hvin
  have hcb : tx.IsCoinbase = .ok true := by
    simp only [Transaction.IsCoinbase, hvin, if_true]
  refine ⟨hvin, hcb, fun u => ?_⟩
  rw [updateTx_eq, spendAll_coinbase tx u hcb]

/-- C30, as stated, fails.  In `negIndexSet` the one output of the sender, of
value 10, is stored under the inner key `-1`.  `NewUTXOTransaction` copies the
inner key into the input, so the transaction it returns has `OutIdx` equal to
`-1` in its first input: `IsCoinbase` is true for it and `Update` skips its
inputs, for every digest function, encoder, address decoder and visiting
order.  With the stand-ins, paying 5: the identifiers of the transaction and of
the miner's coinbase are distinct keys that the set does not hold, and after
`Update` the sender's total is 15, not 5; the recipient's has grown by 5 and
the miner's by `BlockReward`. -/
theorem transfer_negative_index_not_spent :
    (∀ (H R : Bytes → Bytes) (ser : Transaction → Bytes) (b58 : String → Bytes)
      (h2b : String → Bytes) (order : List (String × List Int) → List (String × List Int))
      (pubKey : Bytes) (toAddress : String) (amount value : Int) (tx : Transaction),
      (∀ m, (order m).Perm m) →
      NewUTXOTransaction H R ser b58 h2b order pubKey toAddress amount
        [("aa", [(-1, ⟨value, some (HashPubKey H R pubKey)⟩)])] = .ok (some tx, none) →
      tx.IsCoinbase = .ok true ∧
      ∀ u : UTXOSet, updateTx u tx = addOutputs (hex tx.ID) tx.Vout 0 u) ∧
    NewUTXOTransaction toyHash toyRipemd toySer toyDecode (fun _ => [0xaa]) id (pubKeyToByte 2 3)
      "1abcdefgh" 5 negIndexSet = .ok (some negIndexTx, none) ∧
    otherReward.IsCoinbase = .ok true ∧ otherReward.Vout = [⟨BlockReward, some [9]⟩] ∧
    mapGet negIndexSet (hex negIndexTx.ID) = none ∧
    mapGet negIndexSet (hex otherReward.ID) = none ∧
    hex negIndexTx.ID ≠ hex otherReward.ID ∧
    lockedBalance negIndexSet (HashPubKey toyHash toyRipemd (pubKeyToByte 2 3)) = 10 ∧
    lockedBalance (Update negIndexSet [otherReward, negIndexTx])
      (HashPubKey toyHash toyRipemd (pubKeyToByte 2 3)) = 15 ∧
    lockedBalance negIndexSet [97, 98, 99, 100] = 0 ∧
    lockedBalance (Update negIndexSet [otherReward, negIndexTx]) [97, 98, 99, 100] = 5 ∧
    lockedBalance (Update negIndexSet [otherReward, negIndexTx]) [9] = BlockReward := by
  refine ⟨fun H R ser b58 h2b order pubKey toAddress amount value tx horder htx =>
      (negIndex_isCoinbase H R ser b58 h2b order pubKey toAddress amount value tx horder htx).2,
    by decide, by decide, by decide, by decide, by decide, by decide, by decide, by decide,
    by decide, by decide, by decide⟩

/-! ## Spending an output twice, for every signature check -/

/-- Two transactions that are not coinbases and share an input key give a list
of spent keys with a repetition. -/
theorem spentKeys_pair (t1 t2 : Transaction) (h1 : t1.IsCoinbase = .ok false)
    (h2 : t2.IsCoinbase = .ok false)
    (hshare : ∃ i1 ∈ t1.Vin, ∃ i2 ∈ t2.Vin, (i1.Txid, i1.OutIdx) = (i2.Txid, i2.OutIdx)) :
    ¬ (spentKeys [t1, t2]).Nodup := by
  intro hnd
  have hn1 : ¬ t1.IsCoinbase = .ok true := by rw [h1]; simp
  have hn2 : ¬ t2.IsCoinbase = .ok true := by rw [h2]; simp
  simp only [spentKeys, List.flatMap_cons, List.flatMap_nil, if_neg hn1, if_neg hn2,
    List.append_nil] at hnd
  obtain ⟨i1, m1, i2, m2, he⟩ := hshare
  rw [List.nodup_append] at hnd
  exact hnd.2.2 (List.mem_map.mpr ⟨i1, m1, rfl⟩) (List.mem_map.mpr ⟨i2, m2, he.symm⟩)

/-- The call `MineBlock` on two transactions that both verify keeps both. -/
theorem MineBlock_keeps_both (H : Bytes → Bytes) (ser : Transaction → Bytes)
    (ecv : Nat → Nat → Bytes → Nat → Nat → Bool) (now : Int) (fuel : Nat)
    (bc : Blockchain) (t1 t2 : Transaction) (tip b1 : Block)
    (hv1 : bc.VerifyTransaction ser ecv t1 = .ok true)
    (hv2 : bc.VerifyTransaction ser ecv t2 = .ok true)
    (htip : bc.CurrentBlock = .ok tip)
    (hmine : (NewBlock now [t1, t2] tip.Hash).Mine H ser fuel = .ok b1) :
    bc.MineBlock H ser ecv now fuel [t1, t2] = .ok (⟨bc.blocks ++ [b1]⟩, some b1, none) ∧
    b1.Transactions = [t1, t2] := by
  have hret : ∀ tx ∈ [t1, t2], ∃ v, bc.VerifyTransaction ser ecv tx = .ok v := by
    intro tx htx
    simp only [List.mem_cons, List.mem_singleton, List.mem_nil_iff, or_false] at htx
    rcases htx with e | e
    · rw [e]; exact ⟨true, hv1⟩
    · rw [e]; exact ⟨true, hv2⟩
  have hfilter : ([t1, t2].filter fun tx =>
      decide (bc.VerifyTransaction ser ecv tx = .ok true)) = [t1, t2] := by
    simp [List.filter, hv1, hv2]
  have hspec := (MineBlock_spec H ser ecv now fuel bc [t1, t2] hret).2 tip b1
  rw [hfilter] at hspec
  obtain ⟨h1, h2, _⟩ := hspec (by simp) htip hmine
  exact ⟨h1, h2⟩

/-- A peer accepts a block that `Mine` has returned when each of its
transactions verifies on the peer's replica. -/
theorem handle_accepts_mined (H : Bytes → Bytes) (ser : Transaction → Bytes)
    (ecv : Nat → Nat → Bytes → Nat → Nat → Bool) (fuel : Nat) (acc : Account) (b b1 : Block)
    (hmine : b.Mine H ser fuel = .ok b1)
    (hall : ∀ tx ∈ b1.Transactions, acc.Blockchain.VerifyTransaction ser ecv tx = .ok true) :
    acc.HandleMinedBlockIn H ser ecv (some b1)
      = .ok ({ acc with Blockchain := ⟨acc.Blockchain.blocks ++ [b1]⟩ }, none) := by
  have hv := ValidateBlock_of_Mine H ser fuel acc.Blockchain b b1 hmine
  have hloop := verifyEach_all ser ecv acc.Blockchain b1.Transactions hall
  rw [handle_valid H ser ecv acc b1 hv true hloop]
  simp

/-- A transaction that passed `VerifyTransaction` on one chain passes it on every
chain whose set holds, other than as the zero output, the entries its inputs
name: the signature check does not look at the chain. -/
theorem VerifyTransaction_transfer (ser : Transaction → Bytes)
    (ecv : Nat → Nat → Bytes → Nat → Nat → Bool) (bc bc1 : Blockchain) (tx : Transaction)
    (hv : bc.VerifyTransaction ser ecv tx = .ok true) (hcb : tx.IsCoinbase = .ok false)
    (hpresent : ∀ txInput ∈ tx.Vin,
      utxoAt bc1.FindUTXOSet (hex txInput.Txid) txInput.OutIdx ≠ zeroTXOutput) :
    bc1.VerifyTransaction ser ecv tx = .ok true := by
  unfold Blockchain.VerifyTransaction at hv ⊢
  rw [hcb] at hv ⊢
  simp only [Res.bind, Bool.false_eq_true, if_false] at hv ⊢
  have hany1 : ¬ (tx.Vin.any fun txInput =>
      decide (utxoAt bc1.FindUTXOSet (hex txInput.Txid) txInput.OutIdx = zeroTXOutput))
        = true := by
    intro h
    obtain ⟨txInput, hin, hz⟩ := List.any_eq_true.mp h
    exact hpresent txInput hin (by simpa using hz)
  rw [if_neg hany1]
  by_cases hany : (tx.Vin.any fun txInput =>
      decide (utxoAt bc.FindUTXOSet (hex txInput.Txid) txInput.OutIdx = zeroTXOutput)) = true
  · rw [if_pos hany] at hv; cases hv
  · rw [if_neg hany] at hv
    by_cases hall : (tx.Vin.all fun input => inputVerifies ecv (ser tx.TrimmedCopy) input) = true
    · rw [if_pos hall]
    · rw [if_neg hall] at hv; cases hv

/-- C35, as stated, fails.  For every digest function, encoder and signature
check: let `cb` be a coinbase none of whose outputs is the zero output, and let
`tx`, not a coinbase, pass `VerifyTransaction` on the chain and name outputs of
`cb` only.  `MineBlock`, given `tx` followed by `cb`, keeps both, since a
coinbase passes `VerifyTransaction` on every chain; when `Mine` returns the
block, it is appended, `Update` removes the outputs for `tx` and stores them
again for `cb`, and on the longer chain `VerifyTransaction` returns true for
`tx` once more.  The conditions are met, under stand-ins for SHA-256, `gob` and
`ecdsa.Verify`, by the chain that holds the coinbase `aa` in its genesis block
and a transaction with a key and a signature that spends its output: the
identifiers of the chain are pairwise distinct and that of the transaction is
not among them. -/
theorem respend_after_replayed_coinbase :
    (∀ (H : Bytes → Bytes) (ser : Transaction → Bytes)
      (ecv : Nat → Nat → Bytes → Nat → Nat → Bool) (now : Int) (fuel : Nat)
      (bc : Blockchain) (cb tx : Transaction) (tip b1 : Block),
      cb.IsCoinbase = .ok true → tx.IsCoinbase = .ok false →
      bc.VerifyTransaction ser ecv tx = .ok true →
      (∀ txInput ∈ tx.Vin, creates cb (hex txInput.Txid) txInput.OutIdx) →
      (∀ txOutput ∈ cb.Vout, txOutput ≠ zeroTXOutput) →
      bc.CurrentBlock = .ok tip →
      (NewBlock now [tx, cb] tip.Hash).Mine H ser fuel = .ok b1 →
      bc.MineBlock H ser ecv now fuel [tx, cb] = .ok (⟨bc.blocks ++ [b1]⟩, some b1, none) ∧
      tx ∈ b1.Transactions ∧
      (⟨bc.blocks ++ [b1]⟩ : Blockchain).VerifyTransaction ser ecv tx = .ok true ∧
      ∀ txInput ∈ tx.Vin,
        utxoAt (⟨bc.blocks ++ [b1]⟩ : Blockchain).FindUTXOSet (hex txInput.Txid)
          txInput.OutIdx ≠ zeroTXOutput) ∧
    ((⟨[replayGenesis]⟩ : Blockchain).allTransactions.map fun t => t.ID).Nodup ∧
    signedOne.ID ∉ (⟨[replayGenesis]⟩ : Blockchain).allTransactions.map (fun t => t.ID) ∧
    sampleCoinbase 170 ∈ (⟨[replayGenesis]⟩ : Blockchain).allTransactions ∧
    signedOne.IsCoinbase = .ok false ∧
    Blockchain.MineBlock toyHash toySer strictVerify 2 50 ⟨[replayGenesis]⟩
        [signedOne, sampleCoinbase 170]
      = .ok (⟨[replayGenesis, signedReplayBlock]⟩, some signedReplayBlock, none) ∧
    signedOne ∈ signedReplayBlock.Transactions ∧
    Blockchain.VerifyTransaction toySer strictVerify ⟨[replayGenesis, signedReplayBlock]⟩
      signedOne = .ok true := by
  refine ⟨?_, by decide, by decide, by decide, by decide, by decide, by decide, by decide⟩
  intro H ser ecv now fuel bc cb tx tip b1 hcb htx hv hin hnz htip hmine
  obtain ⟨hm, htxs⟩ := MineBlock_keeps_both H ser ecv now fuel bc tx cb tip b1 hv
    (VerifyTransaction_coinbase ser ecv bc cb hcb) htip hmine
  have hpresent : ∀ txInput ∈ tx.Vin,
      utxoAt (⟨bc.blocks ++ [b1]⟩ : Blockchain).FindUTXOSet (hex txInput.Txid)
        txInput.OutIdx ≠ zeroTXOutput := by
    intro txInput hmem
    rw [utxoAt_eq, FindUTXOSet_append, utxoGet_Update, htxs, ledger_cons, ledger_cons]
    obtain ⟨o, ho, he⟩ := ledgerTx_creates _ _ cb
      (ledgerTx (hex txInput.Txid) txInput.OutIdx tx
        (utxoGet bc.FindUTXOSet (hex txInput.Txid) txInput.OutIdx)) (hin txInput hmem)
    have hl : ledger (hex txInput.Txid) txInput.OutIdx []
        (ledgerTx (hex txInput.Txid) txInput.OutIdx cb
          (ledgerTx (hex txInput.Txid) txInput.OutIdx tx
            (utxoGet bc.FindUTXOSet (hex txInput.Txid) txInput.OutIdx))) = some o := he
    rw [hl]
    exact hnz o ho
  refine ⟨hm, by rw [htxs]; exact List.mem_cons_self _ _, ?_, hpresent⟩
  exact VerifyTransaction_transfer ser ecv bc _ tx hv htx hpresent

/-- C36, as stated, fails.  For every digest function, encoder and signature
check: `MineBlock` tests each transaction against the chain as it is before the
new block, so of two transactions that both pass `VerifyTransaction` it keeps
both, whether or not they name the same output; when `Mine` returns the block,
it is appended, a peer with the same replica accepts it in
`HandleMinedBlockIn`, and when the two are not coinbases and share a pair
`(Txid, OutIdx)`, the block names that pair twice.  The two may be one and the
same transaction.  The conditions are met, under stand-ins for SHA-256, `gob`
and `ecdsa.Verify`, by two transactions with a key and a signature that spend
the output of the coinbase `aa`: the one output of value 10 then pays two
outputs of value 10. -/
theorem double_spend_in_block :
    (∀ (H : Bytes → Bytes) (ser : Transaction → Bytes)
      (ecv : Nat → Nat → Bytes → Nat → Nat → Bool) (now : Int) (fuel : Nat)
      (bc : Blockchain) (t1 t2 : Transaction) (tip b1 : Block) (acc : Account),
      bc.VerifyTransaction ser ecv t1 = .ok true → bc.VerifyTransaction ser ecv t2 = .ok true →
      bc.CurrentBlock = .ok tip →
      (NewBlock now [t1, t2] tip.Hash).Mine H ser fuel = .ok b1 →
      acc.Blockchain = bc →
      bc.MineBlock H ser ecv now fuel [t1, t2] = .ok (⟨bc.blocks ++ [b1]⟩, some b1, none) ∧
      b1.Transactions = [t1, t2] ∧
      acc.HandleMinedBlockIn H ser ecv (some b1)
        = .ok ({ acc with Blockchain := ⟨bc.blocks ++ [b1]⟩ }, none) ∧
      (t1.IsCoinbase = .ok false → t2.IsCoinbase = .ok false →
        (∃ i1 ∈ t1.Vin, ∃ i2 ∈ t2.Vin, (i1.Txid, i1.OutIdx) = (i2.Txid, i2.OutIdx)) →
        ¬ (spentKeys b1.Transactions).Nodup)) ∧
    signedOne.IsCoinbase = .ok false ∧ signedTwo.IsCoinbase = .ok false ∧
    Blockchain.MineBlock toyHash toySer strictVerify 2 50 ⟨[replayGenesis]⟩
        [signedOne, signedTwo]
      = .ok (⟨[replayGenesis, signedTwiceBlock]⟩, some signedTwiceBlock, none) ∧
    spentKeys signedTwiceBlock.Transactions = [([0xaa], 0), ([0xaa], 0)] ∧
    replayPeer.HandleMinedBlockIn toyHash toySer strictVerify (some signedTwiceBlock)
      = .ok ({ replayPeer with Blockchain := ⟨[replayGenesis, signedTwiceBlock]⟩ }, none) ∧
    (⟨[replayGenesis]⟩ : Blockchain).FindUTXOSet = [("aa", [(0, ⟨10, some [7]⟩)])] ∧
    (⟨[replayGenesis, signedTwiceBlock]⟩ : Blockchain).FindUTXOSet
      = [("01", [(0, ⟨10, some [8]⟩)]), ("02", [(0, ⟨10, some [9]⟩)])] := by
  refine ⟨?_, by decide, by decide, by decide, by decide, by decide, by decide, by decide⟩
  intro H ser ecv now fuel bc t1 t2 tip b1 acc hv1 hv2 htip hmine hacc
  obtain ⟨hm, htxs⟩ := MineBlock_keeps_both H ser ecv now fuel bc t1 t2 tip b1 hv1 hv2 htip
    hmine
  refine ⟨hm, htxs, ?_, fun h1 h2 hshare => ?_⟩
  · have hall : ∀ tx ∈ b1.Transactions,
        acc.Blockchain.VerifyTransaction ser ecv tx = .ok true := by
      intro tx htx
      rw [htxs] at htx
      simp only [List.mem_cons, List.mem_singleton, List.mem_nil_iff, or_false] at htx
      rw [hacc]
      rcases htx with e | e
      · rw [e]; exact hv1
      · rw [e]; exact hv2
    rw [handle_accepts_mined H ser ecv fuel acc _ b1 hmine hall, hacc]
  · rw [htxs]
    exact spentKeys_pair t1 t2 h1 h2 hshare

end GoBlockchain
